import Mathlib

/-!
# xdrzcc: the runtime library and the emitter of the generated codecs

A shallow embedding of `src/xdr_builtin.c` (the scatter-gather cursor and the
builtin integer and string codecs) and of the parts of `src/xdrzcc.c` that keep
the symbol table, resolve type references, allocate, order the declarations
and print the codec routines and the RPC dispatcher, followed by theorems
about them.

Conventions of the embedding.

* A byte is a `Fin 256`.  An `unsigned int` / `uint32_t` is a natural number
  and every C operation on it is reduced modulo `2 ^ 32`; an `int` result is
  obtained from its 32-bit pattern by `int_of_uint`.
* The iovec array is a list of byte ranges; a pointer into it is an index.
* Every operation returns an `Option`; `none` means that the C code touches
  memory outside the byte ranges it was given (outside an iovec, outside the
  iovec array, outside the source or destination object), so that its
  behaviour is not determined by its arguments.
* The symbol table is the list of its entries in the order of insertion; an
  `exit(1)` of the generator is an `Except.error` with the text sent to `stderr`.
* The generator prints C text.  Each `fprintf` of the codec emitters is a
  constructor of `c_line`, `c_line_text` gives the text, and `m_exec` executes
  the lines of a marshalling routine on the embedding of the runtime library;
  `u_exec` executes the lines of the unmarshalling routine of a struct whose
  members are decoded into storage of the struct.
* The resolver and the declaration emission loop of `main` return a
  `run_result`, which tells a result from an `exit`, from a read through a
  null or unassigned pointer, and from a loop that has not ended within its
  fuel.  The header is held as the list of the aggregates whose bodies were
  written, in the order of writing.  `emit_bodies` is the loop body in closed
  form, equal to the embedded loops on every table that holds the names
  looked up.
* Each `fprintf` of the dispatcher that `emit_program` prints is a constructor
  of `rpc_line`; `rpc_exec` executes the lines, and `call_dispatch_spec` is the
  dispatcher as the specification words it.
-/

namespace Xdr

/-- One octet of memory. -/
abbrev Byte := Fin 256

/-- The number of values of an `unsigned int` (`2 ^ 32`). -/
def U32 : Nat := 4294967296

/-- The octet holding the low eight bits of `n`. -/
def byte (n : Nat) : Byte := ⟨n % 256, Nat.mod_lt n (by decide)⟩

/-- Conversion of an `unsigned int` bit pattern to `int` (two's complement). -/
def int_of_uint (u : Nat) : Int :=
  if u % U32 < 2147483648 then ((u % U32 : Nat) : Int) else ((u % U32 : Nat) : Int) - 4294967296

/-- Modelled from the spec: `xdr_iovec` is declared in the runtime header, which is
not part of the sources at hand; the spec describes it as a (pointer, length)
byte-range descriptor.  It is embedded as the list of the bytes of the range. -/
abbrev xdr_iovec := List Byte

/-- Modelled from the spec: the accessor `xdr_iovec_len` of the runtime header, the
length of the byte range. -/
def xdr_iovec_len (iov : xdr_iovec) : Nat := iov.length

/-- The effect of `memcpy(xdr_iovec_data(iov) + offset, src, |src|)`: the range `iov` after the
bytes `src` have been stored at `offset`. -/
def iov_store (iov : xdr_iovec) (offset : Nat) (src : List Byte) : xdr_iovec :=
  iov.take offset ++ src ++ iov.drop (offset + src.length)

/-- The `struct xdr_cursor`: `cur` and `last` are indices into the iovec array. -/
structure xdr_cursor where
  cur : Nat
  last : Int
  offset : Nat
deriving DecidableEq, Repr

/-- The function `xdr_cursor_init(cursor, iov, niov)`. -/
def xdr_cursor_init (niov : Int) : xdr_cursor :=
  { cur := 0, last := niov - 1, offset := 0 }

/-- The builtin `__builtin_bswap32`. -/
def bswap32 (v : Nat) : Nat :=
  (v % 256) * 16777216 + (v / 256 % 256) * 65536 + (v / 65536 % 256) * 256 + (v / 16777216 % 256)

/-- The function `xdr_hton32`; `le` says whether `__BYTE_ORDER == __LITTLE_ENDIAN`. -/
def xdr_hton32 (le : Bool) (value : Nat) : Nat :=
  if le then bswap32 value else value % U32

/-- The function `xdr_ntoh32`. -/
def xdr_ntoh32 (le : Bool) (value : Nat) : Nat :=
  if le then bswap32 value else value % U32

/-- The four bytes that a `uint32_t` object holding `w` occupies in the memory of
the host. -/
def mem_of_uint32 (le : Bool) (w : Nat) : List Byte :=
  if le then [byte w, byte (w / 256), byte (w / 65536), byte (w / 16777216)]
  else [byte (w / 16777216), byte (w / 65536), byte (w / 256), byte w]

/-- The value of a `uint32_t` object whose four bytes in host memory are `bs`. -/
def uint32_of_mem (le : Bool) (bs : List Byte) : Nat :=
  match bs with
  | [b0, b1, b2, b3] =>
      if le then b0.val + b1.val * 256 + b2.val * 65536 + b3.val * 16777216
      else b3.val + b2.val * 256 + b1.val * 65536 + b0.val * 16777216
  | _ => 0

/-- The `chunk` that one iteration of the cursor loops computes: the bytes left in
the current iovec (an `unsigned int` difference), cut down to `bytes - done`. -/
def cursor_chunk (iov : xdr_iovec) (offset bytes done : Nat) : Nat :=
  let chunk := (xdr_iovec_len iov + U32 - offset) % U32
  if chunk > bytes - done then bytes - done else chunk

/-- The loop of `xdr_cursor_extract`, running over the iovecs from `cur` on;
`out` holds the `done` bytes copied so far. -/
def xdr_cursor_extract_loop (last : Int) (bytes : Nat) :
    List xdr_iovec → Nat → Nat → Nat → List Byte → Option (Int × List Byte × xdr_cursor)
  | [], cur, offset, done, out =>
      if done < bytes then none
      else some (int_of_uint bytes, out, { cur := cur, last := last, offset := offset })
  | iov :: rest, cur, offset, done, out =>
      if done < bytes then
        let chunk := cursor_chunk iov offset bytes done
        if chunk ≠ 0 ∧ xdr_iovec_len iov < offset + chunk then none
        else
          let out1 := out ++ (iov.drop offset).take chunk
          if done + chunk < bytes ∧ (cur : Int) = last then
            some (-1, out1, { cur := cur, last := last, offset := offset })
          else xdr_cursor_extract_loop last bytes rest (cur + 1) 0 (done + chunk) out1
      else some (int_of_uint bytes, out, { cur := cur, last := last, offset := offset })

/-- The function `xdr_cursor_extract(cursor, out, bytes)`: the return value, the bytes stored at
`out` and the cursor afterwards. -/
def xdr_cursor_extract (iovs : List xdr_iovec) (c : xdr_cursor) (bytes : Nat) :
    Option (Int × List Byte × xdr_cursor) :=
  match iovs[c.cur]? with
  | none => none
  | some iov =>
      if (c.offset + bytes) % U32 ≤ xdr_iovec_len iov then
        if bytes ≠ 0 ∧ xdr_iovec_len iov < c.offset + bytes then none
        else some (int_of_uint bytes, (iov.drop c.offset).take bytes,
                   { c with offset := (c.offset + bytes) % U32 })
      else xdr_cursor_extract_loop c.last bytes (iovs.drop c.cur) c.cur c.offset 0 []

/-- The loop of `xdr_cursor_append`, running over the iovecs from `cur` on; it
returns these iovecs as they are afterwards.  `src` is the memory at `in`. -/
def xdr_cursor_append_loop (last : Int) (src : List Byte) (bytes : Nat) :
    List xdr_iovec → Nat → Nat → Nat → Option (Int × List xdr_iovec × xdr_cursor)
  | [], cur, offset, done =>
      if done < bytes then none
      else some (int_of_uint bytes, [], { cur := cur, last := last, offset := offset })
  | iov :: rest, cur, offset, done =>
      if done < bytes then
        let chunk := cursor_chunk iov offset bytes done
        if chunk ≠ 0 ∧ (xdr_iovec_len iov < offset + chunk ∨ src.length < done + chunk) then none
        else
          let iov1 := iov_store iov offset ((src.drop done).take chunk)
          if done + chunk < bytes ∧ (cur : Int) = last then
            some (-1, iov1 :: rest, { cur := cur, last := last, offset := offset })
          else
            match xdr_cursor_append_loop last src bytes rest (cur + 1) 0 (done + chunk) with
            | none => none
            | some (rc, rest1, c1) => some (rc, iov1 :: rest1, c1)
      else some (int_of_uint bytes, iov :: rest, { cur := cur, last := last, offset := offset })

/-- The function `xdr_cursor_append(cursor, in, bytes)`: the return value, the iovec array and the
cursor afterwards. -/
def xdr_cursor_append (iovs : List xdr_iovec) (c : xdr_cursor) (src : List Byte) (bytes : Nat) :
    Option (Int × List xdr_iovec × xdr_cursor) :=
  match iovs[c.cur]? with
  | none => none
  | some iov =>
      if (c.offset + bytes) % U32 ≤ xdr_iovec_len iov then
        if bytes ≠ 0 ∧ (xdr_iovec_len iov < c.offset + bytes ∨ src.length < bytes) then none
        else some (int_of_uint bytes, iovs.set c.cur (iov_store iov c.offset (src.take bytes)),
                   { c with offset := (c.offset + bytes) % U32 })
      else
        match xdr_cursor_append_loop c.last src bytes (iovs.drop c.cur) c.cur c.offset 0 with
        | none => none
        | some (rc, rest1, c1) => some (rc, iovs.take c.cur ++ rest1, c1)

/-- The loop of `xdr_cursor_skip`; only the lengths of the iovecs are read. -/
def xdr_cursor_skip_loop (last : Int) (bytes : Nat) :
    List xdr_iovec → Nat → Nat → Nat → Option (Int × xdr_cursor)
  | [], cur, offset, done =>
      if done < bytes then none
      else some (int_of_uint bytes, { cur := cur, last := last, offset := offset })
  | iov :: rest, cur, offset, done =>
      if done < bytes then
        let chunk := cursor_chunk iov offset bytes done
        if done + chunk < bytes ∧ (cur : Int) = last then
          some (-1, { cur := cur, last := last, offset := offset })
        else xdr_cursor_skip_loop last bytes rest (cur + 1) 0 (done + chunk)
      else some (int_of_uint bytes, { cur := cur, last := last, offset := offset })

/-- The function `xdr_cursor_skip(cursor, bytes)`. -/
def xdr_cursor_skip (iovs : List xdr_iovec) (c : xdr_cursor) (bytes : Nat) :
    Option (Int × xdr_cursor) :=
  match iovs[c.cur]? with
  | none => none
  | some iov =>
      if (c.offset + bytes) % U32 ≤ xdr_iovec_len iov then
        some (int_of_uint bytes, { c with offset := (c.offset + bytes) % U32 })
      else xdr_cursor_skip_loop c.last bytes (iovs.drop c.cur) c.cur c.offset 0

/-- The value of the C expression `n << k` for an `int` `n ≥ 0` (`k = 2` or `3`).
When `n * 2 ^ k` does not fit an `int`, C leaves the value undefined; the
embedding then takes the 32-bit two's complement wrap-around. -/
def int_shl (n k : Nat) : Int := int_of_uint (n * 2 ^ k)

/-- The `for` loop of `__marshall_uint32_t`: `k` iterations are left, `v` is the
rest of the array and `ret` the value returned on completion. -/
def marshall_uint32_t_loop (le : Bool) (ret : Int) :
    Nat → List Nat → List xdr_iovec → xdr_cursor → Option (Int × List xdr_iovec × xdr_cursor)
  | 0, _, iovs, c => some (ret, iovs, c)
  | _ + 1, [], _, _ => none
  | k + 1, x :: xs, iovs, c =>
      match xdr_cursor_append iovs c (mem_of_uint32 le (xdr_hton32 le x)) 4 with
      | none => none
      | some (rc, iovs1, c1) =>
          if rc < 0 then some (rc, iovs1, c1)
          else marshall_uint32_t_loop le ret k xs iovs1 c1

/-- The function `__marshall_uint32_t(v, n, cursor)`. -/
def __marshall_uint32_t (le : Bool) (v : List Nat) (n : Nat) (iovs : List xdr_iovec)
    (c : xdr_cursor) : Option (Int × List xdr_iovec × xdr_cursor) :=
  marshall_uint32_t_loop le (int_shl n 2) n v iovs c

/-- The `for` loop of `__unmarshall_uint32_t`; `out` holds the values stored so far. -/
def unmarshall_uint32_t_loop (le : Bool) (ret : Int) (iovs : List xdr_iovec) :
    Nat → xdr_cursor → List Nat → Option (Int × List Nat × xdr_cursor)
  | 0, c, out => some (ret, out, c)
  | k + 1, c, out =>
      match xdr_cursor_extract iovs c 4 with
      | none => none
      | some (rc, tmp, c1) =>
          if rc < 0 then some (rc, out, c1)
          else unmarshall_uint32_t_loop le ret iovs k c1
                 (out ++ [xdr_ntoh32 le (uint32_of_mem le tmp)])

/-- The function `__unmarshall_uint32_t(v, n, cursor, dbuf)`: the return value, the
values stored in `v` and the cursor afterwards (`dbuf` is not used). -/
def __unmarshall_uint32_t (le : Bool) (n : Nat) (iovs : List xdr_iovec) (c : xdr_cursor) :
    Option (Int × List Nat × xdr_cursor) :=
  unmarshall_uint32_t_loop le (int_shl n 2) iovs n c []

/-- The big-endian (network order) image of a 32-bit value. -/
def be32 (x : Nat) : List Byte :=
  [byte (x / 16777216), byte (x / 65536), byte (x / 256), byte x]

/-- Modelled from the spec: `xdr_string` is declared in the runtime header, which is
not part of the sources at hand.  `len` is the `uint32_t` length that
`__marshall_xdr_string` hands to `__marshall_uint32_t`; `str` points at the bytes
and is embedded as their offset in the memory object that holds them. -/
structure xdr_string where
  len : Nat
  str : Nat
deriving DecidableEq, Repr

/-- Modelled from the spec: `xdr_dbuf`, the decode buffer of the runtime header: the
memory at `buffer`, the number of bytes handed out and the capacity. -/
structure xdr_dbuf where
  buffer : List Byte
  used : Nat
  size : Nat
deriving DecidableEq, Repr

/-- The `for` loop of `__marshall_xdr_string`: `k` iterations are left, `len` is the
32-bit pattern of the local `int len`, `mem` the memory the strings point into. -/
def marshall_xdr_string_loop (le : Bool) (mem : List Byte) :
    Nat → List xdr_string → Nat → List xdr_iovec → xdr_cursor →
      Option (Int × List xdr_iovec × xdr_cursor)
  | 0, _, len, iovs, c => some (int_of_uint len, iovs, c)
  | _ + 1, [], _, _, _ => none
  | k + 1, s :: ss, len, iovs, c =>
      match __marshall_uint32_t le [s.len] 1 iovs c with
      | none => none
      | some (rc, iovs1, c1) =>
          if rc < 0 then some (rc, iovs1, c1)
          else
            let len1 := (len + rc.toNat) % U32
            match xdr_cursor_append iovs1 c1 (mem.drop s.str) s.len with
            | none => none
            | some (rc2, iovs2, c2) =>
                let len2 := (len1 + s.len) % U32
                if rc2 < 0 then some (rc2, iovs2, c2)
                else
                  let pad := (4 - len2 % 4) % 4
                  if pad ≠ 0 then
                    match xdr_cursor_append iovs2 c2 (mem_of_uint32 le 0) pad with
                    | none => none
                    | some (rc3, iovs3, c3) =>
                        if rc3 < 0 then some (rc3, iovs3, c3)
                        else marshall_xdr_string_loop le mem k ss ((len2 + rc3.toNat) % U32) iovs3 c3
                  else marshall_xdr_string_loop le mem k ss len2 iovs2 c2

/-- The function `__marshall_xdr_string(str, n, cursor)`. -/
def __marshall_xdr_string (le : Bool) (mem : List Byte) (str : List xdr_string) (n : Nat)
    (iovs : List xdr_iovec) (c : xdr_cursor) : Option (Int × List xdr_iovec × xdr_cursor) :=
  marshall_xdr_string_loop le mem n str 0 iovs c

/-- The `for` loop of `__unmarshall_xdr_string`; `out` holds the strings stored so
far, `len` is the 32-bit pattern of the local `int len`. -/
def unmarshall_xdr_string_loop (le : Bool) (iovs : List xdr_iovec) :
    Nat → Nat → xdr_cursor → xdr_dbuf → List xdr_string →
      Option (Int × List xdr_string × xdr_dbuf × xdr_cursor)
  | 0, len, c, dbuf, out => some (int_of_uint len, out, dbuf, c)
  | k + 1, len, c, dbuf, out =>
      match __unmarshall_uint32_t le 1 iovs c with
      | none => none
      | some (rc, v, c1) =>
          if rc < 0 then some (rc, out, dbuf, c1)
          else
            let slen := v.headD 0
            let len1 := (len + rc.toNat) % U32
            let str := dbuf.used
            let out1 := out ++ [{ len := slen, str := str }]
            let used1 := dbuf.used + (slen + 1) % U32
            match xdr_cursor_extract iovs c1 slen with
            | none => none
            | some (rc2, bytes, c2) =>
                if dbuf.buffer.length < str + bytes.length then none
                else
                  let buf2 := iov_store dbuf.buffer str bytes
                  if rc2 < 0 then
                    some (rc2, out1, { buffer := buf2, used := used1, size := dbuf.size }, c2)
                  else if buf2.length ≤ str + slen then none
                  else
                    let dbuf3 : xdr_dbuf :=
                      { buffer := iov_store buf2 (str + slen) [0], used := used1, size := dbuf.size }
                    let len2 := (len1 + slen) % U32
                    let pad := (4 - slen % 4) % 4
                    if pad ≠ 0 then
                      match xdr_cursor_skip iovs c2 pad with
                      | none => none
                      | some (rc3, c3) =>
                          if rc3 < 0 then some (rc3, out1, dbuf3, c3)
                          else unmarshall_xdr_string_loop le iovs k ((len2 + rc3.toNat) % U32)
                                 c3 dbuf3 out1
                    else unmarshall_xdr_string_loop le iovs k len2 c2 dbuf3 out1

/-- The function `__unmarshall_xdr_string(str, n, cursor, dbuf)`: the return value,
the strings stored in `str`, the decode buffer and the cursor afterwards. -/
def __unmarshall_xdr_string (le : Bool) (n : Nat) (iovs : List xdr_iovec) (c : xdr_cursor)
    (dbuf : xdr_dbuf) : Option (Int × List xdr_string × xdr_dbuf × xdr_cursor) :=
  unmarshall_xdr_string_loop le iovs n 0 c dbuf []

/-- The number of padding bytes after a payload of `l` bytes. -/
def xdr_pad (l : Nat) : Nat := (4 - l % 4) % 4

/-- The bytes of the string `s` in the memory `mem`. -/
def str_bytes (mem : List Byte) (s : xdr_string) : List Byte := (mem.drop s.str).take s.len

/-- The wire image of one string: length word, payload, zero padding. -/
def xdr_string_wire (mem : List Byte) (s : xdr_string) : List Byte :=
  be32 s.len ++ str_bytes mem s ++ List.replicate (xdr_pad s.len) 0

/-- The wire image of an array of 32-bit values: the big-endian images in index
order. -/
def be32s (v : List Nat) : List Byte := (v.map be32).flatten

/-- The wire image of an array of strings. -/
def xdr_strings_wire (mem : List Byte) (strs : List xdr_string) : List Byte :=
  (strs.map (xdr_string_wire mem)).flatten

/-- The bytes that decoding the strings `strs` stores in the decode buffer: each
payload followed by a NUL byte. -/
def xdr_strings_cstr (mem : List Byte) (strs : List xdr_string) : List Byte :=
  (strs.map (fun s => str_bytes mem s ++ [0])).flatten

/-- The array that decoding the strings `strs` yields when the decode buffer has
`used` bytes handed out: each string points at the value `used` had when it was
decoded. -/
def xdr_strings_decoded : Nat → List xdr_string → List xdr_string
  | _, [] => []
  | used, s :: ss => { len := s.len, str := used } :: xdr_strings_decoded (used + s.len + 1) ss

/-- The number of bytes a payload of `l` bytes occupies on the wire, as the spec
gives it: `4 + ceil(l / 4) * 4`. -/
def xdr_wire_len (l : Nat) : Nat := 4 + (l + 3) / 4 * 4

/-- The number the spec gives for the encoded length of an array of strings: the
sum of `4 + ceil(L / 4) * 4` over the lengths `L` of the strings. -/
def xdr_strings_len (strs : List xdr_string) : Nat :=
  (strs.map (fun s => xdr_wire_len s.len)).sum

/-- The logical byte stream ahead of a cursor: the bytes of the iovecs from the
cursor position through the end of the iovec list. -/
def stream_from (iovs : List xdr_iovec) (c : xdr_cursor) : List Byte :=
  ((iovs.drop c.cur).flatten).drop c.offset

/-- The number of values of `uint64_t`: 64-bit unsigned arithmetic is taken modulo `U64`. -/
def U64 : Nat := 18446744073709551616

/-- The conversion of a signed integer to `uint32_t`, as C defines it: the value
modulo `2 ^ 32`, which is the two's complement bit pattern. -/
def uint32_of_int (v : Int) : Nat := (v % 4294967296).toNat

/-- The conversion of a signed integer to `uint64_t`: the value modulo `2 ^ 64`. -/
def uint64_of_int (v : Int) : Nat := (v % 18446744073709551616).toNat

/-- The value of an `int64_t` whose 64-bit pattern is `u` (two's complement). -/
def int64_of_uint (u : Nat) : Int :=
  if u % U64 < 9223372036854775808 then ((u % U64 : Nat) : Int)
  else ((u % U64 : Nat) : Int) - 18446744073709551616

/-- The `k` low-order bytes of `w`, least significant first. -/
def bytes_le : Nat → Nat → List Byte
  | 0, _ => []
  | k + 1, w => byte w :: bytes_le k (w / 256)

/-- The number whose base-256 digits, least significant first, are `bs`. -/
def nat_of_le : List Byte → Nat
  | [] => 0
  | b :: bs => b.val + 256 * nat_of_le bs

/-- The builtin `__builtin_bswap64`: the eight bytes of the value in reverse order. -/
def bswap64 (v : Nat) : Nat := nat_of_le (bytes_le 8 v).reverse

/-- The function `xdr_hton64`. -/
def xdr_hton64 (le : Bool) (value : Nat) : Nat :=
  if le then bswap64 value else value % U64

/-- The function `xdr_ntoh64`. -/
def xdr_ntoh64 (le : Bool) (value : Nat) : Nat :=
  if le then bswap64 value else value % U64

/-- The eight bytes that a `uint64_t` object holding `w` occupies in the memory of
the host. -/
def mem_of_uint64 (le : Bool) (w : Nat) : List Byte :=
  if le then bytes_le 8 w else (bytes_le 8 w).reverse

/-- The value of a `uint64_t` object whose eight bytes in host memory are `bs`. -/
def uint64_of_mem (le : Bool) (bs : List Byte) : Nat :=
  if le then nat_of_le (bs.take 8) else nat_of_le (bs.take 8).reverse

/-- The big-endian (network order) image of a 64-bit value. -/
def be64 (x : Nat) : List Byte := (bytes_le 8 x).reverse

/-- The `for` loop shared by the `__marshall_*` routines of the fixed-width
integers: each iteration stores the `w` bytes of the local `tmp`, which `enc`
gives for the element `v[i]`, through `xdr_cursor_append`; `k` iterations are
left and `ret` is the value returned on completion. -/
def marshall_words_loop {α : Type} (enc : α → List Byte) (w : Nat) (ret : Int) :
    Nat → List α → List xdr_iovec → xdr_cursor → Option (Int × List xdr_iovec × xdr_cursor)
  | 0, _, iovs, c => some (ret, iovs, c)
  | _ + 1, [], _, _ => none
  | k + 1, x :: xs, iovs, c =>
      match xdr_cursor_append iovs c (enc x) w with
      | none => none
      | some (rc, iovs1, c1) =>
          if rc < 0 then some (rc, iovs1, c1)
          else marshall_words_loop enc w ret k xs iovs1 c1

/-- The `for` loop shared by the `__unmarshall_*` routines of the fixed-width
integers: each iteration extracts `w` bytes into the local `tmp` and stores the
value `dec` gives for them in `v[i]`; `out` holds the values stored so far. -/
def unmarshall_words_loop {α : Type} (dec : List Byte → α) (w : Nat) (ret : Int)
    (iovs : List xdr_iovec) : Nat → xdr_cursor → List α → Option (Int × List α × xdr_cursor)
  | 0, c, out => some (ret, out, c)
  | k + 1, c, out =>
      match xdr_cursor_extract iovs c w with
      | none => none
      | some (rc, tmp, c1) =>
          if rc < 0 then some (rc, out, c1)
          else unmarshall_words_loop dec w ret iovs k c1 (out ++ [dec tmp])

/-- The function `__marshall_int32_t(v, n, cursor)`: `tmp = xdr_hton32(v[i])` converts
the element to `uint32_t` and the result back to the `int32_t` `tmp`, whose four
bytes are appended. -/
def __marshall_int32_t (le : Bool) (v : List Int) (n : Nat) (iovs : List xdr_iovec)
    (c : xdr_cursor) : Option (Int × List xdr_iovec × xdr_cursor) :=
  marshall_words_loop
    (fun x => mem_of_uint32 le (uint32_of_int (int_of_uint (xdr_hton32 le (uint32_of_int x)))))
    4 (int_shl n 2) n v iovs c

/-- The function `__unmarshall_int32_t(v, n, cursor, dbuf)`: the four bytes are
extracted into the `int32_t` `tmp` and `v[i] = xdr_ntoh32(tmp)`. -/
def __unmarshall_int32_t (le : Bool) (n : Nat) (iovs : List xdr_iovec) (c : xdr_cursor) :
    Option (Int × List Int × xdr_cursor) :=
  unmarshall_words_loop
    (fun tmp => int_of_uint (xdr_ntoh32 le (uint32_of_int (int_of_uint (uint32_of_mem le tmp)))))
    4 (int_shl n 2) iovs n c []

/-- The function `__marshall_uint64_t(v, n, cursor)`. -/
def __marshall_uint64_t (le : Bool) (v : List Nat) (n : Nat) (iovs : List xdr_iovec)
    (c : xdr_cursor) : Option (Int × List xdr_iovec × xdr_cursor) :=
  marshall_words_loop (fun x => mem_of_uint64 le (xdr_hton64 le x)) 8 (int_shl n 3) n v iovs c

/-- The function `__unmarshall_uint64_t(v, n, cursor, dbuf)`. -/
def __unmarshall_uint64_t (le : Bool) (n : Nat) (iovs : List xdr_iovec) (c : xdr_cursor) :
    Option (Int × List Nat × xdr_cursor) :=
  unmarshall_words_loop (fun tmp => xdr_ntoh64 le (uint64_of_mem le tmp)) 8 (int_shl n 3)
    iovs n c []

/-- The function `__marshall_int64_t(v, n, cursor)`: `tmp = xdr_hton64(v[i])` converts
the element to `uint64_t` and the result back to the `int64_t` `tmp`. -/
def __marshall_int64_t (le : Bool) (v : List Int) (n : Nat) (iovs : List xdr_iovec)
    (c : xdr_cursor) : Option (Int × List xdr_iovec × xdr_cursor) :=
  marshall_words_loop
    (fun x => mem_of_uint64 le (uint64_of_int (int64_of_uint (xdr_hton64 le (uint64_of_int x)))))
    8 (int_shl n 3) n v iovs c

/-- The function `__unmarshall_int64_t(v, n, cursor, dbuf)`. -/
def __unmarshall_int64_t (le : Bool) (n : Nat) (iovs : List xdr_iovec) (c : xdr_cursor) :
    Option (Int × List Int × xdr_cursor) :=
  unmarshall_words_loop
    (fun tmp => int64_of_uint (xdr_ntoh64 le (uint64_of_int (int64_of_uint (uint64_of_mem le tmp)))))
    8 (int_shl n 3) iovs n c []

/-- Modelled from the spec: `struct xdr_type` of the header `xdr.h`, which is not
among the sources at hand: a type reference with the fields the generator
reads.  The C flags are `int`s used as truth values; `vector_bound` is a string
pointer that may be null. -/
structure xdr_type where
  name : String
  builtin : Bool
  opaque_ : Bool
  array : Bool
  vector : Bool
  optional : Bool
  zerocopy : Bool
  array_size : String
  vector_bound : Option String
deriving DecidableEq, Repr

/-- Modelled from the spec: `struct xdr_typedef` of `xdr.h`. -/
structure xdr_typedef where
  name : String
  type : xdr_type
deriving DecidableEq, Repr

/-- Modelled from the spec: `struct xdr_struct_member` of `xdr.h`. -/
structure xdr_struct_member where
  name : String
  type : xdr_type
deriving DecidableEq, Repr

/-- Modelled from the spec: `struct xdr_struct` of `xdr.h`; `members` is the list that
`DL_FOREACH` walks from its head. -/
structure xdr_struct where
  name : String
  members : List xdr_struct_member
deriving DecidableEq, Repr

/-- Modelled from the spec: `struct xdr_union_case` of `xdr.h`; `type` may be null. -/
structure xdr_union_case where
  label : String
  name : String
  type : Option xdr_type
  voided : Bool
deriving DecidableEq, Repr

/-- Modelled from the spec: `struct xdr_union` of `xdr.h`. -/
structure xdr_union where
  name : String
  pivot_name : String
  pivot_type : xdr_type
  cases : List xdr_union_case
deriving DecidableEq, Repr

/-- Modelled from the spec: the categories `XDR_TYPEDEF`, ... of `xdr.h` that the
field `type` of an identifier takes. -/
inductive xdr_kind
  | XDR_TYPEDEF
  | XDR_ENUM
  | XDR_CONST
  | XDR_STRUCT
  | XDR_UNION
deriving DecidableEq, Repr

/-- The object that the `void *ptr` of an identifier points at.  C does not tie it
to the category; the enumerations and constants are kept by name only. -/
inductive xdr_object
  | typedef_ (t : xdr_typedef)
  | enum_ (name : String)
  | const_ (name : String)
  | struct_ (s : xdr_struct)
  | union_ (u : xdr_union)
deriving DecidableEq, Repr

/-- The type `struct xdr_identifier`, without the hash handle. -/
structure xdr_identifier where
  name : String
  type : xdr_kind
  emitted : Bool
  ptr : xdr_object
deriving DecidableEq, Repr

/-- The end of the run by `exit(status)` after a diagnostic on `stderr`. -/
structure xdr_exit where
  status : Nat
  stderr : String
deriving DecidableEq, Repr

/-- The macro `HASH_FIND_STR(head, name, out)` of uthash: the entry whose key
string equals `name`, or null.  The table is embedded as the list of its entries
in the order in which they were added, which is the order of `HASH_ITER`. -/
def HASH_FIND_STR (head : List xdr_identifier) (name : String) : Option xdr_identifier :=
  head.find? (fun i => i.name == name)

/-- The macro `HASH_ADD_STR(head, name, add)` of uthash: `add` becomes the last entry. -/
def HASH_ADD_STR (head : List xdr_identifier) (add : xdr_identifier) : List xdr_identifier :=
  head ++ [add]

/-- The function `xdr_add_identifier(type, name, ptr)` acting on the global table
`xdr_identifiers`.  The new entry comes from `xdr_alloc`, which hands out memory
of `calloc`ed blocks, so its field `emitted`, which is not assigned, is 0. -/
def xdr_add_identifier (xdr_identifiers : List xdr_identifier) (type : xdr_kind) (name : String)
    (ptr : xdr_object) : Except xdr_exit (List xdr_identifier) :=
  match HASH_FIND_STR xdr_identifiers name with
  | some _ => .error { status := 1, stderr := "Duplicate symbol \x27" ++ name ++ "\x27 found.\n" }
  | none =>
      .ok (HASH_ADD_STR xdr_identifiers { name := name, type := type, emitted := false, ptr := ptr })

/-- The `while` loop of the `XDR_TYPEDEF` case of the resolver in `main`, for the
typedef called `name` whose field `type` holds `type`: the type reference the
field holds when the loop ends, or the `exit(1)` for an unknown name.  `fuel`
bounds the number of times the loop condition is evaluated; `none` means that
the loop has not ended within it (or that `ptr` is not a typedef). -/
def resolve_typedef_loop (xdr_identifiers : List xdr_identifier) (name : String) :
    Nat → xdr_type → Option (Except xdr_exit xdr_type)
  | 0, _ => none
  | fuel + 1, type =>
      if type.builtin then some (.ok type)
      else
        match HASH_FIND_STR xdr_identifiers type.name with
        | none =>
            some (.error { status := 1,
                           stderr := "typedef " ++ name ++ " uses unknown type " ++ type.name ++ "\n" })
        | some chk =>
            if chk.type ≠ .XDR_TYPEDEF then some (.ok type)
            else
              match chk.ptr with
              | .typedef_ t => resolve_typedef_loop xdr_identifiers name fuel t.type
              | _ => none

/-- The `XDR_TYPEDEF` case of the resolver for the typedef `t`: the typedef as the
loop leaves it. -/
def resolve_typedef (xdr_identifiers : List xdr_identifier) (fuel : Nat) (t : xdr_typedef) :
    Option (Except xdr_exit xdr_typedef) :=
  match resolve_typedef_loop xdr_identifiers t.name fuel t.type with
  | none => none
  | some (.error e) => some (.error e)
  | some (.ok type) => some (.ok { t with type := type })

/-- The list `ch` is the chain of typedefs that the references starting at the type
reference `type` pass through: `type` names the first typedef of `ch`, whose
type reference names the second, and so on; the reference held by the last one
(`type` itself when `ch` is empty) is builtin or names a symbol of the table
that is not a typedef. -/
def typedef_chain (xdr_identifiers : List xdr_identifier) : xdr_type → List xdr_typedef → Bool
  | type, [] =>
      type.builtin ||
        (match HASH_FIND_STR xdr_identifiers type.name with
         | some chk => chk.type != .XDR_TYPEDEF
         | none => false)
  | type, t :: rest =>
      !type.builtin &&
        (match HASH_FIND_STR xdr_identifiers type.name with
         | some chk => chk.type == .XDR_TYPEDEF && chk.ptr == .typedef_ t
         | none => false) &&
        typedef_chain xdr_identifiers t.type rest

/-- The type reference held by the last typedef of the chain `ch` starting at a
typedef that holds `type`. -/
def chain_last (type : xdr_type) : List xdr_typedef → xdr_type
  | [] => type
  | t :: rest => chain_last t.type rest


/-- A type reference to `name` with none of the flags `opaque`, `array`, `vector`,
`optional`, `zerocopy` set, as the tests and instances use it. -/
def plain_type (name : String) (builtin : Bool) : xdr_type :=
  { name := name, builtin := builtin, opaque_ := false, array := false, vector := false,
    optional := false, zerocopy := false, array_size := "", vector_bound := none }

/-- The data argument of an emitted codec call: `&in->NAME`, `in->NAME` or `&more`
(with `out` in place of `in` in the decoding routines). -/
inductive c_arg
  | addr_field (name : String)
  | field (name : String)
  | addr_more
deriving DecidableEq, Repr

/-- The count argument of an emitted codec call: `1`, `more`, `in->NAME` or the text
of a constant expression. -/
inductive c_count
  | one
  | more
  | field (name : String)
  | text (s : String)
deriving DecidableEq, Repr

/-- The lines that the emitters of the codec routines print, one constructor for
each `fprintf` format; `c_line_text` gives the C text. -/
inductive c_line
  | call (fn : String) (arg : c_arg) (count : c_count)
  | call_dbuf (fn : String) (arg : c_arg) (count : c_count)
  | call_zerocopy (name : String)
  | call_dbuf_zerocopy (name : String)
  | cursor_append (name size : String)
  | cursor_extract (name size : String)
  | open_block
  | close_block
  | decl_more_present (name : String)
  | decl_more
  | check_rc
  | add_len
  | dbuf_reserve (name : String)
  | switch_in (name : String)
  | switch_out (name : String)
  | case_label (label : String)
  | default_label
  | break_
deriving DecidableEq, Repr

/-- The C text of a data argument; `io` is `in` or `out`. -/
def c_arg_text (io : String) : c_arg → String
  | .addr_field name => "&" ++ io ++ "->" ++ name
  | .field name => io ++ "->" ++ name
  | .addr_more => "&more"

/-- The C text of a count argument. -/
def c_count_text (io : String) : c_count → String
  | .one => "1"
  | .more => "more"
  | .field name => io ++ "->" ++ name
  | .text s => s

/-- The C text of an emitted line, without its indentation and its newline. -/
def c_line_text : c_line → String
  | .call fn arg count =>
      "rc = " ++ fn ++ "(" ++ c_arg_text "in" arg ++ ", " ++ c_count_text "in" count ++ ", cursor);"
  | .call_dbuf fn arg count =>
      "rc = " ++ fn ++ "(" ++ c_arg_text "out" arg ++ ", " ++ c_count_text "out" count ++
        ", cursor, dbuf);"
  | .call_zerocopy name => "rc = __marshall_opaque_zerocopy(&in->" ++ name ++ ", cursor);"
  | .call_dbuf_zerocopy name =>
      "rc = __unmarshall_opaque_zerocopy(&out->" ++ name ++ ", cursor, dbuf);"
  | .cursor_append name size =>
      "rc = xdr_write_cursor_append(cursor, in->" ++ name ++ ", " ++ size ++ ");"
  | .cursor_extract name size =>
      "rc = xdr_read_cursor_extract(cursor, out->" ++ name ++ ", " ++ size ++ ");"
  | .open_block => "\x7b"
  | .close_block => "\x7d"
  | .decl_more_present name => "uint32_t more = !!(in->" ++ name ++ ");"
  | .decl_more => "uint32_t more;"
  | .check_rc => "if (unlikely(rc < 0)) return rc;"
  | .add_len => "len += rc;"
  | .dbuf_reserve name => "xdr_dbuf_reserve(out, " ++ name ++ ", out->num_" ++ name ++ ", dbuf);"
  | .switch_in name => "switch (in->" ++ name ++ ") \x7b"
  | .switch_out name => "switch (out->" ++ name ++ ") \x7b"
  | .case_label label => "case " ++ label ++ ":"
  | .default_label => "default:"
  | .break_ => "break;"

/-- The function `emit_marshall(output, name, type)`; `output` is what the stream holds
and the result what it holds afterwards. -/
def emit_marshall (output : List c_line) (name : String) (type : xdr_type) : List c_line :=
  (if type.opaque_ then
     if type.array then output ++ [.cursor_append name type.array_size]
     else if type.zerocopy then output ++ [.call_zerocopy name]
     else output ++
       [.call "__marshall_opaque" (.addr_field name) (.text (type.vector_bound.getD "0"))]
   else if type.name = "xdr_string" then
     output ++ [.call "__marshall_xdr_string" (.addr_field name) .one]
   else if type.optional then
     output ++
       [.open_block,
        .decl_more_present name,
        .call "__marshall_uint32_t" .addr_more .one,
        .check_rc,
        .add_len,
        .call ("__marshall_" ++ type.name) (.field name) .more,
        .check_rc,
        .close_block]
   else if type.vector then
     output ++
       [.call "__marshall_uint32_t" (.addr_field ("num_" ++ name)) .one,
        .check_rc,
        .add_len,
        .call ("__marshall_" ++ type.name) (.field name) (.field ("num_" ++ name))]
   else if type.array then
     output ++ [.call ("__marshall_" ++ type.name) (.field name) (.text type.array_size)]
   else output ++ [.call ("__marshall_" ++ type.name) (.addr_field name) .one]) ++
    [.check_rc, .add_len]

/-- The function `emit_unmarshall(output, name, type)`. -/
def emit_unmarshall (output : List c_line) (name : String) (type : xdr_type) : List c_line :=
  (if type.opaque_ then
     if type.array then output ++ [.cursor_extract name type.array_size]
     else if type.zerocopy then output ++ [.call_dbuf_zerocopy name]
     else output ++
       [.call_dbuf "__unmarshall_opaque" (.addr_field name) (.text (type.vector_bound.getD "0"))]
   else if type.name = "xdr_string" then
     output ++ [.call_dbuf ("__unmarshall_" ++ type.name) (.addr_field name) .one]
   else if type.optional then
     output ++
       [.open_block,
        .decl_more,
        .call_dbuf "__unmarshall_uint32_t" .addr_more .one,
        .check_rc,
        .add_len,
        .call_dbuf ("__unmarshall_" ++ type.name) (.field name) .more,
        .check_rc,
        .close_block]
   else if type.vector then
     output ++
       [.call_dbuf "__unmarshall_uint32_t" (.addr_field ("num_" ++ name)) .one,
        .check_rc,
        .add_len,
        .dbuf_reserve name,
        .call_dbuf ("__unmarshall_" ++ type.name) (.field name) (.field ("num_" ++ name))]
   else if type.array then
     output ++ [.call_dbuf ("__unmarshall_" ++ type.name) (.field name) (.text type.array_size)]
   else output ++ [.call_dbuf ("__unmarshall_" ++ type.name) (.addr_field name) .one]) ++
    [.check_rc, .add_len]

/-- An emitted codec routine `static int NAME(const T *inarray, int n, cursor)`: its
name and the lines printed between `in = &inarray[i];` and the brace that closes
the `for` loop.  The lines around them are the same for every routine:
`int i, rc, len = 0; for (i = 0; i < n; ++i)` before and `return len;` after. -/
structure c_function where
  name : String
  body : List c_line
deriving DecidableEq, Repr

/-- The part of `main` that prints `__marshall_NAME` for a struct. -/
def emit_struct_marshall (xdr_structp : xdr_struct) : c_function :=
  { name := "__marshall_" ++ xdr_structp.name,
    body := xdr_structp.members.foldl (fun source m => emit_marshall source m.name m.type) [] }

/-- The part of `main` that prints `__unmarshall_NAME` for a struct. -/
def emit_struct_unmarshall (xdr_structp : xdr_struct) : c_function :=
  { name := "__unmarshall_" ++ xdr_structp.name,
    body := xdr_structp.members.foldl (fun source m => emit_unmarshall source m.name m.type) [] }

/-- The body of the first loop over the cases of a union in the marshalling
routine: the cases whose label is not `default`. -/
def emit_union_case_marshall (source : List c_line) (c : xdr_union_case) : List c_line :=
  if c.label ≠ "default" then
    if c.voided then source ++ [.case_label c.label] ++ [.break_]
    else
      match c.type with
      | some type => emit_marshall (source ++ [.case_label c.label]) c.name type ++ [.break_]
      | none => source ++ [.case_label c.label]
  else source

/-- The body of the first loop over the cases of a union in the unmarshalling
routine. -/
def emit_union_case_unmarshall (source : List c_line) (c : xdr_union_case) : List c_line :=
  if c.label ≠ "default" then
    if c.voided then source ++ [.case_label c.label] ++ [.break_]
    else
      match c.type with
      | some type => emit_unmarshall (source ++ [.case_label c.label]) c.name type ++ [.break_]
      | none => source ++ [.case_label c.label]
  else source

/-- The body of the second loop over the cases of a union, the same in both
routines: the cases whose label is `default`. -/
def emit_union_default (source : List c_line) (c : xdr_union_case) : List c_line :=
  if c.label = "default" then source ++ [.default_label, .break_] else source

/-- The part of `main` that prints `__marshall_NAME` for a union. -/
def emit_union_marshall (xdr_unionp : xdr_union) : c_function :=
  { name := "__marshall_" ++ xdr_unionp.name,
    body :=
      (xdr_unionp.cases.foldl emit_union_default
        (xdr_unionp.cases.foldl emit_union_case_marshall
          (emit_marshall [] xdr_unionp.pivot_name xdr_unionp.pivot_type ++
            [.switch_in xdr_unionp.pivot_name]))) ++
        [.close_block] }

/-- The part of `main` that prints `__unmarshall_NAME` for a union. -/
def emit_union_unmarshall (xdr_unionp : xdr_union) : c_function :=
  { name := "__unmarshall_" ++ xdr_unionp.name,
    body :=
      (xdr_unionp.cases.foldl emit_union_default
        (xdr_unionp.cases.foldl emit_union_case_unmarshall
          (emit_unmarshall [] xdr_unionp.pivot_name xdr_unionp.pivot_type ++
            [.switch_out xdr_unionp.pivot_name]))) ++
        [.close_block] }

/-- The end of the emission of a union declaration in `main`: when the name of the
pivot type is that of an enum, the type reference is rewritten to the builtin
`uint32_t`. -/
def union_pivot_rewrite (xdr_identifiers : List xdr_identifier) (xdr_unionp : xdr_union) :
    xdr_union :=
  match HASH_FIND_STR xdr_identifiers xdr_unionp.pivot_type.name with
  | some chkm =>
      if chkm.type = .XDR_ENUM then
        { xdr_unionp with
          pivot_type := { xdr_unionp.pivot_type with name := "uint32_t", builtin := true } }
      else xdr_unionp
  | none => xdr_unionp

/-- The value of a member of the C struct that a marshalling routine reads: a
`uint32_t` (also a count `num_NAME`), an `xdr_string`, or a pointer to `uint32_t`s
or to `xdr_string`s, which is null (`none`) or points at an array. -/
inductive c_val
  | word (x : Nat)
  | string (s : xdr_string)
  | words (p : Option (List Nat))
  | strings (p : Option (List xdr_string))
deriving DecidableEq, Repr

/-- The object `*in` of a marshalling routine: its members by name. -/
abbrev c_struct := List (String × c_val)

/-- The member `in->name`. -/
def c_field (v : c_struct) (name : String) : Option c_val := v.lookup name

/-- What the execution of the emitted lines depends on besides the object: the
byte order of the host, the memory the strings point into, the values of the
constant expressions (case labels, array sizes), and the codec routines other
than `__marshall_uint32_t` and `__marshall_xdr_string`. -/
structure c_env where
  le : Bool
  mem : List Byte
  const_val : String → Option Nat
  ext : String → c_arg → c_struct → Nat → List xdr_iovec → xdr_cursor →
    Option (Int × List xdr_iovec × xdr_cursor)

/-- The variables of a marshalling routine: the iovecs and the cursor, `rc`, the
32-bit pattern of `int len`, and `more` of the block of an optional member. -/
structure m_state where
  iovs : List xdr_iovec
  cursor : xdr_cursor
  rc : Int
  len : Nat
  more : Nat
deriving DecidableEq, Repr

/-- How the execution of a list of lines ends: at its end, or in a `return`. -/
inductive m_outcome
  | next (s : m_state)
  | ret (rc : Int) (s : m_state)
deriving DecidableEq, Repr

/-- The value of a count argument, as the `int n` of the callee; counts from
`2 ^ 31` on are outside the embedding. -/
def c_count_val (env : c_env) (v : c_struct) (s : m_state) : c_count → Option Nat
  | .one => some 1
  | .more => some s.more
  | .field name =>
      match c_field v name with
      | some (.word x) => some x
      | _ => none
  | .text t => env.const_val t

/-- The call `fn(arg, n, cursor)` of a marshalling codec. -/
def m_call (env : c_env) (v : c_struct) (s : m_state) (fn : String) (arg : c_arg) (n : Nat) :
    Option (Int × List xdr_iovec × xdr_cursor) :=
  if fn = "__marshall_uint32_t" then
    match arg with
    | .addr_more => __marshall_uint32_t env.le [s.more] n s.iovs s.cursor
    | .addr_field f =>
        match c_field v f with
        | some (.word x) => __marshall_uint32_t env.le [x] n s.iovs s.cursor
        | _ => none
    | .field f =>
        match c_field v f with
        | some (.words p) => __marshall_uint32_t env.le (p.getD []) n s.iovs s.cursor
        | _ => none
  else if fn = "__marshall_xdr_string" then
    match arg with
    | .addr_more => none
    | .addr_field f =>
        match c_field v f with
        | some (.string x) => __marshall_xdr_string env.le env.mem [x] n s.iovs s.cursor
        | _ => none
    | .field f =>
        match c_field v f with
        | some (.strings p) => __marshall_xdr_string env.le env.mem (p.getD []) n s.iovs s.cursor
        | _ => none
  else env.ext fn arg v n s.iovs s.cursor

/-- The execution of one emitted line other than `switch` and `break`. -/
def m_step (env : c_env) (v : c_struct) (l : c_line) (s : m_state) : Option m_outcome :=
  match l with
  | .call fn arg count =>
      match c_count_val env v s count with
      | none => none
      | some n =>
          if 2147483648 ≤ n then none
          else
            match m_call env v s fn arg n with
            | none => none
            | some (rc, iovs1, c1) => some (.next { s with iovs := iovs1, cursor := c1, rc := rc })
  | .check_rc => if s.rc < 0 then some (.ret s.rc s) else some (.next s)
  | .add_len => some (.next { s with len := uint32_of_int (int_of_uint s.len + s.rc) })
  | .open_block => some (.next s)
  | .close_block => some (.next s)
  | .case_label _ => some (.next s)
  | .default_label => some (.next s)
  | .decl_more_present name =>
      match c_field v name with
      | some (.words p) => some (.next { s with more := if p.isSome then 1 else 0 })
      | some (.strings p) => some (.next { s with more := if p.isSome then 1 else 0 })
      | _ => none
  | _ => none

/-- Where the execution of the body of a `switch` stands: running; looking for the
label to jump to (`case` with the value `target`, or `default` when `target` is
`none`); or, after a `break`, looking for the end of the `switch`.  `depth`
counts the blocks opened since. -/
inductive m_mode
  | run
  | seek (target : Option Nat) (depth : Nat)
  | skip (depth : Nat)
deriving DecidableEq, Repr

/-- Whether the body of a `switch`, whose lines start `ls`, has a `case` label with
the value `x`. -/
def has_case (env : c_env) (x : Nat) : List c_line → Nat → Bool
  | [], _ => false
  | .open_block :: ls, depth => has_case env x ls (depth + 1)
  | .close_block :: ls, depth => if depth = 0 then false else has_case env x ls (depth - 1)
  | .case_label label :: ls, depth =>
      (depth = 0 && env.const_val label == some x) || has_case env x ls depth
  | _ :: ls, depth => has_case env x ls depth

/-- The execution of emitted lines on the object `v`.  The emitted routines have
at most one `switch`, whose labels stand directly in its body. -/
def m_exec (env : c_env) (v : c_struct) : List c_line → m_mode → m_state → Option m_outcome
  | [], _, s => some (.next s)
  | l :: ls, .run, s =>
      match l with
      | .switch_in name =>
          match c_field v name with
          | some (.word x) =>
              m_exec env v ls (.seek (if has_case env x ls 0 then some x else none) 0) s
          | _ => none
      | .break_ => m_exec env v ls (.skip 0) s
      | _ =>
          match m_step env v l s with
          | some (.next s1) => m_exec env v ls .run s1
          | r => r
  | l :: ls, .seek target depth, s =>
      match l with
      | .open_block => m_exec env v ls (.seek target (depth + 1)) s
      | .close_block =>
          if depth = 0 then m_exec env v ls .run s
          else m_exec env v ls (.seek target (depth - 1)) s
      | .case_label label =>
          if depth = 0 ∧ target ≠ none ∧ env.const_val label = target then m_exec env v ls .run s
          else m_exec env v ls (.seek target depth) s
      | .default_label =>
          if depth = 0 ∧ target = none then m_exec env v ls .run s
          else m_exec env v ls (.seek target depth) s
      | _ => m_exec env v ls (.seek target depth) s
  | l :: ls, .skip depth, s =>
      match l with
      | .open_block => m_exec env v ls (.skip (depth + 1)) s
      | .close_block =>
          if depth = 0 then m_exec env v ls .run s
          else m_exec env v ls (.skip (depth - 1)) s
      | _ => m_exec env v ls (.skip depth) s

/-- The `for` loop of an emitted marshalling routine with the body `body`: `k`
iterations are left and `inarray` is the rest of the array. -/
def m_loop (env : c_env) (body : List c_line) :
    Nat → List c_struct → m_state → Option (Int × List xdr_iovec × xdr_cursor)
  | 0, _, s => some (int_of_uint s.len, s.iovs, s.cursor)
  | _ + 1, [], _ => none
  | k + 1, v :: vs, s =>
      match m_exec env v body .run s with
      | none => none
      | some (.ret rc s1) => some (rc, s1.iovs, s1.cursor)
      | some (.next s1) => m_loop env body k vs s1

/-- The call `f(inarray, n, cursor)` of an emitted marshalling routine: the return
value, the iovecs and the cursor afterwards.  `rc` is not initialised in C; it
is assigned before it is read. -/
def m_run (env : c_env) (f : c_function) (inarray : List c_struct) (n : Nat)
    (iovs : List xdr_iovec) (c : xdr_cursor) : Option (Int × List xdr_iovec × xdr_cursor) :=
  m_loop env f.body n inarray { iovs := iovs, cursor := c, rc := 0, len := 0, more := 0 }

/-- The value of a decimal digit. -/
def c_digit (c : Char) : Option Nat :=
  if '0' ≤ c ∧ c ≤ '9' then some (c.toNat - '0'.toNat) else none

/-- The value of a string of decimal digits read from the left, `acc` being the
value of the digits read so far. -/
def c_decimal_loop : List Char → Nat → Option Nat
  | [], acc => some acc
  | c :: cs, acc =>
      match c_digit c with
      | some d => c_decimal_loop cs (acc * 10 + d)
      | none => none

/-- The value of a constant expression that is a decimal number. -/
def c_decimal (t : String) : Option Nat :=
  match t.toList with
  | [] => none
  | cs => c_decimal_loop cs 0

/-- An environment for schemas whose case labels and array sizes are decimal
numbers and whose members are of the types `uint32_t` and `xdr_string`. -/
def plain_env (le : Bool) (mem : List Byte) : c_env :=
  { le := le, mem := mem, const_val := c_decimal, ext := fun _ _ _ _ _ _ => none }


/-- Whether a line is neither `switch` nor `break`. -/
def c_line.straight : c_line → Bool
  | .switch_in _ => false
  | .switch_out _ => false
  | .break_ => false
  | _ => true

/-- The type `struct xdr_buffer` of the generator: a block of the allocator, by its
counters `used` and `size` (both `unsigned int`); the memory at `data`, which
`calloc` has zeroed, and the list links are not held. -/
structure xdr_buffer where
  used : Nat
  size : Nat
deriving DecidableEq, Repr

/-- The function `xdr_alloc(size)` acting on the global list `xdr_buffers`, whose head
is the block allocated from: the offset `ptr - data` of the returned region in
the block that is the head afterwards, and the list afterwards. -/
def xdr_alloc (xdr_buffers : List xdr_buffer) (size : Nat) : Nat × List xdr_buffer :=
  let size1 := (size % U32 + (8 - size % U32 % 8) % 8) % U32
  match xdr_buffers with
  | [] => (0, [{ used := size1, size := 2097152 }])
  | b :: rest =>
      if (b.size + U32 - b.used) % U32 < size1 then
        (0, { used := size1, size := 2097152 } :: b :: rest)
      else (b.used, { used := (b.used + size1) % U32, size := b.size } :: rest)

/-- A sequence of calls of `xdr_alloc` with the sizes `ns`, starting from the list
`xdr_buffers`: the regions returned, each as the number of its block (counted
from the oldest block), its offset in the block and its length, and the list
afterwards. -/
def xdr_alloc_seq : List Nat → List xdr_buffer → List (Nat × Nat × Nat) × List xdr_buffer
  | [], xdr_buffers => ([], xdr_buffers)
  | n :: ns, xdr_buffers =>
      ((((xdr_alloc xdr_buffers n).2.length - 1, (xdr_alloc xdr_buffers n).1, n) ::
          (xdr_alloc_seq ns (xdr_alloc xdr_buffers n).2).1),
        (xdr_alloc_seq ns (xdr_alloc xdr_buffers n).2).2)

/-- The function `xdr_dbuf_alloc()`; `content` stands for the bytes that the memory
`malloc(4096)` returns happens to hold. -/
def xdr_dbuf_alloc (content : List Byte) : xdr_dbuf :=
  { buffer := (content ++ List.replicate 4096 0).take 4096, used := 0, size := 4096 }

/-- How a part of `main` of the generator ends: it reaches its end with a result;
it ends the run by `exit`; it reads through a pointer that is null or was never
assigned, after which C leaves the behaviour undefined; or it has not ended
within the fuel given to its loops. -/
inductive run_result (α : Type)
  | ok (a : α)
  | exited (e : xdr_exit)
  | undefined
  | unfinished
deriving DecidableEq, Repr

/-- The loop over the members in the `XDR_STRUCT` case of the resolver in `main`, for
the struct called `sname`: the members as the loop leaves them. -/
def resolve_struct_members (xdr_identifiers : List xdr_identifier) (sname : String) :
    List xdr_struct_member → run_result (List xdr_struct_member)
  | [] => .ok []
  | m :: ms =>
      if m.type.builtin then
        match resolve_struct_members xdr_identifiers sname ms with
        | .ok r => .ok (m :: r)
        | e => e
      else
        match HASH_FIND_STR xdr_identifiers m.type.name with
        | none =>
            .exited { status := 1,
                      stderr := "struct " ++ sname ++ " element " ++ m.name ++
                        " uses  unknown type " ++ m.type.name ++ "\n" }
        | some chk =>
            if chk.type = .XDR_TYPEDEF then
              match chk.ptr with
              | .typedef_ t =>
                  match resolve_struct_members xdr_identifiers sname ms with
                  | .ok r => .ok ({ m with type := t.type } :: r)
                  | e => e
              | _ => .undefined
            else
              match resolve_struct_members xdr_identifiers sname ms with
              | .ok r => .ok (m :: r)
              | e => e

/-- One type reference of a union (the pivot's or a case's) in the `XDR_UNION` case
of the resolver, the reference not being builtin.  When the name is unknown the
arguments of the `fprintf` are read through `xdr_structp` and
`xdr_struct_memberp`, the variables of the `XDR_STRUCT` case:
`xdr_struct_memberp` is null after the member loop of a struct has run and
was never assigned otherwise, so the behaviour is undefined before `exit(1)`
is reached. -/
def resolve_union_type (xdr_identifiers : List xdr_identifier) (type : xdr_type) :
    run_result xdr_type :=
  match HASH_FIND_STR xdr_identifiers type.name with
  | none => .undefined
  | some chk =>
      if chk.type = .XDR_TYPEDEF then
        match chk.ptr with
        | .typedef_ t => .ok t.type
        | _ => .undefined
      else .ok type

/-- The loop over the cases in the `XDR_UNION` case of the resolver. -/
def resolve_union_cases (xdr_identifiers : List xdr_identifier) :
    List xdr_union_case → run_result (List xdr_union_case)
  | [] => .ok []
  | c :: cs =>
      match c.type with
      | none =>
          match resolve_union_cases xdr_identifiers cs with
          | .ok r => .ok (c :: r)
          | e => e
      | some type =>
          if type.builtin then
            match resolve_union_cases xdr_identifiers cs with
            | .ok r => .ok (c :: r)
            | e => e
          else
            match resolve_union_type xdr_identifiers type with
            | .ok type1 =>
                match resolve_union_cases xdr_identifiers cs with
                | .ok r => .ok ({ c with type := some type1 } :: r)
                | e => e
            | .exited e => .exited e
            | .undefined => .undefined
            | .unfinished => .unfinished

/-- The `XDR_UNION` case of the resolver for the union `u`. -/
def resolve_union (xdr_identifiers : List xdr_identifier) (u : xdr_union) : run_result xdr_union :=
  match (if u.pivot_type.builtin then run_result.ok u.pivot_type
         else resolve_union_type xdr_identifiers u.pivot_type) with
  | .ok pivot_type =>
      match resolve_union_cases xdr_identifiers u.cases with
      | .ok cases => .ok { u with pivot_type := pivot_type, cases := cases }
      | .exited e => .exited e
      | .undefined => .undefined
      | .unfinished => .unfinished
  | .exited e => .exited e
  | .undefined => .undefined
  | .unfinished => .unfinished

/-- The body of the `HASH_ITER` loop of the resolver for the identifier `xdr_identp`:
the identifier, with the object it points at, as the body leaves it.  `fuel`
bounds the loop of the `XDR_TYPEDEF` case. -/
def resolve_identifier (xdr_identifiers : List xdr_identifier) (fuel : Nat)
    (xdr_identp : xdr_identifier) : run_result xdr_identifier :=
  match xdr_identp.type with
  | .XDR_TYPEDEF =>
      match xdr_identp.ptr with
      | .typedef_ t =>
          match resolve_typedef xdr_identifiers fuel t with
          | none => .unfinished
          | some (.error e) => .exited e
          | some (.ok t1) => .ok { xdr_identp with emitted := true, ptr := .typedef_ t1 }
      | _ => .undefined
  | .XDR_ENUM => .ok { xdr_identp with emitted := true }
  | .XDR_CONST => .ok { xdr_identp with emitted := true }
  | .XDR_STRUCT =>
      match xdr_identp.ptr with
      | .struct_ s =>
          match resolve_struct_members xdr_identifiers s.name s.members with
          | .ok members => .ok { xdr_identp with ptr := .struct_ { s with members := members } }
          | .exited e => .exited e
          | .undefined => .undefined
          | .unfinished => .unfinished
      | _ => .undefined
  | .XDR_UNION =>
      match xdr_identp.ptr with
      | .union_ u =>
          match resolve_union xdr_identifiers u with
          | .ok u1 => .ok { xdr_identp with ptr := .union_ u1 }
          | .exited e => .exited e
          | .undefined => .undefined
          | .unfinished => .unfinished
      | _ => .undefined

/-- The `HASH_ITER` loop of the resolver: `visited` are the identifiers already
visited, as they are now, and the list argument the ones still to visit, in
the order of insertion; the table that the body sees is both together. -/
def resolver_loop (fuel : Nat) (visited : List xdr_identifier) :
    List xdr_identifier → run_result (List xdr_identifier)
  | [] => .ok visited
  | xdr_identp :: rest =>
      match resolve_identifier (visited ++ xdr_identp :: rest) fuel xdr_identp with
      | .ok ident1 => resolver_loop fuel (visited ++ [ident1]) rest
      | .exited e => .exited e
      | .undefined => .undefined
      | .unfinished => .unfinished

/-- The resolver of `main`, run on the symbol table the parser has built. -/
def resolver (fuel : Nat) (xdr_identifiers : List xdr_identifier) :
    run_result (List xdr_identifier) :=
  resolver_loop fuel [] xdr_identifiers

/-- The body of an aggregate as written to the header: `struct NAME { ... };` with
the members that `emit_member` prints, for a struct or for a union.  The body is
kept as the aggregate it was printed from. -/
inductive xdr_body
  | struct_body (s : xdr_struct)
  | union_body (u : xdr_union)
deriving DecidableEq, Repr

/-- The name of the aggregate a body was printed from. -/
def xdr_body.name : xdr_body → String
  | .struct_body s => s.name
  | .union_body u => u.name

/-- The state of the declaration emission loop of `main`: the symbol table, of which
the loop changes the fields `emitted` only, and the bodies written to the
header so far, in the order of writing. -/
structure emit_state where
  xdr_identifiers : List xdr_identifier
  header : List xdr_body
deriving DecidableEq, Repr

/-- The statements `HASH_FIND_STR(xdr_identifiers, name, chk); chk->emitted = 1;`. -/
def set_emitted : List xdr_identifier → String → List xdr_identifier
  | [], _ => []
  | i :: rest, name =>
      if i.name == name then { i with emitted := true } :: rest
      else i :: set_emitted rest name

/-- The readiness test of a struct whose identifier is `chk`: the loop over the
members that leaves `ready`.  Two identifiers found in the table are the same
object exactly when their names are equal.  `none` stands for the read of
`chkm->emitted` through a null `chkm`. -/
def struct_ready (xdr_identifiers : List xdr_identifier) (chk : xdr_identifier) :
    List xdr_struct_member → Option Bool
  | [] => some true
  | m :: ms =>
      if m.type.builtin then struct_ready xdr_identifiers chk ms
      else
        match HASH_FIND_STR xdr_identifiers m.type.name with
        | none => none
        | some chkm =>
            if chk.name ≠ chkm.name ∧ chkm.emitted = false then some false
            else struct_ready xdr_identifiers chk ms

/-- The readiness test of a union: the loop over the cases that leaves `ready`. -/
def union_ready (xdr_identifiers : List xdr_identifier) : List xdr_union_case → Option Bool
  | [] => some true
  | c :: cs =>
      match c.type with
      | none => union_ready xdr_identifiers cs
      | some type =>
          if type.builtin then union_ready xdr_identifiers cs
          else
            match HASH_FIND_STR xdr_identifiers type.name with
            | none => none
            | some chk =>
                if chk.emitted = false then some false
                else union_ready xdr_identifiers cs

/-- The body of the loop over `xdr_structs` in one pass of the emission loop:
the state and the flag `unemitted` afterwards.  The text of the body and the
rewriting of enum references by `emit_member` are not held: type references are
embedded as values and an enum is marked emitted by the resolver, so the
readiness tests do not depend on them. -/
def emit_struct_step (st : emit_state) (unemitted : Bool) (xdr_structp : xdr_struct) :
    Option (emit_state × Bool) :=
  match HASH_FIND_STR st.xdr_identifiers xdr_structp.name with
  | none => none
  | some chk =>
      if chk.emitted then some (st, unemitted)
      else
        match struct_ready st.xdr_identifiers chk xdr_structp.members with
        | none => none
        | some false => some (st, true)
        | some true =>
            some ({ xdr_identifiers := set_emitted st.xdr_identifiers xdr_structp.name,
                    header := st.header ++ [.struct_body xdr_structp] }, unemitted)

/-- The body of the loop over `xdr_unions` in one pass of the emission loop. -/
def emit_union_step (st : emit_state) (unemitted : Bool) (xdr_unionp : xdr_union) :
    Option (emit_state × Bool) :=
  match HASH_FIND_STR st.xdr_identifiers xdr_unionp.name with
  | none => none
  | some chk =>
      if chk.emitted then some (st, unemitted)
      else
        match union_ready st.xdr_identifiers xdr_unionp.cases with
        | none => none
        | some false => some (st, true)
        | some true =>
            some ({ xdr_identifiers := set_emitted st.xdr_identifiers xdr_unionp.name,
                    header := st.header ++ [.union_body xdr_unionp] }, unemitted)

/-- The loop `DL_FOREACH(xdr_structs, xdr_structp)` of one pass. -/
def emit_structs : List xdr_struct → emit_state → Bool → Option (emit_state × Bool)
  | [], st, unemitted => some (st, unemitted)
  | s :: rest, st, unemitted =>
      match emit_struct_step st unemitted s with
      | none => none
      | some (st1, unemitted1) => emit_structs rest st1 unemitted1

/-- The loop `DL_FOREACH(xdr_unions, xdr_unionp)` of one pass. -/
def emit_unions : List xdr_union → emit_state → Bool → Option (emit_state × Bool)
  | [], st, unemitted => some (st, unemitted)
  | u :: rest, st, unemitted =>
      match emit_union_step st unemitted u with
      | none => none
      | some (st1, unemitted1) => emit_unions rest st1 unemitted1

/-- One pass of the `do ... while (unemitted)` loop: `unemitted = 0`, the structs,
then the unions. -/
def emit_pass (xdr_structs : List xdr_struct) (xdr_unions : List xdr_union) (st : emit_state) :
    Option (emit_state × Bool) :=
  match emit_structs xdr_structs st false with
  | none => none
  | some (st1, unemitted1) => emit_unions xdr_unions st1 unemitted1

/-- The loop `do ... while (unemitted)` of `main`; `fuel` bounds the number of passes. -/
def emit_loop (xdr_structs : List xdr_struct) (xdr_unions : List xdr_union) :
    Nat → emit_state → run_result emit_state
  | 0, _ => .unfinished
  | fuel + 1, st =>
      match emit_pass xdr_structs xdr_unions st with
      | none => .undefined
      | some (st1, unemitted) =>
          if unemitted then emit_loop xdr_structs xdr_unions fuel st1 else .ok st1

/-- The names of the symbols that the non-builtin members of a struct, or the
non-builtin cases of a union, name, other than the aggregate itself. -/
def xdr_body.refs : xdr_body → List String
  | .struct_body s =>
      ((s.members.filter (fun m => !m.type.builtin)).map (fun m => m.type.name)).filter
        (fun n => n != s.name)
  | .union_body u =>
      ((u.cases.filterMap (fun c => c.type)).filter (fun t => !t.builtin)).map (fun t => t.name)
        |>.filter (fun n => n != u.name)

/-- A struct with one member that is an optional `TYPE *NAME`. -/
def optional_type (name : String) : xdr_type :=
  { plain_type name false with optional := true }

/-- A type reference is resolved in a symbol table when it is builtin or its name is
that of an identifier of the table that is not a typedef. -/
def type_resolved (xdr_identifiers : List xdr_identifier) (type : xdr_type) : Bool :=
  type.builtin ||
    match HASH_FIND_STR xdr_identifiers type.name with
    | none => false
    | some chk => chk.type != .XDR_TYPEDEF

/-- The type references that the object of an identifier holds: the type of a
typedef, the types of the members of a struct, the pivot type and the case
types of a union. -/
def xdr_object.type_refs : xdr_object → List xdr_type
  | .typedef_ t => [t.type]
  | .enum_ _ => []
  | .const_ _ => []
  | .struct_ s => s.members.map (fun m => m.type)
  | .union_ u => u.pivot_type :: u.cases.filterMap (fun c => c.type)

/-- Every type reference held in a symbol table is resolved in it. -/
def table_resolved (xdr_identifiers : List xdr_identifier) : Bool :=
  xdr_identifiers.all (fun i => i.ptr.type_refs.all (type_resolved xdr_identifiers))

/-- The identifier that the parser adds for `typedef TYPE NAME;`. -/
def typedef_identifier (name : String) (type : xdr_type) : xdr_identifier :=
  { name := name, type := .XDR_TYPEDEF, emitted := false,
    ptr := .typedef_ { name := name, type := type } }

/-- The identifier that the parser adds for a struct. -/
def struct_identifier (s : xdr_struct) : xdr_identifier :=
  { name := s.name, type := .XDR_STRUCT, emitted := false, ptr := .struct_ s }

/-- The identifier that the parser adds for a union. -/
def union_identifier (u : xdr_union) : xdr_identifier :=
  { name := u.name, type := .XDR_UNION, emitted := false, ptr := .union_ u }

/-- An identifier of a struct or of a union. -/
def xdr_identifier.aggregate (i : xdr_identifier) : Bool :=
  i.type == .XDR_STRUCT || i.type == .XDR_UNION

/-- The invariant of the declaration emission loop: the body of every aggregate
that is marked emitted has been written to the header, and every aggregate
that a body of the header refers to, other than itself, has its body earlier
in the header. -/
def emit_inv (st : emit_state) : Prop :=
  (∀ n chk, HASH_FIND_STR st.xdr_identifiers n = some chk → chk.aggregate = true →
      chk.emitted = true → ∃ d ∈ st.header, d.name = n) ∧
  (∀ i d, st.header[i]? = some d → ∀ n ∈ d.refs, ∀ chk,
      HASH_FIND_STR st.xdr_identifiers n = some chk → chk.aggregate = true →
      ∃ d1 ∈ st.header.take i, d1.name = n)

/-- The struct of `struct L { L *next; };`. -/
def list_node : xdr_struct := ⟨"L", [⟨"next", optional_type "L"⟩]⟩

/-- The struct of `struct C { L l; };`. -/
def list_holder : xdr_struct := ⟨"C", [⟨"l", plain_type "L" false⟩]⟩

/-- The union of `union U switch (uint32_t tag) { case 1: U *next; default: void; };`. -/
def list_union : xdr_union :=
  ⟨"U", "tag", plain_type "uint32_t" true,
    [⟨"1", "next", some (optional_type "U"), false⟩, ⟨"default", "", none, true⟩]⟩

/-- The struct of `struct A { uint32_t x; B *b; };`. -/
def optional_A : xdr_struct :=
  ⟨"A", [⟨"x", plain_type "uint32_t" true⟩, ⟨"b", optional_type "B"⟩]⟩

/-- The struct of `struct B { A *a; };`. -/
def optional_B : xdr_struct := ⟨"B", [⟨"a", optional_type "A"⟩]⟩

/-- The struct of `struct P { Q q; };`. -/
def value_P : xdr_struct := ⟨"P", [⟨"q", plain_type "Q" false⟩]⟩

/-- The struct of `struct Q { P p; };`. -/
def value_Q : xdr_struct := ⟨"Q", [⟨"p", plain_type "P" false⟩]⟩

/-- Modelled from the spec: `struct xdr_function` of `xdr.h`, a procedure of an RPC
version, with the fields that `emit_program` reads; `id` is the text of the
procedure number. -/
structure xdr_function where
  id : String
  name : String
  call_type : xdr_type
  reply_type : xdr_type
deriving DecidableEq, Repr

/-- Modelled from the spec: `struct xdr_version` of `xdr.h`; `functions` is the list
that the loops of `emit_program` walk from its head. -/
structure xdr_version where
  id : String
  name : String
  functions : List xdr_function
deriving DecidableEq, Repr

/-- The lines that `emit_program` prints into the body of `call_dispatch_VERSION`,
one constructor for each `fprintf`. -/
inductive rpc_line
  | prog_decl (version : String)
  | error_decl
  | switch_proc
  | case_id (id : String)
  | if_unset (name : String)
  | return_unset
  | end_if
  | arg_decl (type name : String)
  | unmarshall_arg (type name : String)
  | check_error
  | call_arg (name : String)
  | call_void (name : String)
  | break_
  | default_
  | return_default
  | end_switch
  | return_zero
deriving DecidableEq, Repr

/-- The text that each line stands for, as given to `fprintf`. -/
def rpc_line_text : rpc_line → String
  | .prog_decl version => "    struct " ++ version ++ " *prog = msg->program->program_data;\n"
  | .error_decl => "    int error;\n"
  | .switch_proc => "    switch (msg->proc) \x7b\n"
  | .case_id id => "    case " ++ id ++ ":\n"
  | .if_unset name => "        if (prog->recv_call_" ++ name ++ " == NULL) \x7b\n"
  | .return_unset => "            return 1;\n"
  | .end_if => "        \x7d\n"
  | .arg_decl type name => "        " ++ type ++ " *" ++ name ++ "_arg = msg->msg_buffer;\n"
  | .unmarshall_arg type name =>
      "        error = unmarshall_" ++ type ++ "(" ++ name ++ "_arg, 1, iov, niov, msg->dbuf);\n"
  | .check_error => "        if (error < 0) return 2;\n"
  | .call_arg name =>
      "        prog->recv_call_" ++ name ++ "(evpl, conn, " ++ name ++ "_arg, msg, private_data);\n"
  | .call_void name => "        prog->recv_call_" ++ name ++ "(evpl, conn, msg, private_data);\n"
  | .break_ => "        break;\n\n"
  | .default_ => "    default:\n"
  | .return_default => "        return 1;\n"
  | .end_switch => "    \x7d\n"
  | .return_zero => "    return 0;\n"

/-- The body of the first loop over the functions in `emit_program`: the lines of
one `case` of the dispatcher. -/
def emit_dispatch_case (functionp : xdr_function) : List rpc_line :=
  [.case_id functionp.id, .if_unset functionp.name, .return_unset, .end_if] ++
  (if functionp.call_type.name ≠ "void" then
     [.arg_decl functionp.call_type.name functionp.name,
      .unmarshall_arg functionp.call_type.name functionp.name,
      .check_error,
      .call_arg functionp.name]
   else [.call_void functionp.name]) ++
  [.break_]

/-- The first loop over the functions in `emit_program`. -/
def emit_dispatch_cases : List xdr_function → List rpc_line
  | [] => []
  | functionp :: rest => emit_dispatch_case functionp ++ emit_dispatch_cases rest

/-- An emitted dispatcher `static int NAME(evpl, conn, msg, iov, niov, private_data)`:
its name and the lines between the braces of the function. -/
structure rpc_function where
  name : String
  body : List rpc_line
deriving DecidableEq, Repr

/-- The part of `emit_program` that prints `call_dispatch_VERSION`. -/
def emit_call_dispatch (version : xdr_version) : rpc_function :=
  { name := "call_dispatch_" ++ version.name,
    body := [.prog_decl version.name, .error_decl, .switch_proc] ++
      emit_dispatch_cases version.functions ++
      [.default_, .return_default, .end_switch, .return_zero] }

/-- What a run of a dispatcher depends on: the value of `msg->proc`; the values of
the constant expressions used as case labels (none for a name that is not
declared); for each procedure name, whether `prog->recv_call_NAME` is set; and
the value that `unmarshall_TYPE` returns on the message at hand. -/
structure rpc_env where
  proc : Nat
  const_val : String → Option Nat
  recv_call : String → Bool
  unmarshall : String → Int

/-- What a run of a dispatcher does besides returning: call the unmarshalling
routine of a type, call the callback of a procedure, with the argument or
without one. -/
inductive rpc_event
  | unmarshalled (type : String)
  | called (name : String) (arg : Bool)
deriving DecidableEq, Repr

/-- The state of a run of a dispatcher: the variable `error`, none until it is
assigned, and the calls made so far. -/
structure rpc_state where
  error : Option Int
  events : List rpc_event
deriving DecidableEq, Repr

/-- The case labels of a `switch`, from the lines after its opening brace. -/
def rpc_labels : List rpc_line → List String
  | [] => []
  | .end_switch :: _ => []
  | .case_id id :: rest => id :: rpc_labels rest
  | _ :: rest => rpc_labels rest

/-- Whether a `switch` has a `default:` label. -/
def rpc_has_default : List rpc_line → Bool
  | [] => false
  | .end_switch :: _ => false
  | .default_ :: _ => true
  | _ :: rest => rpc_has_default rest

/-- A `switch` is well formed when every case label has a value and no two labels
have the same value; C rejects any other. -/
def rpc_switch_ok (env : rpc_env) (lines : List rpc_line) : Bool :=
  (rpc_labels lines).all (fun id => (env.const_val id).isSome) &&
    decide ((rpc_labels lines).map env.const_val).Nodup

/-- Where control is in a run of a dispatcher: executing lines; jumping to the case
label whose value is `msg->proc`; jumping to `default:`; passing over the block
of an `if` whose condition is false; or leaving the `switch` after `break` or
when no label is selected. -/
inductive rpc_mode
  | run
  | seek
  | seek_default
  | skip_if
  | skip_switch
deriving DecidableEq, Repr

/-- A run of the lines of a dispatcher: the value returned and the calls made.  The
result is none when the code is not C (a `switch` that is not well formed),
when it reads `error` before assigning it or calls through a null callback,
and when control reaches the end of the lines without a `return`. -/
def rpc_exec (env : rpc_env) : List rpc_line → rpc_mode → rpc_state → Option (Nat × List rpc_event)
  | [], _, _ => none
  | l :: rest, .seek, s =>
      match l with
      | .case_id id =>
          if env.const_val id = some env.proc then rpc_exec env rest .run s
          else rpc_exec env rest .seek s
      | _ => rpc_exec env rest .seek s
  | l :: rest, .seek_default, s =>
      match l with
      | .default_ => rpc_exec env rest .run s
      | _ => rpc_exec env rest .seek_default s
  | l :: rest, .skip_if, s =>
      match l with
      | .end_if => rpc_exec env rest .run s
      | _ => rpc_exec env rest .skip_if s
  | l :: rest, .skip_switch, s =>
      match l with
      | .end_switch => rpc_exec env rest .run s
      | _ => rpc_exec env rest .skip_switch s
  | l :: rest, .run, s =>
      match l with
      | .prog_decl _ => rpc_exec env rest .run s
      | .error_decl => rpc_exec env rest .run s
      | .switch_proc =>
          if rpc_switch_ok env rest then
            if (rpc_labels rest).any (fun id => env.const_val id == some env.proc) then
              rpc_exec env rest .seek s
            else if rpc_has_default rest then rpc_exec env rest .seek_default s
            else rpc_exec env rest .skip_switch s
          else none
      | .case_id _ => rpc_exec env rest .run s
      | .if_unset name =>
          if env.recv_call name then rpc_exec env rest .skip_if s
          else rpc_exec env rest .run s
      | .return_unset => some (1, s.events)
      | .end_if => rpc_exec env rest .run s
      | .arg_decl _ _ => rpc_exec env rest .run s
      | .unmarshall_arg type _ =>
          rpc_exec env rest .run
            { error := some (env.unmarshall type), events := s.events ++ [.unmarshalled type] }
      | .check_error =>
          match s.error with
          | none => none
          | some error => if error < 0 then some (2, s.events) else rpc_exec env rest .run s
      | .call_arg name =>
          if env.recv_call name then
            rpc_exec env rest .run { s with events := s.events ++ [.called name true] }
          else none
      | .call_void name =>
          if env.recv_call name then
            rpc_exec env rest .run { s with events := s.events ++ [.called name false] }
          else none
      | .break_ => rpc_exec env rest .skip_switch s
      | .default_ => rpc_exec env rest .run s
      | .return_default => some (1, s.events)
      | .end_switch => rpc_exec env rest .run s
      | .return_zero => some (0, s.events)

/-- A call of the emitted dispatcher: the run of its body from the first line, with
`error` not assigned and no call made. -/
def call_dispatch (env : rpc_env) (version : xdr_version) : Option (Nat × List rpc_event) :=
  rpc_exec env (emit_call_dispatch version).body .run { error := none, events := [] }

/-- The dispatcher as the specification words it: 1 when `msg->proc` equals no
declared procedure id or the callback of the matching procedure is unset; 2 when
unmarshalling a call argument that is not void fails; otherwise the callback of
the matching procedure is invoked and the result is 0; the argument is
unmarshalled only when the call type is not void. -/
def call_dispatch_spec (env : rpc_env) (functions : List xdr_function) : Nat × List rpc_event :=
  match functions.find? (fun f => env.const_val f.id == some env.proc) with
  | none => (1, [])
  | some f =>
      if env.recv_call f.name = false then (1, [])
      else if f.call_type.name ≠ "void" then
        if env.unmarshall f.call_type.name < 0 then (2, [.unmarshalled f.call_type.name])
        else (0, [.unmarshalled f.call_type.name, .called f.name true])
      else (0, [.called f.name false])

/-- Two procedures of an example version: `void NULLPROC(void) = 0;` and
`reply READ(args) = 6;`. -/
def example_version : xdr_version :=
  { id := "3", name := "NFS_V3",
    functions :=
      [{ id := "0", name := "NULLPROC", call_type := plain_type "void" true,
         reply_type := plain_type "void" true },
       { id := "6", name := "READ", call_type := plain_type "args" false,
         reply_type := plain_type "reply" false }] }

/-- An example environment of a dispatcher: decimal case labels, every callback
set but `unset`, unmarshalling that fails with `-1` when `fail` is set. -/
def example_env (proc : Nat) (unset : String) (fail : Bool) : rpc_env :=
  { proc := proc, const_val := c_decimal, recv_call := fun name => name != unset,
    unmarshall := fun _ => if fail then -1 else 8 }

/-- Whether the identifier called `n` is in the table and marked emitted. -/
def emitted_in (xdr_identifiers : List xdr_identifier) (n : String) : Bool :=
  match HASH_FIND_STR xdr_identifiers n with
  | some chk => chk.emitted
  | none => false

/-- Whether an identifier called `n` is in the table. -/
def defined_in (xdr_identifiers : List xdr_identifier) (n : String) : Bool :=
  (HASH_FIND_STR xdr_identifiers n).isSome

/-- The names that the readiness test of an aggregate looks up in the table: the
names of the non-builtin member types of a struct, or of the non-builtin case
types of a union, the aggregate itself included. -/
def xdr_body.lookups : xdr_body → List String
  | .struct_body s => (s.members.filter (fun m => !m.type.builtin)).map (fun m => m.type.name)
  | .union_body u =>
      ((u.cases.filterMap (fun c => c.type)).filter (fun t => !t.builtin)).map (fun t => t.name)

/-- The readiness tests of the emission loop in closed form, for a table that holds
every name looked up: a struct is ready when each name is its own or marked
emitted, a union when each name is marked emitted. -/
def body_ready (xdr_identifiers : List xdr_identifier) : xdr_body → Bool
  | .struct_body s =>
      (xdr_body.struct_body s).lookups.all (fun n => n == s.name || emitted_in xdr_identifiers n)
  | .union_body u =>
      (xdr_body.union_body u).lookups.all (fun n => emitted_in xdr_identifiers n)

/-- The state after the body `d` has been written and its identifier marked. -/
def emit_state.written (st : emit_state) (d : xdr_body) : emit_state :=
  { xdr_identifiers := set_emitted st.xdr_identifiers d.name, header := st.header ++ [d] }

/-- The body of the loops over `xdr_structs` and `xdr_unions` in closed form, for a
table that holds every name looked up. -/
def emit_body_step (st : emit_state) (unemitted : Bool) (d : xdr_body) : emit_state × Bool :=
  if emitted_in st.xdr_identifiers d.name then (st, unemitted)
  else if body_ready st.xdr_identifiers d then (st.written d, unemitted)
  else (st, true)

/-- The loops over `xdr_structs` and `xdr_unions` in closed form. -/
def emit_bodies : List xdr_body → emit_state → Bool → emit_state × Bool
  | [], st, unemitted => (st, unemitted)
  | d :: ds, st, unemitted =>
      emit_bodies ds (emit_body_step st unemitted d).1 (emit_body_step st unemitted d).2

/-- The bodies that the emission loop has to write: those of `xdr_structs`, then
those of `xdr_unions`. -/
def xdr_bodies (xdr_structs : List xdr_struct) (xdr_unions : List xdr_union) : List xdr_body :=
  xdr_structs.map .struct_body ++ xdr_unions.map .union_body

/-- The reference graph among structs and unions: the aggregate called `a` has a
non-builtin member, or case, of the type called `b`, other than itself.  A name
`b` that is not the name of an aggregate has no reference of its own. -/
def refers (xdr_structs : List xdr_struct) (xdr_unions : List xdr_union) (a b : String) : Prop :=
  ∃ d ∈ xdr_bodies xdr_structs xdr_unions, d.name = a ∧ b ∈ d.refs

/-- Two tables of which the second is the first but for flags `emitted` that have
changed from false to true. -/
def emitted_mono (t t1 : List xdr_identifier) : Prop :=
  List.Forall₂ (fun i i1 => i1 = i ∨ (i.emitted = false ∧ i1 = { i with emitted := true })) t t1

/-- The state of the emission loop is well formed for the bodies `B` that the loop
has to write: the table holds the name of every aggregate and every name that a
readiness test looks up, each such name being marked emitted (a typedef, an
enum) or the name of an aggregate; the bodies in the header are bodies of `B`
whose identifiers are marked emitted; the body of every aggregate marked
emitted is in the header; and no body is in the header twice. -/
def emit_wf (B : List xdr_body) (st : emit_state) : Prop :=
  (∀ d ∈ B, defined_in st.xdr_identifiers d.name = true ∧
    ∀ n ∈ d.lookups, defined_in st.xdr_identifiers n = true ∧
      (emitted_in st.xdr_identifiers n = true ∨ n ∈ B.map xdr_body.name)) ∧
  (∀ d ∈ st.header, d ∈ B ∧ emitted_in st.xdr_identifiers d.name = true) ∧
  (∀ d ∈ B, emitted_in st.xdr_identifiers d.name = true → d ∈ st.header) ∧
  st.header.Nodup

/-- The union of `union W switch (uint32_t tag) { case 1: C c; default: void; };`. -/
def holder_union : xdr_union :=
  ⟨"W", "tag", plain_type "uint32_t" true,
    [⟨"1", "c", some (plain_type "C" false), false⟩, ⟨"default", "", none, true⟩]⟩

/-- Whether a printed line of a marshalling routine encodes the member `in->NAME`
itself: a codec call or a cursor copy whose data argument is `&in->NAME` or
`in->NAME`. -/
def c_line.encodes (name : String) : c_line → Bool
  | .call _ (.addr_field f) _ => f == name
  | .call _ (.field f) _ => f == name
  | .call_zerocopy f => f == name
  | .cursor_append f _ => f == name
  | _ => false

/-- Whether a printed line of an unmarshalling routine decodes the member
`out->NAME` itself. -/
def c_line.decodes (name : String) : c_line → Bool
  | .call_dbuf _ (.addr_field f) _ => f == name
  | .call_dbuf _ (.field f) _ => f == name
  | .call_dbuf_zerocopy f => f == name
  | .cursor_extract f _ => f == name
  | _ => false

/-- Whether a printed line moves the cursor: a codec call or a cursor copy. -/
def c_line.is_codec : c_line → Bool
  | .call _ _ _ => true
  | .call_dbuf _ _ _ => true
  | .call_zerocopy _ => true
  | .call_dbuf_zerocopy _ => true
  | .cursor_append _ _ => true
  | .cursor_extract _ _ => true
  | _ => false

/-- Whether a printed line codes the 32-bit word that goes with the member `NAME`:
the count `num_NAME` of a vector or the presence word `more` of an optional. -/
def c_line.member_word (name : String) : c_line → Bool
  | .call fn (.addr_field f) .one => fn == "__marshall_uint32_t" && f == "num_" ++ name
  | .call fn .addr_more .one => fn == "__marshall_uint32_t"
  | .call_dbuf fn (.addr_field f) .one => fn == "__unmarshall_uint32_t" && f == "num_" ++ name
  | .call_dbuf fn .addr_more .one => fn == "__unmarshall_uint32_t"
  | _ => false

/-- Following the spec (per-member codec contract): the encoding of the member `m`
of the struct value `v`, for the members of type `uint32_t` of every shape and
the plain members of type `xdr_string`.  A scalar is one big-endian word; a
string is its length word, its bytes and the zero padding; an optional is the
presence word 1 followed by the value, or the presence word 0; a vector is
the count word followed by the elements in index order; a fixed array is its
`array_size` elements in index order.  The result is none when the member is
of another type or the value has no field of the shape of the member. -/
def member_wire (env : c_env) (v : c_struct) (m : xdr_struct_member) : Option (List Byte) :=
  if m.type.opaque_ then none
  else if m.type.name = "xdr_string" then
    if m.type.optional ∨ m.type.vector ∨ m.type.array then none
    else
      match c_field v m.name with
      | some (.string x) =>
          if x.str + x.len ≤ env.mem.length ∧ x.len < 2147483648 then
            some (xdr_string_wire env.mem x)
          else none
      | _ => none
  else if m.type.name = "uint32_t" then
    if m.type.optional then
      match c_field v m.name with
      | some (.words none) => some (be32 0)
      | some (.words (some [x])) => some (be32 1 ++ be32 x)
      | _ => none
    else if m.type.vector then
      match c_field v ("num_" ++ m.name), c_field v m.name with
      | some (.word n), some (.words (some xs)) =>
          if xs.length = n then some (be32 n ++ be32s xs) else none
      | _, _ => none
    else if m.type.array then
      match env.const_val m.type.array_size, c_field v m.name with
      | some n, some (.words (some xs)) => if xs.length = n then some (be32s xs) else none
      | _, _ => none
    else
      match c_field v m.name with
      | some (.word x) => some (be32 x)
      | _ => none
  else none

/-- Following the spec: the wire image of a struct value, the concatenation of the
encodings of its members in declared order. -/
def struct_wire (env : c_env) (v : c_struct) : List xdr_struct_member → Option (List Byte)
  | [] => some []
  | m :: ms =>
      match member_wire env v m, struct_wire env v ms with
      | some w, some ws => some (w ++ ws)
      | _, _ => none

/-- The variables of an unmarshalling routine of a struct: the cursor, the decode
buffer, the members of `*out` assigned so far in the order of the assignments, `rc`
and the 32-bit pattern of `int len`. -/
structure u_state where
  cursor : xdr_cursor
  dbuf : xdr_dbuf
  out : c_struct
  rc : Int
  len : Nat
deriving DecidableEq, Repr

/-- How the execution of a list of lines of an unmarshalling routine ends: at its
end, or in a `return`. -/
inductive u_outcome
  | next (s : u_state)
  | ret (rc : Int) (s : u_state)
deriving DecidableEq, Repr

/-- The execution of one printed line of the unmarshalling routine of a struct that
reads from the iovecs `iovs`.  Embedded are the calls that decode a member into
storage the struct itself holds: `__unmarshall_uint32_t(&out->NAME, 1, ...)` and
`__unmarshall_xdr_string(&out->NAME, 1, ...)` of a plain member, which assign what
the callee has stored, and `__unmarshall_uint32_t(out->NAME, SIZE, ...)` of a fixed
array.  The other calls, the blocks of optional members and `xdr_dbuf_reserve` are
outside the embedding. -/
def u_step (env : c_env) (iovs : List xdr_iovec) (l : c_line) (s : u_state) : Option u_outcome :=
  match l with
  | .call_dbuf fn (.addr_field f) .one =>
      if fn = "__unmarshall_uint32_t" then
        match __unmarshall_uint32_t env.le 1 iovs s.cursor with
        | none => none
        | some (rc, vals, c1) =>
            some (.next { s with cursor := c1, rc := rc,
                                 out := s.out ++ vals.map (fun x => (f, c_val.word x)) })
      else if fn = "__unmarshall_xdr_string" then
        match __unmarshall_xdr_string env.le 1 iovs s.cursor s.dbuf with
        | none => none
        | some (rc, strs, dbuf1, c1) =>
            some (.next { s with cursor := c1, dbuf := dbuf1, rc := rc,
                                 out := s.out ++ strs.map (fun x => (f, c_val.string x)) })
      else none
  | .call_dbuf fn (.field f) (.text t) =>
      if fn = "__unmarshall_uint32_t" then
        match env.const_val t with
        | none => none
        | some n =>
            if 2147483648 ≤ n then none
            else
              match __unmarshall_uint32_t env.le n iovs s.cursor with
              | none => none
              | some (rc, vals, c1) =>
                  some (.next { s with cursor := c1, rc := rc,
                                       out := s.out ++ [(f, c_val.words (some vals))] })
      else none
  | .check_rc => if s.rc < 0 then some (.ret s.rc s) else some (.next s)
  | .add_len => some (.next { s with len := uint32_of_int (int_of_uint s.len + s.rc) })
  | _ => none

/-- The execution of printed lines of an unmarshalling routine, one after the
other, until one of them returns. -/
def u_exec (env : c_env) (iovs : List xdr_iovec) : List c_line → u_state → Option u_outcome
  | [], s => some (.next s)
  | l :: ls, s =>
      match u_step env iovs l s with
      | some (.next s1) => u_exec env iovs ls s1
      | r => r

/-- The `for` loop of an emitted unmarshalling routine with the body `body`: `k`
iterations are left and `outs` are the elements of `outarray` written so far. -/
def u_loop (env : c_env) (iovs : List xdr_iovec) (body : List c_line) :
    Nat → u_state → List c_struct → Option (Int × List c_struct × xdr_dbuf × xdr_cursor)
  | 0, s, outs => some (int_of_uint s.len, outs, s.dbuf, s.cursor)
  | k + 1, s, outs =>
      match u_exec env iovs body { s with out := [] } with
      | none => none
      | some (.ret rc s1) => some (rc, outs ++ [s1.out], s1.dbuf, s1.cursor)
      | some (.next s1) => u_loop env iovs body k s1 (outs ++ [s1.out])

/-- The call `f(outarray, n, cursor, dbuf)` of an emitted unmarshalling routine: the
return value, the elements of `outarray`, the decode buffer and the cursor
afterwards.  `rc` is not initialised in C; it is assigned before it is read. -/
def u_run (env : c_env) (f : c_function) (n : Nat) (iovs : List xdr_iovec) (c : xdr_cursor)
    (dbuf : xdr_dbuf) : Option (Int × List c_struct × xdr_dbuf × xdr_cursor) :=
  u_loop env iovs f.body n { cursor := c, dbuf := dbuf, out := [], rc := 0, len := 0 } []

/-- Following the spec: what decoding yields for a member value when the decode
buffer has `used` bytes handed out: the value itself, a string pointing at the
place in the decode buffer its bytes are copied to. -/
def c_val.decoded (used : Nat) : c_val → c_val
  | .string x => .string { len := x.len, str := used }
  | val => val

/-- Following the spec: the bytes that decoding a member value stores in the decode
buffer: for a string its payload followed by a NUL byte. -/
def c_val.cstr (mem : List Byte) : c_val → List Byte
  | .string x => str_bytes mem x ++ [0]
  | _ => []

/-- Whether the 32-bit values of a member value are `uint32_t`s. -/
def c_val.in_range : c_val → Bool
  | .word x => decide (x < U32)
  | .words (some xs) => xs.all (fun x => decide (x < U32))
  | _ => true

/-- Following the spec: the struct that decoding the wire image of `v` yields, the
members in declared order, when the decode buffer has `used` bytes handed out. -/
def struct_decoded (mem : List Byte) (v : c_struct) : List xdr_struct_member → Nat → c_struct
  | [], _ => []
  | m :: ms, used =>
      match c_field v m.name with
      | some val =>
          (m.name, val.decoded used) :: struct_decoded mem v ms (used + (val.cstr mem).length)
      | none => struct_decoded mem v ms used

/-- Following the spec: the bytes that decoding the wire image of `v` stores in the
decode buffer, member after member in declared order. -/
def struct_cstr (mem : List Byte) (v : c_struct) : List xdr_struct_member → List Byte
  | [] => []
  | m :: ms =>
      match c_field v m.name with
      | some val => val.cstr mem ++ struct_cstr mem v ms
      | none => struct_cstr mem v ms

/-- Whether a member is decoded into storage the struct itself holds: it is neither
optional nor a vector. -/
def xdr_struct_member.inline (m : xdr_struct_member) : Bool :=
  !m.type.optional && !m.type.vector

/-- Whether the members of the struct value `v` that `ms` names hold `uint32_t`s. -/
def struct_in_range (v : c_struct) (ms : List xdr_struct_member) : Bool :=
  ms.all (fun m =>
    match c_field v m.name with
    | some val => val.in_range
    | none => true)

/-- A struct with a member of each shape:
`struct T { uint32_t a; uint32_t *o; uint32_t v<>; uint32_t f[2]; xdr_string s; }`. -/
def shapes_struct : xdr_struct :=
  ⟨"T",
   [⟨"a", plain_type "uint32_t" true⟩,
    ⟨"o", { plain_type "uint32_t" true with optional := true }⟩,
    ⟨"v", { plain_type "uint32_t" true with vector := true }⟩,
    ⟨"f", { plain_type "uint32_t" true with array := true, array_size := "2" }⟩,
    ⟨"s", plain_type "xdr_string" true⟩]⟩

/-- A value of `shapes_struct`: `a = 1`, `o` points at 5, `v = { 6, 7 }`,
`f = { 8, 9 }`, and `s` is the two bytes at the start of the memory. -/
def shapes_value : c_struct :=
  [("a", .word 1), ("o", .words (some [5])), ("num_v", .word 2), ("v", .words (some [6, 7])),
   ("f", .words (some [8, 9])), ("s", .string ⟨2, 0⟩)]

/-- A struct whose members are all decoded into storage of the struct:
`struct U { uint32_t a; uint32_t f[2]; xdr_string s; }`. -/
def inline_struct : xdr_struct :=
  ⟨"U",
   [⟨"a", plain_type "uint32_t" true⟩,
    ⟨"f", { plain_type "uint32_t" true with array := true, array_size := "2" }⟩,
    ⟨"s", plain_type "xdr_string" true⟩]⟩

/-- A value of `inline_struct`. -/
def inline_value : c_struct :=
  [("a", .word 1), ("f", .words (some [8, 9])), ("s", .string ⟨2, 0⟩)]

/-! ## Arithmetic of the byte order conversions -/

theorem int_of_uint_small (u : Nat) (h : u < 2147483648) : int_of_uint u = (u : Int) := by
  unfold int_of_uint U32
  have h1 : u % 4294967296 = u := Nat.mod_eq_of_lt (by omega)
  rw [h1, if_pos h]

theorem digits256 (a b c d : Nat) (ha : a < 256) (hb : b < 256) (hc : c < 256) (hd : d < 256) :
    (a * 16777216 + b * 65536 + c * 256 + d) % 256 = d ∧
    (a * 16777216 + b * 65536 + c * 256 + d) / 256 % 256 = c ∧
    (a * 16777216 + b * 65536 + c * 256 + d) / 65536 % 256 = b ∧
    (a * 16777216 + b * 65536 + c * 256 + d) / 16777216 % 256 = a := by
  omega

theorem mem_hton32 (le : Bool) (x : Nat) : mem_of_uint32 le (xdr_hton32 le x) = be32 x := by
  cases le
  · simp only [mem_of_uint32, xdr_hton32, be32, byte, U32, Bool.false_eq_true, if_false]
    simp only [List.cons.injEq, Fin.mk.injEq, and_true]
    omega
  · have h := digits256 (x % 256) (x / 256 % 256) (x / 65536 % 256) (x / 16777216 % 256)
      (Nat.mod_lt _ (by decide)) (Nat.mod_lt _ (by decide)) (Nat.mod_lt _ (by decide))
      (Nat.mod_lt _ (by decide))
    simp only [mem_of_uint32, xdr_hton32, be32, byte, bswap32, if_true]
    simp only [List.cons.injEq, Fin.mk.injEq, and_true]
    exact h

theorem ntoh32_mem (le : Bool) (x : Nat) (hx : x < U32) :
    xdr_ntoh32 le (uint32_of_mem le (be32 x)) = x := by
  unfold U32 at hx
  cases le
  · simp only [xdr_ntoh32, uint32_of_mem, be32, byte, U32, Bool.false_eq_true, if_false]
    omega
  · have h := digits256 (x % 256) (x / 256 % 256) (x / 65536 % 256) (x / 16777216 % 256)
      (Nat.mod_lt _ (by decide)) (Nat.mod_lt _ (by decide)) (Nat.mod_lt _ (by decide))
      (Nat.mod_lt _ (by decide))
    simp only [xdr_ntoh32, uint32_of_mem, be32, byte, bswap32, if_true]
    have e : x / 16777216 % 256 + x / 65536 % 256 * 256 + x / 256 % 256 * 65536 + x % 256 * 16777216
        = x % 256 * 16777216 + x / 256 % 256 * 65536 + x / 65536 % 256 * 256 + x / 16777216 % 256 := by
      omega
    rw [e, h.1, h.2.1, h.2.2.1, h.2.2.2]
    clear h e
    omega

/-! ## Storing into a byte range -/

theorem length_iov_store (iov : xdr_iovec) (o : Nat) (w : List Byte)
    (h : o + w.length ≤ iov.length) : (iov_store iov o w).length = iov.length := by
  unfold iov_store
  simp only [List.length_append, List.length_take, List.length_drop]
  omega

theorem iov_store_append (iov : xdr_iovec) (o : Nat) (w1 w2 : List Byte)
    (h : o + w1.length + w2.length ≤ iov.length) :
    iov_store (iov_store iov o w1) (o + w1.length) w2 = iov_store iov o (w1 ++ w2) := by
  unfold iov_store
  have h1 : (iov.take o).length = o := by simp; omega
  have e1 : (iov.take o ++ w1 ++ iov.drop (o + w1.length)).take (o + w1.length)
      = iov.take o ++ w1 := by
    rw [List.take_append_eq_append_take]
    simp [h1]
  have e2 : (iov.take o ++ w1 ++ iov.drop (o + w1.length)).drop (o + w1.length + w2.length)
      = iov.drop (o + w1.length + w2.length) := by
    rw [List.drop_append_eq_append_drop]
    simp [h1]
  rw [e1, e2]
  simp [List.append_assoc, Nat.add_assoc]

theorem drop_iov_store (iov : xdr_iovec) (o : Nat) (w : List Byte) (h : o ≤ iov.length) :
    (iov_store iov o w).drop o = w ++ iov.drop (o + w.length) := by
  unfold iov_store
  have h1 : (iov.take o).length = o := by simp; omega
  rw [List.append_assoc, List.drop_append_eq_append_drop]
  simp [h1]

theorem take_iov_store (iov : xdr_iovec) (o : Nat) (w : List Byte) (h : o ≤ iov.length) :
    (iov_store iov o w).take o = iov.take o := by
  unfold iov_store
  have h1 : (iov.take o).length = o := by simp; omega
  rw [List.append_assoc, List.take_append_eq_append_take]
  simp [h1]

theorem iov_store_nil (iov : xdr_iovec) (o : Nat) : iov_store iov o [] = iov := by
  unfold iov_store
  simp

/-! ## The cursor inside one iovec -/

theorem append_fast (iovs : List xdr_iovec) (c : xdr_cursor) (src : List Byte) (bytes : Nat)
    (iov : xdr_iovec) (hcur : iovs[c.cur]? = some iov)
    (hroom : c.offset + bytes ≤ xdr_iovec_len iov) (hsrc : bytes ≤ src.length) :
    xdr_cursor_append iovs c src bytes =
      some (int_of_uint bytes, iovs.set c.cur (iov_store iov c.offset (src.take bytes)),
            { c with offset := (c.offset + bytes) % U32 }) := by
  unfold xdr_cursor_append
  rw [hcur]
  have h1 : (c.offset + bytes) % U32 ≤ xdr_iovec_len iov :=
    Nat.le_trans (Nat.mod_le _ _) hroom
  have h2 : ¬ (bytes ≠ 0 ∧ (xdr_iovec_len iov < c.offset + bytes ∨ src.length < bytes)) := by
    omega
  simp only [h1, h2, if_true, if_false]

theorem extract_fast (iovs : List xdr_iovec) (c : xdr_cursor) (bytes : Nat)
    (iov : xdr_iovec) (hcur : iovs[c.cur]? = some iov)
    (hroom : c.offset + bytes ≤ xdr_iovec_len iov) :
    xdr_cursor_extract iovs c bytes =
      some (int_of_uint bytes, (iov.drop c.offset).take bytes,
            { c with offset := (c.offset + bytes) % U32 }) := by
  unfold xdr_cursor_extract
  rw [hcur]
  have h1 : (c.offset + bytes) % U32 ≤ xdr_iovec_len iov :=
    Nat.le_trans (Nat.mod_le _ _) hroom
  have h2 : ¬ (bytes ≠ 0 ∧ xdr_iovec_len iov < c.offset + bytes) := by omega
  simp only [h1, h2, if_true, if_false]

theorem skip_fast (iovs : List xdr_iovec) (c : xdr_cursor) (bytes : Nat)
    (iov : xdr_iovec) (hcur : iovs[c.cur]? = some iov)
    (hroom : c.offset + bytes ≤ xdr_iovec_len iov) :
    xdr_cursor_skip iovs c bytes =
      some (int_of_uint bytes, { c with offset := (c.offset + bytes) % U32 }) := by
  unfold xdr_cursor_skip
  rw [hcur]
  have h1 : (c.offset + bytes) % U32 ≤ xdr_iovec_len iov :=
    Nat.le_trans (Nat.mod_le _ _) hroom
  simp only [h1, if_true]

theorem length_be32 (x : Nat) : (be32 x).length = 4 := rfl

/-- C1: for a 32-bit value `x` and a write cursor with at least four bytes left
in its current iovec, `__marshall_uint32_t` of the one value returns 4 and stores
exactly the four bytes of `x`, most significant first, at the cursor position:
the bytes before and after them and the other iovecs are unchanged. -/
theorem marshall_uint32_t_one (le : Bool) (x : Nat) (iovs : List xdr_iovec) (c : xdr_cursor)
    (iov : xdr_iovec) (hx : x < U32) (hcur : iovs[c.cur]? = some iov)
    (hroom : c.offset + 4 ≤ xdr_iovec_len iov) :
    __marshall_uint32_t le [x] 1 iovs c =
      some (4,
            iovs.set c.cur
              (iov.take c.offset ++
                [byte (x / 16777216), byte (x / 65536), byte (x / 256), byte x] ++
                iov.drop (c.offset + 4)),
            { c with offset := (c.offset + 4) % U32 }) ∧
    (byte (x / 16777216)).val * 16777216 + (byte (x / 65536)).val * 65536 +
      (byte (x / 256)).val * 256 + (byte x).val = x := by
  constructor
  · have h := append_fast iovs c (mem_of_uint32 le (xdr_hton32 le x)) 4 iov hcur hroom
      (by rw [mem_hton32]; exact Nat.le_refl _)
    simp only [__marshall_uint32_t, marshall_uint32_t_loop, h]
    rw [mem_hton32]
    rfl
  · unfold U32 at hx
    simp only [byte]
    omega

/-- C1, instance: `0x01020304` is stored as `01 02 03 04`. -/
theorem marshall_uint32_t_one_witness :
    __marshall_uint32_t true [0x01020304] 1 [[9, 9, 9, 9, 9, 9]] ⟨0, 0, 1⟩ =
      some (4, [[9, 1, 2, 3, 4, 9]], ⟨0, 0, 5⟩) :=
  (marshall_uint32_t_one true 0x01020304 [[9, 9, 9, 9, 9, 9]] ⟨0, 0, 1⟩ [9, 9, 9, 9, 9, 9]
    (by decide) (by decide) (by decide)).1.trans (by decide)

/-! ## Arrays of 32-bit values in one iovec -/

theorem be32s_cons (x : Nat) (xs : List Nat) : be32s (x :: xs) = be32 x ++ be32s xs := rfl

theorem length_be32s (v : List Nat) : (be32s v).length = 4 * v.length := by
  induction v with
  | nil => rfl
  | cons x xs ih =>
      rw [be32s_cons, List.length_append, ih, length_be32, List.length_cons]
      omega

theorem set_of_getElem? {α : Type} : ∀ (l : List α) (i : Nat) (a : α), l[i]? = some a → l.set i a = l
  | [], _, _, h => by simp at h
  | x :: xs, 0, a, h => by
      simp only [List.getElem?_cons_zero, Option.some.injEq] at h
      simp [h]
  | x :: xs, i + 1, a, h => by
      simp only [List.getElem?_cons_succ] at h
      simp [set_of_getElem? xs i a h]

theorem int_of_uint_four : int_of_uint 4 = 4 := rfl

theorem marshall_uint32_t_loop_single (le : Bool) (ret : Int) :
    ∀ (v : List Nat) (iovs : List xdr_iovec) (c : xdr_cursor) (iov : xdr_iovec),
      iovs[c.cur]? = some iov → c.offset + 4 * v.length ≤ xdr_iovec_len iov →
      xdr_iovec_len iov < U32 →
      marshall_uint32_t_loop le ret v.length v iovs c =
        some (ret, iovs.set c.cur (iov_store iov c.offset (be32s v)),
              { cur := c.cur, last := c.last, offset := c.offset + 4 * v.length }) := by
  intro v
  induction v with
  | nil =>
      intro iovs c iov hcur _ _
      obtain ⟨hlt, heq⟩ := List.getElem?_eq_some.mp hcur
      simp only [List.length_nil, marshall_uint32_t_loop, be32s, List.map_nil, List.flatten_nil,
        iov_store_nil, Nat.mul_zero, Nat.add_zero]
      rw [set_of_getElem? iovs c.cur iov hcur]
  | cons x xs ih =>
      intro iovs c iov hcur hroom hlen
      obtain ⟨hlt, heq⟩ := List.getElem?_eq_some.mp hcur
      simp only [List.length_cons] at hroom ⊢
      have hroom4 : c.offset + 4 ≤ xdr_iovec_len iov := by omega
      have h := append_fast iovs c (mem_of_uint32 le (xdr_hton32 le x)) 4 iov hcur hroom4
        (by rw [mem_hton32]; exact Nat.le_refl _)
      have hmod : (c.offset + 4) % U32 = c.offset + 4 := Nat.mod_eq_of_lt (by omega)
      rw [mem_hton32, hmod] at h
      have htake : (be32 x).take 4 = be32 x := rfl
      rw [htake] at h
      simp only [marshall_uint32_t_loop, mem_hton32, h, int_of_uint_four]
      have hlen1 : (iov_store iov c.offset (be32 x)).length = iov.length :=
        length_iov_store iov c.offset (be32 x) (by rw [length_be32]; exact hroom4)
      have hcur1 : (iovs.set c.cur (iov_store iov c.offset (be32 x)))[c.cur]? =
          some (iov_store iov c.offset (be32 x)) := by
        rw [List.getElem?_set_self hlt]
      have := ih (iovs.set c.cur (iov_store iov c.offset (be32 x)))
        { cur := c.cur, last := c.last, offset := c.offset + 4 }
        (iov_store iov c.offset (be32 x)) hcur1
        (by unfold xdr_iovec_len at *; rw [hlen1]; simp only []; omega)
        (by unfold xdr_iovec_len at *; rw [hlen1]; exact hlen)
      simp only [] at this
      rw [if_neg (by decide), this, List.set_set]
      have e := iov_store_append iov c.offset (be32 x) (be32s xs)
        (by rw [length_be32, length_be32s]; unfold xdr_iovec_len at hroom; omega)
      rw [length_be32] at e
      rw [e, be32s_cons]
      have eo : c.offset + 4 + 4 * xs.length = c.offset + 4 * (xs.length + 1) := by omega
      rw [eo]

theorem take_split (L a b : List Byte) (n : Nat) (hb : b.length = n)
    (h : L.take (a.length + n) = a ++ b) :
    L.take a.length = a ∧ (L.drop a.length).take n = b := by
  rw [List.take_add] at h
  have hl : (L.take a.length).length = a.length := by
    have := congrArg List.length h
    simp only [List.length_append, List.length_take] at this ⊢
    omega
  have := List.append_inj h hl
  exact this

theorem int_of_uint_nonneg_of_small (u : Nat) (h : u < 2147483648) : ¬ int_of_uint u < 0 := by
  rw [int_of_uint_small u h]
  omega

theorem unmarshall_uint32_t_loop_single (le : Bool) (ret : Int) (iovs : List xdr_iovec) :
    ∀ (v : List Nat) (c : xdr_cursor) (iov : xdr_iovec) (out : List Nat),
      iovs[c.cur]? = some iov → c.offset + 4 * v.length ≤ xdr_iovec_len iov →
      xdr_iovec_len iov < U32 →
      (iov.drop c.offset).take (4 * v.length) = be32s v → (∀ x ∈ v, x < U32) →
      unmarshall_uint32_t_loop le ret iovs v.length c out =
        some (ret, out ++ v,
              { cur := c.cur, last := c.last, offset := c.offset + 4 * v.length }) := by
  intro v
  induction v with
  | nil =>
      intro c iov out _ _ _ _ _
      simp [unmarshall_uint32_t_loop]
  | cons x xs ih =>
      intro c iov out hcur hroom hlen hdata hv
      simp only [List.length_cons] at hroom hdata ⊢
      have hroom4 : c.offset + 4 ≤ xdr_iovec_len iov := by omega
      have h := extract_fast iovs c 4 iov hcur hroom4
      have hmod : (c.offset + 4) % U32 = c.offset + 4 := Nat.mod_eq_of_lt (by omega)
      have hd : (iov.drop c.offset).take ((be32 x).length + 4 * xs.length) = be32 x ++ be32s xs := by
        rw [length_be32, ← be32s_cons, ← hdata]
        congr 1
        omega
      obtain ⟨h1, h2⟩ := take_split _ _ _ _ (length_be32s xs) hd
      rw [length_be32] at h1 h2
      rw [h1, hmod] at h
      rw [List.drop_drop] at h2
      simp only [unmarshall_uint32_t_loop, h, int_of_uint_four]
      rw [if_neg (by decide), ntoh32_mem le x (hv x (List.mem_cons_self x xs))]
      have := ih { cur := c.cur, last := c.last, offset := c.offset + 4 } iov (out ++ [x]) hcur
        (by simp only []; omega) hlen h2 (fun y hy => hv y (List.mem_cons_of_mem x hy))
      simp only [] at this
      rw [this]
      have eo : c.offset + 4 + 4 * xs.length = c.offset + 4 * (xs.length + 1) := by omega
      rw [eo, List.append_assoc]
      rfl

theorem uint32_single (le : Bool) (v : List Nat) (iovs : List xdr_iovec) (c : xdr_cursor)
    (iov : xdr_iovec) (hv : ∀ x ∈ v, x < U32) (hcur : iovs[c.cur]? = some iov)
    (hroom : c.offset + 4 * v.length ≤ xdr_iovec_len iov) (hlen : xdr_iovec_len iov < U32) :
    __marshall_uint32_t le v v.length iovs c =
      some (int_shl v.length 2, iovs.set c.cur (iov_store iov c.offset (be32s v)),
            { cur := c.cur, last := c.last, offset := c.offset + 4 * v.length }) ∧
    __unmarshall_uint32_t le v.length (iovs.set c.cur (iov_store iov c.offset (be32s v))) c =
      some (int_shl v.length 2, v,
            { cur := c.cur, last := c.last, offset := c.offset + 4 * v.length }) := by
  obtain ⟨hlt, -⟩ := List.getElem?_eq_some.mp hcur
  have hsl : (iov_store iov c.offset (be32s v)).length = iov.length :=
    length_iov_store iov c.offset (be32s v) (by rw [length_be32s]; exact hroom)
  refine ⟨marshall_uint32_t_loop_single le _ v iovs c iov hcur hroom hlen, ?_⟩
  have := unmarshall_uint32_t_loop_single le (int_shl v.length 2)
    (iovs.set c.cur (iov_store iov c.offset (be32s v))) v c (iov_store iov c.offset (be32s v)) []
    (List.getElem?_set_self hlt) (by unfold xdr_iovec_len at *; rw [hsl]; exact hroom)
    (by unfold xdr_iovec_len at *; rw [hsl]; exact hlen)
    (by
      rw [drop_iov_store iov c.offset (be32s v) (by unfold xdr_iovec_len at hroom; omega),
        ← length_be32s v, List.take_left])
    hv
  simpa [__unmarshall_uint32_t] using this

theorem int_shl_two (n : Nat) (h : n < 536870912) : int_shl n 2 = 4 * (n : Int) := by
  unfold int_shl
  rw [int_of_uint_small _ (by omega)]
  push_cast
  omega

/-- C3 (with the bound `n < 2 ^ 29` that the `int` result `n << 2` needs):
marshalling an array `v` of `n` 32-bit values at a cursor whose current iovec has
at least `4 n` bytes left returns `4 n` and stores the big-endian images in
order; unmarshalling `n` values from the same position of the resulting iovec
returns `4 n` and yields `v`.  For `n = 0` nothing is written, the cursor is
unchanged and 0 is returned. -/
theorem uint32_array_roundtrip (le : Bool) (v : List Nat) (iovs : List xdr_iovec)
    (c : xdr_cursor) (iov : xdr_iovec) (hv : ∀ x ∈ v, x < U32) (hn : v.length < 536870912)
    (hcur : iovs[c.cur]? = some iov)
    (hroom : c.offset + 4 * v.length ≤ xdr_iovec_len iov) (hlen : xdr_iovec_len iov < U32) :
    __marshall_uint32_t le v v.length iovs c =
      some (4 * (v.length : Int), iovs.set c.cur (iov_store iov c.offset (be32s v)),
            { cur := c.cur, last := c.last, offset := c.offset + 4 * v.length }) ∧
    __unmarshall_uint32_t le v.length (iovs.set c.cur (iov_store iov c.offset (be32s v))) c =
      some (4 * (v.length : Int), v,
            { cur := c.cur, last := c.last, offset := c.offset + 4 * v.length }) ∧
    __marshall_uint32_t le [] 0 iovs c = some (0, iovs, c) ∧
    __unmarshall_uint32_t le 0 iovs c = some (0, [], c) := by
  have h := uint32_single le v iovs c iov hv hcur hroom hlen
  rw [int_shl_two _ hn] at h
  exact ⟨h.1, h.2, rfl, rfl⟩

/-- C3, instance: two values in a ten-byte iovec, starting at offset 1. -/
theorem uint32_array_roundtrip_witness :
    __marshall_uint32_t true [0x01020304, 0xFFFFFFFE] 2 [[9, 9, 9, 9, 9, 9, 9, 9, 9, 9]] ⟨0, 0, 1⟩ =
      some (8, [[9, 1, 2, 3, 4, 255, 255, 255, 254, 9]], ⟨0, 0, 9⟩) ∧
    __unmarshall_uint32_t true 2 [[9, 1, 2, 3, 4, 255, 255, 255, 254, 9]] ⟨0, 0, 1⟩ =
      some (8, [0x01020304, 0xFFFFFFFE], ⟨0, 0, 9⟩) := by
  have h := uint32_array_roundtrip true [0x01020304, 0xFFFFFFFE] [[9, 9, 9, 9, 9, 9, 9, 9, 9, 9]]
    ⟨0, 0, 1⟩ [9, 9, 9, 9, 9, 9, 9, 9, 9, 9] (by decide) (by decide) (by decide) (by decide)
    (by decide)
  exact ⟨h.1.trans (by decide), h.2.1.trans (by decide)⟩

/-- C3 as stated fails for large arrays: for `n = 2 ^ 29` values and an iovec of
`2 ^ 31` bytes the marshaller stores all the values but its `int` result
`n << 2` is not `4 n = 2 ^ 31`. -/
theorem uint32_array_large_count :
    Option.map Prod.fst
        (__marshall_uint32_t true (List.replicate 536870912 0) 536870912
          [List.replicate 2147483648 0] (xdr_cursor_init 1)) = some (-2147483648) ∧
      (-2147483648 : Int) ≠ 4 * 536870912 := by
  constructor
  · have h := (uint32_single true (List.replicate 536870912 0) [List.replicate 2147483648 0]
      (xdr_cursor_init 1) (List.replicate 2147483648 0)
      (fun x hx => by rw [List.eq_of_mem_replicate hx]; decide) rfl
      (by
        rw [List.length_replicate]
        unfold xdr_iovec_len
        rw [List.length_replicate]
        decide)
      (by
        unfold xdr_iovec_len
        rw [List.length_replicate]
        decide)).1
    rw [List.length_replicate] at h
    rw [h]
    rfl
  · decide

/-! ## Strings in one iovec -/

theorem append_single (iovs : List xdr_iovec) (cur : Nat) (last : Int) (o : Nat)
    (iov : xdr_iovec) (w src : List Byte) (bytes : Nat) (hcur : cur < iovs.length)
    (hroom : o + w.length + bytes ≤ xdr_iovec_len iov) (hlen : xdr_iovec_len iov < U32)
    (hsrc : bytes ≤ src.length) :
    xdr_cursor_append (iovs.set cur (iov_store iov o w))
        { cur := cur, last := last, offset := o + w.length } src bytes =
      some (int_of_uint bytes, iovs.set cur (iov_store iov o (w ++ src.take bytes)),
            { cur := cur, last := last, offset := o + w.length + bytes }) := by
  unfold xdr_iovec_len at hroom hlen
  have hsl : (iov_store iov o w).length = iov.length :=
    length_iov_store iov o w (by omega)
  have h := append_fast (iovs.set cur (iov_store iov o w))
    { cur := cur, last := last, offset := o + w.length } src bytes (iov_store iov o w)
    (List.getElem?_set_self hcur) (by unfold xdr_iovec_len; rw [hsl]; exact hroom) hsrc
  have hmod : (o + w.length + bytes) % U32 = o + w.length + bytes := Nat.mod_eq_of_lt (by omega)
  have ht : (src.take bytes).length = bytes := by
    rw [List.length_take]; omega
  have e := iov_store_append iov o w (src.take bytes) (by rw [ht]; exact hroom)
  simp only [hmod, List.set_set, e] at h
  exact h

theorem set_iov_store_nil (iovs : List xdr_iovec) (cur o : Nat) (iov : xdr_iovec)
    (hcur : iovs[cur]? = some iov) : iovs.set cur (iov_store iov o []) = iovs := by
  rw [iov_store_nil, set_of_getElem? iovs cur iov hcur]

theorem mem_of_uint32_zero (le : Bool) (p : Nat) (hp : p ≤ 4) :
    (mem_of_uint32 le 0).take p = List.replicate p 0 := by
  have h4 : p = 0 ∨ p = 1 ∨ p = 2 ∨ p = 3 ∨ p = 4 := by omega
  cases le <;> rcases h4 with h | h | h | h | h <;> subst h <;> rfl

theorem length_str_bytes (mem : List Byte) (s : xdr_string) (hs : s.str + s.len ≤ mem.length) :
    (str_bytes mem s).length = s.len := by
  unfold str_bytes
  rw [List.length_take, List.length_drop]
  omega

theorem length_xdr_string_wire (mem : List Byte) (s : xdr_string)
    (hs : s.str + s.len ≤ mem.length) :
    (xdr_string_wire mem s).length = 4 + s.len + xdr_pad s.len := by
  unfold xdr_string_wire
  rw [List.length_append, List.length_append, length_be32, length_str_bytes mem s hs,
    List.length_replicate]

theorem xdr_strings_wire_cons (mem : List Byte) (s : xdr_string) (ss : List xdr_string) :
    xdr_strings_wire mem (s :: ss) = xdr_string_wire mem s ++ xdr_strings_wire mem ss := rfl

theorem int_of_uint_congr (a b : Nat) (h : a % U32 = b % U32) : int_of_uint a = int_of_uint b := by
  unfold int_of_uint
  rw [h]

/-- The three stores that `__marshall_xdr_string` makes for one string, in an iovec
that already holds `w` from offset `o` on. -/
theorem marshall_string_stores (le : Bool) (mem : List Byte) (s : xdr_string)
    (iovs : List xdr_iovec) (cur : Nat) (last : Int) (o : Nat) (iov : xdr_iovec) (w : List Byte)
    (hcur : cur < iovs.length) (hs : s.str + s.len ≤ mem.length)
    (hroom : o + w.length + (4 + s.len + xdr_pad s.len) ≤ xdr_iovec_len iov)
    (hlen : xdr_iovec_len iov < U32) :
    __marshall_uint32_t le [s.len] 1 (iovs.set cur (iov_store iov o w))
        { cur := cur, last := last, offset := o + w.length } =
      some (4, iovs.set cur (iov_store iov o (w ++ be32 s.len)),
            { cur := cur, last := last, offset := o + (w ++ be32 s.len).length }) ∧
    xdr_cursor_append (iovs.set cur (iov_store iov o (w ++ be32 s.len)))
        { cur := cur, last := last, offset := o + (w ++ be32 s.len).length }
        (mem.drop s.str) s.len =
      some (int_of_uint s.len, iovs.set cur (iov_store iov o (w ++ be32 s.len ++ str_bytes mem s)),
            { cur := cur, last := last,
              offset := o + (w ++ be32 s.len ++ str_bytes mem s).length }) ∧
    xdr_cursor_append (iovs.set cur (iov_store iov o (w ++ be32 s.len ++ str_bytes mem s)))
        { cur := cur, last := last, offset := o + (w ++ be32 s.len ++ str_bytes mem s).length }
        (mem_of_uint32 le 0) (xdr_pad s.len) =
      some (int_of_uint (xdr_pad s.len),
            iovs.set cur (iov_store iov o (w ++ xdr_string_wire mem s)),
            { cur := cur, last := last, offset := o + (w ++ xdr_string_wire mem s).length }) := by
  have hp : xdr_pad s.len ≤ 3 := by unfold xdr_pad; omega
  have hsb := length_str_bytes mem s hs
  refine ⟨?_, ?_, ?_⟩
  · have h := append_single iovs cur last o iov w (mem_of_uint32 le (xdr_hton32 le s.len)) 4 hcur
      (by omega) hlen (by rw [mem_hton32]; exact Nat.le_refl _)
    rw [mem_hton32] at h
    have htake : (be32 s.len).take 4 = be32 s.len := rfl
    rw [htake] at h
    simp only [__marshall_uint32_t, marshall_uint32_t_loop, mem_hton32, h, int_of_uint_four]
    rw [if_neg (by decide), List.length_append, length_be32, Nat.add_assoc]
    rfl
  · have h := append_single iovs cur last o iov (w ++ be32 s.len) (mem.drop s.str) s.len hcur
      (by rw [List.length_append, length_be32]; omega) hlen
      (by rw [List.length_drop]; omega)
    rw [h, List.length_append (w ++ be32 s.len) (str_bytes mem s), hsb, Nat.add_assoc]
    rfl
  · have h := append_single iovs cur last o iov (w ++ be32 s.len ++ str_bytes mem s)
      (mem_of_uint32 le 0) (xdr_pad s.len) hcur
      (by rw [List.length_append, List.length_append, length_be32, hsb]; omega) hlen
      (by cases le <;> simp [mem_of_uint32] <;> omega)
    have ew : w ++ xdr_string_wire mem s =
        w ++ be32 s.len ++ str_bytes mem s ++ List.replicate (xdr_pad s.len) 0 := by
      simp only [xdr_string_wire, List.append_assoc]
    rw [h, mem_of_uint32_zero le _ (by omega), ew,
      List.length_append _ (List.replicate (xdr_pad s.len) 0), List.length_replicate,
      Nat.add_assoc]

theorem marshall_xdr_string_loop_single (le : Bool) (mem : List Byte) (iovs : List xdr_iovec)
    (cur : Nat) (last : Int) (o : Nat) (iov : xdr_iovec) (hcur : cur < iovs.length)
    (hlen : xdr_iovec_len iov < U32) :
    ∀ (strs : List xdr_string) (w : List Byte) (len : Nat),
      (∀ s ∈ strs, s.str + s.len ≤ mem.length ∧ s.len < 2147483648) →
      len % 4 = 0 →
      o + w.length + (xdr_strings_wire mem strs).length ≤ xdr_iovec_len iov →
      marshall_xdr_string_loop le mem strs.length strs len (iovs.set cur (iov_store iov o w))
          { cur := cur, last := last, offset := o + w.length } =
        some (int_of_uint (len + (xdr_strings_wire mem strs).length),
              iovs.set cur (iov_store iov o (w ++ xdr_strings_wire mem strs)),
              { cur := cur, last := last,
                offset := o + (w ++ xdr_strings_wire mem strs).length }) := by
  intro strs
  induction strs with
  | nil =>
      intro w len _ _ _
      simp [marshall_xdr_string_loop, xdr_strings_wire]
  | cons s ss ih =>
      intro w len hwf hlen4 hroom
      obtain ⟨hs, hL⟩ := hwf s (List.mem_cons_self s ss)
      have hwl := length_xdr_string_wire mem s hs
      rw [xdr_strings_wire_cons, List.length_append, hwl] at hroom
      obtain ⟨ha, hb, hc⟩ := marshall_string_stores le mem s iovs cur last o iov w hcur hs
        (by omega) hlen
      have hnn := int_of_uint_nonneg_of_small s.len hL
      have hp3 : xdr_pad s.len ≤ 3 := by unfold xdr_pad; omega
      have hnp := int_of_uint_nonneg_of_small (xdr_pad s.len) (by omega)
      have hpv := int_of_uint_small (xdr_pad s.len) (by omega)
      have hpadeq : (4 - ((len + 4) % U32 + s.len) % U32 % 4) % 4 = xdr_pad s.len := by
        unfold U32 xdr_pad
        omega
      have h4 : ¬ ((4 : Int) < 0) := by decide
      have ht4 : (4 : Int).toNat = 4 := rfl
      simp only [List.length_cons, marshall_xdr_string_loop, ha, hb, h4, hnn, if_false, ht4, hpadeq]
      have hwf' : ∀ t ∈ ss, t.str + t.len ≤ mem.length ∧ t.len < 2147483648 :=
        fun t ht => hwf t (List.mem_cons_of_mem s ht)
      have hww : (w ++ xdr_string_wire mem s).length = w.length + (4 + s.len + xdr_pad s.len) := by
        rw [List.length_append, hwl]
      by_cases hp0 : xdr_pad s.len = 0
      · have ew : w ++ xdr_string_wire mem s = w ++ be32 s.len ++ str_bytes mem s := by
          simp only [xdr_string_wire, hp0, List.replicate_zero, List.append_nil, List.append_assoc]
        rw [if_neg (by omega), ← ew]
        have := ih (w ++ xdr_string_wire mem s) (((len + 4) % U32 + s.len) % U32) hwf'
          (by unfold U32; unfold xdr_pad at hp0; omega) (by rw [hww]; omega)
        rw [this, xdr_strings_wire_cons, List.append_assoc]
        congr 2
        apply int_of_uint_congr
        rw [List.length_append, hwl]
        unfold U32
        omega
      · rw [if_pos hp0]
        have hnp' : ¬ ((xdr_pad s.len : Int) < 0) := by omega
        simp only [hc, hnp', if_false, hpv, Int.toNat_ofNat]
        have := ih (w ++ xdr_string_wire mem s)
          ((((len + 4) % U32 + s.len) % U32 + xdr_pad s.len) % U32) hwf'
          (by unfold U32; unfold xdr_pad; omega) (by rw [hww]; omega)
        rw [this, xdr_strings_wire_cons, List.append_assoc]
        congr 2
        apply int_of_uint_congr
        rw [List.length_append, hwl]
        unfold U32
        omega

theorem marshall_xdr_string_single (le : Bool) (mem : List Byte) (strs : List xdr_string)
    (iovs : List xdr_iovec) (c : xdr_cursor) (iov : xdr_iovec)
    (hwf : ∀ s ∈ strs, s.str + s.len ≤ mem.length ∧ s.len < 2147483648)
    (hcur : iovs[c.cur]? = some iov)
    (hroom : c.offset + (xdr_strings_wire mem strs).length ≤ xdr_iovec_len iov)
    (hlen : xdr_iovec_len iov < U32) :
    __marshall_xdr_string le mem strs strs.length iovs c =
      some (int_of_uint (xdr_strings_wire mem strs).length,
            iovs.set c.cur (iov_store iov c.offset (xdr_strings_wire mem strs)),
            { cur := c.cur, last := c.last,
              offset := c.offset + (xdr_strings_wire mem strs).length }) := by
  obtain ⟨hlt, -⟩ := List.getElem?_eq_some.mp hcur
  have h := marshall_xdr_string_loop_single le mem iovs c.cur c.last c.offset iov hlt hlen strs []
    0 hwf rfl (by simpa using hroom)
  rw [set_iov_store_nil iovs c.cur c.offset iov hcur] at h
  simpa [__marshall_xdr_string] using h

theorem xdr_strings_wire_one (mem : List Byte) (s : xdr_string) :
    xdr_strings_wire mem [s] = xdr_string_wire mem s := by
  simp [xdr_strings_wire]

/-- C2 (for strings shorter than `2 ^ 31` bytes): marshalling one string of length
`L` at a cursor whose current iovec has room for the whole image stores, from the
cursor position on and in this order, the big-endian length word, the `L` bytes
of the string and `(4 - L mod 4) mod 4` zero bytes; every other byte of the
iovec array is unchanged. -/
theorem marshall_xdr_string_one (le : Bool) (mem : List Byte) (s : xdr_string)
    (iovs : List xdr_iovec) (c : xdr_cursor) (iov : xdr_iovec)
    (hs : s.str + s.len ≤ mem.length) (hL : s.len < 2147483648)
    (hcur : iovs[c.cur]? = some iov)
    (hroom : c.offset + (4 + s.len + (4 - s.len % 4) % 4) ≤ xdr_iovec_len iov)
    (hlen : xdr_iovec_len iov < U32) :
    __marshall_xdr_string le mem [s] 1 iovs c =
      some (int_of_uint (4 + s.len + (4 - s.len % 4) % 4),
            iovs.set c.cur
              (iov.take c.offset ++
                (be32 s.len ++ (mem.drop s.str).take s.len ++
                  List.replicate ((4 - s.len % 4) % 4) 0) ++
                iov.drop (c.offset + (4 + s.len + (4 - s.len % 4) % 4))),
            { cur := c.cur, last := c.last,
              offset := c.offset + (4 + s.len + (4 - s.len % 4) % 4) }) := by
  have hwl := length_xdr_string_wire mem s hs
  have h := marshall_xdr_string_single le mem [s] iovs c iov
    (by
      intro t ht
      rw [List.mem_singleton] at ht
      subst ht
      exact ⟨hs, hL⟩)
    hcur (by rw [xdr_strings_wire_one, hwl]; exact hroom) hlen
  rw [xdr_strings_wire_one, hwl] at h
  simp only [List.length_singleton] at h
  rw [h]
  unfold iov_store
  rw [hwl]
  rfl

/-- C2, instance: `"hi"` is encoded as `00 00 00 02 68 69 00 00`. -/
theorem marshall_xdr_string_one_witness :
    __marshall_xdr_string true [0x68, 0x69] [⟨2, 0⟩] 1 [[9, 9, 9, 9, 9, 9, 9, 9, 9, 9]] ⟨0, 0, 1⟩ =
      some (8, [[9, 0, 0, 0, 2, 0x68, 0x69, 0, 0, 9]], ⟨0, 0, 9⟩) :=
  (marshall_xdr_string_one true [0x68, 0x69] ⟨2, 0⟩ [[9, 9, 9, 9, 9, 9, 9, 9, 9, 9]] ⟨0, 0, 1⟩
    [9, 9, 9, 9, 9, 9, 9, 9, 9, 9] (by decide) (by decide) (by decide) (by decide)
    (by decide)).trans (by decide)

theorem marshall_xdr_string_too_long (le : Bool) (mem : List Byte) (s : xdr_string)
    (iovs : List xdr_iovec) (c : xdr_cursor) (iov : xdr_iovec)
    (hs : s.str + s.len ≤ mem.length) (hL : 2147483648 ≤ s.len) (hLu : s.len < U32)
    (hcur : iovs[c.cur]? = some iov)
    (hroom : c.offset + (4 + s.len + xdr_pad s.len) ≤ xdr_iovec_len iov)
    (hlen : xdr_iovec_len iov < U32) :
    __marshall_xdr_string le mem [s] 1 iovs c =
      some (int_of_uint s.len,
            iovs.set c.cur (iov_store iov c.offset (be32 s.len ++ str_bytes mem s)),
            { cur := c.cur, last := c.last, offset := c.offset + (4 + s.len) }) := by
  obtain ⟨hlt, -⟩ := List.getElem?_eq_some.mp hcur
  obtain ⟨ha, hb, -⟩ := marshall_string_stores le mem s iovs c.cur c.last c.offset iov [] hlt hs
    (by simpa using hroom) hlen
  rw [set_iov_store_nil iovs c.cur c.offset iov hcur] at ha
  simp only [List.nil_append, List.length_nil, Nat.add_zero, List.length_append, length_be32,
    length_str_bytes mem s hs] at ha hb
  have hneg : int_of_uint s.len < 0 := by
    unfold int_of_uint
    unfold U32 at *
    rw [Nat.mod_eq_of_lt hLu, if_neg (by omega)]
    omega
  have h4 : ¬ ((4 : Int) < 0) := by decide
  simp only [__marshall_xdr_string, marshall_xdr_string_loop, ha, hb, h4, hneg, if_false, if_true]

/-- C2 as stated fails for a string of `2 ^ 31 + 1` bytes: in a buffer of
`2 ^ 31 + 8` bytes, all `0xFF`, the length word and the payload are stored, the
three padding bytes are not (they stay `0xFF`), and the result is negative. -/
theorem marshall_xdr_string_large_no_pad :
    __marshall_xdr_string true (List.replicate 2147483649 97) [⟨2147483649, 0⟩] 1
        [List.replicate 2147483656 255] (xdr_cursor_init 1) =
      some (-2147483647,
            [be32 2147483649 ++ List.replicate 2147483649 97 ++ List.replicate 3 255],
            ⟨0, 0, 2147483653⟩) := by
  have h := marshall_xdr_string_too_long true (List.replicate 2147483649 97) ⟨2147483649, 0⟩
    [List.replicate 2147483656 255] (xdr_cursor_init 1) (List.replicate 2147483656 255)
    (by rw [List.length_replicate]; decide) (by decide) (by decide) rfl
    (by unfold xdr_iovec_len; rw [List.length_replicate]; decide)
    (by unfold xdr_iovec_len; rw [List.length_replicate]; decide)
  rw [h]
  have e1 : str_bytes (List.replicate 2147483649 97) ⟨2147483649, 0⟩ =
      List.replicate 2147483649 97 := by
    unfold str_bytes
    rw [List.drop_zero, List.take_replicate, Nat.min_self]
  have e2 : iov_store (List.replicate 2147483656 255) 0
      (be32 2147483649 ++ List.replicate 2147483649 97) =
      be32 2147483649 ++ List.replicate 2147483649 97 ++ List.replicate 3 255 := by
    unfold iov_store
    rw [List.take_zero, List.nil_append, List.drop_replicate, List.length_append, length_be32,
      List.length_replicate]
  have e3 : int_of_uint (2147483649) = -2147483647 := by decide
  show some (int_of_uint 2147483649,
      [iov_store (List.replicate 2147483656 255) 0
        (be32 2147483649 ++ str_bytes (List.replicate 2147483649 97) ⟨2147483649, 0⟩)],
      (⟨0, 0, 2147483653⟩ : xdr_cursor)) = _
  rw [e1, e2, e3]

theorem extract_single (iovs : List xdr_iovec) (cur : Nat) (last : Int) (o n : Nat)
    (iov : xdr_iovec) (pre data post : List Byte) (hcur : iovs[cur]? = some iov)
    (hiov : iov = pre ++ data ++ post) (ho : o = pre.length) (hn : n = data.length)
    (hlen : xdr_iovec_len iov < U32) :
    xdr_cursor_extract iovs { cur := cur, last := last, offset := o } n =
      some (int_of_uint n, data, { cur := cur, last := last, offset := o + n }) := by
  have hl : iov.length = pre.length + data.length + post.length := by
    rw [hiov, List.length_append, List.length_append]
  unfold xdr_iovec_len at hlen
  have h := extract_fast iovs { cur := cur, last := last, offset := o } n iov hcur
    (by unfold xdr_iovec_len; simp only []; omega)
  have hmod : (o + n) % U32 = o + n := Nat.mod_eq_of_lt (by omega)
  have hd : (iov.drop o).take n = data := by
    rw [hiov, List.append_assoc, List.drop_left' ho.symm, List.take_left' hn.symm]
  simp only [hmod, hd] at h
  exact h

theorem skip_single (iovs : List xdr_iovec) (cur : Nat) (last : Int) (o n : Nat)
    (iov : xdr_iovec) (hcur : iovs[cur]? = some iov) (hroom : o + n ≤ xdr_iovec_len iov)
    (hlen : xdr_iovec_len iov < U32) :
    xdr_cursor_skip iovs { cur := cur, last := last, offset := o } n =
      some (int_of_uint n, { cur := cur, last := last, offset := o + n }) := by
  have h := skip_fast iovs { cur := cur, last := last, offset := o } n iov hcur hroom
  have hmod : (o + n) % U32 = o + n := Nat.mod_eq_of_lt (by omega)
  simp only [hmod] at h
  exact h

theorem unmarshall_uint32_t_single_one (le : Bool) (iovs : List xdr_iovec) (cur : Nat)
    (last : Int) (o x : Nat) (iov : xdr_iovec) (pre post : List Byte)
    (hcur : iovs[cur]? = some iov) (hiov : iov = pre ++ be32 x ++ post) (ho : o = pre.length)
    (hx : x < U32) (hlen : xdr_iovec_len iov < U32) :
    __unmarshall_uint32_t le 1 iovs { cur := cur, last := last, offset := o } =
      some (4, [x], { cur := cur, last := last, offset := o + 4 }) := by
  have h := extract_single iovs cur last o 4 iov pre (be32 x) post hcur hiov ho rfl hlen
  simp only [__unmarshall_uint32_t, unmarshall_uint32_t_loop, h, int_of_uint_four]
  rw [if_neg (by decide), ntoh32_mem le x hx]
  rfl

theorem xdr_strings_cstr_cons (mem : List Byte) (s : xdr_string) (ss : List xdr_string) :
    xdr_strings_cstr mem (s :: ss) = str_bytes mem s ++ [0] ++ xdr_strings_cstr mem ss := rfl

theorem unmarshall_xdr_string_loop_single (le : Bool) (mem : List Byte) (iovs : List xdr_iovec)
    (cur : Nat) (last : Int) (iov : xdr_iovec) (hcur : iovs[cur]? = some iov)
    (hlen : xdr_iovec_len iov < U32) (B : List Byte) (u0 size : Nat) :
    ∀ (strs : List xdr_string) (pre post wd : List Byte) (len : Nat) (out : List xdr_string),
      iov = pre ++ xdr_strings_wire mem strs ++ post →
      (∀ s ∈ strs, s.str + s.len ≤ mem.length ∧ s.len < 2147483648) →
      u0 + wd.length + (xdr_strings_cstr mem strs).length ≤ B.length →
      unmarshall_xdr_string_loop le iovs strs.length len
          { cur := cur, last := last, offset := pre.length }
          { buffer := iov_store B u0 wd, used := u0 + wd.length, size := size } out =
        some (int_of_uint (len + (xdr_strings_wire mem strs).length),
              out ++ xdr_strings_decoded (u0 + wd.length) strs,
              { buffer := iov_store B u0 (wd ++ xdr_strings_cstr mem strs),
                used := u0 + (wd ++ xdr_strings_cstr mem strs).length, size := size },
              { cur := cur, last := last,
                offset := (pre ++ xdr_strings_wire mem strs).length }) := by
  intro strs
  induction strs with
  | nil =>
      intro pre post wd len out _ _ _
      simp [unmarshall_xdr_string_loop, xdr_strings_wire, xdr_strings_cstr, xdr_strings_decoded]
  | cons s ss ih =>
      intro pre post wd len out hiov hwf hroom
      obtain ⟨hs, hL⟩ := hwf s (List.mem_cons_self s ss)
      have hsb := length_str_bytes mem s hs
      have hp3 : xdr_pad s.len ≤ 3 := by unfold xdr_pad; omega
      have hwl := length_xdr_string_wire mem s hs
      rw [xdr_strings_cstr_cons, List.length_append, List.length_append, hsb] at hroom
      simp only [List.length_singleton] at hroom
      have hiov1 : iov = pre ++ be32 s.len ++
          (str_bytes mem s ++ List.replicate (xdr_pad s.len) 0 ++ xdr_strings_wire mem ss ++
            post) := by
        rw [hiov, xdr_strings_wire_cons]
        simp only [xdr_string_wire, List.append_assoc]
      have hiov2 : iov = (pre ++ be32 s.len) ++ str_bytes mem s ++
          (List.replicate (xdr_pad s.len) 0 ++ xdr_strings_wire mem ss ++ post) := by
        rw [hiov1]
        simp only [List.append_assoc]
      have hiov3 : iov = (pre ++ xdr_string_wire mem s) ++ xdr_strings_wire mem ss ++ post := by
        rw [hiov, xdr_strings_wire_cons]
        simp only [List.append_assoc]
      have hil : iov.length = pre.length + (4 + s.len + xdr_pad s.len) +
          (xdr_strings_wire mem ss).length + post.length := by
        rw [hiov3]
        simp only [List.length_append, hwl]
      have ha := unmarshall_uint32_t_single_one le iovs cur last pre.length s.len iov pre _ hcur
        hiov1 rfl (by unfold U32; omega) hlen
      have hb := extract_single iovs cur last (pre.length + 4) s.len iov (pre ++ be32 s.len)
        (str_bytes mem s) _ hcur hiov2 (by rw [List.length_append, length_be32]) hsb.symm hlen
      have hc := skip_single iovs cur last (pre.length + 4 + s.len) (xdr_pad s.len) iov hcur
        (by unfold xdr_iovec_len; omega) hlen
      have hnn := int_of_uint_nonneg_of_small s.len hL
      have hpv := int_of_uint_small (xdr_pad s.len) (by omega)
      have hnp' : ¬ ((xdr_pad s.len : Int) < 0) := by omega
      have h4 : ¬ ((4 : Int) < 0) := by decide
      have ht4 : (4 : Int).toNat = 4 := rfl
      have hBl : (iov_store B u0 wd).length = B.length := length_iov_store B u0 wd (by omega)
      have hmod1 : (s.len + 1) % U32 = s.len + 1 := Nat.mod_eq_of_lt (by unfold U32; omega)
      have hst1 : iov_store (iov_store B u0 wd) (u0 + wd.length) (str_bytes mem s) =
          iov_store B u0 (wd ++ str_bytes mem s) :=
        iov_store_append B u0 wd (str_bytes mem s) (by rw [hsb]; omega)
      have hB2 : (iov_store B u0 (wd ++ str_bytes mem s)).length = B.length :=
        length_iov_store B u0 _ (by rw [List.length_append, hsb]; omega)
      have hst2 : iov_store (iov_store B u0 (wd ++ str_bytes mem s)) (u0 + wd.length + s.len) [0]
          = iov_store B u0 (wd ++ str_bytes mem s ++ [0]) := by
        have := iov_store_append B u0 (wd ++ str_bytes mem s) [0]
          (by rw [List.length_append, hsb]; simp only [List.length_singleton]; omega)
        rw [List.length_append, hsb, ← Nat.add_assoc] at this
        exact this
      have hc1 : ¬ (B.length < u0 + wd.length + s.len) := by omega
      have hc2 : ¬ (B.length ≤ u0 + wd.length + s.len) := by omega
      simp only [List.length_cons, unmarshall_xdr_string_loop, ha, hb, h4, hnn, if_false, ht4,
        List.headD_cons, hmod1, hBl, hsb, hst1, hB2, hst2, hc1, hc2]
      have hwf' : ∀ t ∈ ss, t.str + t.len ≤ mem.length ∧ t.len < 2147483648 :=
        fun t ht => hwf t (List.mem_cons_of_mem s ht)
      have hpl : (pre ++ xdr_string_wire mem s).length = pre.length + 4 + s.len + xdr_pad s.len := by
        rw [List.length_append, hwl]
        omega
      have hwdl : (wd ++ str_bytes mem s ++ [0]).length = wd.length + (s.len + 1) := by
        rw [List.length_append, List.length_append, hsb]
        rfl
      have key := fun len1 => ih (pre ++ xdr_string_wire mem s) post (wd ++ str_bytes mem s ++ [0])
        len1 (out ++ [{ len := s.len, str := u0 + wd.length }]) hiov3 hwf'
        (by rw [hwdl]; omega)
      simp only [hpl, hwdl, ← Nat.add_assoc] at key
      have e1 : pre ++ xdr_string_wire mem s ++ xdr_strings_wire mem ss =
          pre ++ xdr_strings_wire mem (s :: ss) := by
        rw [xdr_strings_wire_cons, List.append_assoc]
      have e2 : out ++ [{ len := s.len, str := u0 + wd.length }] ++
          xdr_strings_decoded (u0 + wd.length + s.len + 1) ss =
          out ++ xdr_strings_decoded (u0 + wd.length) (s :: ss) := by
        simp only [xdr_strings_decoded, List.append_assoc, List.singleton_append]
      have e3 : wd ++ str_bytes mem s ++ [0] ++ xdr_strings_cstr mem ss =
          wd ++ xdr_strings_cstr mem (s :: ss) := by
        rw [xdr_strings_cstr_cons]
        simp only [List.append_assoc]
      have hu : u0 + wd.length + (s.len + 1) = u0 + wd.length + s.len + 1 := by omega
      rw [hu]
      by_cases hp0 : xdr_pad s.len = 0
      · have hpe : (4 - s.len % 4) % 4 = 0 := hp0
        rw [if_neg (by omega)]
        have hk := key (((len + 4) % U32 + s.len) % U32)
        simp only [hp0, Nat.add_zero] at hk
        rw [hk, e2, e3, e1]
        congr 2
        apply int_of_uint_congr
        rw [xdr_strings_wire_cons, List.length_append, hwl, hp0]
        unfold U32
        omega
      · have hpe : (4 - s.len % 4) % 4 = xdr_pad s.len := rfl
        rw [if_pos (by omega), hpe]
        simp only [hc, hnp', if_false, hpv, Int.toNat_ofNat]
        have hk := key ((((len + 4) % U32 + s.len) % U32 + xdr_pad s.len) % U32)
        rw [hk, e2, e3, e1]
        congr 2
        apply int_of_uint_congr
        rw [xdr_strings_wire_cons, List.length_append, hwl]
        unfold U32
        omega

theorem iov_store_split (iov : xdr_iovec) (o : Nat) (w : List Byte) :
    iov_store iov o w = iov.take o ++ w ++ iov.drop (o + w.length) := rfl

theorem unmarshall_xdr_string_single (le : Bool) (mem : List Byte) (strs : List xdr_string)
    (iovs : List xdr_iovec) (c : xdr_cursor) (iov : xdr_iovec) (dbuf : xdr_dbuf)
    (hwf : ∀ s ∈ strs, s.str + s.len ≤ mem.length ∧ s.len < 2147483648)
    (hcur : iovs[c.cur]? = some iov)
    (hroom : c.offset + (xdr_strings_wire mem strs).length ≤ xdr_iovec_len iov)
    (hlen : xdr_iovec_len iov < U32)
    (hbuf : dbuf.used + (xdr_strings_cstr mem strs).length ≤ dbuf.buffer.length) :
    __unmarshall_xdr_string le strs.length
        (iovs.set c.cur (iov_store iov c.offset (xdr_strings_wire mem strs))) c dbuf =
      some (int_of_uint (xdr_strings_wire mem strs).length,
            xdr_strings_decoded dbuf.used strs,
            { buffer := iov_store dbuf.buffer dbuf.used (xdr_strings_cstr mem strs),
              used := dbuf.used + (xdr_strings_cstr mem strs).length, size := dbuf.size },
            { cur := c.cur, last := c.last,
              offset := c.offset + (xdr_strings_wire mem strs).length }) := by
  obtain ⟨hlt, -⟩ := List.getElem?_eq_some.mp hcur
  unfold xdr_iovec_len at hroom hlen
  have hsl : (iov_store iov c.offset (xdr_strings_wire mem strs)).length = iov.length :=
    length_iov_store iov c.offset _ hroom
  have hpre : (iov.take c.offset).length = c.offset := by
    rw [List.length_take]; omega
  have h := unmarshall_xdr_string_loop_single le mem
    (iovs.set c.cur (iov_store iov c.offset (xdr_strings_wire mem strs))) c.cur c.last
    (iov_store iov c.offset (xdr_strings_wire mem strs)) (List.getElem?_set_self hlt)
    (by unfold xdr_iovec_len; rw [hsl]; exact hlen) dbuf.buffer dbuf.used dbuf.size strs
    (iov.take c.offset) (iov.drop (c.offset + (xdr_strings_wire mem strs).length)) [] 0 []
    (iov_store_split iov c.offset _) hwf (by simpa using hbuf)
  rw [iov_store_nil] at h
  simp only [List.length_nil, Nat.add_zero, Nat.zero_add, List.nil_append, hpre,
    List.length_append] at h
  exact h

/-- C4 (for strings shorter than `2 ^ 31` bytes): after `__marshall_xdr_string` has
stored a string `s` of length `L` in one iovec, `__unmarshall_xdr_string` from the
same position, with at least `L + 1` free bytes in the decode buffer, yields a
string of length `L` located at the old `used`, whose `L` bytes are those of `s`
and are followed by a NUL byte; it hands out `L + 1` bytes, leaves the rest of the
decode buffer untouched, returns what the marshaller returned and stops at the
cursor position where the marshaller stopped. -/
theorem xdr_string_roundtrip (le : Bool) (mem : List Byte) (s : xdr_string)
    (iovs : List xdr_iovec) (c : xdr_cursor) (iov : xdr_iovec) (dbuf : xdr_dbuf)
    (hs : s.str + s.len ≤ mem.length) (hL : s.len < 2147483648)
    (hcur : iovs[c.cur]? = some iov)
    (hroom : c.offset + (4 + s.len + (4 - s.len % 4) % 4) ≤ xdr_iovec_len iov)
    (hlen : xdr_iovec_len iov < U32)
    (hbuf : dbuf.used + (s.len + 1) ≤ dbuf.buffer.length) :
    ∃ (rc : Int) (iovs1 : List xdr_iovec) (c1 : xdr_cursor) (d1 : xdr_dbuf),
      __marshall_xdr_string le mem [s] 1 iovs c = some (rc, iovs1, c1) ∧
      __unmarshall_xdr_string le 1 iovs1 c dbuf =
        some (rc, [{ len := s.len, str := dbuf.used }], d1, c1) ∧
      c1 = { cur := c.cur, last := c.last, offset := c.offset + (4 + s.len + (4 - s.len % 4) % 4) } ∧
      (d1.buffer.drop dbuf.used).take s.len = (mem.drop s.str).take s.len ∧
      d1.buffer[dbuf.used + s.len]? = some 0 ∧
      d1.used = dbuf.used + (s.len + 1) ∧
      d1.buffer.take dbuf.used = dbuf.buffer.take dbuf.used ∧
      d1.buffer.drop (dbuf.used + (s.len + 1)) = dbuf.buffer.drop (dbuf.used + (s.len + 1)) := by
  have hsb := length_str_bytes mem s hs
  have hwl := length_xdr_string_wire mem s hs
  have hwf : ∀ t ∈ [s], t.str + t.len ≤ mem.length ∧ t.len < 2147483648 := by
    intro t ht
    rw [List.mem_singleton] at ht
    subst ht
    exact ⟨hs, hL⟩
  have hcl : (xdr_strings_cstr mem [s]).length = s.len + 1 := by
    simp [xdr_strings_cstr, hsb]
  have hm := marshall_xdr_string_single le mem [s] iovs c iov hwf hcur
    (by rw [xdr_strings_wire_one, hwl]; exact hroom) hlen
  have hu := unmarshall_xdr_string_single le mem [s] iovs c iov dbuf hwf hcur
    (by rw [xdr_strings_wire_one, hwl]; exact hroom) hlen (by rw [hcl]; exact hbuf)
  simp only [List.length_singleton] at hm hu
  refine ⟨_, _, _, _, hm, hu, ?_, ?_, ?_, ?_, ?_, ?_⟩
  · rw [xdr_strings_wire_one, hwl]
    rfl
  · simp only [xdr_strings_cstr, List.map_cons, List.map_nil, List.flatten_cons,
      List.flatten_nil, List.append_nil]
    rw [drop_iov_store _ _ _ (by omega), List.append_assoc,
      List.take_left' hsb]
    rfl
  · simp only [xdr_strings_cstr, List.map_cons, List.map_nil, List.flatten_cons,
      List.flatten_nil, List.append_nil]
    rw [← List.getElem?_drop, drop_iov_store _ _ _ (by omega), List.append_assoc,
      List.getElem?_append_right (by rw [hsb]), hsb, Nat.sub_self]
    simp
  · simp only [hcl]
  · exact take_iov_store _ _ _ (by omega)
  · simp only []
    rw [← List.drop_drop, drop_iov_store _ _ _ (by omega), hcl, List.drop_append_eq_append_drop,
      hcl, Nat.sub_self, List.drop_zero, List.drop_of_length_le (by rw [hcl]), List.nil_append]

/-- C4, instance: `"hi"` is read back from its encoding into a decode buffer with
four free bytes. -/
theorem xdr_string_roundtrip_witness :
    ∃ d1 : xdr_dbuf,
      __unmarshall_xdr_string true 1 [[9, 0, 0, 0, 2, 0x68, 0x69, 0, 0, 9]] ⟨0, 0, 1⟩
          ⟨[7, 7, 7, 7, 7], 1, 5⟩ =
        some (8, [⟨2, 1⟩], d1, ⟨0, 0, 9⟩) ∧
      (d1.buffer.drop 1).take 2 = [0x68, 0x69] ∧ d1.buffer[3]? = some 0 ∧ d1.used = 4 := by
  obtain ⟨rc, iovs1, c1, d1, hm, hu, -, hbytes, hnul, hused, -, -⟩ :=
    xdr_string_roundtrip true [0x68, 0x69] ⟨2, 0⟩ [[9, 9, 9, 9, 9, 9, 9, 9, 9, 9]] ⟨0, 0, 1⟩
      [9, 9, 9, 9, 9, 9, 9, 9, 9, 9] ⟨[7, 7, 7, 7, 7], 1, 5⟩ (by decide) (by decide) (by decide)
      (by decide) (by decide) (by decide)
  have e : some (rc, iovs1, c1) =
      some ((8 : Int), [[9, 0, 0, 0, 2, 0x68, 0x69, 0, 0, (9 : Byte)]], (⟨0, 0, 9⟩ : xdr_cursor)) :=
    hm.symm.trans (by decide)
  simp only [Option.some.injEq, Prod.mk.injEq] at e
  obtain ⟨e1, e2, e3⟩ := e
  subst e1 e2 e3
  exact ⟨d1, hu, hbytes, hnul, hused⟩

theorem unmarshall_xdr_string_too_long (le : Bool) (iovs : List xdr_iovec) (cur : Nat)
    (last : Int) (iov : xdr_iovec) (pre data post : List Byte) (l : Nat) (dbuf : xdr_dbuf)
    (hcur : iovs[cur]? = some iov) (hiov : iov = pre ++ be32 l ++ data ++ post)
    (hd : data.length = l) (hL : 2147483648 ≤ l) (hLu : l < U32)
    (hlen : xdr_iovec_len iov < U32) (hbuf : dbuf.used + l ≤ dbuf.buffer.length) :
    __unmarshall_xdr_string le 1 iovs { cur := cur, last := last, offset := pre.length } dbuf =
      some (int_of_uint l, [{ len := l, str := dbuf.used }],
            { buffer := iov_store dbuf.buffer dbuf.used data,
              used := dbuf.used + (l + 1) % U32, size := dbuf.size },
            { cur := cur, last := last, offset := pre.length + 4 + l }) := by
  have ha := unmarshall_uint32_t_single_one le iovs cur last pre.length l iov pre (data ++ post)
    hcur (by rw [hiov, List.append_assoc]) rfl hLu hlen
  have hb := extract_single iovs cur last (pre.length + 4) l iov (pre ++ be32 l) data post hcur
    hiov (by rw [List.length_append, length_be32]) hd.symm hlen
  have hneg : int_of_uint l < 0 := by
    unfold int_of_uint
    unfold U32 at *
    rw [Nat.mod_eq_of_lt hLu, if_neg (by omega)]
    omega
  have h4 : ¬ ((4 : Int) < 0) := by decide
  have hc1 : ¬ (dbuf.buffer.length < dbuf.used + l) := by omega
  simp only [__unmarshall_xdr_string, unmarshall_xdr_string_loop, ha, hb, h4, hneg, if_false,
    if_true, List.headD_cons, hd, hc1, List.nil_append]

/-- C4 as stated fails for a string of `2 ^ 31` bytes: the marshaller stores its
length word and payload (no padding is due), but the unmarshaller, reading these
bytes back, returns a negative value after copying the payload and stores no
NUL byte: the byte after the decoded payload keeps its old value `0xFF`. -/
theorem xdr_string_large_no_nul :
    __marshall_xdr_string true (List.replicate 2147483648 97) [⟨2147483648, 0⟩] 1
        [List.replicate 2147483652 255] (xdr_cursor_init 1) =
      some (-2147483648, [be32 2147483648 ++ List.replicate 2147483648 97],
            ⟨0, 0, 2147483652⟩) ∧
    __unmarshall_xdr_string true 1 [be32 2147483648 ++ List.replicate 2147483648 97]
        (xdr_cursor_init 1) ⟨List.replicate 2147483649 255, 0, 2147483649⟩ =
      some (-2147483648, [⟨2147483648, 0⟩],
            ⟨List.replicate 2147483648 97 ++ [255], 2147483649, 2147483649⟩,
            ⟨0, 0, 2147483652⟩) := by
  constructor
  · have h := marshall_xdr_string_too_long true (List.replicate 2147483648 97) ⟨2147483648, 0⟩
      [List.replicate 2147483652 255] (xdr_cursor_init 1) (List.replicate 2147483652 255)
      (by rw [List.length_replicate]; decide) (by decide) (by decide) rfl
      (by unfold xdr_iovec_len; rw [List.length_replicate]; decide)
      (by unfold xdr_iovec_len; rw [List.length_replicate]; decide)
    rw [h]
    have e1 : str_bytes (List.replicate 2147483648 97) ⟨2147483648, 0⟩ =
        List.replicate 2147483648 97 := by
      unfold str_bytes
      rw [List.drop_zero, List.take_replicate, Nat.min_self]
    have e2 : iov_store (List.replicate 2147483652 255) 0
        (be32 2147483648 ++ List.replicate 2147483648 97) =
        be32 2147483648 ++ List.replicate 2147483648 97 := by
      unfold iov_store
      rw [List.take_zero, List.nil_append, List.drop_replicate, List.length_append, length_be32,
        List.length_replicate]
      exact List.append_nil _
    have e3 : int_of_uint (2147483648) = -2147483648 := by decide
    show some (int_of_uint 2147483648,
        [iov_store (List.replicate 2147483652 255) 0
          (be32 2147483648 ++ str_bytes (List.replicate 2147483648 97) ⟨2147483648, 0⟩)],
        (⟨0, 0, 2147483652⟩ : xdr_cursor)) = _
    rw [e1, e2, e3]
  · have h := unmarshall_xdr_string_too_long true
      [be32 2147483648 ++ List.replicate 2147483648 97] 0 0
      (be32 2147483648 ++ List.replicate 2147483648 97) [] (List.replicate 2147483648 97) []
      2147483648 ⟨List.replicate 2147483649 255, 0, 2147483649⟩ rfl
      (by rw [List.nil_append, List.append_nil])
      (List.length_replicate _ _) (by decide) (by decide)
      (by
        unfold xdr_iovec_len
        rw [List.length_append, length_be32, List.length_replicate]
        decide)
      (by
        show 0 + 2147483648 ≤ (List.replicate 2147483649 (255 : Byte)).length
        rw [List.length_replicate]
        decide)
    have e2 : iov_store (List.replicate 2147483649 255) 0 (List.replicate 2147483648 97) =
        List.replicate 2147483648 97 ++ [255] := by
      unfold iov_store
      rw [List.take_zero, List.nil_append, List.drop_replicate, List.length_replicate]
      rfl
    have e3 : int_of_uint (2147483648) = -2147483648 := by decide
    rw [e3] at h
    simp only [e2] at h
    exact h

/-! ## Return values of the cursor operations -/

theorem append_loop_rc (last : Int) (src : List Byte) (bytes : Nat) :
    ∀ (rest : List xdr_iovec) (cur offset done : Nat) (rc : Int) (r : List xdr_iovec)
      (c : xdr_cursor),
      xdr_cursor_append_loop last src bytes rest cur offset done = some (rc, r, c) →
      rc = -1 ∨ rc = int_of_uint bytes := by
  intro rest
  induction rest with
  | nil =>
      intro cur offset done rc r c h
      simp only [xdr_cursor_append_loop] at h
      split at h
      · exact absurd h (by simp)
      · simp only [Option.some.injEq, Prod.mk.injEq] at h
        exact Or.inr h.1.symm
  | cons iov rest ih =>
      intro cur offset done rc r c h
      simp only [xdr_cursor_append_loop] at h
      split at h
      · split at h
        · exact absurd h (by simp)
        · split at h
          · simp only [Option.some.injEq, Prod.mk.injEq] at h
            exact Or.inl h.1.symm
          · split at h
            · exact absurd h (by simp)
            · rename_i rc1 rest1 c1 heq
              simp only [Option.some.injEq, Prod.mk.injEq] at h
              rw [← h.1]
              exact ih _ _ _ _ _ _ heq
      · simp only [Option.some.injEq, Prod.mk.injEq] at h
        exact Or.inr h.1.symm

theorem append_rc (iovs : List xdr_iovec) (c : xdr_cursor) (src : List Byte) (bytes : Nat)
    (rc : Int) (r : List xdr_iovec) (c1 : xdr_cursor)
    (h : xdr_cursor_append iovs c src bytes = some (rc, r, c1)) :
    rc = -1 ∨ rc = int_of_uint bytes := by
  unfold xdr_cursor_append at h
  split at h
  · exact absurd h (by simp)
  · split at h
    · split at h
      · exact absurd h (by simp)
      · simp only [Option.some.injEq, Prod.mk.injEq] at h
        exact Or.inr h.1.symm
    · split at h
      · exact absurd h (by simp)
      · rename_i rc1 rest1 c2 heq
        simp only [Option.some.injEq, Prod.mk.injEq] at h
        rw [← h.1]
        exact append_loop_rc _ _ _ _ _ _ _ _ _ _ heq

theorem extract_loop_rc (last : Int) (bytes : Nat) :
    ∀ (rest : List xdr_iovec) (cur offset done : Nat) (out : List Byte) (rc : Int)
      (r : List Byte) (c : xdr_cursor),
      xdr_cursor_extract_loop last bytes rest cur offset done out = some (rc, r, c) →
      rc = -1 ∨ rc = int_of_uint bytes := by
  intro rest
  induction rest with
  | nil =>
      intro cur offset done out rc r c h
      simp only [xdr_cursor_extract_loop] at h
      split at h
      · exact absurd h (by simp)
      · simp only [Option.some.injEq, Prod.mk.injEq] at h
        exact Or.inr h.1.symm
  | cons iov rest ih =>
      intro cur offset done out rc r c h
      simp only [xdr_cursor_extract_loop] at h
      split at h
      · split at h
        · exact absurd h (by simp)
        · split at h
          · simp only [Option.some.injEq, Prod.mk.injEq] at h
            exact Or.inl h.1.symm
          · exact ih _ _ _ _ _ _ _ h
      · simp only [Option.some.injEq, Prod.mk.injEq] at h
        exact Or.inr h.1.symm

theorem extract_rc (iovs : List xdr_iovec) (c : xdr_cursor) (bytes : Nat)
    (rc : Int) (r : List Byte) (c1 : xdr_cursor)
    (h : xdr_cursor_extract iovs c bytes = some (rc, r, c1)) :
    rc = -1 ∨ rc = int_of_uint bytes := by
  unfold xdr_cursor_extract at h
  split at h
  · exact absurd h (by simp)
  · split at h
    · split at h
      · exact absurd h (by simp)
      · simp only [Option.some.injEq, Prod.mk.injEq] at h
        exact Or.inr h.1.symm
    · exact extract_loop_rc _ _ _ _ _ _ _ _ _ _ h

theorem skip_loop_rc (last : Int) (bytes : Nat) :
    ∀ (rest : List xdr_iovec) (cur offset done : Nat) (rc : Int) (c : xdr_cursor),
      xdr_cursor_skip_loop last bytes rest cur offset done = some (rc, c) →
      rc = -1 ∨ rc = int_of_uint bytes := by
  intro rest
  induction rest with
  | nil =>
      intro cur offset done rc c h
      simp only [xdr_cursor_skip_loop] at h
      split at h
      · exact absurd h (by simp)
      · simp only [Option.some.injEq, Prod.mk.injEq] at h
        exact Or.inr h.1.symm
  | cons iov rest ih =>
      intro cur offset done rc c h
      simp only [xdr_cursor_skip_loop] at h
      split at h
      · split at h
        · simp only [Option.some.injEq, Prod.mk.injEq] at h
          exact Or.inl h.1.symm
        · exact ih _ _ _ _ _ h
      · simp only [Option.some.injEq, Prod.mk.injEq] at h
        exact Or.inr h.1.symm

theorem skip_rc (iovs : List xdr_iovec) (c : xdr_cursor) (bytes : Nat)
    (rc : Int) (c1 : xdr_cursor)
    (h : xdr_cursor_skip iovs c bytes = some (rc, c1)) :
    rc = -1 ∨ rc = int_of_uint bytes := by
  unfold xdr_cursor_skip at h
  split at h
  · exact absurd h (by simp)
  · split at h
    · simp only [Option.some.injEq, Prod.mk.injEq] at h
      exact Or.inr h.1.symm
    · exact skip_loop_rc _ _ _ _ _ _ _ _ h

theorem marshall_one_uint32_rc (le : Bool) (x : Nat) (iovs : List xdr_iovec) (c : xdr_cursor)
    (rc : Int) (r : List xdr_iovec) (c1 : xdr_cursor)
    (h : __marshall_uint32_t le [x] 1 iovs c = some (rc, r, c1)) : rc = -1 ∨ rc = 4 := by
  simp only [__marshall_uint32_t, marshall_uint32_t_loop] at h
  split at h
  · exact absurd h (by simp)
  · rename_i rc1 iovs1 c2 heq
    have h1 := append_rc _ _ _ _ _ _ _ heq
    rw [int_of_uint_four] at h1
    split at h
    · simp only [Option.some.injEq, Prod.mk.injEq] at h
      rw [← h.1]
      rcases h1 with h1 | h1
      · exact Or.inl h1
      · omega
    · simp only [Option.some.injEq, Prod.mk.injEq] at h
      exact Or.inr h.1.symm

theorem unmarshall_one_uint32_rc (le : Bool) (iovs : List xdr_iovec) (c : xdr_cursor)
    (rc : Int) (v : List Nat) (c1 : xdr_cursor)
    (h : __unmarshall_uint32_t le 1 iovs c = some (rc, v, c1)) :
    rc = -1 ∨ (rc = 4 ∧ ∃ x, v = [x] ∧ x < U32) := by
  simp only [__unmarshall_uint32_t, unmarshall_uint32_t_loop] at h
  split at h
  · exact absurd h (by simp)
  · rename_i rc1 tmp c2 heq
    have h1 := extract_rc _ _ _ _ _ _ heq
    rw [int_of_uint_four] at h1
    split at h
    · simp only [Option.some.injEq, Prod.mk.injEq] at h
      rw [← h.1]
      rcases h1 with h1 | h1
      · exact Or.inl h1
      · omega
    · simp only [Option.some.injEq, Prod.mk.injEq, List.nil_append] at h
      refine Or.inr ⟨h.1.symm, _, h.2.1.symm, ?_⟩
      cases le
      · simp only [xdr_ntoh32, Bool.false_eq_true, if_false]
        exact Nat.mod_lt _ (by decide)
      · simp only [xdr_ntoh32, if_true, bswap32, U32]
        omega

/-! ## The value returned by the string codecs -/

theorem xdr_wire_len_eq (l : Nat) : xdr_wire_len l = 4 + l + xdr_pad l := by
  unfold xdr_wire_len xdr_pad
  omega

theorem xdr_strings_len_cons (s : xdr_string) (ss : List xdr_string) :
    xdr_strings_len (s :: ss) = xdr_wire_len s.len + xdr_strings_len ss := by
  simp [xdr_strings_len]

theorem rc_of_nonneg (u : Nat) (rc : Int) (hu32 : u < U32) (h : rc = -1 ∨ rc = int_of_uint u)
    (hnn : ¬ rc < 0) : rc = (u : Int) ∧ u < 2147483648 := by
  rcases h with h | h
  · omega
  · have hu : ¬ int_of_uint u < 0 := by rw [← h]; exact hnn
    unfold int_of_uint at h hu
    unfold U32 at *
    rw [Nat.mod_eq_of_lt hu32] at h hu
    by_cases h1 : u < 2147483648
    · simp only [h1, if_true] at h
      exact ⟨h, h1⟩
    · simp only [h1, if_false] at hu
      omega

theorem marshall_xdr_string_loop_rc (le : Bool) (mem : List Byte) :
    ∀ (strs : List xdr_string) (len : Nat) (iovs : List xdr_iovec) (c : xdr_cursor) (rc : Int)
      (r : List xdr_iovec) (c1 : xdr_cursor),
      len % 4 = 0 → len + xdr_strings_len strs < 2147483648 →
      marshall_xdr_string_loop le mem strs.length strs len iovs c = some (rc, r, c1) →
      0 ≤ rc → rc = ((len + xdr_strings_len strs : Nat) : Int) := by
  intro strs
  induction strs with
  | nil =>
      intro len iovs c rc r c1 _ hb h _
      simp only [List.length_nil, marshall_xdr_string_loop, Option.some.injEq,
        Prod.mk.injEq] at h
      rw [← h.1, int_of_uint_small len (by omega)]
      simp [xdr_strings_len]
  | cons s ss ih =>
      intro len iovs c rc r c1 hl4 hb h hrc
      rw [xdr_strings_len_cons, xdr_wire_len_eq] at hb ⊢
      simp only [List.length_cons, marshall_xdr_string_loop] at h
      cases hm : __marshall_uint32_t le [s.len] 1 iovs c with
      | none => simp [hm] at h
      | some p =>
          obtain ⟨rc1, iovs1, c2⟩ := p
          simp only [hm] at h
          have h1 := marshall_one_uint32_rc le _ _ _ _ _ _ hm
          by_cases hneg1 : rc1 < 0
          · simp only [hneg1, if_true, Option.some.injEq, Prod.mk.injEq] at h
            omega
          · have hrc1 : rc1 = 4 := by omega
            subst hrc1
            simp only [hneg1, if_false] at h
            have ht4 : (4 : Int).toNat = 4 := rfl
            rw [ht4] at h
            cases ha : xdr_cursor_append iovs1 c2 (mem.drop s.str) s.len with
            | none => simp [ha] at h
            | some p =>
                obtain ⟨rc2, iovs2, c3⟩ := p
                simp only [ha] at h
                have h2 := append_rc _ _ _ _ _ _ _ ha
                by_cases hneg2 : rc2 < 0
                · simp only [hneg2, if_true, Option.some.injEq, Prod.mk.injEq] at h
                  omega
                · simp only [hneg2, if_false] at h
                  have hpadeq : (4 - ((len + 4) % U32 + s.len) % U32 % 4) % 4 = xdr_pad s.len := by
                    unfold U32 xdr_pad
                    omega
                  rw [hpadeq] at h
                  have hp3 : xdr_pad s.len ≤ 3 := by unfold xdr_pad; omega
                  by_cases hp0 : xdr_pad s.len = 0
                  · simp only [hp0, ne_eq, not_true_eq_false, if_false] at h
                    have := ih _ _ _ _ _ _ (by unfold U32; unfold xdr_pad at hp0; omega)
                      (by unfold U32; omega) h hrc
                    rw [this]
                    unfold U32
                    omega
                  · simp only [hp0, ne_eq, not_false_eq_true, if_true] at h
                    cases hq : xdr_cursor_append iovs2 c3 (mem_of_uint32 le 0) (xdr_pad s.len) with
                    | none => simp [hq] at h
                    | some p =>
                        obtain ⟨rc3, iovs3, c4⟩ := p
                        simp only [hq] at h
                        have h3 := append_rc _ _ _ _ _ _ _ hq
                        by_cases hneg3 : rc3 < 0
                        · simp only [hneg3, if_true, Option.some.injEq, Prod.mk.injEq] at h
                          omega
                        · simp only [hneg3, if_false] at h
                          obtain ⟨h3v, -⟩ := rc_of_nonneg _ _ (by unfold U32; omega) h3 hneg3
                          subst h3v
                          rw [Int.toNat_ofNat] at h
                          have := ih _ _ _ _ _ _ (by unfold U32; unfold xdr_pad; omega)
                            (by unfold U32; omega) h hrc
                          rw [this]
                          unfold U32
                          omega

theorem unmarshall_xdr_string_loop_rc (le : Bool) (iovs : List xdr_iovec) :
    ∀ (k len : Nat) (c : xdr_cursor) (dbuf : xdr_dbuf) (out : List xdr_string) (rc : Int)
      (out1 : List xdr_string) (d : xdr_dbuf) (c1 : xdr_cursor),
      unmarshall_xdr_string_loop le iovs k len c dbuf out = some (rc, out1, d, c1) →
      0 ≤ rc →
      ∃ dec : List xdr_string, out1 = out ++ dec ∧ dec.length = k ∧
        (len + xdr_strings_len dec < 2147483648 →
          rc = ((len + xdr_strings_len dec : Nat) : Int)) := by
  intro k
  induction k with
  | zero =>
      intro len c dbuf out rc out1 d c1 h _
      simp only [unmarshall_xdr_string_loop, Option.some.injEq, Prod.mk.injEq] at h
      refine ⟨[], by simp [h.2.1], rfl, ?_⟩
      intro hb
      rw [← h.1, int_of_uint_small len (by omega)]
      simp [xdr_strings_len]
  | succ k ih =>
      intro len c dbuf out rc out1 d c1 h hrc
      simp only [unmarshall_xdr_string_loop] at h
      cases hm : __unmarshall_uint32_t le 1 iovs c with
      | none => simp [hm] at h
      | some p =>
          obtain ⟨rc1, v, c2⟩ := p
          simp only [hm] at h
          have h1 := unmarshall_one_uint32_rc le _ _ _ _ _ hm
          by_cases hneg1 : rc1 < 0
          · simp only [hneg1, if_true, Option.some.injEq, Prod.mk.injEq] at h
            omega
          · obtain ⟨hrc1, x, hv, hx⟩ : rc1 = 4 ∧ ∃ x, v = [x] ∧ x < U32 := by
              rcases h1 with h1 | h1
              · omega
              · exact h1
            subst hrc1 hv
            simp only [hneg1, if_false, List.headD_cons] at h
            have ht4 : (4 : Int).toNat = 4 := rfl
            rw [ht4] at h
            cases ha : xdr_cursor_extract iovs c2 x with
            | none => simp [ha] at h
            | some p =>
                obtain ⟨rc2, bytes, c3⟩ := p
                simp only [ha] at h
                have h2 := extract_rc _ _ _ _ _ _ ha
                by_cases hob : dbuf.buffer.length < dbuf.used + bytes.length
                · simp [hob] at h
                · simp only [hob, if_false] at h
                  by_cases hneg2 : rc2 < 0
                  · simp only [hneg2, if_true, Option.some.injEq, Prod.mk.injEq] at h
                    omega
                  · simp only [hneg2, if_false] at h
                    obtain ⟨-, hx31⟩ := rc_of_nonneg _ _ hx h2 hneg2
                    split at h
                    · exact absurd h (by simp)
                    · have hp3 : xdr_pad x ≤ 3 := by unfold xdr_pad; omega
                      have hpe : (4 - x % 4) % 4 = xdr_pad x := rfl
                      rw [hpe] at h
                      by_cases hp0 : xdr_pad x = 0
                      · simp only [hp0, ne_eq, not_true_eq_false, if_false] at h
                        obtain ⟨dec, hd1, hd2, hd3⟩ := ih _ _ _ _ _ _ _ _ h hrc
                        refine ⟨{ len := x, str := dbuf.used } :: dec, ?_, ?_, ?_⟩
                        · rw [hd1, List.append_assoc]
                          rfl
                        · simp [hd2]
                        · intro hb
                          rw [xdr_strings_len_cons, xdr_wire_len_eq] at hb ⊢
                          simp only [] at hb ⊢
                          rw [hd3 (by unfold U32; omega)]
                          unfold U32
                          omega
                      · simp only [hp0, ne_eq, not_false_eq_true, if_true] at h
                        cases hq : xdr_cursor_skip iovs c3 (xdr_pad x) with
                        | none => simp [hq] at h
                        | some p =>
                            obtain ⟨rc3, c4⟩ := p
                            simp only [hq] at h
                            have h3 := skip_rc _ _ _ _ _ hq
                            by_cases hneg3 : rc3 < 0
                            · simp only [hneg3, if_true, Option.some.injEq, Prod.mk.injEq] at h
                              omega
                            · simp only [hneg3, if_false] at h
                              obtain ⟨h3v, -⟩ := rc_of_nonneg _ _ (by unfold U32; omega) h3 hneg3
                              subst h3v
                              rw [Int.toNat_ofNat] at h
                              obtain ⟨dec, hd1, hd2, hd3⟩ := ih _ _ _ _ _ _ _ _ h hrc
                              refine ⟨{ len := x, str := dbuf.used } :: dec, ?_, ?_, ?_⟩
                              · rw [hd1, List.append_assoc]
                                rfl
                              · simp [hd2]
                              · intro hb
                                rw [xdr_strings_len_cons, xdr_wire_len_eq] at hb ⊢
                                simp only [] at hb ⊢
                                rw [hd3 (by unfold U32; omega)]
                                unfold U32
                                omega

theorem length_xdr_strings_wire (mem : List Byte) :
    ∀ (strs : List xdr_string), (∀ s ∈ strs, s.str + s.len ≤ mem.length) →
      (xdr_strings_wire mem strs).length = xdr_strings_len strs
  | [], _ => rfl
  | s :: ss, h => by
      rw [xdr_strings_wire_cons, List.length_append, xdr_strings_len_cons, xdr_wire_len_eq,
        length_xdr_string_wire mem s (h s (List.mem_cons_self s ss)),
        length_xdr_strings_wire mem ss (fun t ht => h t (List.mem_cons_of_mem s ht))]

theorem length_xdr_strings_cstr (mem : List Byte) :
    ∀ (strs : List xdr_string), (∀ s ∈ strs, s.str + s.len ≤ mem.length) →
      (xdr_strings_cstr mem strs).length = (strs.map (fun s => s.len + 1)).sum
  | [], _ => rfl
  | s :: ss, h => by
      rw [xdr_strings_cstr_cons, List.length_append, List.length_append,
        length_str_bytes mem s (h s (List.mem_cons_self s ss)),
        length_xdr_strings_cstr mem ss (fun t ht => h t (List.mem_cons_of_mem s ht))]
      simp

theorem xdr_strings_decoded_len :
    ∀ (strs : List xdr_string) (used : Nat),
      (xdr_strings_decoded used strs).map (fun s => s.len) = strs.map (fun s => s.len)
  | [], _ => rfl
  | s :: ss, used => by
      simp only [xdr_strings_decoded, List.map_cons, xdr_strings_decoded_len ss]

theorem xdr_strings_len_of_lens (a b : List xdr_string)
    (h : a.map (fun s => s.len) = b.map (fun s => s.len)) :
    xdr_strings_len a = xdr_strings_len b := by
  have e : ∀ l : List xdr_string,
      xdr_strings_len l = ((l.map (fun s => s.len)).map xdr_wire_len).sum := by
    intro l
    simp [xdr_strings_len, List.map_map, Function.comp_def]
  rw [e a, e b, h]

theorem lens_lt_of_total :
    ∀ (strs : List xdr_string), xdr_strings_len strs < 2147483648 →
      ∀ s ∈ strs, s.len < 2147483648
  | [], _, s, hs => by simp at hs
  | t :: ts, h, s, hs => by
      rw [xdr_strings_len_cons, xdr_wire_len_eq] at h
      rcases List.mem_cons.mp hs with e | e
      · subst e
        omega
      · exact lens_lt_of_total ts (by omega) s e

/-- C5: for strings of lengths `L_1 .. L_n` whose encoded lengths
`4 + ceil(L_i / 4) * 4` sum to less than `2 ^ 31`: every `__marshall_xdr_string`
that returns a non-negative value returns that sum; every `__unmarshall_xdr_string`
that returns a non-negative value and decodes strings of these lengths returns
that sum; in one iovec with room both succeed with that sum, the encoding being
the concatenation of length word, payload and `(4 - L_i mod 4) mod 4` zero bytes
per string, and the decoded strings have the lengths `L_i`; an empty string
occupies exactly the four bytes of the length 0. -/
theorem xdr_string_array_length (le : Bool) (mem : List Byte) (strs : List xdr_string)
    (hwf : ∀ s ∈ strs, s.str + s.len ≤ mem.length)
    (htotal : xdr_strings_len strs < 2147483648) :
    (∀ (iovs : List xdr_iovec) (c : xdr_cursor) (rc : Int) (r : List xdr_iovec)
        (c1 : xdr_cursor),
        __marshall_xdr_string le mem strs strs.length iovs c = some (rc, r, c1) → 0 ≤ rc →
        rc = (xdr_strings_len strs : Int)) ∧
    (∀ (iovs : List xdr_iovec) (c : xdr_cursor) (dbuf : xdr_dbuf) (rc : Int)
        (out : List xdr_string) (d : xdr_dbuf) (c1 : xdr_cursor),
        __unmarshall_xdr_string le strs.length iovs c dbuf = some (rc, out, d, c1) → 0 ≤ rc →
        out.map (fun s => s.len) = strs.map (fun s => s.len) →
        rc = (xdr_strings_len strs : Int)) ∧
    (∀ (iovs : List xdr_iovec) (c : xdr_cursor) (iov : xdr_iovec) (dbuf : xdr_dbuf),
        iovs[c.cur]? = some iov → c.offset + xdr_strings_len strs ≤ xdr_iovec_len iov →
        xdr_iovec_len iov < U32 →
        dbuf.used + (strs.map (fun s => s.len + 1)).sum ≤ dbuf.buffer.length →
        ∃ (iovs1 : List xdr_iovec) (c1 : xdr_cursor) (out : List xdr_string) (d1 : xdr_dbuf),
          __marshall_xdr_string le mem strs strs.length iovs c =
            some ((xdr_strings_len strs : Int), iovs1, c1) ∧
          iovs1 = iovs.set c.cur
            (iov.take c.offset ++
              (strs.map (fun s => be32 s.len ++ (mem.drop s.str).take s.len ++
                List.replicate ((4 - s.len % 4) % 4) 0)).flatten ++
              iov.drop (c.offset + xdr_strings_len strs)) ∧
          __unmarshall_xdr_string le strs.length iovs1 c dbuf =
            some ((xdr_strings_len strs : Int), out, d1, c1) ∧
          out.map (fun s => s.len) = strs.map (fun s => s.len)) ∧
    (∀ p : Nat, xdr_string_wire mem { len := 0, str := p } = [0, 0, 0, 0]) ∧
    xdr_wire_len 0 = 4 := by
  have hlt := lens_lt_of_total strs htotal
  have hwf2 : ∀ s ∈ strs, s.str + s.len ≤ mem.length ∧ s.len < 2147483648 :=
    fun s hs => ⟨hwf s hs, hlt s hs⟩
  have hwl := length_xdr_strings_wire mem strs hwf
  refine ⟨?_, ?_, ?_, ?_, rfl⟩
  · intro iovs c rc r c1 h hrc
    have := marshall_xdr_string_loop_rc le mem strs 0 iovs c rc r c1 rfl (by omega) h hrc
    rw [this, Nat.zero_add]
  · intro iovs c dbuf rc out d c1 h hrc hlens
    obtain ⟨dec, hd1, -, hd3⟩ := unmarshall_xdr_string_loop_rc le iovs strs.length 0 c dbuf []
      rc out d c1 h hrc
    rw [List.nil_append] at hd1
    subst hd1
    have e := xdr_strings_len_of_lens out strs hlens
    rw [Nat.zero_add, e] at hd3
    exact hd3 htotal
  · intro iovs c iov dbuf hcur hroom hlen hbuf
    have hm := marshall_xdr_string_single le mem strs iovs c iov hwf2 hcur
      (by rw [hwl]; exact hroom) hlen
    have hu := unmarshall_xdr_string_single le mem strs iovs c iov dbuf hwf2 hcur
      (by rw [hwl]; exact hroom) hlen
      (by rw [length_xdr_strings_cstr mem strs hwf]; exact hbuf)
    rw [hwl, int_of_uint_small _ htotal] at hm hu
    refine ⟨_, _, _, _, hm, ?_, hu, xdr_strings_decoded_len strs dbuf.used⟩
    rw [iov_store_split, hwl]
    rfl
  · intro p
    simp [xdr_string_wire, str_bytes, xdr_pad, be32, byte]

/-- C5, instance: `""`, `"hi"` and `"abcde"` encode to `4 + 8 + 12 = 24` bytes. -/
theorem xdr_string_array_length_witness :
    __marshall_xdr_string true [0x68, 0x69, 0x61, 0x62, 0x63, 0x64, 0x65]
        [⟨0, 0⟩, ⟨2, 0⟩, ⟨5, 2⟩] 3
        [[9, 9, 9, 9, 9, 9, 9, 9, 9, 9, 9, 9, 9, 9, 9, 9, 9, 9, 9, 9, 9, 9, 9, 9, 9]]
        (xdr_cursor_init 1) =
      some (24, [[0, 0, 0, 0, 0, 0, 0, 2, 0x68, 0x69, 0, 0, 0, 0, 0, 5, 0x61, 0x62, 0x63, 0x64,
        0x65, 0, 0, 0, 9]], ⟨0, 0, 24⟩) ∧
    (24 : Int) = (xdr_strings_len [⟨0, 0⟩, ⟨2, 0⟩, ⟨5, 2⟩] : Int) :=
  ⟨by decide,
   (xdr_string_array_length true [0x68, 0x69, 0x61, 0x62, 0x63, 0x64, 0x65]
      [⟨0, 0⟩, ⟨2, 0⟩, ⟨5, 2⟩] (by decide) (by decide)).1
      [[9, 9, 9, 9, 9, 9, 9, 9, 9, 9, 9, 9, 9, 9, 9, 9, 9, 9, 9, 9, 9, 9, 9, 9, 9]]
      (xdr_cursor_init 1) 24
      [[0, 0, 0, 0, 0, 0, 0, 2, 0x68, 0x69, 0, 0, 0, 0, 0, 5, 0x61, 0x62, 0x63, 0x64,
        0x65, 0, 0, 0, 9]] ⟨0, 0, 24⟩ (by decide) (by decide)⟩

/-! ## The cursor across iovecs -/

theorem cursor_chunk_eq (iov : xdr_iovec) (offset bytes done : Nat)
    (ho : offset ≤ xdr_iovec_len iov) (hl : xdr_iovec_len iov < U32) :
    cursor_chunk iov offset bytes done = min (xdr_iovec_len iov - offset) (bytes - done) := by
  unfold cursor_chunk
  unfold U32 at *
  have e : (xdr_iovec_len iov + 4294967296 - offset) % 4294967296 = xdr_iovec_len iov - offset := by
    omega
  simp only [e]
  split <;> omega

theorem take_append_chunk (a b : List Byte) (n : Nat) :
    (a ++ b).take n = a.take (min a.length n) ++ b.take (n - min a.length n) := by
  rw [List.take_append_eq_append_take]
  by_cases h : a.length ≤ n
  · rw [Nat.min_eq_left h, List.take_of_length_le h, List.take_of_length_le (Nat.le_refl _)]
  · rw [Nat.min_eq_right (by omega)]
    congr 2
    omega

theorem extract_loop_spec (last : Int) (bytes : Nat) :
    ∀ (rest : List xdr_iovec) (cur offset done : Nat) (out : List Byte),
      (∀ iov ∈ rest, xdr_iovec_len iov < U32) → rest ≠ [] →
      (∀ iov, rest.head? = some iov → offset ≤ xdr_iovec_len iov) →
      last = (cur : Int) + rest.length - 1 → done ≤ bytes →
      (bytes - done ≤ (rest.flatten.drop offset).length →
        ∃ c1, xdr_cursor_extract_loop last bytes rest cur offset done out =
          some (int_of_uint bytes, out ++ (rest.flatten.drop offset).take (bytes - done), c1)) ∧
      ((rest.flatten.drop offset).length < bytes - done →
        ∃ o c1, xdr_cursor_extract_loop last bytes rest cur offset done out = some (-1, o, c1)) := by
  intro rest
  induction rest with
  | nil => intro _ _ _ _ _ h; exact absurd rfl h
  | cons iov rest ih =>
      intro cur offset done out hwf _ hoff hlast hdone
      have ho : offset ≤ xdr_iovec_len iov := hoff iov rfl
      have hl : xdr_iovec_len iov < U32 := hwf iov (List.mem_cons_self _ _)
      have hch := cursor_chunk_eq iov offset bytes done ho hl
      have hfl : ((iov :: rest).flatten.drop offset) = iov.drop offset ++ rest.flatten := by
        rw [List.flatten_cons, List.drop_append_of_le_length ho]
      have hfll : ((iov :: rest).flatten.drop offset).length =
          xdr_iovec_len iov - offset + rest.flatten.length := by
        rw [hfl, List.length_append, List.length_drop]
        rfl
      rw [hfl]
      simp only [List.length_append, List.length_drop]
      unfold xdr_iovec_len at *
      by_cases hd : done < bytes
      · have hnob : ¬ (cursor_chunk iov offset bytes done ≠ 0 ∧
            iov.length < offset + cursor_chunk iov offset bytes done) := by
          rw [hch]; omega
        by_cases hr : rest = []
        · subst hr
          simp only [List.length_cons, List.length_nil] at hlast
          have hcl : (cur : Int) = last := by omega
          simp only [xdr_cursor_extract_loop, hd, if_true, hnob, if_false, hcl, and_true,
            List.flatten_nil, List.length_nil, List.append_nil, Nat.add_zero, xdr_iovec_len]
          constructor
          · intro hle
            have hc : cursor_chunk iov offset bytes done = bytes - done := by
              rw [hch]; omega
            have h1 : ¬ (done + cursor_chunk iov offset bytes done < bytes) := by omega
            have h2 : ¬ (done + (bytes - done) < bytes) := by omega
            simp only [hc, h2, if_false]
            exact ⟨_, rfl⟩
          · intro hlt
            have h1 : done + cursor_chunk iov offset bytes done < bytes := by
              rw [hch]; omega
            simp only [h1, if_true]
            exact ⟨_, _, rfl⟩
        · have hcl : ¬ ((cur : Int) = last) := by
            have : 0 < rest.length := List.length_pos.mpr hr
            simp only [List.length_cons] at hlast
            push_cast at hlast
            omega
          have hih := ih (cur + 1) 0 (done + cursor_chunk iov offset bytes done)
            (out ++ (iov.drop offset).take (cursor_chunk iov offset bytes done))
            (fun i hi => hwf i (List.mem_cons_of_mem _ hi)) hr (fun _ _ => Nat.zero_le _)
            (by simp only [List.length_cons] at hlast; push_cast at hlast ⊢; omega)
            (by rw [hch]; omega)
          simp only [List.drop_zero] at hih
          simp only [xdr_cursor_extract_loop, hd, if_true, hnob, if_false, hcl, and_false,
            xdr_iovec_len]
          constructor
          · intro hle
            obtain ⟨c1, hc1⟩ := hih.1 (by rw [hch]; omega)
            refine ⟨c1, ?_⟩
            rw [hc1, List.append_assoc, take_append_chunk, List.length_drop, ← hch,
              Nat.sub_add_eq]
          · intro hlt
            exact hih.2 (by rw [hch]; omega)
      · have hde : bytes - done = 0 := by omega
        simp only [xdr_cursor_extract_loop, hd, if_false, hde, List.take_zero, List.append_nil]
        exact ⟨fun _ => ⟨_, rfl⟩, fun h => absurd h (by omega)⟩

theorem skip_of_extract_loop (last : Int) (bytes : Nat) :
    ∀ (rest : List xdr_iovec) (cur offset done : Nat) (out : List Byte) (rc : Int)
      (o : List Byte) (c1 : xdr_cursor),
      xdr_cursor_extract_loop last bytes rest cur offset done out = some (rc, o, c1) →
      xdr_cursor_skip_loop last bytes rest cur offset done = some (rc, c1) := by
  intro rest
  induction rest with
  | nil =>
      intro cur offset done out rc o c1 h
      simp only [xdr_cursor_extract_loop] at h
      simp only [xdr_cursor_skip_loop]
      split at h
      · exact absurd h (by simp)
      · rename_i hd
        simp only [Option.some.injEq, Prod.mk.injEq] at h
        simp only [hd, if_false, h.1, h.2.2]
  | cons iov rest ih =>
      intro cur offset done out rc o c1 h
      simp only [xdr_cursor_extract_loop] at h
      simp only [xdr_cursor_skip_loop]
      split at h
      · rename_i hd
        simp only [hd, if_true]
        split at h
        · exact absurd h (by simp)
        · split at h
          · rename_i hc
            simp only [Option.some.injEq, Prod.mk.injEq] at h
            simp only [hc, and_self, if_true, h.1, h.2.2]
          · rename_i hc
            simp only [hc, if_false]
            exact ih _ _ _ _ _ _ _ h
      · rename_i hd
        simp only [Option.some.injEq, Prod.mk.injEq] at h
        simp only [hd, if_false, h.1, h.2.2]

theorem skip_of_extract (iovs : List xdr_iovec) (c : xdr_cursor) (bytes : Nat) (rc : Int)
    (o : List Byte) (c1 : xdr_cursor)
    (h : xdr_cursor_extract iovs c bytes = some (rc, o, c1)) :
    xdr_cursor_skip iovs c bytes = some (rc, c1) := by
  unfold xdr_cursor_extract at h
  unfold xdr_cursor_skip
  cases hcur : iovs[c.cur]? with
  | none => simp [hcur] at h
  | some iov =>
      simp only [hcur] at h ⊢
      split at h
      · rename_i hf
        simp only [hf, if_true]
        split at h
        · exact absurd h (by simp)
        · simp only [Option.some.injEq, Prod.mk.injEq] at h
          simp only [h.1, h.2.2]
      · rename_i hf
        simp only [hf, if_false]
        exact skip_of_extract_loop _ _ _ _ _ _ _ _ _ _ h

theorem extract_spec (iovs : List xdr_iovec) (c : xdr_cursor) (n : Nat) (iov : xdr_iovec)
    (hcur : iovs[c.cur]? = some iov) (hlast : c.last = (iovs.length : Int) - 1)
    (hoff : c.offset ≤ xdr_iovec_len iov) (hwf : ∀ i ∈ iovs, xdr_iovec_len i < U32)
    (hover : c.offset + n < U32) :
    (n ≤ (stream_from iovs c).length →
      ∃ c1, xdr_cursor_extract iovs c n =
        some (int_of_uint n, (stream_from iovs c).take n, c1)) ∧
    ((stream_from iovs c).length < n →
      ∃ o c1, xdr_cursor_extract iovs c n = some (-1, o, c1)) := by
  obtain ⟨hlt, heq⟩ := List.getElem?_eq_some.mp hcur
  have hdrop : iovs.drop c.cur = iov :: iovs.drop (c.cur + 1) := by
    rw [List.drop_eq_getElem_cons hlt, heq]
  have hst : stream_from iovs c = iov.drop c.offset ++ (iovs.drop (c.cur + 1)).flatten := by
    unfold stream_from
    rw [hdrop, List.flatten_cons, List.drop_append_of_le_length hoff]
  have hstl : (stream_from iovs c).length =
      xdr_iovec_len iov - c.offset + (iovs.drop (c.cur + 1)).flatten.length := by
    rw [hst, List.length_append, List.length_drop]
    rfl
  have hmod : (c.offset + n) % U32 = c.offset + n := Nat.mod_eq_of_lt hover
  by_cases hf : c.offset + n ≤ xdr_iovec_len iov
  · have h := extract_fast iovs c n iov hcur hf
    constructor
    · intro _
      rw [h, hst, List.take_append_of_le_length
        (by rw [List.length_drop]; unfold xdr_iovec_len at hf; omega)]
      exact ⟨_, rfl⟩
    · intro hlt2
      omega
  · have hsl : xdr_cursor_extract iovs c n =
        xdr_cursor_extract_loop c.last n (iovs.drop c.cur) c.cur c.offset 0 [] := by
      unfold xdr_cursor_extract
      rw [hcur]
      simp only [hmod, hf, if_false]
    have hspec := extract_loop_spec c.last n (iovs.drop c.cur) c.cur c.offset 0 []
      (fun i hi => hwf i (List.mem_of_mem_drop hi)) (by rw [hdrop]; simp)
      (by
        intro i hi
        rw [hdrop, List.head?_cons, Option.some.injEq] at hi
        rw [← hi]
        exact hoff)
      (by
        rw [hlast, List.length_drop]
        push_cast [Nat.sub_le_of_le_add, hlt.le]
        omega)
      (Nat.zero_le _)
    simp only [Nat.sub_zero, List.nil_append] at hspec
    rw [hsl]
    exact hspec

/-- C7 (with the bound `offset + N < 2 ^ 32` that the `unsigned int` sum in the
bounds check needs): for a read cursor at a valid position of an iovec list
(`cur` inside the list, `last` its last iovec, `offset` at most the length of
`cur`) and `N < 2 ^ 31` not exceeding the bytes ahead of the cursor,
`xdr_cursor_extract` returns `N` and the destination receives exactly the next
`N` bytes of the concatenation of the iovecs. -/
theorem extract_next_bytes (iovs : List xdr_iovec) (c : xdr_cursor) (n : Nat) (iov : xdr_iovec)
    (hcur : iovs[c.cur]? = some iov) (hlast : c.last = (iovs.length : Int) - 1)
    (hoff : c.offset ≤ xdr_iovec_len iov) (hwf : ∀ i ∈ iovs, xdr_iovec_len i < U32)
    (hn : n < 2147483648) (hover : c.offset + n < U32)
    (hrem : n ≤ (stream_from iovs c).length) :
    ∃ c1, xdr_cursor_extract iovs c n = some ((n : Int), (stream_from iovs c).take n, c1) := by
  obtain ⟨c1, h⟩ := (extract_spec iovs c n iov hcur hlast hoff hwf hover).1 hrem
  rw [int_of_uint_small n hn] at h
  exact ⟨c1, h⟩

/-- C7, instance: five bytes starting inside the first iovec, passing over an
empty one and ending at the end of the third. -/
theorem extract_next_bytes_witness :
    ∃ c1, xdr_cursor_extract [[1, 2], [], [3, 4, 5, 6], [7]] ⟨0, 3, 1⟩ 5 =
      some (5, [2, 3, 4, 5, 6], c1) :=
  extract_next_bytes [[1, 2], [], [3, 4, 5, 6], [7]] ⟨0, 3, 1⟩ 5 [1, 2] (by decide) (by decide)
    (by decide) (by decide) (by decide) (by decide) (by decide)

theorem extract_out_of_range (iovs : List xdr_iovec) (c : xdr_cursor) (n : Nat) (iov : xdr_iovec)
    (hcur : iovs[c.cur]? = some iov) (hfast : (c.offset + n) % U32 ≤ xdr_iovec_len iov)
    (hn : n ≠ 0) (hout : xdr_iovec_len iov < c.offset + n) :
    xdr_cursor_extract iovs c n = none := by
  unfold xdr_cursor_extract
  rw [hcur]
  simp only [hfast, if_true, hn, ne_eq, not_false_eq_true, hout, and_self]

/-- C7 as stated fails when `offset + N` reaches `2 ^ 32`: with the cursor at the
end of an iovec of `2 ^ 32 - 1` bytes that is followed by the one-byte iovec
`[1]`, the next byte of the stream is `1`, but the `unsigned int` sum
`offset + 1` wraps to 0, the one-iovec path is taken and the byte is read at
`offset` in the first iovec, outside its range. -/
theorem extract_offset_wraps :
    xdr_cursor_extract [List.replicate 4294967295 0, [1]] ⟨0, 1, 4294967295⟩ 1 = none ∧
    stream_from [List.replicate 4294967295 0, [1]] ⟨0, 1, 4294967295⟩ = [1] := by
  constructor
  · exact extract_out_of_range _ _ 1 (List.replicate 4294967295 0) rfl
      (by unfold xdr_iovec_len; rw [List.length_replicate]; decide) (by decide)
      (by unfold xdr_iovec_len; rw [List.length_replicate]; decide)
  · unfold stream_from
    show List.drop 4294967295 ([List.replicate 4294967295 0, [1]].flatten) = [1]
    rw [List.flatten_cons, List.drop_left' (List.length_replicate _ _)]
    rfl

/-- C8 (with the bound `offset + N < 2 ^ 32`): for a cursor at a valid position and
`N < 2 ^ 31`, `xdr_cursor_extract` and `xdr_cursor_skip` return the same value,
which is `-1` if and only if `N` exceeds the number of bytes from the cursor
position through the end of the last iovec, and is `N` otherwise. -/
theorem extract_skip_return (iovs : List xdr_iovec) (c : xdr_cursor) (n : Nat) (iov : xdr_iovec)
    (hcur : iovs[c.cur]? = some iov) (hlast : c.last = (iovs.length : Int) - 1)
    (hoff : c.offset ≤ xdr_iovec_len iov) (hwf : ∀ i ∈ iovs, xdr_iovec_len i < U32)
    (hn : n < 2147483648) (hover : c.offset + n < U32) :
    ∃ (rc : Int) (out : List Byte) (c1 : xdr_cursor),
      xdr_cursor_extract iovs c n = some (rc, out, c1) ∧
      xdr_cursor_skip iovs c n = some (rc, c1) ∧
      (rc = -1 ↔ (stream_from iovs c).length < n) ∧
      (¬ (stream_from iovs c).length < n → rc = (n : Int)) := by
  have hs := extract_spec iovs c n iov hcur hlast hoff hwf hover
  by_cases hlt : (stream_from iovs c).length < n
  · obtain ⟨o, c1, h⟩ := hs.2 hlt
    exact ⟨-1, o, c1, h, skip_of_extract _ _ _ _ _ _ h, by simp [hlt], fun h2 => absurd hlt h2⟩
  · obtain ⟨c1, h⟩ := hs.1 (by omega)
    rw [int_of_uint_small n hn] at h
    refine ⟨n, _, c1, h, skip_of_extract _ _ _ _ _ _ h, ?_, fun _ => rfl⟩
    constructor
    · intro h2
      omega
    · intro h2
      exact absurd h2 hlt

/-- C8, instance: seven bytes are ahead of the cursor; asking for eight gives -1. -/
theorem extract_skip_return_witness :
    ∃ (rc : Int) (out : List Byte) (c1 : xdr_cursor),
      xdr_cursor_extract [[1, 2], [], [3, 4, 5, 6], [7]] ⟨0, 3, 0⟩ 8 = some (rc, out, c1) ∧
      xdr_cursor_skip [[1, 2], [], [3, 4, 5, 6], [7]] ⟨0, 3, 0⟩ 8 = some (rc, c1) ∧
      (rc = -1 ↔ (stream_from [[1, 2], [], [3, 4, 5, 6], [7]] ⟨0, 3, 0⟩).length < 8) ∧
      (¬ (stream_from [[1, 2], [], [3, 4, 5, 6], [7]] ⟨0, 3, 0⟩).length < 8 → rc = ((8 : Nat) : Int)) :=
  extract_skip_return [[1, 2], [], [3, 4, 5, 6], [7]] ⟨0, 3, 0⟩ 8 [1, 2] (by decide) (by decide)
    (by decide) (by decide) (by decide) (by decide)

/-- C8 as stated fails when `offset + N` reaches `2 ^ 32`: with the cursor at the
end of a single iovec of `2 ^ 32 - 1` bytes no byte is left, yet skipping one
byte returns 1 (and moves the cursor back to offset 0) instead of -1. -/
theorem skip_offset_wraps :
    xdr_cursor_skip [List.replicate 4294967295 0] ⟨0, 0, 4294967295⟩ 1 = some (1, ⟨0, 0, 0⟩) ∧
    (stream_from [List.replicate 4294967295 0] ⟨0, 0, 4294967295⟩).length = 0 := by
  constructor
  · unfold xdr_cursor_skip
    have hcur : ([List.replicate 4294967295 0] : List xdr_iovec)[(⟨0, 0, 4294967295⟩ : xdr_cursor).cur]?
        = some (List.replicate 4294967295 0) := rfl
    rw [hcur]
    have hf : ((⟨0, 0, 4294967295⟩ : xdr_cursor).offset + 1) % U32 ≤
        xdr_iovec_len (List.replicate 4294967295 0) := by
      unfold xdr_iovec_len
      rw [List.length_replicate]
      decide
    simp only [hf, if_true]
    rfl
  · unfold stream_from
    show (List.drop 4294967295 ([List.replicate 4294967295 0].flatten)).length = 0
    rw [List.flatten_cons, List.flatten_nil, List.append_nil, List.length_drop,
      List.length_replicate]

/-! ## Fragmented iovec lists -/

/-- C6, at the failing input: two values marshalled over iovecs of 2, 10 and 8
bytes.  The first value ends two bytes into the second iovec, after which the
cursor is moved to the start of the third: 8 is returned, but bytes 4 .. 7 of
the concatenation are left as they were (`09`), so the concatenation does not
start with the encoding `01 .. 08`.  Unmarshalling with a fresh cursor follows
the same path and yields the two values.  Over iovecs of 2 and 10 bytes only,
the second value makes the code read the iovec array past its end. -/
theorem marshall_uint32_t_fragmented :
    __marshall_uint32_t true [0x01020304, 0x05060708] 2
        [[9, 9], [9, 9, 9, 9, 9, 9, 9, 9, 9, 9], [9, 9, 9, 9, 9, 9, 9, 9]] (xdr_cursor_init 3) =
      some (8, [[1, 2], [3, 4, 9, 9, 9, 9, 9, 9, 9, 9], [5, 6, 7, 8, 9, 9, 9, 9]], ⟨2, 2, 4⟩) ∧
    ([[1, 2], [3, 4, 9, 9, 9, 9, 9, 9, 9, 9], [5, 6, 7, 8, 9, 9, 9, 9]] :
        List xdr_iovec).flatten.take 8 ≠ be32s [0x01020304, 0x05060708] ∧
    __unmarshall_uint32_t true 2
        [[1, 2], [3, 4, 9, 9, 9, 9, 9, 9, 9, 9], [5, 6, 7, 8, 9, 9, 9, 9]] (xdr_cursor_init 3) =
      some (8, [0x01020304, 0x05060708], ⟨2, 2, 4⟩) ∧
    __marshall_uint32_t true [0x01020304, 0x05060708] 2
        [[9, 9], [9, 9, 9, 9, 9, 9, 9, 9, 9, 9]] (xdr_cursor_init 2) = none := by
  refine ⟨by decide, by decide, by decide, by decide⟩

/-- C9, at the failing input: over the iovecs `[1,2]`, `[3,4,5,6]`, `[7]` an
extract of 3 bytes from a fresh cursor returns `1,2,3` but leaves the cursor at
the start of the third iovec, so that the following extract of one byte returns
`7`, not byte 3 of the stream (`4`): the logical position has advanced by 6.
Without the third iovec the cursor is left past the end of the list although
three bytes are unread, and the second extract reads the iovec array past its
end. -/
theorem extract_twice_fragmented :
    xdr_cursor_extract [[1, 2], [3, 4, 5, 6], [7]] (xdr_cursor_init 3) 3 =
      some (3, [1, 2, 3], ⟨2, 2, 0⟩) ∧
    xdr_cursor_extract [[1, 2], [3, 4, 5, 6], [7]] ⟨2, 2, 0⟩ 1 = some (1, [7], ⟨2, 2, 1⟩) ∧
    ([[1, 2], [3, 4, 5, 6], [7]] : List xdr_iovec).flatten.drop 3 = [4, 5, 6, 7] ∧
    xdr_cursor_extract [[1, 2], [3, 4, 5, 6]] (xdr_cursor_init 2) 3 =
      some (3, [1, 2, 3], ⟨2, 1, 0⟩) ∧
    xdr_cursor_extract [[1, 2], [3, 4, 5, 6]] ⟨2, 1, 0⟩ 1 = none := by
  refine ⟨by decide, by decide, by decide, by decide, by decide⟩

/-! ## Exhaustion of a single iovec -/

theorem append_last_short (iovs : List xdr_iovec) (c : xdr_cursor) (src : List Byte)
    (bytes : Nat) (iov : xdr_iovec) (hcur : iovs[c.cur]? = some iov)
    (hsingle : (c.cur : Int) = c.last) (hoff : c.offset ≤ xdr_iovec_len iov)
    (hshort : xdr_iovec_len iov < c.offset + bytes) (hover : c.offset + bytes < U32)
    (hsrc : bytes ≤ src.length) :
    ∃ iovs1 c1, xdr_cursor_append iovs c src bytes = some (-1, iovs1, c1) := by
  obtain ⟨hlt, heq⟩ := List.getElem?_eq_some.mp hcur
  have hdrop : iovs.drop c.cur = iov :: iovs.drop (c.cur + 1) := by
    rw [List.drop_eq_getElem_cons hlt, heq]
  have hmod : (c.offset + bytes) % U32 = c.offset + bytes := Nat.mod_eq_of_lt hover
  have hl : xdr_iovec_len iov < U32 := by omega
  have hch := cursor_chunk_eq iov c.offset bytes 0 hoff hl
  have hc : cursor_chunk iov c.offset bytes 0 = xdr_iovec_len iov - c.offset := by
    rw [hch]; omega
  have h0 : 0 < bytes := by omega
  have hnob : ¬ (xdr_iovec_len iov - c.offset ≠ 0 ∧
      (xdr_iovec_len iov < c.offset + (xdr_iovec_len iov - c.offset) ∨
        src.length < 0 + (xdr_iovec_len iov - c.offset))) := by omega
  have hfail : 0 + (xdr_iovec_len iov - c.offset) < bytes ∧ (c.cur : Int) = c.last :=
    ⟨by omega, hsingle⟩
  unfold xdr_cursor_append
  rw [hcur]
  simp only [hmod, Nat.not_le.mpr hshort, if_false, hdrop, xdr_cursor_append_loop, h0, if_true,
    hc, hnob, hfail, and_self]
  exact ⟨_, _, rfl⟩

theorem marshall_uint32_t_loop_short (le : Bool) (ret : Int) :
    ∀ (v : List Nat) (iovs : List xdr_iovec) (c : xdr_cursor) (iov : xdr_iovec),
      iovs[c.cur]? = some iov → (c.cur : Int) = c.last → c.offset ≤ xdr_iovec_len iov →
      xdr_iovec_len iov + 4 < U32 → xdr_iovec_len iov - c.offset < 4 * v.length →
      ∃ iovs1 c1, marshall_uint32_t_loop le ret v.length v iovs c = some (-1, iovs1, c1) := by
  intro v
  induction v with
  | nil =>
      intro iovs c iov _ _ _ _ h
      simp at h
  | cons x xs ih =>
      intro iovs c iov hcur hsingle hoff hlen hshort
      obtain ⟨hlt, -⟩ := List.getElem?_eq_some.mp hcur
      simp only [List.length_cons] at hshort ⊢
      by_cases hfit : c.offset + 4 ≤ xdr_iovec_len iov
      · have h := append_fast iovs c (mem_of_uint32 le (xdr_hton32 le x)) 4 iov hcur hfit
          (by rw [mem_hton32]; exact Nat.le_refl _)
        have hmod : (c.offset + 4) % U32 = c.offset + 4 := Nat.mod_eq_of_lt (by omega)
        rw [hmod] at h
        have hsl : (iov_store iov c.offset ((mem_of_uint32 le (xdr_hton32 le x)).take 4)).length
            = iov.length :=
          length_iov_store iov c.offset _ (by rw [mem_hton32]; exact hfit)
        have := ih (iovs.set c.cur (iov_store iov c.offset
            ((mem_of_uint32 le (xdr_hton32 le x)).take 4)))
          { cur := c.cur, last := c.last, offset := c.offset + 4 }
          (iov_store iov c.offset ((mem_of_uint32 le (xdr_hton32 le x)).take 4))
          (List.getElem?_set_self hlt) hsingle
          (by unfold xdr_iovec_len at *; rw [hsl]; exact hfit)
          (by unfold xdr_iovec_len at *; rw [hsl]; exact hlen)
          (by unfold xdr_iovec_len at *; rw [hsl]; simp only []; omega)
        simp only [marshall_uint32_t_loop, h, int_of_uint_four]
        rw [if_neg (by decide)]
        exact this
      · obtain ⟨iovs1, c1, h⟩ := append_last_short iovs c (mem_of_uint32 le (xdr_hton32 le x)) 4
          iov hcur hsingle hoff (by omega) (by omega) (by rw [mem_hton32]; exact Nat.le_refl _)
        simp only [marshall_uint32_t_loop, h]
        rw [if_pos (by decide)]
        exact ⟨_, _, rfl⟩

/-- C10 (for `n < 2 ^ 29` and an iovec shorter than `2 ^ 32 - 4` bytes): for
`n` values and a write cursor over a single iovec (`cur = last`),
`__marshall_uint32_t` returns `-1` when fewer than `4 n` bytes remain in the
iovec and `4 n` when at least `4 n` bytes remain. -/
theorem marshall_uint32_t_exhaustion (le : Bool) (v : List Nat) (iovs : List xdr_iovec)
    (c : xdr_cursor) (iov : xdr_iovec) (hn : v.length < 536870912)
    (hcur : iovs[c.cur]? = some iov) (hsingle : (c.cur : Int) = c.last)
    (hoff : c.offset ≤ xdr_iovec_len iov) (hlen : xdr_iovec_len iov + 4 < U32) :
    (xdr_iovec_len iov - c.offset < 4 * v.length →
      ∃ iovs1 c1, __marshall_uint32_t le v v.length iovs c = some (-1, iovs1, c1)) ∧
    (4 * v.length ≤ xdr_iovec_len iov - c.offset →
      ∃ iovs1 c1, __marshall_uint32_t le v v.length iovs c =
        some (4 * (v.length : Int), iovs1, c1)) := by
  constructor
  · intro hshort
    exact marshall_uint32_t_loop_short le _ v iovs c iov hcur hsingle hoff hlen hshort
  · intro hroom
    have h : __marshall_uint32_t le v v.length iovs c = some (int_shl v.length 2, _, _) :=
      marshall_uint32_t_loop_single le (int_shl v.length 2) v iovs c iov hcur
        (by omega) (by omega)
    rw [int_shl_two _ hn] at h
    exact ⟨_, _, h⟩

/-- C10, instance: two values do not fit in the seven bytes left of an iovec,
and do fit in eight. -/
theorem marshall_uint32_t_exhaustion_witness :
    (∃ iovs1 c1, __marshall_uint32_t true [1, 2] 2 [[9, 9, 9, 9, 9, 9, 9, 9]] ⟨0, 0, 1⟩ =
        some (-1, iovs1, c1)) ∧
    (∃ iovs1 c1, __marshall_uint32_t true [1, 2] 2 [[9, 9, 9, 9, 9, 9, 9, 9]] ⟨0, 0, 0⟩ =
        some (8, iovs1, c1)) :=
  ⟨(marshall_uint32_t_exhaustion true [1, 2] [[9, 9, 9, 9, 9, 9, 9, 9]] ⟨0, 0, 1⟩
      [9, 9, 9, 9, 9, 9, 9, 9] (by decide) (by decide) (by decide) (by decide)
      (by decide)).1 (by decide),
   (marshall_uint32_t_exhaustion true [1, 2] [[9, 9, 9, 9, 9, 9, 9, 9]] ⟨0, 0, 0⟩
      [9, 9, 9, 9, 9, 9, 9, 9] (by decide) (by decide) (by decide) (by decide)
      (by decide)).2 (by decide)⟩

theorem append_out_of_range (iovs : List xdr_iovec) (c : xdr_cursor) (src : List Byte)
    (n : Nat) (iov : xdr_iovec)
    (hcur : iovs[c.cur]? = some iov) (hfast : (c.offset + n) % U32 ≤ xdr_iovec_len iov)
    (hn : n ≠ 0) (hout : xdr_iovec_len iov < c.offset + n) :
    xdr_cursor_append iovs c src n = none := by
  unfold xdr_cursor_append
  rw [hcur]
  simp only [hfast, if_true, hn, ne_eq, not_false_eq_true, hout, true_or, and_self]

theorem marshall_one_uint32_none (le : Bool) (x : Nat) (iovs : List xdr_iovec)
    (c : xdr_cursor)
    (h : xdr_cursor_append iovs c (mem_of_uint32 le (xdr_hton32 le x)) 4 = none) :
    __marshall_uint32_t le [x] 1 iovs c = none := by
  simp only [__marshall_uint32_t, marshall_uint32_t_loop, h]

/-- C10 as stated fails at both ends.  With room for all of `n = 2 ^ 29 + 1` values
the result is the `int` `n << 2`, which is negative.  With one byte left at
offset `2 ^ 32 - 2` of an iovec of `2 ^ 32 - 1` bytes, the `unsigned int` sum
`offset + 4` wraps to 2, the value is taken to fit and is stored past the end of
the iovec instead of the call failing. -/
theorem marshall_uint32_t_large_or_wrapped :
    Option.map Prod.fst
        (__marshall_uint32_t true (List.replicate 536870913 0) 536870913
          [List.replicate 2147483652 0] (xdr_cursor_init 1)) = some (-2147483644) ∧
    __marshall_uint32_t true [7] 1 [List.replicate 4294967295 0] ⟨0, 0, 4294967294⟩ = none := by
  constructor
  · have h := (uint32_single true (List.replicate 536870913 0) [List.replicate 2147483652 0]
      (xdr_cursor_init 1) (List.replicate 2147483652 0)
      (fun x hx => by rw [List.eq_of_mem_replicate hx]; decide) rfl
      (by
        rw [List.length_replicate]
        unfold xdr_iovec_len
        rw [List.length_replicate]
        decide)
      (by
        unfold xdr_iovec_len
        rw [List.length_replicate]
        decide)).1
    rw [List.length_replicate] at h
    rw [h]
    rfl
  · exact marshall_one_uint32_none _ _ _ _
      (append_out_of_range [List.replicate 4294967295 0] ⟨0, 0, 4294967294⟩
        (mem_of_uint32 true (xdr_hton32 true 7)) 4 (List.replicate 4294967295 0) rfl
        (by unfold xdr_iovec_len; rw [List.length_replicate]; decide) (by decide)
        (by unfold xdr_iovec_len; rw [List.length_replicate]; decide))

/-! ## Truncated input in one iovec -/

theorem extract_single_short (iovs : List xdr_iovec) (cur : Nat) (last : Int) (o n : Nat)
    (iov : xdr_iovec) (hcur : iovs[cur]? = some iov) (hl : (cur : Int) = last)
    (ho : o ≤ xdr_iovec_len iov) (hlen : xdr_iovec_len iov < U32) (hov : o + n < U32)
    (hshort : xdr_iovec_len iov < o + n) :
    xdr_cursor_extract iovs { cur := cur, last := last, offset := o } n =
      some (-1, iov.drop o, { cur := cur, last := last, offset := o }) := by
  obtain ⟨hlt, hget⟩ := List.getElem?_eq_some.mp hcur
  have hdrop : iovs.drop cur = iov :: iovs.drop (cur + 1) := by
    rw [List.drop_eq_getElem_cons hlt, hget]
  have hch : cursor_chunk iov o n 0 = xdr_iovec_len iov - o := by
    unfold cursor_chunk
    unfold U32 at *
    simp only [Nat.sub_zero]
    have e : (xdr_iovec_len iov + 4294967296 - o) % 4294967296 = xdr_iovec_len iov - o := by
      omega
    rw [e, if_neg (by omega)]
  have hfast : ¬ ((o + n) % U32 ≤ xdr_iovec_len iov) := by
    rw [Nat.mod_eq_of_lt hov]; omega
  have hn : 0 < n := by omega
  have hnob : ¬ (xdr_iovec_len iov - o ≠ 0 ∧ xdr_iovec_len iov < o + (xdr_iovec_len iov - o)) := by
    omega
  have hdone : 0 + (xdr_iovec_len iov - o) < n := by omega
  have htake : (iov.drop o).take (xdr_iovec_len iov - o) = iov.drop o := by
    apply List.take_of_length_le
    rw [List.length_drop]
    unfold xdr_iovec_len
    omega
  simp only [xdr_cursor_extract, hcur, hfast, if_false, hdrop, xdr_cursor_extract_loop, hn,
    if_true, hch, hnob, hdone, hl, and_self, List.nil_append, htake]

theorem unmarshall_xdr_string_cut_word (le : Bool) (p : List Byte) (dbuf : xdr_dbuf)
    (hp : p.length < 4) :
    ∃ c1, __unmarshall_xdr_string le 1 [p] (xdr_cursor_init 1) dbuf = some (-1, [], dbuf, c1) := by
  have ha := extract_single_short [p] 0 0 0 4 p rfl rfl (Nat.zero_le _)
    (by unfold xdr_iovec_len U32; omega) (by unfold U32; omega)
    (by unfold xdr_iovec_len; omega)
  have hi : xdr_cursor_init 1 = { cur := 0, last := 0, offset := 0 } := rfl
  have hneg : ((-1 : Int) < 0) := by decide
  rw [hi]
  simp only [__unmarshall_xdr_string, unmarshall_xdr_string_loop, __unmarshall_uint32_t,
    unmarshall_uint32_t_loop, Nat.cast_zero, ha, hneg, if_true]
  exact ⟨_, rfl⟩

theorem unmarshall_xdr_string_cut_payload (le : Bool) (l : Nat) (d : List Byte) (dbuf : xdr_dbuf)
    (hd : d.length < l) (hl : l + 4 < U32)
    (hbuf : dbuf.used + d.length ≤ dbuf.buffer.length) :
    ∃ out d1 c1, __unmarshall_xdr_string le 1 [be32 l ++ d] (xdr_cursor_init 1) dbuf =
      some (-1, out, d1, c1) := by
  have hlen : xdr_iovec_len (be32 l ++ d) = 4 + d.length := by
    unfold xdr_iovec_len
    rw [List.length_append, length_be32]
  have ha := unmarshall_uint32_t_single_one le [be32 l ++ d] 0 0 0 l (be32 l ++ d) [] d rfl
    (by rw [List.nil_append]) rfl (by omega) (by rw [hlen]; omega)
  have hb := extract_single_short [be32 l ++ d] 0 0 4 l (be32 l ++ d) rfl rfl
    (by rw [hlen]; omega) (by rw [hlen]; omega) (by omega) (by rw [hlen]; omega)
  have hdr : (be32 l ++ d).drop 4 = d := List.drop_left' (length_be32 l)
  have hi : xdr_cursor_init 1 = { cur := 0, last := 0, offset := 0 } := rfl
  have hneg : ((-1 : Int) < 0) := by decide
  have h4 : ¬ ((4 : Int) < 0) := by decide
  have hc1 : ¬ (dbuf.buffer.length < dbuf.used + d.length) := by omega
  rw [hi]
  simp only [Nat.cast_zero, Nat.zero_add] at ha hb
  simp only [__unmarshall_xdr_string, unmarshall_xdr_string_loop, ha, hb, h4, hneg, if_false,
    if_true, List.headD_cons, hdr, hc1, List.nil_append]
  exact ⟨_, _, _, rfl⟩


theorem unmarshall_xdr_string_cut_pad (le : Bool) (l : Nat) (sb z : List Byte) (dbuf : xdr_dbuf)
    (hsb : sb.length = l) (hz : z.length < xdr_pad l) (hl : l + 4 < U32)
    (hbuf : dbuf.used + l ≤ dbuf.buffer.length)
    (hnul : l < 2147483648 → dbuf.used + l + 1 ≤ dbuf.buffer.length) :
    ∃ rc out d1 c1, __unmarshall_xdr_string le 1 [be32 l ++ sb ++ z] (xdr_cursor_init 1) dbuf =
      some (rc, out, d1, c1) ∧ rc < 0 := by
  have hpad : xdr_pad l ≤ 3 := by unfold xdr_pad; omega
  have hlen : xdr_iovec_len (be32 l ++ sb ++ z) = 4 + l + z.length := by
    unfold xdr_iovec_len
    rw [List.length_append, List.length_append, length_be32, hsb]
  have hlu : xdr_iovec_len (be32 l ++ sb ++ z) < U32 := by
    rw [hlen]; unfold xdr_pad at hz; unfold U32 at *; omega
  have ha := unmarshall_uint32_t_single_one le [be32 l ++ sb ++ z] 0 0 0 l (be32 l ++ sb ++ z)
    [] (sb ++ z) rfl (by rw [List.nil_append, List.append_assoc]) rfl (by omega) hlu
  have hb := extract_single [be32 l ++ sb ++ z] 0 0 4 l (be32 l ++ sb ++ z) (be32 l) sb z rfl
    rfl (length_be32 l).symm hsb.symm hlu
  have hi : xdr_cursor_init 1 = { cur := 0, last := 0, offset := 0 } := rfl
  have h4 : ¬ ((4 : Int) < 0) := by decide
  have hc1 : ¬ (dbuf.buffer.length < dbuf.used + l) := by omega
  rw [hi]
  simp only [Nat.cast_zero, Nat.zero_add] at ha hb
  by_cases hneg : int_of_uint l < 0
  · simp only [__unmarshall_xdr_string, unmarshall_xdr_string_loop, ha, hb, h4, hneg, if_false,
      if_true, List.headD_cons, hsb, hc1, List.nil_append]
    exact ⟨_, _, _, _, rfl, hneg⟩
  · have hsmall : l < 2147483648 := by
      by_contra hc
      apply hneg
      unfold int_of_uint
      unfold U32 at *
      rw [Nat.mod_eq_of_lt (by omega), if_neg (by omega)]
      omega
    have hbuf1 := hnul hsmall
    have hs := extract_single_short [be32 l ++ sb ++ z] 0 0 (4 + l) (xdr_pad l)
      (be32 l ++ sb ++ z) rfl rfl (by rw [hlen]; omega) hlu (by unfold U32; omega)
      (by rw [hlen]; omega)
    have hk := skip_of_extract _ _ _ _ _ _ hs
    have hst : (iov_store dbuf.buffer dbuf.used sb).length = dbuf.buffer.length :=
      length_iov_store _ _ _ (by omega)
    have hc2 : ¬ (dbuf.buffer.length ≤ dbuf.used + l) := by omega
    have hp0 : ¬ ((4 - l % 4) % 4 = 0) := by unfold xdr_pad at hz; omega
    have hm1 : ((-1 : Int) < 0) := by decide
    simp only [Nat.cast_zero] at hk
    unfold xdr_pad at hk
    simp only [__unmarshall_xdr_string, unmarshall_xdr_string_loop, ha, hb, h4, hneg, if_false,
      if_true, List.headD_cons, hsb, hc1, List.nil_append, hst, hc2, ne_eq, hp0,
      not_false_eq_true, hk, hm1]
    exact ⟨_, _, _, _, rfl, hm1⟩


theorem take_xdr_string_wire (mem : List Byte) (s : xdr_string) :
    (xdr_string_wire mem s).take 4 = be32 s.len := by
  unfold xdr_string_wire
  rw [List.append_assoc]
  exact List.take_left' (length_be32 s.len)

/-- Inside the range `s.len + 4 < 2 ^ 32`, in which the sum `offset + bytes` of the
cursor does not wrap, every cut of the encoding of `s` is reported: for every
proper prefix (the first `k` bytes) presented as the only iovec,
`__unmarshall_xdr_string` returns a negative value, wherever the cut falls.  Of
the decode buffer only what the routine stores is asked: nothing for a cut
in the length word, room for the payload bytes present for a cut in the
payload, and room for the payload, and for the NUL when `s.len < 2 ^ 31`, for a
cut in the padding. -/
theorem unmarshall_xdr_string_cut_reported (le : Bool) (mem : List Byte) (s : xdr_string)
    (k : Nat) (dbuf : xdr_dbuf) (hs : s.str + s.len ≤ mem.length) (hl : s.len + 4 < U32)
    (hk : k < (xdr_string_wire mem s).length)
    (hpay : 4 ≤ k → k < 4 + s.len → dbuf.used + (k - 4) ≤ dbuf.buffer.length)
    (hpad : 4 + s.len ≤ k → dbuf.used + s.len ≤ dbuf.buffer.length ∧
      (s.len < 2147483648 → dbuf.used + s.len + 1 ≤ dbuf.buffer.length)) :
    ∃ rc out d1 c1,
      __unmarshall_xdr_string le 1 [(xdr_string_wire mem s).take k] (xdr_cursor_init 1) dbuf =
        some (rc, out, d1, c1) ∧ rc < 0 := by
  have hsb := length_str_bytes mem s hs
  rw [length_xdr_string_wire mem s hs] at hk
  by_cases h4 : k < 4
  · obtain ⟨c1, h⟩ := unmarshall_xdr_string_cut_word le ((xdr_string_wire mem s).take k) dbuf
      (by rw [List.length_take]; omega)
    exact ⟨_, _, _, _, h, by decide⟩
  · have e1 : (xdr_string_wire mem s).take k =
        be32 s.len ++ (str_bytes mem s ++ List.replicate (xdr_pad s.len) 0).take (k - 4) := by
      unfold xdr_string_wire
      rw [List.append_assoc, List.take_append_eq_append_take, length_be32,
        List.take_of_length_le (by rw [length_be32]; omega)]
    by_cases hp : k < 4 + s.len
    · have e2 : (str_bytes mem s ++ List.replicate (xdr_pad s.len) 0).take (k - 4) =
          (str_bytes mem s).take (k - 4) := by
        rw [List.take_append_eq_append_take, hsb]
        have e0 : k - 4 - s.len = 0 := by omega
        rw [e0, List.take_zero, List.append_nil]
      have hlt : ((str_bytes mem s).take (k - 4)).length = k - 4 := by
        rw [List.length_take, hsb]; omega
      have hb := hpay (by omega) hp
      obtain ⟨out, d1, c1, h⟩ := unmarshall_xdr_string_cut_payload le s.len
        ((str_bytes mem s).take (k - 4)) dbuf (by rw [hlt]; omega) hl (by rw [hlt]; omega)
      rw [e1, e2]
      exact ⟨_, _, _, _, h, by decide⟩
    · have e2 : (str_bytes mem s ++ List.replicate (xdr_pad s.len) 0).take (k - 4) =
          str_bytes mem s ++ (List.replicate (xdr_pad s.len) 0).take (k - 4 - s.len) := by
        rw [List.take_append_eq_append_take, hsb,
          List.take_of_length_le (by rw [hsb]; omega)]
      have hb := hpad (by omega)
      rw [e1, e2, ← List.append_assoc]
      exact unmarshall_xdr_string_cut_pad le s.len (str_bytes mem s) _ dbuf hsb
        (by rw [List.length_take, List.length_replicate]; omega) hl hb.1 hb.2

/-- C11, on the input `FF FF FF FF`, a proper prefix of the encoding of a string of
`2 ^ 32 - 1` bytes, given as the whole input.  The length word is read; the
bounds test of `xdr_cursor_extract` then adds `offset + bytes` in `unsigned int`,
`4 + 4294967295` wraps around to 3, which is not above the four bytes of the
iovec, so the one-iovec path is taken and `4294967295` bytes are copied from a
position where none is left: the copy runs outside the input and the routine
has no defined result, whatever the decode buffer.  The value that the path
hands back after the copy is the byte count converted to `int`.  On the input
`FF FF FF FB` the sum does not wrap, the loop path is taken, no byte is copied
and the cut is reported by `-1`. -/
theorem unmarshall_xdr_string_length_wraps :
    (xdr_string_wire (List.replicate 4294967295 97) ⟨4294967295, 0⟩).take 4 =
      [255, 255, 255, 255] ∧
    4 < (xdr_string_wire (List.replicate 4294967295 97) ⟨4294967295, 0⟩).length ∧
    __unmarshall_uint32_t true 1 [[255, 255, 255, 255]] (xdr_cursor_init 1) =
      some (4, [4294967295], ⟨0, 0, 4⟩) ∧
    (4 + 4294967295) % U32 = 3 ∧
    xdr_cursor_extract [[255, 255, 255, 255]] ⟨0, 0, 4⟩ 4294967295 = none ∧
    (∀ dbuf, __unmarshall_xdr_string true 1 [[255, 255, 255, 255]] (xdr_cursor_init 1) dbuf =
      none) ∧
    int_of_uint 4294967295 = -1 ∧
    __unmarshall_xdr_string true 1 [[255, 255, 255, 251]] (xdr_cursor_init 1)
        ⟨[0, 0, 0, 0, 0, 0, 0, 0], 0, 8⟩ =
      some (-1, [⟨4294967291, 0⟩], ⟨[0, 0, 0, 0, 0, 0, 0, 0], 4294967292, 8⟩, ⟨0, 0, 4⟩) := by
  have hw : __unmarshall_uint32_t true 1 [[255, 255, 255, 255]] (xdr_cursor_init 1) =
      some (4, [4294967295], ⟨0, 0, 4⟩) := by decide
  have he : xdr_cursor_extract [[255, 255, 255, 255]] ⟨0, 0, 4⟩ 4294967295 = none := by decide
  refine ⟨?_, ?_, hw, by decide, he, ?_, by decide, by decide⟩
  · rw [take_xdr_string_wire]
    decide
  · rw [length_xdr_string_wire _ _ (by rw [List.length_replicate]; exact Nat.le_refl _)]
    show 4 < 4 + 4294967295 + xdr_pad 4294967295
    omega
  · intro dbuf
    have h4 : ¬ ((4 : Int) < 0) := by decide
    simp only [__unmarshall_xdr_string, unmarshall_xdr_string_loop, hw, h4, if_false,
      List.headD_cons, he]

/-! ## Bytes of the 64-bit and of the signed integers -/

theorem length_bytes_le : ∀ (k w : Nat), (bytes_le k w).length = k
  | 0, _ => rfl
  | k + 1, w => by rw [bytes_le, List.length_cons, length_bytes_le k]

theorem nat_of_le_bytes_le : ∀ (k w : Nat), nat_of_le (bytes_le k w) = w % 256 ^ k
  | 0, w => by simp [bytes_le, nat_of_le, Nat.mod_one]
  | k + 1, w => by
      rw [bytes_le, nat_of_le, nat_of_le_bytes_le k, Nat.pow_succ, Nat.mul_comm (256 ^ k) 256,
        Nat.mod_mul]
      rfl

theorem bytes_le_nat_of_le : ∀ (bs : List Byte), bytes_le bs.length (nat_of_le bs) = bs
  | [] => rfl
  | b :: bs => by
      have hb : b.val < 256 := b.isLt
      have h1 : byte (b.val + 256 * nat_of_le bs) = b := by
        apply Fin.ext
        simp only [byte]
        omega
      have h2 : (b.val + 256 * nat_of_le bs) / 256 = nat_of_le bs := by omega
      rw [List.length_cons, nat_of_le, bytes_le, h1, h2, bytes_le_nat_of_le bs]

theorem bytes_le_mod : ∀ (k w : Nat), bytes_le k (w % 256 ^ k) = bytes_le k w
  | 0, _ => rfl
  | k + 1, w => by
      have h1 : byte (w % 256 ^ (k + 1)) = byte w := by
        apply Fin.ext
        simp only [byte]
        rw [Nat.pow_succ, Nat.mul_comm, Nat.mod_mul_right_mod]
      have h2 : w % 256 ^ (k + 1) / 256 = (w / 256) % 256 ^ k := by
        rw [Nat.pow_succ, Nat.mul_comm, Nat.mod_mul_right_div_self]
      rw [bytes_le, bytes_le, h1, h2, bytes_le_mod k]

theorem length_be64 (x : Nat) : (be64 x).length = 8 := by
  unfold be64
  rw [List.length_reverse, length_bytes_le]

theorem mem_hton64 (le : Bool) (x : Nat) : mem_of_uint64 le (xdr_hton64 le x) = be64 x := by
  cases le
  · simp only [mem_of_uint64, xdr_hton64, be64, Bool.false_eq_true, if_false]
    exact congrArg List.reverse (bytes_le_mod 8 x)
  · simp only [mem_of_uint64, xdr_hton64, be64, bswap64, if_true]
    have h := bytes_le_nat_of_le (bytes_le 8 x).reverse
    rw [List.length_reverse, length_bytes_le] at h
    exact h

theorem ntoh64_mem (le : Bool) (x : Nat) (hx : x < U64) :
    xdr_ntoh64 le (uint64_of_mem le (be64 x)) = x := by
  have ht : (be64 x).take 8 = be64 x := List.take_of_length_le (by rw [length_be64])
  have h8 : x % 256 ^ 8 = x := Nat.mod_eq_of_lt hx
  cases le
  · simp only [xdr_ntoh64, uint64_of_mem, ht, Bool.false_eq_true, if_false]
    unfold be64
    rw [List.reverse_reverse, nat_of_le_bytes_le, h8]
    exact Nat.mod_eq_of_lt hx
  · simp only [xdr_ntoh64, uint64_of_mem, ht, if_true, bswap64]
    have h := bytes_le_nat_of_le (be64 x)
    rw [length_be64] at h
    rw [h]
    unfold be64
    rw [List.reverse_reverse, nat_of_le_bytes_le, h8]

theorem uint32_of_int_lt (x : Int) : uint32_of_int x < U32 := by
  unfold uint32_of_int U32
  omega

theorem uint64_of_int_lt (x : Int) : uint64_of_int x < U64 := by
  unfold uint64_of_int U64
  omega

theorem uint32_of_int_of_uint (p : Nat) (hp : p < U32) : uint32_of_int (int_of_uint p) = p := by
  unfold uint32_of_int int_of_uint
  unfold U32 at *
  rw [Nat.mod_eq_of_lt hp]
  split <;> omega

theorem int_of_uint32_of_int (x : Int) (h1 : -2147483648 ≤ x) (h2 : x < 2147483648) :
    int_of_uint (uint32_of_int x) = x := by
  unfold uint32_of_int int_of_uint U32
  have h : (x % 4294967296).toNat % 4294967296 = (x % 4294967296).toNat := by omega
  rw [h]
  split <;> omega

theorem uint64_of_int_of_uint (p : Nat) (hp : p < U64) : uint64_of_int (int64_of_uint p) = p := by
  unfold uint64_of_int int64_of_uint
  unfold U64 at *
  rw [Nat.mod_eq_of_lt hp]
  split <;> omega

theorem int64_of_uint64_of_int (x : Int) (h1 : -9223372036854775808 ≤ x)
    (h2 : x < 9223372036854775808) : int64_of_uint (uint64_of_int x) = x := by
  unfold uint64_of_int int64_of_uint U64
  have h : (x % 18446744073709551616).toNat % 18446744073709551616 =
      (x % 18446744073709551616).toNat := by omega
  rw [h]
  split <;> omega

theorem xdr_hton32_lt (le : Bool) (x : Nat) : xdr_hton32 le x < U32 := by
  cases le
  · simp only [xdr_hton32, Bool.false_eq_true, if_false]
    exact Nat.mod_lt _ (by decide)
  · simp only [xdr_hton32, if_true, bswap32, U32]
    omega

theorem nat_of_le_lt : ∀ (bs : List Byte), nat_of_le bs < 256 ^ bs.length
  | [] => by simp [nat_of_le]
  | b :: bs => by
      have hb : b.val < 256 := b.isLt
      have ih := nat_of_le_lt bs
      rw [nat_of_le, List.length_cons, Nat.pow_succ]
      omega

theorem xdr_hton64_lt (le : Bool) (x : Nat) : xdr_hton64 le x < U64 := by
  cases le
  · simp only [xdr_hton64, Bool.false_eq_true, if_false]
    exact Nat.mod_lt _ (by decide)
  · simp only [xdr_hton64, if_true, bswap64]
    have h := nat_of_le_lt (bytes_le 8 x).reverse
    rw [List.length_reverse, length_bytes_le] at h
    exact h


/-! ## The loops of the fixed-width integer codecs inside one iovec -/

theorem length_flatten_map {α : Type} (img : α → List Byte) (w : Nat)
    (himg : ∀ x, (img x).length = w) : ∀ (v : List α), ((v.map img).flatten).length = w * v.length
  | [] => rfl
  | x :: xs => by
      rw [List.map_cons, List.flatten_cons, List.length_append, himg,
        length_flatten_map img w himg xs, List.length_cons, Nat.mul_succ]
      omega

theorem marshall_words_loop_single {α : Type} (enc : α → List Byte) (w : Nat) (ret : Int)
    (hw : w < 2147483648) (henc : ∀ x, (enc x).length = w) :
    ∀ (v : List α) (iovs : List xdr_iovec) (c : xdr_cursor) (iov : xdr_iovec),
      iovs[c.cur]? = some iov → c.offset + w * v.length ≤ xdr_iovec_len iov →
      xdr_iovec_len iov < U32 →
      marshall_words_loop enc w ret v.length v iovs c =
        some (ret, iovs.set c.cur (iov_store iov c.offset ((v.map enc).flatten)),
              { cur := c.cur, last := c.last, offset := c.offset + w * v.length }) := by
  intro v
  induction v with
  | nil =>
      intro iovs c iov hcur _ _
      simp only [List.length_nil, marshall_words_loop, List.map_nil, List.flatten_nil,
        iov_store_nil, Nat.mul_zero, Nat.add_zero]
      rw [set_of_getElem? iovs c.cur iov hcur]
  | cons x xs ih =>
      intro iovs c iov hcur hroom hlen
      obtain ⟨hlt, heq⟩ := List.getElem?_eq_some.mp hcur
      simp only [List.length_cons, Nat.mul_succ] at hroom ⊢
      have hroomw : c.offset + w ≤ xdr_iovec_len iov := by omega
      have h := append_fast iovs c (enc x) w iov hcur hroomw (by rw [henc])
      have hmod : (c.offset + w) % U32 = c.offset + w := Nat.mod_eq_of_lt (by omega)
      have htake : (enc x).take w = enc x := List.take_of_length_le (by rw [henc])
      rw [hmod, htake, int_of_uint_small w hw] at h
      have hnn : ¬ ((w : Int) < 0) := by omega
      simp only [marshall_words_loop, h, hnn, if_false]
      have hlen1 : (iov_store iov c.offset (enc x)).length = iov.length :=
        length_iov_store iov c.offset (enc x) (by rw [henc]; exact hroomw)
      have hcur1 : (iovs.set c.cur (iov_store iov c.offset (enc x)))[c.cur]? =
          some (iov_store iov c.offset (enc x)) := by
        rw [List.getElem?_set_self hlt]
      have := ih (iovs.set c.cur (iov_store iov c.offset (enc x)))
        { cur := c.cur, last := c.last, offset := c.offset + w }
        (iov_store iov c.offset (enc x)) hcur1
        (by unfold xdr_iovec_len at *; rw [hlen1]; simp only []; omega)
        (by unfold xdr_iovec_len at *; rw [hlen1]; exact hlen)
      simp only [] at this
      rw [this, List.set_set]
      have e := iov_store_append iov c.offset (enc x) ((xs.map enc).flatten)
        (by rw [henc, length_flatten_map enc w henc]; unfold xdr_iovec_len at hroom; omega)
      rw [henc] at e
      rw [e, List.map_cons, List.flatten_cons]
      have eo : c.offset + w + w * xs.length = c.offset + (w * xs.length + w) := by omega
      rw [eo]

theorem unmarshall_words_loop_single {α : Type} (dec : List Byte → α) (img : α → List Byte)
    (ok : α → Prop) (w : Nat) (ret : Int) (iovs : List xdr_iovec)
    (hw : w < 2147483648) (himg : ∀ x, (img x).length = w) (hdec : ∀ x, ok x → dec (img x) = x) :
    ∀ (v : List α) (c : xdr_cursor) (iov : xdr_iovec) (out : List α),
      iovs[c.cur]? = some iov → c.offset + w * v.length ≤ xdr_iovec_len iov →
      xdr_iovec_len iov < U32 →
      (iov.drop c.offset).take (w * v.length) = (v.map img).flatten → (∀ x ∈ v, ok x) →
      unmarshall_words_loop dec w ret iovs v.length c out =
        some (ret, out ++ v,
              { cur := c.cur, last := c.last, offset := c.offset + w * v.length }) := by
  intro v
  induction v with
  | nil =>
      intro c iov out _ _ _ _ _
      simp [unmarshall_words_loop]
  | cons x xs ih =>
      intro c iov out hcur hroom hlen hdata hv
      simp only [List.length_cons, Nat.mul_succ] at hroom hdata ⊢
      have hroomw : c.offset + w ≤ xdr_iovec_len iov := by omega
      have h := extract_fast iovs c w iov hcur hroomw
      have hmod : (c.offset + w) % U32 = c.offset + w := Nat.mod_eq_of_lt (by omega)
      have hd : (iov.drop c.offset).take ((img x).length + w * xs.length) =
          img x ++ (xs.map img).flatten := by
        rw [himg, ← List.flatten_cons, ← List.map_cons, ← hdata]
        congr 1
        omega
      obtain ⟨h1, h2⟩ := take_split _ _ _ _ (length_flatten_map img w himg xs) hd
      rw [himg] at h1 h2
      rw [h1, hmod, int_of_uint_small w hw] at h
      rw [List.drop_drop] at h2
      have hnn : ¬ ((w : Int) < 0) := by omega
      simp only [unmarshall_words_loop, h, hnn, if_false]
      rw [hdec x (hv x (List.mem_cons_self x xs))]
      have := ih { cur := c.cur, last := c.last, offset := c.offset + w } iov (out ++ [x]) hcur
        (by simp only []; omega) hlen h2
        (fun y hy => hv y (List.mem_cons_of_mem x hy))
      simp only [] at this
      rw [this]
      have eo : c.offset + w + w * xs.length = c.offset + (w * xs.length + w) := by omega
      rw [eo, List.append_assoc]
      rfl

theorem drop_take_iov_store (iov : xdr_iovec) (o : Nat) (d : List Byte)
    (h : o + d.length ≤ iov.length) : ((iov_store iov o d).drop o).take d.length = d := by
  rw [drop_iov_store iov o d (by omega)]
  exact List.take_left' rfl

theorem int_shl_three (n : Nat) (h : n < 268435456) : int_shl n 3 = 8 * (n : Int) := by
  unfold int_shl
  rw [int_of_uint_small _ (by omega)]
  push_cast
  omega


theorem uint32_of_mem_lt (le : Bool) (bs : List Byte) : uint32_of_mem le bs < U32 := by
  unfold uint32_of_mem U32
  split
  · rename_i b0 b1 b2 b3
    have h0 := b0.isLt
    have h1 := b1.isLt
    have h2 := b2.isLt
    have h3 := b3.isLt
    split <;> omega
  · decide

theorem uint64_of_mem_lt (le : Bool) (bs : List Byte) : uint64_of_mem le bs < U64 := by
  have hl : (bs.take 8).length ≤ 8 := by rw [List.length_take]; omega
  have hp : ∀ (l : List Byte), l.length ≤ 8 → nat_of_le l < U64 := fun l h =>
    Nat.lt_of_lt_of_le (nat_of_le_lt l) (Nat.pow_le_pow_right (by decide) h)
  unfold uint64_of_mem
  split
  · exact hp _ hl
  · exact hp _ (by rw [List.length_reverse]; exact hl)

theorem words_single {α : Type} (enc : α → List Byte) (dec : List Byte → α)
    (img : α → List Byte) (ok : α → Prop) (w : Nat) (ret : Int) (hw : w < 2147483648)
    (henc : ∀ x, enc x = img x) (himg : ∀ x, (img x).length = w)
    (hdec : ∀ x, ok x → dec (img x) = x)
    (v : List α) (iovs : List xdr_iovec) (c : xdr_cursor) (iov : xdr_iovec)
    (hv : ∀ x ∈ v, ok x) (hcur : iovs[c.cur]? = some iov)
    (hroom : c.offset + w * v.length ≤ xdr_iovec_len iov) (hlen : xdr_iovec_len iov < U32) :
    marshall_words_loop enc w ret v.length v iovs c =
      some (ret, iovs.set c.cur (iov_store iov c.offset ((v.map img).flatten)),
            { cur := c.cur, last := c.last, offset := c.offset + w * v.length }) ∧
    unmarshall_words_loop dec w ret (iovs.set c.cur (iov_store iov c.offset ((v.map img).flatten)))
        v.length c [] =
      some (ret, v, { cur := c.cur, last := c.last, offset := c.offset + w * v.length }) := by
  obtain ⟨hlt, -⟩ := List.getElem?_eq_some.mp hcur
  have hfl := length_flatten_map img w himg v
  have hsl : (iov_store iov c.offset ((v.map img).flatten)).length = iov.length :=
    length_iov_store iov c.offset _ (by rw [hfl]; exact hroom)
  have he : enc = img := funext henc
  constructor
  · have h := marshall_words_loop_single enc w ret hw (fun x => by rw [henc, himg]) v iovs c iov
      hcur hroom hlen
    rw [he] at h ⊢
    exact h
  · have h := unmarshall_words_loop_single dec img ok w ret
      (iovs.set c.cur (iov_store iov c.offset ((v.map img).flatten))) hw himg hdec v c
      (iov_store iov c.offset ((v.map img).flatten)) []
      (by rw [List.getElem?_set_self hlt])
      (by unfold xdr_iovec_len at *; rw [hsl]; exact hroom)
      (by unfold xdr_iovec_len at *; rw [hsl]; exact hlen)
      (by
        have := drop_take_iov_store iov c.offset ((v.map img).flatten)
          (by rw [hfl]; exact hroom)
        rw [hfl] at this
        exact this)
      hv
    rw [List.nil_append] at h
    exact h

theorem int32_single (le : Bool) (v : List Int) (iovs : List xdr_iovec) (c : xdr_cursor)
    (iov : xdr_iovec) (hv : ∀ x ∈ v, -2147483648 ≤ x ∧ x < 2147483648)
    (hcur : iovs[c.cur]? = some iov)
    (hroom : c.offset + 4 * v.length ≤ xdr_iovec_len iov) (hlen : xdr_iovec_len iov < U32) :
    __marshall_int32_t le v v.length iovs c =
      some (int_shl v.length 2,
            iovs.set c.cur (iov_store iov c.offset ((v.map (fun x => be32 (uint32_of_int x))).flatten)),
            { cur := c.cur, last := c.last, offset := c.offset + 4 * v.length }) ∧
    __unmarshall_int32_t le v.length
        (iovs.set c.cur (iov_store iov c.offset ((v.map (fun x => be32 (uint32_of_int x))).flatten)))
        c =
      some (int_shl v.length 2, v,
            { cur := c.cur, last := c.last, offset := c.offset + 4 * v.length }) := by
  unfold __marshall_int32_t __unmarshall_int32_t
  refine words_single _ _ (fun x => be32 (uint32_of_int x))
    (fun x => -2147483648 ≤ x ∧ x < 2147483648) 4 _ (by decide) ?_ (fun x => length_be32 _) ?_
    v iovs c iov hv hcur hroom hlen
  · intro x
    simp only []
    rw [uint32_of_int_of_uint _ (xdr_hton32_lt le _), mem_hton32]
  · intro x hx
    simp only []
    rw [uint32_of_int_of_uint _ (uint32_of_mem_lt le _),
      ntoh32_mem le _ (uint32_of_int_lt x), int_of_uint32_of_int x hx.1 hx.2]

theorem uint64_single (le : Bool) (v : List Nat) (iovs : List xdr_iovec) (c : xdr_cursor)
    (iov : xdr_iovec) (hv : ∀ x ∈ v, x < U64) (hcur : iovs[c.cur]? = some iov)
    (hroom : c.offset + 8 * v.length ≤ xdr_iovec_len iov) (hlen : xdr_iovec_len iov < U32) :
    __marshall_uint64_t le v v.length iovs c =
      some (int_shl v.length 3, iovs.set c.cur (iov_store iov c.offset ((v.map be64).flatten)),
            { cur := c.cur, last := c.last, offset := c.offset + 8 * v.length }) ∧
    __unmarshall_uint64_t le v.length
        (iovs.set c.cur (iov_store iov c.offset ((v.map be64).flatten))) c =
      some (int_shl v.length 3, v,
            { cur := c.cur, last := c.last, offset := c.offset + 8 * v.length }) := by
  unfold __marshall_uint64_t __unmarshall_uint64_t
  exact words_single _ _ be64 (fun x => x < U64) 8 _ (by decide) (fun x => mem_hton64 le x)
    length_be64 (fun x hx => ntoh64_mem le x hx) v iovs c iov hv hcur hroom hlen

theorem int64_single (le : Bool) (v : List Int) (iovs : List xdr_iovec) (c : xdr_cursor)
    (iov : xdr_iovec) (hv : ∀ x ∈ v, -9223372036854775808 ≤ x ∧ x < 9223372036854775808)
    (hcur : iovs[c.cur]? = some iov)
    (hroom : c.offset + 8 * v.length ≤ xdr_iovec_len iov) (hlen : xdr_iovec_len iov < U32) :
    __marshall_int64_t le v v.length iovs c =
      some (int_shl v.length 3,
            iovs.set c.cur (iov_store iov c.offset ((v.map (fun x => be64 (uint64_of_int x))).flatten)),
            { cur := c.cur, last := c.last, offset := c.offset + 8 * v.length }) ∧
    __unmarshall_int64_t le v.length
        (iovs.set c.cur (iov_store iov c.offset ((v.map (fun x => be64 (uint64_of_int x))).flatten)))
        c =
      some (int_shl v.length 3, v,
            { cur := c.cur, last := c.last, offset := c.offset + 8 * v.length }) := by
  unfold __marshall_int64_t __unmarshall_int64_t
  refine words_single _ _ (fun x => be64 (uint64_of_int x))
    (fun x => -9223372036854775808 ≤ x ∧ x < 9223372036854775808) 8 _ (by decide) ?_
    (fun x => length_be64 _) ?_ v iovs c iov hv hcur hroom hlen
  · intro x
    simp only []
    rw [uint64_of_int_of_uint _ (xdr_hton64_lt le _), mem_hton64]
  · intro x hx
    simp only []
    rw [uint64_of_int_of_uint _ (uint64_of_mem_lt le _),
      ntoh64_mem le _ (uint64_of_int_lt x), int64_of_uint64_of_int x hx.1 hx.2]


/-- C12 (with the bound `n < 2 ^ 28` that the `int` result `n << 3` needs, and
`n < 2 ^ 29` for `n << 2`): at a cursor whose current iovec has room,
`__marshall_int32_t`, `__marshall_uint64_t` and `__marshall_int64_t` store for
every element its two's complement bit pattern (the value modulo `2 ^ 32` or
`2 ^ 64`), most significant byte first, in 4 or 8 bytes, negative values
included; the matching `__unmarshall_*` routine applied to these bytes yields
the original values; the 32-bit routines return `4 n` and the 64-bit routines
`8 n`. -/
theorem signed_and_wide_roundtrip (le : Bool) (a : List Int) (b : List Nat) (d : List Int)
    (iovs : List xdr_iovec) (c : xdr_cursor) (iov : xdr_iovec)
    (ha : ∀ x ∈ a, -2147483648 ≤ x ∧ x < 2147483648) (hb : ∀ x ∈ b, x < U64)
    (hd : ∀ x ∈ d, -9223372036854775808 ≤ x ∧ x < 9223372036854775808)
    (hna : a.length < 536870912) (hnb : b.length < 268435456) (hnd : d.length < 268435456)
    (hcur : iovs[c.cur]? = some iov) (hlen : xdr_iovec_len iov < U32)
    (hra : c.offset + 4 * a.length ≤ xdr_iovec_len iov)
    (hrb : c.offset + 8 * b.length ≤ xdr_iovec_len iov)
    (hrd : c.offset + 8 * d.length ≤ xdr_iovec_len iov) :
    (__marshall_int32_t le a a.length iovs c =
        some (4 * (a.length : Int),
              iovs.set c.cur
                (iov_store iov c.offset ((a.map (fun x => be32 (uint32_of_int x))).flatten)),
              { cur := c.cur, last := c.last, offset := c.offset + 4 * a.length }) ∧
      __unmarshall_int32_t le a.length
          (iovs.set c.cur
            (iov_store iov c.offset ((a.map (fun x => be32 (uint32_of_int x))).flatten))) c =
        some (4 * (a.length : Int), a,
              { cur := c.cur, last := c.last, offset := c.offset + 4 * a.length })) ∧
    (__marshall_uint64_t le b b.length iovs c =
        some (8 * (b.length : Int),
              iovs.set c.cur (iov_store iov c.offset ((b.map be64).flatten)),
              { cur := c.cur, last := c.last, offset := c.offset + 8 * b.length }) ∧
      __unmarshall_uint64_t le b.length
          (iovs.set c.cur (iov_store iov c.offset ((b.map be64).flatten))) c =
        some (8 * (b.length : Int), b,
              { cur := c.cur, last := c.last, offset := c.offset + 8 * b.length })) ∧
    (__marshall_int64_t le d d.length iovs c =
        some (8 * (d.length : Int),
              iovs.set c.cur
                (iov_store iov c.offset ((d.map (fun x => be64 (uint64_of_int x))).flatten)),
              { cur := c.cur, last := c.last, offset := c.offset + 8 * d.length }) ∧
      __unmarshall_int64_t le d.length
          (iovs.set c.cur
            (iov_store iov c.offset ((d.map (fun x => be64 (uint64_of_int x))).flatten))) c =
        some (8 * (d.length : Int), d,
              { cur := c.cur, last := c.last, offset := c.offset + 8 * d.length })) := by
  have h1 := int32_single le a iovs c iov ha hcur hra hlen
  have h2 := uint64_single le b iovs c iov hb hcur hrb hlen
  have h3 := int64_single le d iovs c iov hd hcur hrd hlen
  rw [int_shl_two _ hna] at h1
  rw [int_shl_three _ hnb] at h2
  rw [int_shl_three _ hnd] at h3
  exact ⟨h1, h2, h3⟩

/-- C12, instance: the `int32_t` values -2 and 5, the `uint64_t` value
`0x0102030405060708` and the `int64_t` value -2, each marshalled at offset 1 of a
ten-byte iovec and read back. -/
theorem signed_and_wide_roundtrip_witness :
    (__marshall_int32_t true [-2, 5] 2 [[9, 9, 9, 9, 9, 9, 9, 9, 9, 9]] ⟨0, 0, 1⟩ =
        some (8, [[9, 255, 255, 255, 254, 0, 0, 0, 5, 9]], ⟨0, 0, 9⟩) ∧
      __unmarshall_int32_t true 2 [[9, 255, 255, 255, 254, 0, 0, 0, 5, 9]] ⟨0, 0, 1⟩ =
        some (8, [-2, 5], ⟨0, 0, 9⟩)) ∧
    (__marshall_uint64_t true [0x0102030405060708] 1 [[9, 9, 9, 9, 9, 9, 9, 9, 9, 9]] ⟨0, 0, 1⟩ =
        some (8, [[9, 1, 2, 3, 4, 5, 6, 7, 8, 9]], ⟨0, 0, 9⟩) ∧
      __unmarshall_uint64_t true 1 [[9, 1, 2, 3, 4, 5, 6, 7, 8, 9]] ⟨0, 0, 1⟩ =
        some (8, [0x0102030405060708], ⟨0, 0, 9⟩)) ∧
    (__marshall_int64_t true [-2] 1 [[9, 9, 9, 9, 9, 9, 9, 9, 9, 9]] ⟨0, 0, 1⟩ =
        some (8, [[9, 255, 255, 255, 255, 255, 255, 255, 254, 9]], ⟨0, 0, 9⟩) ∧
      __unmarshall_int64_t true 1 [[9, 255, 255, 255, 255, 255, 255, 255, 254, 9]] ⟨0, 0, 1⟩ =
        some (8, [-2], ⟨0, 0, 9⟩)) := by
  have h := signed_and_wide_roundtrip true [-2, 5] [0x0102030405060708] [-2]
    [[9, 9, 9, 9, 9, 9, 9, 9, 9, 9]] ⟨0, 0, 1⟩ [9, 9, 9, 9, 9, 9, 9, 9, 9, 9]
    (by decide) (by decide) (by decide) (by decide) (by decide) (by decide) (by decide)
    (by decide) (by decide) (by decide) (by decide)
  exact ⟨⟨h.1.1.trans (by decide), h.1.2.trans (by decide)⟩,
    ⟨h.2.1.1.trans (by decide), h.2.1.2.trans (by decide)⟩,
    ⟨h.2.2.1.trans (by decide), h.2.2.2.trans (by decide)⟩⟩

/-- C12 as stated fails for large arrays: for `n = 2 ^ 28` values of `uint64_t` or
`int64_t` and an iovec of `2 ^ 31` bytes the marshaller stores all the values
but its `int` result `n << 3` is not `8 n = 2 ^ 31`. -/
theorem wide_array_large_count :
    Option.map Prod.fst
        (__marshall_uint64_t true (List.replicate 268435456 0) 268435456
          [List.replicate 2147483648 0] (xdr_cursor_init 1)) = some (-2147483648) ∧
    Option.map Prod.fst
        (__marshall_int64_t true (List.replicate 268435456 0) 268435456
          [List.replicate 2147483648 0] (xdr_cursor_init 1)) = some (-2147483648) ∧
      (-2147483648 : Int) ≠ 8 * 268435456 := by
  refine ⟨?_, ?_, by decide⟩
  · have h := (uint64_single true (List.replicate 268435456 0) [List.replicate 2147483648 0]
      (xdr_cursor_init 1) (List.replicate 2147483648 0)
      (fun x hx => by rw [List.eq_of_mem_replicate hx]; decide) rfl
      (by
        rw [List.length_replicate]
        unfold xdr_iovec_len
        rw [List.length_replicate]
        decide)
      (by
        unfold xdr_iovec_len
        rw [List.length_replicate]
        decide)).1
    rw [List.length_replicate] at h
    rw [h]
    rfl
  · have h := (int64_single true (List.replicate 268435456 0) [List.replicate 2147483648 0]
      (xdr_cursor_init 1) (List.replicate 2147483648 0)
      (fun x hx => by rw [List.eq_of_mem_replicate hx]; decide) rfl
      (by
        rw [List.length_replicate]
        unfold xdr_iovec_len
        rw [List.length_replicate]
        decide)
      (by
        unfold xdr_iovec_len
        rw [List.length_replicate]
        decide)).1
    rw [List.length_replicate] at h
    rw [h]
    rfl

/-! ## The symbol table -/

theorem hash_find_add_self (head : List xdr_identifier) (add : xdr_identifier)
    (h : HASH_FIND_STR head add.name = none) :
    HASH_FIND_STR (HASH_ADD_STR head add) add.name = some add := by
  unfold HASH_FIND_STR HASH_ADD_STR at *
  rw [List.find?_append, h]
  simp

theorem hash_find_add_other (head : List xdr_identifier) (add : xdr_identifier) (other : String)
    (h : other ≠ add.name) :
    HASH_FIND_STR (HASH_ADD_STR head add) other = HASH_FIND_STR head other := by
  unfold HASH_FIND_STR HASH_ADD_STR
  rw [List.find?_append]
  have hne : (add.name == other) = false := by
    rw [beq_eq_false_iff_ne]
    exact fun e => h e.symm
  simp [List.find?, hne]

/-- C19: the function `xdr_add_identifier(type, name, ptr)` ends the run with the
duplicate-symbol diagnostic and exit status 1 exactly when `name` is already in
the symbol table, whatever the category of the old and of the new entry;
otherwise a lookup of `name` in the resulting table yields the entry with the
given category and payload and `emitted = 0`, and the lookup of every other
name is unchanged. -/
theorem add_identifier_spec (xdr_identifiers : List xdr_identifier) (type : xdr_kind)
    (name : String) (ptr : xdr_object) :
    ((∃ e, xdr_add_identifier xdr_identifiers type name ptr = .error e) ↔
      (HASH_FIND_STR xdr_identifiers name).isSome = true) ∧
    (∀ e, xdr_add_identifier xdr_identifiers type name ptr = .error e →
      e = { status := 1, stderr := "Duplicate symbol \x27" ++ name ++ "\x27 found.\n" }) ∧
    (∀ tbl, xdr_add_identifier xdr_identifiers type name ptr = .ok tbl →
      HASH_FIND_STR tbl name =
        some { name := name, type := type, emitted := false, ptr := ptr } ∧
      ∀ other, other ≠ name → HASH_FIND_STR tbl other = HASH_FIND_STR xdr_identifiers other) := by
  unfold xdr_add_identifier
  cases h : HASH_FIND_STR xdr_identifiers name with
  | some old =>
      refine ⟨⟨fun _ => rfl, fun _ => ⟨_, rfl⟩⟩, ?_, ?_⟩
      · intro e he
        simp only [Except.error.injEq] at he
        exact he.symm
      · intro tbl ht
        simp only [reduceCtorEq] at ht
  | none =>
      refine ⟨⟨?_, ?_⟩, ?_, ?_⟩
      · rintro ⟨e, he⟩
        simp only [reduceCtorEq] at he
      · intro hs
        simp only [Option.isSome_none, Bool.false_eq_true] at hs
      · intro e he
        simp only [reduceCtorEq] at he
      · intro tbl ht
        simp only [Except.ok.injEq] at ht
        subst ht
        exact ⟨hash_find_add_self xdr_identifiers ⟨name, type, false, ptr⟩ h,
          fun other ho => hash_find_add_other xdr_identifiers ⟨name, type, false, ptr⟩ other ho⟩

/-- C19, instance: adding the enum `e` to a table that holds the constant `a`. -/
theorem add_identifier_spec_witness :
    HASH_FIND_STR [⟨"a", .XDR_CONST, true, .const_ "a"⟩, ⟨"e", .XDR_ENUM, false, .enum_ "e"⟩] "e" =
        some ⟨"e", .XDR_ENUM, false, .enum_ "e"⟩ ∧
      ∀ other, other ≠ "e" →
        HASH_FIND_STR [⟨"a", .XDR_CONST, true, .const_ "a"⟩, ⟨"e", .XDR_ENUM, false, .enum_ "e"⟩]
            other =
          HASH_FIND_STR [⟨"a", .XDR_CONST, true, .const_ "a"⟩] other :=
  (add_identifier_spec [⟨"a", .XDR_CONST, true, .const_ "a"⟩] .XDR_ENUM "e" (.enum_ "e")).2.2
    [⟨"a", .XDR_CONST, true, .const_ "a"⟩, ⟨"e", .XDR_ENUM, false, .enum_ "e"⟩] rfl

/-! ## The resolution of typedefs -/

theorem resolve_typedef_loop_chain (xdr_identifiers : List xdr_identifier) (name : String) :
    ∀ (ch : List xdr_typedef) (type : xdr_type) (fuel : Nat),
      typedef_chain xdr_identifiers type ch = true → ch.length < fuel →
      resolve_typedef_loop xdr_identifiers name fuel type = some (.ok (chain_last type ch)) ∧
      ((chain_last type ch).builtin = true ∨
        ∃ chk, HASH_FIND_STR xdr_identifiers (chain_last type ch).name = some chk ∧
          chk.type ≠ .XDR_TYPEDEF) := by
  intro ch
  induction ch with
  | nil =>
      intro type fuel h hf
      obtain ⟨k, rfl⟩ : ∃ k, fuel = k + 1 := ⟨fuel - 1, by simp at hf; omega⟩
      simp only [chain_last, resolve_typedef_loop]
      by_cases hb : type.builtin = true
      · simp only [hb, if_true, true_or, and_self]
      · cases hc : HASH_FIND_STR xdr_identifiers type.name with
        | none => simp [typedef_chain, hb, hc] at h
        | some chk =>
            have hk : chk.type ≠ .XDR_TYPEDEF := by
              simpa [typedef_chain, hb, hc] using h
            rw [if_neg hb]
            simp only [if_pos hk]
            exact ⟨trivial, Or.inr ⟨chk, rfl, hk⟩⟩
  | cons t rest ih =>
      intro type fuel h hf
      obtain ⟨k, rfl⟩ : ∃ k, fuel = k + 1 := ⟨fuel - 1, by simp at hf; omega⟩
      simp only [typedef_chain, Bool.and_eq_true, Bool.not_eq_true'] at h
      obtain ⟨⟨hb, hc⟩, hrest⟩ := h
      cases hf : HASH_FIND_STR xdr_identifiers type.name with
      | none => simp only [hf, Bool.false_eq_true] at hc
      | some chk =>
          simp only [hf, Bool.and_eq_true, beq_iff_eq] at hc
          have := ih t.type k hrest (by simp only [List.length_cons] at *; omega)
          have hnb : ¬ (type.builtin = true) := by rw [hb]; decide
          have hk : ¬ (chk.type ≠ .XDR_TYPEDEF) := by rw [hc.1]; exact fun h => h rfl
          rw [chain_last, resolve_typedef_loop, if_neg hnb]
          simp only [hf, if_neg hk, hc.2]
          exact this

/-- C20: when the chain of typedef-to-typedef references starting at the typedef
`t` is finite (`ch` lists the typedefs it passes through) and every name on it
is in the symbol table, the `XDR_TYPEDEF` case of the resolver ends (within
`ch.length + 1` evaluations of its loop condition) and leaves `t` with the type
reference held by the last typedef of the chain; that reference is builtin or
names a symbol that is not a typedef. -/
theorem typedef_chain_resolved (xdr_identifiers : List xdr_identifier) (t : xdr_typedef)
    (ch : List xdr_typedef) (fuel : Nat)
    (h : typedef_chain xdr_identifiers t.type ch = true) (hf : ch.length < fuel) :
    resolve_typedef xdr_identifiers fuel t =
        some (.ok { name := t.name, type := chain_last t.type ch }) ∧
      ((chain_last t.type ch).builtin = true ∨
        ∃ chk, HASH_FIND_STR xdr_identifiers (chain_last t.type ch).name = some chk ∧
          chk.type ≠ .XDR_TYPEDEF) := by
  obtain ⟨h1, h2⟩ := resolve_typedef_loop_chain xdr_identifiers t.name ch t.type fuel h hf
  refine ⟨?_, h2⟩
  unfold resolve_typedef
  rw [h1]


/-- C20, instance: `typedef b a; typedef c b; typedef uint32_t c;` leaves `a` with the
builtin `uint32_t` after three evaluations of the loop condition. -/
theorem typedef_chain_resolved_witness :
    resolve_typedef
        [⟨"a", .XDR_TYPEDEF, false, .typedef_ ⟨"a", plain_type "b" false⟩⟩,
         ⟨"b", .XDR_TYPEDEF, false, .typedef_ ⟨"b", plain_type "c" false⟩⟩,
         ⟨"c", .XDR_TYPEDEF, false, .typedef_ ⟨"c", plain_type "uint32_t" true⟩⟩]
        3 ⟨"a", plain_type "b" false⟩ =
      some (.ok ⟨"a", plain_type "uint32_t" true⟩) :=
  (typedef_chain_resolved
    [⟨"a", .XDR_TYPEDEF, false, .typedef_ ⟨"a", plain_type "b" false⟩⟩,
     ⟨"b", .XDR_TYPEDEF, false, .typedef_ ⟨"b", plain_type "c" false⟩⟩,
     ⟨"c", .XDR_TYPEDEF, false, .typedef_ ⟨"c", plain_type "uint32_t" true⟩⟩]
    ⟨"a", plain_type "b" false⟩
    [⟨"b", plain_type "c" false⟩, ⟨"c", plain_type "uint32_t" true⟩] 3 (by decide) (by decide)).1

/-! ## The emitted codec routines -/

theorem emit_marshall_append (output : List c_line) (name : String) (type : xdr_type) :
    emit_marshall output name type = output ++ emit_marshall [] name type := by
  unfold emit_marshall
  split_ifs <;> simp only [List.nil_append, List.append_assoc]

theorem emit_unmarshall_append (output : List c_line) (name : String) (type : xdr_type) :
    emit_unmarshall output name type = output ++ emit_unmarshall [] name type := by
  unfold emit_unmarshall
  split_ifs <;> simp only [List.nil_append, List.append_assoc]

theorem foldl_emit {α : Type} (f : List c_line → α → List c_line)
    (hf : ∀ out a, f out a = out ++ f [] a) :
    ∀ (l : List α) (out : List c_line), l.foldl f out = out ++ (l.map (f [])).flatten
  | [], out => by simp
  | a :: l, out => by
      rw [List.foldl_cons, foldl_emit f hf l, hf out a, List.map_cons, List.flatten_cons,
        List.append_assoc]

theorem straight_emit_marshall (name : String) (type : xdr_type) :
    ∀ l ∈ emit_marshall [] name type, l.straight = true := by
  unfold emit_marshall
  split_ifs <;> simp [c_line.straight]

theorem m_exec_straight_cons (env : c_env) (v : c_struct) (l : c_line) (ls : List c_line)
    (s : m_state) (h : l.straight = true) :
    m_exec env v (l :: ls) .run s =
      match m_step env v l s with
      | some (.next s1) => m_exec env v ls .run s1
      | r => r := by
  cases l <;> first | rfl | simp [c_line.straight] at h

theorem m_exec_append (env : c_env) (v : c_struct) :
    ∀ (ls rest : List c_line) (s : m_state), (∀ l ∈ ls, l.straight = true) →
      m_exec env v (ls ++ rest) .run s =
        match m_exec env v ls .run s with
        | some (.next s1) => m_exec env v rest .run s1
        | r => r
  | [], rest, s, _ => by simp [m_exec]
  | l :: ls, rest, s, h => by
      have hl := h l (List.mem_cons_self _ _)
      have hls : ∀ l ∈ ls, l.straight = true := fun x hx => h x (List.mem_cons_of_mem _ hx)
      rw [List.cons_append, m_exec_straight_cons env v l _ s hl,
        m_exec_straight_cons env v l ls s hl]
      cases hm : m_step env v l s with
      | none => rfl
      | some o =>
          cases o with
          | next s1 => exact m_exec_append env v ls rest s1 hls
          | ret rc s1 => rfl

/-! ## The `switch` of the union routines -/

theorem emit_union_case_marshall_append (source : List c_line) (c : xdr_union_case) :
    emit_union_case_marshall source c = source ++ emit_union_case_marshall [] c := by
  unfold emit_union_case_marshall
  split_ifs
  · simp only [List.nil_append, List.append_assoc]
  · cases c.type with
    | none => simp only [List.nil_append]
    | some t =>
        simp only [List.nil_append]
        rw [emit_marshall_append, emit_marshall_append [c_line.case_label c.label]]
        simp only [List.append_assoc]
  · simp only [List.append_nil]

theorem emit_union_default_append (source : List c_line) (c : xdr_union_case) :
    emit_union_default source c = source ++ emit_union_default [] c := by
  unfold emit_union_default
  split_ifs <;> simp only [List.nil_append, List.append_nil]

theorem union_marshall_body (u : xdr_union) :
    (emit_union_marshall u).body =
      emit_marshall [] u.pivot_name u.pivot_type ++
        (c_line.switch_in u.pivot_name ::
          ((u.cases.map (emit_union_case_marshall [])).flatten ++
            ((u.cases.map (emit_union_default [])).flatten ++ [c_line.close_block]))) := by
  unfold emit_union_marshall
  simp only []
  rw [foldl_emit emit_union_default emit_union_default_append,
    foldl_emit emit_union_case_marshall emit_union_case_marshall_append]
  simp only [List.append_assoc, List.singleton_append, List.nil_append, List.cons_append]

theorem case_lines (c : xdr_union_case) :
    (c.label = "default" ∧ emit_union_case_marshall [] c = []) ∨
    (c.label ≠ "default" ∧
      (emit_union_case_marshall [] c = [c_line.case_label c.label, c_line.break_] ∨
       emit_union_case_marshall [] c = [c_line.case_label c.label] ∨
       ∃ t, c.voided = false ∧ c.type = some t ∧
         emit_union_case_marshall [] c =
           c_line.case_label c.label :: (emit_marshall [] c.name t ++ [c_line.break_]))) := by
  unfold emit_union_case_marshall
  by_cases hd : c.label = "default"
  · exact Or.inl ⟨hd, by simp [hd]⟩
  · refine Or.inr ⟨hd, ?_⟩
    rw [if_pos hd]
    by_cases hv : c.voided = true
    · exact Or.inl (by simp [hv])
    · cases ht : c.type with
      | none => exact Or.inr (Or.inl (by simp [hv]))
      | some t =>
          refine Or.inr (Or.inr ⟨t, by simpa using hv, rfl, ?_⟩)
          rw [if_neg hv]
          simp only [List.nil_append]
          rw [emit_marshall_append]
          simp only [List.singleton_append, List.cons_append, List.nil_append]

theorem m_exec_skip_emit_marshall (env : c_env) (v : c_struct) (name : String) (type : xdr_type)
    (rest : List c_line) (d : Nat) (s : m_state) :
    m_exec env v (emit_marshall [] name type ++ rest) (.skip d) s =
      m_exec env v rest (.skip d) s := by
  unfold emit_marshall
  split_ifs <;> simp [m_exec]

theorem m_exec_seek_emit_marshall (env : c_env) (v : c_struct) (name : String) (type : xdr_type)
    (rest : List c_line) (t : Option Nat) (d : Nat) (s : m_state) :
    m_exec env v (emit_marshall [] name type ++ rest) (.seek t d) s =
      m_exec env v rest (.seek t d) s := by
  unfold emit_marshall
  split_ifs <;> simp [m_exec]

theorem has_case_emit_marshall (env : c_env) (x : Nat) (name : String) (type : xdr_type)
    (rest : List c_line) (d : Nat) :
    has_case env x (emit_marshall [] name type ++ rest) d = has_case env x rest d := by
  unfold emit_marshall
  split_ifs <;> simp [has_case]

theorem m_exec_skip_case (env : c_env) (v : c_struct) (c : xdr_union_case)
    (rest : List c_line) (d : Nat) (s : m_state) :
    m_exec env v (emit_union_case_marshall [] c ++ rest) (.skip d) s =
      m_exec env v rest (.skip d) s := by
  rcases case_lines c with ⟨-, h⟩ | ⟨-, h | h | ⟨t, -, -, h⟩⟩
  · rw [h, List.nil_append]
  · rw [h]
    simp [m_exec]
  · rw [h]
    simp [m_exec]
  · rw [h, List.cons_append, List.append_assoc]
    simp only [m_exec]
    rw [m_exec_skip_emit_marshall]
    simp [m_exec]

theorem m_exec_skip_cases (env : c_env) (v : c_struct) (rest : List c_line) (d : Nat)
    (s : m_state) :
    ∀ (cs : List xdr_union_case),
      m_exec env v ((cs.map (emit_union_case_marshall [])).flatten ++ rest) (.skip d) s =
        m_exec env v rest (.skip d) s
  | [] => by simp
  | c :: cs => by
      rw [List.map_cons, List.flatten_cons, List.append_assoc, m_exec_skip_case,
        m_exec_skip_cases env v rest d s cs]

theorem m_exec_skip_defaults (env : c_env) (v : c_struct) (rest : List c_line) (d : Nat)
    (s : m_state) :
    ∀ (cs : List xdr_union_case),
      m_exec env v ((cs.map (emit_union_default [])).flatten ++ rest) (.skip d) s =
        m_exec env v rest (.skip d) s
  | [] => by simp
  | c :: cs => by
      rw [List.map_cons, List.flatten_cons, List.append_assoc]
      unfold emit_union_default
      split_ifs
      · simp only [List.nil_append, List.cons_append, m_exec]
        exact m_exec_skip_defaults env v rest d s cs
      · simp only [List.nil_append]
        exact m_exec_skip_defaults env v rest d s cs

theorem m_exec_seek_case (env : c_env) (v : c_struct) (c : xdr_union_case)
    (rest : List c_line) (t : Option Nat) (s : m_state)
    (h : c.label = "default" ∨ t = none ∨ env.const_val c.label ≠ t) :
    m_exec env v (emit_union_case_marshall [] c ++ rest) (.seek t 0) s =
      m_exec env v rest (.seek t 0) s := by
  rcases case_lines c with ⟨-, hl⟩ | ⟨hd, hl⟩
  · rw [hl, List.nil_append]
  · have hn : ¬ (t ≠ none ∧ env.const_val c.label = t) := by
      rcases h with h | h | h
      · exact absurd h hd
      · exact fun hh => hh.1 h
      · exact fun hh => h hh.2
    rcases hl with hl | hl | ⟨ty, -, -, hl⟩
    · rw [hl]
      simp [m_exec, hn]
    · rw [hl]
      simp [m_exec, hn]
    · rw [hl, List.cons_append, List.append_assoc]
      simp only [m_exec, true_and, hn, if_false]
      rw [m_exec_seek_emit_marshall]
      simp [m_exec]

theorem m_exec_seek_cases (env : c_env) (v : c_struct) (rest : List c_line) (t : Option Nat)
    (s : m_state) :
    ∀ (cs : List xdr_union_case),
      (∀ c ∈ cs, c.label = "default" ∨ t = none ∨ env.const_val c.label ≠ t) →
      m_exec env v ((cs.map (emit_union_case_marshall [])).flatten ++ rest) (.seek t 0) s =
        m_exec env v rest (.seek t 0) s
  | [], _ => by simp
  | c :: cs, h => by
      rw [List.map_cons, List.flatten_cons, List.append_assoc,
        m_exec_seek_case env v c _ t s (h c (List.mem_cons_self _ _)),
        m_exec_seek_cases env v rest t s cs (fun c hc => h c (List.mem_cons_of_mem _ hc))]

theorem has_case_case (env : c_env) (x : Nat) (c : xdr_union_case) (rest : List c_line) :
    has_case env x (emit_union_case_marshall [] c ++ rest) 0 =
      ((c.label != "default" && env.const_val c.label == some x) || has_case env x rest 0) := by
  rcases case_lines c with ⟨hd, hl⟩ | ⟨hd, hl⟩
  · rw [hl, List.nil_append]
    simp [hd]
  · have hb : (c.label != "default") = true := by simpa using hd
    rw [hb, Bool.true_and]
    rcases hl with hl | hl | ⟨ty, -, -, hl⟩
    · rw [hl]
      simp [has_case]
    · rw [hl]
      simp [has_case]
    · rw [hl, List.cons_append, List.append_assoc]
      simp only [has_case, decide_True, Bool.true_and]
      rw [has_case_emit_marshall]
      simp [has_case]

theorem has_case_cases (env : c_env) (x : Nat) (rest : List c_line) :
    ∀ (cs : List xdr_union_case),
      has_case env x ((cs.map (emit_union_case_marshall [])).flatten ++ rest) 0 =
        (cs.any (fun c => c.label != "default" && env.const_val c.label == some x) ||
          has_case env x rest 0)
  | [] => by simp
  | c :: cs => by
      rw [List.map_cons, List.flatten_cons, List.append_assoc, has_case_case,
        has_case_cases env x rest cs, List.any_cons, Bool.or_assoc]

theorem has_case_defaults (env : c_env) (x : Nat) :
    ∀ (cs : List xdr_union_case),
      has_case env x ((cs.map (emit_union_default [])).flatten ++ [c_line.close_block]) 0 = false
  | [] => by simp [has_case]
  | c :: cs => by
      rw [List.map_cons, List.flatten_cons, List.append_assoc]
      unfold emit_union_default
      split_ifs
      · simp only [List.nil_append, List.cons_append, has_case]
        exact has_case_defaults env x cs
      · simp only [List.nil_append]
        exact has_case_defaults env x cs


theorem case_lines_payload (c : xdr_union_case) (t : xdr_type) (hd : c.label ≠ "default")
    (hv : c.voided = false) (ht : c.type = some t) :
    emit_union_case_marshall [] c =
      c_line.case_label c.label :: (emit_marshall [] c.name t ++ [c_line.break_]) := by
  unfold emit_union_case_marshall
  rw [if_pos hd, hv, ht]
  simp only [Bool.false_eq_true, if_false, List.nil_append]
  rw [emit_marshall_append]
  simp only [List.singleton_append, List.cons_append, List.nil_append]

theorem emit_marshall_uint32 (name : String) (type : xdr_type) (h1 : type.opaque_ = false)
    (h2 : type.optional = false) (h3 : type.vector = false) (h4 : type.array = false)
    (hn : type.name = "uint32_t") :
    emit_marshall [] name type =
      [c_line.call "__marshall_uint32_t" (.addr_field name) .one, .check_rc, .add_len] := by
  unfold emit_marshall
  simp [h1, h2, h3, h4, hn]

theorem union_pivot_rewrite_fields (xdr_identifiers : List xdr_identifier) (u : xdr_union) :
    (union_pivot_rewrite xdr_identifiers u).pivot_name = u.pivot_name ∧
    (union_pivot_rewrite xdr_identifiers u).cases = u.cases ∧
    (union_pivot_rewrite xdr_identifiers u).pivot_type.opaque_ = u.pivot_type.opaque_ ∧
    (union_pivot_rewrite xdr_identifiers u).pivot_type.optional = u.pivot_type.optional ∧
    (union_pivot_rewrite xdr_identifiers u).pivot_type.vector = u.pivot_type.vector ∧
    (union_pivot_rewrite xdr_identifiers u).pivot_type.array = u.pivot_type.array := by
  unfold union_pivot_rewrite
  cases HASH_FIND_STR xdr_identifiers u.pivot_type.name with
  | none => exact ⟨rfl, rfl, rfl, rfl, rfl, rfl⟩
  | some chkm =>
      simp only []
      split_ifs <;> exact ⟨rfl, rfl, rfl, rfl, rfl, rfl⟩

theorem union_pivot_rewrite_name (xdr_identifiers : List xdr_identifier) (u : xdr_union)
    (h : u.pivot_type.name = "uint32_t" ∨
      ∃ chkm, HASH_FIND_STR xdr_identifiers u.pivot_type.name = some chkm ∧ chkm.type = .XDR_ENUM) :
    (union_pivot_rewrite xdr_identifiers u).pivot_type.name = "uint32_t" := by
  unfold union_pivot_rewrite
  rcases h with h | ⟨chkm, hf, hk⟩
  · cases HASH_FIND_STR xdr_identifiers u.pivot_type.name with
    | none => exact h
    | some chkm =>
        simp only []
        split_ifs
        · rfl
        · exact h
  · rw [hf]
    simp only [hk, if_true]

theorem m_exec_seek_hit (env : c_env) (v : c_struct) (label : String) (ls : List c_line)
    (x : Nat) (s : m_state) (h : env.const_val label = some x) :
    m_exec env v (c_line.case_label label :: ls) (.seek (some x) 0) s =
      m_exec env v ls .run s := by
  simp [m_exec, h]

theorem m_exec_break (env : c_env) (v : c_struct) (ls : List c_line) (s : m_state) :
    m_exec env v (c_line.break_ :: ls) .run s = m_exec env v ls (.skip 0) s := by
  simp [m_exec]

theorem m_exec_skip_close (env : c_env) (v : c_struct) (s : m_state) :
    m_exec env v [c_line.close_block] (.skip 0) s = some (.next s) := by
  simp [m_exec]

theorem m_exec_union_matching (env : c_env) (v : c_struct) (u : xdr_union) (s1 : m_state)
    (pre post : List xdr_union_case) (k : xdr_union_case) (t : xdr_type) (x : Nat)
    (hcases : u.cases = pre ++ k :: post) (hk1 : k.label ≠ "default") (hk2 : k.voided = false)
    (hk3 : k.type = some t) (hx : c_field v u.pivot_name = some (.word x))
    (hkx : env.const_val k.label = some x)
    (hpre : ∀ c ∈ pre, c.label = "default" ∨ env.const_val c.label ≠ some x) :
    m_exec env v
        (c_line.switch_in u.pivot_name ::
          ((u.cases.map (emit_union_case_marshall [])).flatten ++
            ((u.cases.map (emit_union_default [])).flatten ++ [c_line.close_block]))) .run s1 =
      m_exec env v (emit_marshall [] k.name t) .run s1 := by
  have hany : (u.cases.any
      (fun c => c.label != "default" && env.const_val c.label == some x)) = true := by
    rw [hcases, List.any_append, List.any_cons]
    have : (k.label != "default" && env.const_val k.label == some x) = true := by
      simp [hk1, hkx]
    rw [this, Bool.true_or, Bool.or_true]
  have hhas := has_case_cases env x
    ((u.cases.map (emit_union_default [])).flatten ++ [c_line.close_block]) u.cases
  rw [hany, Bool.true_or] at hhas
  simp only [m_exec, hx, hhas, if_true]
  rw [hcases, List.map_append, List.flatten_append, List.map_cons, List.flatten_cons,
    List.append_assoc, List.append_assoc,
    m_exec_seek_cases env v _ (some x) s1 pre
      (fun c hc => (hpre c hc).elim Or.inl (fun h => Or.inr (Or.inr h))),
    case_lines_payload k t hk1 hk2 hk3, List.cons_append, List.append_assoc]
  rw [m_exec_seek_hit env v k.label _ x s1 hkx,
    m_exec_append env v _ _ s1 (straight_emit_marshall k.name t)]
  cases hr : m_exec env v (emit_marshall [] k.name t) .run s1 with
  | none => rfl
  | some o =>
      cases o with
      | ret rc s2 => rfl
      | next s2 =>
          simp only [List.singleton_append]
          rw [m_exec_break, m_exec_skip_cases, ← hcases, m_exec_skip_defaults,
            m_exec_skip_close]

/-- C14, for the unions whose pivot is a plain `uint32_t` or an enum (rewritten
to the builtin `uint32_t` when the declaration is emitted): for a value
whose pivot `x` equals the label of the case `k`, which carries a payload of
type `t` and is the first case with that label value, executing the body of the
generated `__marshall` routine is executing
`rc = __marshall_uint32_t(&in->PIVOT, 1, cursor)` with its check and `len += rc`,
and then the lines `emit_marshall` prints for the payload of `k`, and nothing
else. -/
theorem union_case_payload (xdr_identifiers : List xdr_identifier) (env : c_env)
    (v : c_struct) (u : xdr_union) (s : m_state) (pre post : List xdr_union_case)
    (k : xdr_union_case) (t : xdr_type) (x : Nat)
    (h1 : u.pivot_type.opaque_ = false) (h2 : u.pivot_type.optional = false)
    (h3 : u.pivot_type.vector = false) (h4 : u.pivot_type.array = false)
    (hn : u.pivot_type.name = "uint32_t" ∨
      ∃ chkm, HASH_FIND_STR xdr_identifiers u.pivot_type.name = some chkm ∧ chkm.type = .XDR_ENUM)
    (hcases : u.cases = pre ++ k :: post) (hk1 : k.label ≠ "default") (hk2 : k.voided = false)
    (hk3 : k.type = some t) (hx : c_field v u.pivot_name = some (.word x))
    (hkx : env.const_val k.label = some x)
    (hpre : ∀ c ∈ pre, c.label = "default" ∨ env.const_val c.label ≠ some x) :
    m_exec env v (emit_union_marshall (union_pivot_rewrite xdr_identifiers u)).body .run s =
      match m_exec env v
          [.call "__marshall_uint32_t" (.addr_field u.pivot_name) .one, .check_rc, .add_len]
          .run s with
      | some (.next s1) => m_exec env v (emit_marshall [] k.name t) .run s1
      | r => r := by
  obtain ⟨f1, f2, f3, f4, f5, f6⟩ := union_pivot_rewrite_fields xdr_identifiers u
  have hp := emit_marshall_uint32 u.pivot_name (union_pivot_rewrite xdr_identifiers u).pivot_type
    (f3.trans h1) (f4.trans h2) (f5.trans h3) (f6.trans h4)
    (union_pivot_rewrite_name xdr_identifiers u hn)
  have hst := straight_emit_marshall u.pivot_name
    (union_pivot_rewrite xdr_identifiers u).pivot_type
  rw [union_marshall_body, f1, m_exec_append env v _ _ s hst, hp]
  cases hr : m_exec env v
      [c_line.call "__marshall_uint32_t" (.addr_field u.pivot_name) .one, .check_rc, .add_len]
      .run s with
  | none => rfl
  | some o =>
      cases o with
      | ret rc s2 => rfl
      | next s1 =>
          simp only []
          have := m_exec_union_matching env v (union_pivot_rewrite xdr_identifiers u) s1 pre post
            k t x (f2.trans hcases) hk1 hk2 hk3 (by rw [f1]; exact hx) hkx hpre
          rw [f1] at this
          exact this

/-- C14, instance: the union `switch (uint32_t tag) { case 1: uint32_t n; }` with
`tag = 1` and `n = 7` gives `00 00 00 01 00 00 00 07`. -/
theorem union_case_payload_witness :
    m_exec (plain_env true []) [("tag", .word 1), ("n", .word 7)]
        (emit_union_marshall (union_pivot_rewrite []
          ⟨"U", "tag", plain_type "uint32_t" true,
            [⟨"1", "n", some (plain_type "uint32_t" true), false⟩]⟩)).body .run
        ⟨[[9, 9, 9, 9, 9, 9, 9, 9]], ⟨0, 0, 0⟩, 0, 0, 0⟩ =
      some (.next ⟨[[0, 0, 0, 1, 0, 0, 0, 7]], ⟨0, 0, 8⟩, 4, 8, 0⟩) :=
  (union_case_payload [] (plain_env true []) [("tag", .word 1), ("n", .word 7)]
    ⟨"U", "tag", plain_type "uint32_t" true,
      [⟨"1", "n", some (plain_type "uint32_t" true), false⟩]⟩
    ⟨[[9, 9, 9, 9, 9, 9, 9, 9]], ⟨0, 0, 0⟩, 0, 0, 0⟩ [] []
    ⟨"1", "n", some (plain_type "uint32_t" true), false⟩ (plain_type "uint32_t" true) 1
    rfl rfl rfl rfl (Or.inl rfl) rfl (by decide) rfl rfl rfl rfl
    (fun c hc => absurd hc (List.not_mem_nil c))).trans (by decide)

/-- C14 as stated fails for the unions whose pivot is of another type: the pivot
step is printed by `emit_marshall` from the name of the pivot type, so a pivot
declared `uint64_t` is encoded by `__marshall_uint64_t` (eight bytes) and one
declared `int32_t` by `__marshall_int32_t`, not by the 32-bit unsigned codec. -/
theorem union_pivot_other_codec :
    ((emit_union_marshall (union_pivot_rewrite []
        ⟨"U", "tag", plain_type "uint64_t" true,
          [⟨"1", "n", some (plain_type "uint32_t" true), false⟩]⟩)).body.take 1).map
        c_line_text = ["rc = __marshall_uint64_t(&in->tag, 1, cursor);"] ∧
    ((emit_union_marshall (union_pivot_rewrite []
        ⟨"U", "tag", plain_type "int32_t" true,
          [⟨"1", "n", some (plain_type "uint32_t" true), false⟩]⟩)).body.take 1).map
        c_line_text = ["rc = __marshall_int32_t(&in->tag, 1, cursor);"] := by
  decide


theorem m_exec_seek_default_hit (env : c_env) (v : c_struct) (ls : List c_line) (s : m_state) :
    m_exec env v (c_line.default_label :: ls) (.seek none 0) s = m_exec env v ls .run s := by
  simp [m_exec]

theorem m_exec_seek_defaults (env : c_env) (v : c_struct) (s : m_state) :
    ∀ (cs : List xdr_union_case),
      m_exec env v ((cs.map (emit_union_default [])).flatten ++ [c_line.close_block])
        (.seek none 0) s = some (.next s)
  | [] => by simp [m_exec]
  | c :: cs => by
      rw [List.map_cons, List.flatten_cons, List.append_assoc]
      by_cases hd : c.label = "default"
      · have e : emit_union_default [] c = [c_line.default_label, c_line.break_] := by
          simp [emit_union_default, hd]
        rw [e, List.cons_append, List.cons_append, List.nil_append, m_exec_seek_default_hit,
          m_exec_break, m_exec_skip_defaults, m_exec_skip_close]
      · have e : emit_union_default [] c = [] := by
          simp [emit_union_default, hd]
        rw [e, List.nil_append]
        exact m_exec_seek_defaults env v s cs

/-- C15 fails in the code: the lines printed for a `default` case are
`default:` and `break;` whatever the case carries, in the marshalling and in the
unmarshalling routine alike.  So for every union and every value whose pivot `x`
matches no explicit case label, executing the body of the generated
`__marshall` routine is executing the pivot step alone: a payload of the default
case is not encoded. -/
theorem union_default_payload_dropped (env : c_env) (v : c_struct) (u : xdr_union)
    (s : m_state) (x : Nat) (hx : c_field v u.pivot_name = some (.word x))
    (hno : ∀ c ∈ u.cases, c.label = "default" ∨ env.const_val c.label ≠ some x) :
    m_exec env v (emit_union_marshall u).body .run s =
        m_exec env v (emit_marshall [] u.pivot_name u.pivot_type) .run s ∧
      ∀ c : xdr_union_case,
        emit_union_default [] c = emit_union_default [] { c with type := none, voided := true } := by
  refine ⟨?_, fun c => rfl⟩
  rw [union_marshall_body,
    m_exec_append env v _ _ s (straight_emit_marshall u.pivot_name u.pivot_type)]
  cases hr : m_exec env v (emit_marshall [] u.pivot_name u.pivot_type) .run s with
  | none => rfl
  | some o =>
      cases o with
      | ret rc s2 => rfl
      | next s1 =>
          have hany : (u.cases.any
              (fun c => c.label != "default" && env.const_val c.label == some x)) = false := by
            rw [List.any_eq_false]
            intro c hc
            rcases hno c hc with h | h
            · simp [h]
            · simp [h]
          have hhas := has_case_cases env x
            ((u.cases.map (emit_union_default [])).flatten ++ [c_line.close_block]) u.cases
          rw [hany, Bool.false_or, has_case_defaults] at hhas
          simp only [m_exec, hx, hhas, Bool.false_eq_true, if_false]
          rw [m_exec_seek_cases env v _ none s1 u.cases (fun c _ => Or.inr (Or.inl rfl)),
            m_exec_seek_defaults]

/-- C15, the failing input: `union U switch (uint32_t tag) { case 1: uint32_t n;
default: uint32_t d; }` with `tag = 5` and `d = 7`: only `00 00 00 05` is written
and `len` is 4. -/
theorem union_default_payload_dropped_witness :
    m_exec (plain_env true []) [("tag", .word 5), ("d", .word 7)]
        (emit_union_marshall
          ⟨"U", "tag", plain_type "uint32_t" true,
            [⟨"1", "n", some (plain_type "uint32_t" true), false⟩,
             ⟨"default", "d", some (plain_type "uint32_t" true), false⟩]⟩).body .run
        ⟨[[9, 9, 9, 9, 9, 9, 9, 9]], ⟨0, 0, 0⟩, 0, 0, 0⟩ =
      some (.next ⟨[[0, 0, 0, 5, 9, 9, 9, 9]], ⟨0, 0, 4⟩, 4, 4, 0⟩) :=
  (union_default_payload_dropped (plain_env true []) [("tag", .word 5), ("d", .word 7)]
    ⟨"U", "tag", plain_type "uint32_t" true,
      [⟨"1", "n", some (plain_type "uint32_t" true), false⟩,
       ⟨"default", "d", some (plain_type "uint32_t" true), false⟩]⟩
    ⟨[[9, 9, 9, 9, 9, 9, 9, 9]], ⟨0, 0, 0⟩, 0, 0, 0⟩ 5 rfl (by decide)).1.trans (by decide)

/-! ## Optional and vector members -/

theorem emit_marshall_optional (name : String) (type : xdr_type) (h1 : type.opaque_ = false)
    (h2 : type.name ≠ "xdr_string") (h3 : type.optional = true) :
    emit_marshall [] name type =
      [c_line.open_block,
       .decl_more_present name,
       .call "__marshall_uint32_t" .addr_more .one,
       .check_rc,
       .add_len,
       .call ("__marshall_" ++ type.name) (.field name) .more,
       .check_rc,
       .close_block,
       .check_rc,
       .add_len] := by
  unfold emit_marshall
  simp [h1, h2, h3]

theorem marshall_presence (le : Bool) (m : Nat) (iovs : List xdr_iovec) (c : xdr_cursor)
    (iov : xdr_iovec) (hm : m < U32) (hcur : iovs[c.cur]? = some iov)
    (hroom : c.offset + 4 ≤ xdr_iovec_len iov) (hlen : xdr_iovec_len iov < U32) :
    __marshall_uint32_t le [m] 1 iovs c =
      some (4, iovs.set c.cur (iov_store iov c.offset (be32 m)),
            { cur := c.cur, last := c.last, offset := c.offset + 4 }) := by
  have h := (uint32_single le [m] iovs c iov
    (fun x hx => by rw [List.mem_singleton.mp hx]; exact hm) hcur
    (by simpa using hroom) hlen).1
  have e : be32s [m] = be32 m := by simp [be32s]
  rw [e] at h
  exact h

/-- C16, for the optional members that are not opaque and not of type `xdr_string`:
where the member `in->NAME` is a pointer that is null (`p = none`) or not, the
lines printed by `emit_marshall` first store the presence word, which is exactly
1 when the member is present and exactly 0 when it is absent, through
`__marshall_uint32_t`; then call the codec of `T` on `in->NAME` with that word as
the count, so that one `T` is encoded when present and none when absent; and add
4 and the result `rc2` of the codec of `T` to `len`. -/
theorem optional_presence_word (env : c_env) (v : c_struct) (name : String) (type : xdr_type)
    (s : m_state) (iov : xdr_iovec) (p : Option (List Nat)) (rc2 : Int)
    (iovs2 : List xdr_iovec) (c2 : xdr_cursor)
    (h1 : type.opaque_ = false) (h2 : type.name ≠ "xdr_string") (h3 : type.optional = true)
    (hf : c_field v name = some (.words p))
    (hcur : s.iovs[s.cursor.cur]? = some iov)
    (hroom : s.cursor.offset + 4 ≤ xdr_iovec_len iov) (hlen : xdr_iovec_len iov < U32)
    (hcall : m_call env v
        { iovs := s.iovs.set s.cursor.cur
            (iov_store iov s.cursor.offset (be32 (if p.isSome then 1 else 0))),
          cursor := { cur := s.cursor.cur, last := s.cursor.last, offset := s.cursor.offset + 4 },
          rc := 4,
          len := uint32_of_int (int_of_uint s.len + 4),
          more := if p.isSome then 1 else 0 }
        ("__marshall_" ++ type.name) (.field name) (if p.isSome then 1 else 0) =
      some (rc2, iovs2, c2))
    (hrc2 : 0 ≤ rc2) :
    m_exec env v (emit_marshall [] name type) .run s =
      some (.next
        { iovs := iovs2,
          cursor := c2,
          rc := rc2,
          len := uint32_of_int (int_of_uint (uint32_of_int (int_of_uint s.len + 4)) + rc2),
          more := if p.isSome then 1 else 0 }) := by
  have hm : (if p.isSome then 1 else 0) < U32 := by
    unfold U32
    split <;> omega
  have hm2 : ¬ (2147483648 ≤ (if p.isSome then 1 else 0)) := by
    split <;> omega
  have hw := marshall_presence env.le (if p.isSome then 1 else 0) s.iovs s.cursor iov hm hcur
    hroom hlen
  have hnn : ¬ (rc2 < 0) := by omega
  have hc1 : ∀ s1 : m_state, m_call env v s1 "__marshall_uint32_t" .addr_more 1 =
      __marshall_uint32_t env.le [s1.more] 1 s1.iovs s1.cursor := fun s1 => by
    simp [m_call]
  rw [emit_marshall_optional name type h1 h2 h3]
  simp only [m_exec, m_step, hf, c_count_val, hc1, if_true, hw, hm2, if_false,
    Int.reduceLT, Nat.not_ofNat_le_one, hcall, hnn]

/-- C16, instances: the optional `uint32_t p` is 42: `00 00 00 01 00 00 00 2A` is
written and 8 added to `len`; it is absent: `00 00 00 00` is written and 4 added. -/
theorem optional_presence_word_witness :
    m_exec (plain_env true []) [("p", .words (some [42]))]
        (emit_marshall [] "p" { plain_type "uint32_t" true with optional := true }) .run
        ⟨[[9, 9, 9, 9, 9, 9, 9, 9, 9]], ⟨0, 0, 0⟩, 0, 0, 0⟩ =
      some (.next ⟨[[0, 0, 0, 1, 0, 0, 0, 42, 9]], ⟨0, 0, 8⟩, 4, 8, 1⟩) ∧
    m_exec (plain_env true []) [("p", .words none)]
        (emit_marshall [] "p" { plain_type "uint32_t" true with optional := true }) .run
        ⟨[[9, 9, 9, 9, 9, 9, 9, 9, 9]], ⟨0, 0, 0⟩, 0, 0, 0⟩ =
      some (.next ⟨[[0, 0, 0, 0, 9, 9, 9, 9, 9]], ⟨0, 0, 4⟩, 0, 4, 0⟩) :=
  ⟨(optional_presence_word (plain_env true []) [("p", .words (some [42]))] "p"
      { plain_type "uint32_t" true with optional := true }
      ⟨[[9, 9, 9, 9, 9, 9, 9, 9, 9]], ⟨0, 0, 0⟩, 0, 0, 0⟩ [9, 9, 9, 9, 9, 9, 9, 9, 9]
      (some [42]) 4 [[0, 0, 0, 1, 0, 0, 0, 42, 9]] ⟨0, 0, 8⟩
      rfl (by decide) rfl rfl rfl (by decide) (by decide) (by decide) (by decide)).trans
      (by decide),
   (optional_presence_word (plain_env true []) [("p", .words none)] "p"
      { plain_type "uint32_t" true with optional := true }
      ⟨[[9, 9, 9, 9, 9, 9, 9, 9, 9]], ⟨0, 0, 0⟩, 0, 0, 0⟩ [9, 9, 9, 9, 9, 9, 9, 9, 9]
      none 0 [[0, 0, 0, 0, 9, 9, 9, 9, 9]] ⟨0, 0, 4⟩
      rfl (by decide) rfl rfl rfl (by decide) (by decide) (by decide) (by decide)).trans
      (by decide)⟩

/-- C16 as stated fails for the optional members that are opaque or of type
`xdr_string`: `emit_marshall` tests `opaque` and the name `xdr_string` before
`optional`, so for `xdr_string *s` and for an optional `opaque o<>` it prints
the lines of a plain string or opaque member, without a presence word; the
string `ab` is marshalled as `00 00 00 02 61 62 00 00`. -/
theorem optional_string_no_presence_word :
    (emit_marshall [] "s" { plain_type "xdr_string" true with optional := true }).map c_line_text =
      ["rc = __marshall_xdr_string(&in->s, 1, cursor);",
       "if (unlikely(rc < 0)) return rc;",
       "len += rc;"] ∧
    (emit_marshall [] "o"
        { plain_type "opaque" true with opaque_ := true, optional := true }).map c_line_text =
      ["rc = __marshall_opaque(&in->o, 0, cursor);",
       "if (unlikely(rc < 0)) return rc;",
       "len += rc;"] ∧
    m_exec (plain_env true [97, 98]) [("s", .string ⟨2, 0⟩)]
        (emit_marshall [] "s" { plain_type "xdr_string" true with optional := true }) .run
        ⟨[[9, 9, 9, 9, 9, 9, 9, 9, 9]], ⟨0, 0, 0⟩, 0, 0, 0⟩ =
      some (.next ⟨[[0, 0, 0, 2, 97, 98, 0, 0, 9]], ⟨0, 0, 8⟩, 8, 8, 0⟩) := by
  decide


/-- C17 fails in the code: for the optional member `uint32_t *p` the lines printed
by `emit_unmarshall` decode the presence word into `more` and then call
`__unmarshall_uint32_t(out->p, more, cursor, dbuf)`.  No line reserves storage
in the decode buffer, none assigns `out->p`, and none sets it to null when the
word is 0: the pointer is used as the caller left it.  The lines printed for the
vector member `uint32_t v<>` do reserve storage (`xdr_dbuf_reserve`) before
decoding. -/
theorem optional_unmarshall_no_storage :
    (emit_unmarshall [] "p" { plain_type "uint32_t" true with optional := true }).map
        c_line_text =
      ["\x7b",
       "uint32_t more;",
       "rc = __unmarshall_uint32_t(&more, 1, cursor, dbuf);",
       "if (unlikely(rc < 0)) return rc;",
       "len += rc;",
       "rc = __unmarshall_uint32_t(out->p, more, cursor, dbuf);",
       "if (unlikely(rc < 0)) return rc;",
       "\x7d",
       "if (unlikely(rc < 0)) return rc;",
       "len += rc;"] ∧
    (emit_unmarshall [] "v" { plain_type "uint32_t" true with vector := true }).map c_line_text =
      ["rc = __unmarshall_uint32_t(&out->num_v, 1, cursor, dbuf);",
       "if (unlikely(rc < 0)) return rc;",
       "len += rc;",
       "xdr_dbuf_reserve(out, v, out->num_v, dbuf);",
       "rc = __unmarshall_uint32_t(out->v, out->num_v, cursor, dbuf);",
       "if (unlikely(rc < 0)) return rc;",
       "len += rc;"] ∧
    ∀ (name : String) (type : xdr_type),
      (emit_unmarshall [] name { type with opaque_ := false, optional := true }).filter
          (fun l => match l with
            | .dbuf_reserve _ => true
            | _ => false) = [] := by
  refine ⟨by decide, by decide, ?_⟩
  intro name type
  unfold emit_unmarshall
  simp only [Bool.false_eq_true, if_false, if_true]
  split_ifs <;> rfl

/-- C18 fails in the code: the lines printed by `emit_unmarshall` for a member
that is not opaque do not depend on `vector_bound`.  For `uint32_t v<2>` they
decode the count, reserve `out->num_v` elements and decode them; the count is
never compared with the bound 2, so a count of 3 is accepted.  Only the opaque
path hands the bound on (`__unmarshall_opaque(&out->o, 2, cursor, dbuf)`). -/
theorem vector_bound_not_checked :
    (∀ (output : List c_line) (name : String) (type : xdr_type) (b : Option String),
      emit_unmarshall output name { type with opaque_ := false, vector_bound := b } =
        emit_unmarshall output name { type with opaque_ := false, vector_bound := none }) ∧
    (emit_unmarshall [] "v"
        { plain_type "uint32_t" true with vector := true, vector_bound := some "2" }).map
        c_line_text =
      ["rc = __unmarshall_uint32_t(&out->num_v, 1, cursor, dbuf);",
       "if (unlikely(rc < 0)) return rc;",
       "len += rc;",
       "xdr_dbuf_reserve(out, v, out->num_v, dbuf);",
       "rc = __unmarshall_uint32_t(out->v, out->num_v, cursor, dbuf);",
       "if (unlikely(rc < 0)) return rc;",
       "len += rc;"] ∧
    (emit_unmarshall [] "o"
        { plain_type "opaque" true with opaque_ := true, vector_bound := some "2" }).map
        c_line_text =
      ["rc = __unmarshall_opaque(&out->o, 2, cursor, dbuf);",
       "if (unlikely(rc < 0)) return rc;",
       "len += rc;"] := by
  refine ⟨?_, by decide, by decide⟩
  intro output name type b
  unfold emit_unmarshall
  simp only [Bool.false_eq_true, if_false]

/-! ## The allocator of the generator -/

theorem round_up_eight (n : Nat) (h : n + 7 < U32) :
    (n % U32 + (8 - n % U32 % 8) % 8) % U32 = (n + 7) / 8 * 8 := by
  unfold U32 at *
  omega

theorem round_up_eight_mod (n : Nat) : (n % U32 + (8 - n % U32 % 8) % 8) % U32 % 8 = 0 := by
  unfold U32
  omega

/-- C27: for a request of `N` bytes with `N + 7 < 2 ^ 32`, `xdr_alloc` adds to the
`used` counter of the block it allocates from (in `unsigned int` arithmetic)
the least multiple of 8 that is at least `N`, which is `(N + 7) / 8 * 8`; the
region starts at the old value of that counter, 0 for a fresh block.  When the
counters of all blocks are multiples of 8, so are the offset of the returned
region and the counters afterwards. -/
theorem xdr_alloc_aligned (xdr_buffers : List xdr_buffer) (N : Nat) (hN : N + 7 < U32)
    (hinv : ∀ b ∈ xdr_buffers, b.used % 8 = 0) :
    ((N + 7) / 8 * 8 % 8 = 0 ∧ N ≤ (N + 7) / 8 * 8 ∧
      ∀ m, m % 8 = 0 → N ≤ m → (N + 7) / 8 * 8 ≤ m) ∧
    (xdr_alloc xdr_buffers N).1 % 8 = 0 ∧
    (∀ b ∈ (xdr_alloc xdr_buffers N).2, b.used % 8 = 0) ∧
    (∃ b rest, (xdr_alloc xdr_buffers N).2 = b :: rest ∧
      b.used = ((xdr_alloc xdr_buffers N).1 + (N + 7) / 8 * 8) % U32 ∧
      ((xdr_alloc xdr_buffers N).1 + (N + 7) / 8 * 8 < U32 →
        b.used = (xdr_alloc xdr_buffers N).1 + (N + 7) / 8 * 8) ∧
      (rest = xdr_buffers ∧ (xdr_alloc xdr_buffers N).1 = 0 ∨
        ∃ b0, xdr_buffers = b0 :: rest ∧ (xdr_alloc xdr_buffers N).1 = b0.used ∧
          b.size = b0.size)) := by
  have hr := round_up_eight N hN
  have hlt : (N + 7) / 8 * 8 < U32 := by unfold U32 at *; omega
  refine ⟨⟨by omega, by omega, fun m h1 h2 => by omega⟩, ?_⟩
  unfold xdr_alloc
  simp only [hr]
  cases xdr_buffers with
  | nil =>
      refine ⟨rfl, ?_, ?_⟩
      · intro b hb
        rw [List.mem_singleton.mp hb]
        simp only []
        omega
      · refine ⟨_, _, rfl, ?_, fun _ => by simp, Or.inl ⟨rfl, rfl⟩⟩
        simp only [Nat.zero_add]
        exact (Nat.mod_eq_of_lt hlt).symm
  | cons b0 rest =>
      have h0 := hinv b0 (List.mem_cons_self _ _)
      simp only []
      split_ifs with hc
      · refine ⟨rfl, ?_, ?_⟩
        · intro b hb
          rcases List.mem_cons.mp hb with e | e
          · rw [e]
            simp only []
            omega
          · exact hinv b e
        · refine ⟨_, _, rfl, ?_, fun _ => by simp, Or.inl ⟨rfl, rfl⟩⟩
          simp only [Nat.zero_add]
          exact (Nat.mod_eq_of_lt hlt).symm
      · refine ⟨h0, ?_, ?_⟩
        · intro b hb
          rcases List.mem_cons.mp hb with e | e
          · rw [e]
            simp only []
            unfold U32
            omega
          · exact hinv b (List.mem_cons_of_mem _ e)
        · exact ⟨_, _, rfl, rfl, fun h => Nat.mod_eq_of_lt h, Or.inr ⟨b0, rfl, rfl, rfl⟩⟩

/-- C27, instance: a request of 13 bytes from a block that has 16 bytes in use
returns offset 16 and leaves 32 bytes in use. -/
theorem xdr_alloc_aligned_witness :
    (xdr_alloc [⟨16, 2097152⟩] 13).1 % 8 = 0 ∧
      ∃ b rest, (xdr_alloc [⟨16, 2097152⟩] 13).2 = b :: rest ∧
        b.used = ((xdr_alloc [⟨16, 2097152⟩] 13).1 + (13 + 7) / 8 * 8) % U32 ∧
        ((xdr_alloc [⟨16, 2097152⟩] 13).1 + (13 + 7) / 8 * 8 < U32 →
          b.used = (xdr_alloc [⟨16, 2097152⟩] 13).1 + (13 + 7) / 8 * 8) ∧
        (rest = [⟨16, 2097152⟩] ∧ (xdr_alloc [⟨16, 2097152⟩] 13).1 = 0 ∨
          ∃ b0, [(⟨16, 2097152⟩ : xdr_buffer)] = b0 :: rest ∧
            (xdr_alloc [⟨16, 2097152⟩] 13).1 = b0.used ∧ b.size = b0.size) :=
  have h := xdr_alloc_aligned [⟨16, 2097152⟩] 13 (by decide) (by decide)
  ⟨h.2.1, h.2.2.2⟩


theorem xdr_alloc_step (xdr_buffers : List xdr_buffer) (n : Nat) (hn : n ≤ 2097152)
    (hinv : ∀ b ∈ xdr_buffers, b.used ≤ b.size ∧ b.size = 2097152) :
    (∀ b ∈ (xdr_alloc xdr_buffers n).2, b.used ≤ b.size ∧ b.size = 2097152) ∧
    (∃ b rest, (xdr_alloc xdr_buffers n).2 = b :: rest ∧
      (xdr_alloc xdr_buffers n).1 + n ≤ b.used ∧
      ((rest = xdr_buffers ∧ (xdr_alloc xdr_buffers n).1 = 0) ∨
        ∃ b0, xdr_buffers = b0 :: rest ∧ (xdr_alloc xdr_buffers n).1 = b0.used)) := by
  have hr := round_up_eight n (by unfold U32; omega)
  have hle : n ≤ (n + 7) / 8 * 8 := by omega
  have hle2 : (n + 7) / 8 * 8 ≤ 2097152 := by omega
  unfold xdr_alloc
  simp only [hr]
  cases xdr_buffers with
  | nil =>
      refine ⟨?_, _, _, rfl, by simpa using hle, Or.inl ⟨rfl, rfl⟩⟩
      intro b hb
      rw [List.mem_singleton.mp hb]
      exact ⟨hle2, rfl⟩
  | cons b0 rest =>
      obtain ⟨h0, h0s⟩ := hinv b0 (List.mem_cons_self _ _)
      simp only []
      split_ifs with hc
      · refine ⟨?_, _, _, rfl, by simpa using hle, Or.inl ⟨rfl, rfl⟩⟩
        intro b hb
        rcases List.mem_cons.mp hb with e | e
        · rw [e]
          exact ⟨hle2, rfl⟩
        · exact hinv b e
      · have hfit : b0.used + (n + 7) / 8 * 8 ≤ b0.size := by
          unfold U32 at hc
          omega
        have hmod : (b0.used + (n + 7) / 8 * 8) % U32 = b0.used + (n + 7) / 8 * 8 :=
          Nat.mod_eq_of_lt (by unfold U32; omega)
        refine ⟨?_, _, _, rfl, ?_, Or.inr ⟨b0, rfl, rfl⟩⟩
        · intro b hb
          rcases List.mem_cons.mp hb with e | e
          · rw [e, hmod]
            exact ⟨hfit, h0s⟩
          · exact hinv b (List.mem_cons_of_mem _ e)
        · simp only [hmod]
          omega

theorem xdr_alloc_seq_regions :
    ∀ (ns : List Nat) (xdr_buffers : List xdr_buffer),
      (∀ n ∈ ns, n ≤ 2097152) →
      (∀ b ∈ xdr_buffers, b.used ≤ b.size ∧ b.size = 2097152) →
      (∀ b ∈ (xdr_alloc_seq ns xdr_buffers).2, b.used ≤ b.size ∧ b.size = 2097152) ∧
      (xdr_alloc_seq ns xdr_buffers).1.Pairwise
        (fun a b => a.1 ≠ b.1 ∨ a.2.1 + a.2.2 ≤ b.2.1) ∧
      (∀ r ∈ (xdr_alloc_seq ns xdr_buffers).1,
        r.2.1 + r.2.2 ≤ 2097152 ∧ xdr_buffers.length - 1 ≤ r.1 ∧
        (r.1 = xdr_buffers.length - 1 → ((xdr_buffers.head?.map (fun b => b.used)).getD 0) ≤ r.2.1))
  | [], bufs, _, hinv => ⟨hinv, List.Pairwise.nil, fun r hr => absurd hr (List.not_mem_nil r)⟩
  | n :: ns, bufs, hns, hinv => by
      obtain ⟨hinv1, b, rest, hb, hoff, hcase⟩ :=
        xdr_alloc_step bufs n (hns n (List.mem_cons_self _ _)) hinv
      obtain ⟨ih1, ih2, ih3⟩ := xdr_alloc_seq_regions ns (xdr_alloc bufs n).2
        (fun m hm => hns m (List.mem_cons_of_mem _ hm)) hinv1
      have hbu : b.used ≤ 2097152 := by
        have := hinv1 b (by rw [hb]; exact List.mem_cons_self _ _)
        omega
      have hlen1 : (xdr_alloc bufs n).2.length = rest.length + 1 := by rw [hb]; rfl
      have hhead1 : ((xdr_alloc bufs n).2.head?.map (fun b => b.used)).getD 0 = b.used := by
        rw [hb]; rfl
      have hfloor : bufs.length - 1 ≤ (xdr_alloc bufs n).2.length - 1 ∧
          ((xdr_alloc bufs n).2.length - 1 = bufs.length - 1 →
            ((bufs.head?.map (fun b => b.used)).getD 0) ≤ (xdr_alloc bufs n).1) := by
        rcases hcase with ⟨e1, e2⟩ | ⟨b0, e1, e2⟩
        · rw [hlen1, e1, e2]
          cases bufs with
          | nil => simp
          | cons x xs => simp
        · rw [hlen1, e2, e1]
          simp
      simp only [xdr_alloc_seq]
      refine ⟨ih1, ?_, ?_⟩
      · rw [List.pairwise_cons]
        refine ⟨?_, ih2⟩
        intro r hr
        obtain ⟨h1, h2, h3⟩ := ih3 r hr
        by_cases he : r.1 = (xdr_alloc bufs n).2.length - 1
        · right
          have := h3 he
          rw [hhead1] at this
          simp only []
          omega
        · left
          exact fun e => he e.symm
      · intro r hr
        rcases List.mem_cons.mp hr with e | e
        · rw [e]
          simp only []
          exact ⟨by omega, hfloor.1, hfloor.2⟩
        · obtain ⟨h1, h2, h3⟩ := ih3 r e
          refine ⟨h1, by omega, ?_⟩
          intro he
          have h4 : r.1 = (xdr_alloc bufs n).2.length - 1 := by omega
          have h5 := h3 h4
          rw [hhead1] at h5
          have h6 := hfloor.2 (by omega)
          omega

/-- C28, for requests of at most 2 MiB: every call of `xdr_alloc` in a sequence
of calls starting with no block returns a region that lies inside one block
(offset + length is at most the block size 2 MiB), no two of the regions
overlap (they are in different blocks or one ends before the other starts),
and afterwards every block has `used <= size`.  A request that does not fit in
the current block gets a fresh block of exactly 2 MiB. -/
theorem xdr_alloc_regions (ns : List Nat) (hns : ∀ n ∈ ns, n ≤ 2097152) :
    (∀ r ∈ (xdr_alloc_seq ns []).1, r.2.1 + r.2.2 ≤ 2097152) ∧
    (xdr_alloc_seq ns []).1.Pairwise (fun a b => a.1 ≠ b.1 ∨ a.2.1 + a.2.2 ≤ b.2.1) ∧
    (∀ b ∈ (xdr_alloc_seq ns []).2, b.used ≤ b.size ∧ b.size = 2097152) := by
  obtain ⟨h1, h2, h3⟩ := xdr_alloc_seq_regions ns [] hns
    (fun b hb => absurd hb (List.not_mem_nil b))
  exact ⟨fun r hr => (h3 r hr).1, h2, h1⟩

/-- C28, instance: requests of 13, 8, 2097152 and 1 bytes get the regions at offset
0 and 16 of the first block and at offset 0 of a second and of a third block. -/
theorem xdr_alloc_regions_witness :
    (xdr_alloc_seq [13, 8, 2097152, 1] []).1 =
        [(0, 0, 13), (0, 16, 8), (1, 0, 2097152), (2, 0, 1)] ∧
      (xdr_alloc_seq [13, 8, 2097152, 1] []).1.Pairwise
        (fun a b => a.1 ≠ b.1 ∨ a.2.1 + a.2.2 ≤ b.2.1) :=
  ⟨by decide, (xdr_alloc_regions [13, 8, 2097152, 1] (by decide)).2.1⟩

/-- C28 as stated fails for a request of more than 2 MiB: the fresh block has
2097152 bytes whatever the request, so for `N = 2097153` the region of `N`
bytes at offset 0 runs past the end of its block and the block is left with
`used = 2097160 > size`.  The next request of 8 bytes then finds
`size - used` wrapped around to a large `unsigned int` and is served from the
same block at offset 2097160, outside the block. -/
theorem xdr_alloc_oversize :
    xdr_alloc [] 2097153 = (0, [⟨2097160, 2097152⟩]) ∧
    xdr_alloc [⟨2097160, 2097152⟩] 8 = (2097160, [⟨2097168, 2097152⟩]) := by
  decide

/-! ## The regions of the decode buffer -/

theorem xdr_strings_decoded_regions :
    ∀ (strs : List xdr_string) (used : Nat),
      (∀ s ∈ xdr_strings_decoded used strs,
        used ≤ s.str ∧ s.str + (s.len + 1) ≤ used + (strs.map (fun s => s.len + 1)).sum) ∧
      (xdr_strings_decoded used strs).Pairwise (fun a b => a.str + (a.len + 1) ≤ b.str)
  | [], _ => ⟨fun s hs => absurd hs (List.not_mem_nil s), List.Pairwise.nil⟩
  | t :: ts, used => by
      obtain ⟨h1, h2⟩ := xdr_strings_decoded_regions ts (used + t.len + 1)
      simp only [xdr_strings_decoded, List.map_cons, List.sum_cons]
      constructor
      · intro s hs
        rcases List.mem_cons.mp hs with e | e
        · rw [e]
          simp only []
          omega
        · have := h1 s e
          omega
      · rw [List.pairwise_cons]
        refine ⟨?_, h2⟩
        intro s hs
        have := h1 s hs
        simp only []
        omega

theorem unmarshall_xdr_string_cut_result (le : Bool) (l : Nat) (d : List Byte) (dbuf : xdr_dbuf)
    (hd : d.length < l) (hl : l + 4 < U32)
    (hbuf : dbuf.used + d.length ≤ dbuf.buffer.length) :
    __unmarshall_xdr_string le 1 [be32 l ++ d] (xdr_cursor_init 1) dbuf =
      some (-1, [{ len := l, str := dbuf.used }],
            { buffer := iov_store dbuf.buffer dbuf.used d, used := dbuf.used + (l + 1) % U32,
              size := dbuf.size },
            { cur := 0, last := 0, offset := 4 }) := by
  have hlen : xdr_iovec_len (be32 l ++ d) = 4 + d.length := by
    unfold xdr_iovec_len
    rw [List.length_append, length_be32]
  have ha := unmarshall_uint32_t_single_one le [be32 l ++ d] 0 0 0 l (be32 l ++ d) [] d rfl
    (by rw [List.nil_append]) rfl (by omega) (by rw [hlen]; omega)
  have hb := extract_single_short [be32 l ++ d] 0 0 4 l (be32 l ++ d) rfl rfl
    (by rw [hlen]; omega) (by rw [hlen]; omega) (by omega) (by rw [hlen]; omega)
  have hdr : (be32 l ++ d).drop 4 = d := List.drop_left' (length_be32 l)
  have hi : xdr_cursor_init 1 = { cur := 0, last := 0, offset := 0 } := rfl
  have hneg : ((-1 : Int) < 0) := by decide
  have h4 : ¬ ((4 : Int) < 0) := by decide
  have hc1 : ¬ (dbuf.buffer.length < dbuf.used + d.length) := by omega
  rw [hi]
  simp only [Nat.cast_zero, Nat.zero_add] at ha hb
  simp only [__unmarshall_xdr_string, unmarshall_xdr_string_loop, ha, hb, h4, hneg, if_false,
    if_true, List.headD_cons, hdr, hc1, List.nil_append]

/-- C30, as far as the strings fit: `xdr_dbuf_alloc` gives a buffer of 4096 bytes with
`used = 0` and `size = 4096`.  The buffer never grows and `__unmarshall_xdr_string`
does not read `size`; for strings of lengths `L_i < 2 ^ 31` whose regions fit in
the free space (`used` plus the sum of `L_i + 1` is at most `size`) the call
decoding them succeeds, `used <= size` holds afterwards, and the regions handed
out start at the previous value of `used`, are `L_i + 1` bytes long, lie inside
the capacity and do not overlap. -/
theorem dbuf_regions_fit (le : Bool) (mem : List Byte) (strs : List xdr_string)
    (iovs : List xdr_iovec) (c : xdr_cursor) (iov : xdr_iovec) (dbuf : xdr_dbuf)
    (content : List Byte)
    (hwf : ∀ s ∈ strs, s.str + s.len ≤ mem.length ∧ s.len < 2147483648)
    (hcur : iovs[c.cur]? = some iov)
    (hroom : c.offset + (xdr_strings_wire mem strs).length ≤ xdr_iovec_len iov)
    (hlen : xdr_iovec_len iov < U32)
    (hsz : dbuf.buffer.length = dbuf.size)
    (hfit : dbuf.used + (strs.map (fun s => s.len + 1)).sum ≤ dbuf.size) :
    ((xdr_dbuf_alloc content).used = 0 ∧ (xdr_dbuf_alloc content).size = 4096 ∧
      (xdr_dbuf_alloc content).buffer.length = 4096) ∧
    ∃ (rc : Int) (out : List xdr_string) (d1 : xdr_dbuf) (c1 : xdr_cursor),
      __unmarshall_xdr_string le strs.length
          (iovs.set c.cur (iov_store iov c.offset (xdr_strings_wire mem strs))) c dbuf =
        some (rc, out, d1, c1) ∧
      out = xdr_strings_decoded dbuf.used strs ∧
      d1.used = dbuf.used + (strs.map (fun s => s.len + 1)).sum ∧
      d1.size = dbuf.size ∧ d1.buffer.length = d1.size ∧ d1.used ≤ d1.size ∧
      (∀ s ∈ out, dbuf.used ≤ s.str ∧ s.str + (s.len + 1) ≤ d1.used) ∧
      out.Pairwise (fun a b => a.str + (a.len + 1) ≤ b.str) := by
  have hcl := length_xdr_strings_cstr mem strs (fun s hs => (hwf s hs).1)
  have h := unmarshall_xdr_string_single le mem strs iovs c iov dbuf hwf hcur hroom hlen
    (by rw [hcl, hsz]; exact hfit)
  obtain ⟨r1, r2⟩ := xdr_strings_decoded_regions strs dbuf.used
  refine ⟨⟨rfl, rfl, ?_⟩, _, _, _, _, h, rfl, ?_, rfl, ?_, ?_, ?_, r2⟩
  · unfold xdr_dbuf_alloc
    simp only [List.length_take, List.length_append, List.length_replicate]
    omega
  · simp only [hcl]
  · simp only []
    rw [length_iov_store _ _ _ (by rw [hcl, hsz]; exact hfit), hsz]
  · simp only [hcl]
    exact hfit
  · intro s hs
    simp only [hcl]
    exact r1 s hs

/-- C30, instance: the strings `ab` and `c` decoded into a buffer of eight bytes
get the regions at 0 (three bytes) and at 3 (two bytes). -/
theorem dbuf_regions_fit_witness :
    ∃ (rc : Int) (out : List xdr_string) (d1 : xdr_dbuf) (c1 : xdr_cursor),
      __unmarshall_xdr_string true 2
          [[0, 0, 0, 2, 97, 98, 0, 0, 0, 0, 0, 1, 99, 0, 0, 0]] ⟨0, 0, 0⟩
          ⟨[9, 9, 9, 9, 9, 9, 9, 9], 0, 8⟩ = some (rc, out, d1, c1) ∧
      out = [⟨2, 0⟩, ⟨1, 3⟩] ∧ d1.used = 5 :=
  have h := (dbuf_regions_fit true [97, 98, 99] [⟨2, 0⟩, ⟨1, 2⟩]
    [[9, 9, 9, 9, 9, 9, 9, 9, 9, 9, 9, 9, 9, 9, 9, 9]] ⟨0, 0, 0⟩
    [9, 9, 9, 9, 9, 9, 9, 9, 9, 9, 9, 9, 9, 9, 9, 9] ⟨[9, 9, 9, 9, 9, 9, 9, 9], 0, 8⟩ []
    (by decide) (by decide) (by decide) (by decide) (by decide) (by decide)).2
  match h with
  | ⟨rc, out, d1, c1, h1, h2, h3, _⟩ => ⟨rc, out, d1, c1, h1, h2, h3⟩

/-- C30 as stated fails: the buffer does not grow.  The four bytes `00 00 13 88`
announce a string of 5000 bytes; decoding them with the buffer that
`xdr_dbuf_alloc` gives hands out the region of 5001 bytes at offset 0 of the
buffer of 4096 bytes, and the call returns (-1, the input being cut) with
`used = 5001 > 4096 = size`. -/
theorem dbuf_used_exceeds_size :
    (__unmarshall_xdr_string true 1 [[0, 0, 19, 136]] (xdr_cursor_init 1)
        (xdr_dbuf_alloc [])).map (fun r => (r.1, r.2.1, r.2.2.1.used, r.2.2.1.size)) =
      some (-1, [⟨5000, 0⟩], 5001, 4096) := by
  have h := unmarshall_xdr_string_cut_result true 5000 [] (xdr_dbuf_alloc [])
    (by decide) (by decide) (Nat.zero_le _)
  have e : be32 5000 ++ [] = [0, 0, 19, 136] := by decide
  rw [e] at h
  rw [h]
  rfl

/-- C21, on the input `struct S { T m; }; typedef U T; typedef uint32_t U;`: the
resolver completes without error, and afterwards the member `m` of `S` names `U`,
which the table holds as a typedef: the struct case replaces a typedef name by
the type of that typedef once and does not walk the chain, as the typedef case
does.  With the typedefs declared before the struct every reference ends
resolved. -/
theorem resolver_struct_member_names_typedef :
    resolver 3
        [struct_identifier ⟨"S", [⟨"m", plain_type "T" false⟩]⟩,
         typedef_identifier "T" (plain_type "U" false),
         typedef_identifier "U" (plain_type "uint32_t" true)]
      = .ok
        [struct_identifier ⟨"S", [⟨"m", plain_type "U" false⟩]⟩,
         { typedef_identifier "T" (plain_type "uint32_t" true) with emitted := true },
         { typedef_identifier "U" (plain_type "uint32_t" true) with emitted := true }] ∧
    table_resolved
        [struct_identifier ⟨"S", [⟨"m", plain_type "U" false⟩]⟩,
         { typedef_identifier "T" (plain_type "uint32_t" true) with emitted := true },
         { typedef_identifier "U" (plain_type "uint32_t" true) with emitted := true }] = false ∧
    resolver 3
        [typedef_identifier "T" (plain_type "U" false),
         typedef_identifier "U" (plain_type "uint32_t" true),
         struct_identifier ⟨"S", [⟨"m", plain_type "T" false⟩]⟩]
      = .ok
        [{ typedef_identifier "T" (plain_type "uint32_t" true) with emitted := true },
         { typedef_identifier "U" (plain_type "uint32_t" true) with emitted := true },
         struct_identifier ⟨"S", [⟨"m", plain_type "uint32_t" true⟩]⟩] := by
  refine ⟨by decide, by decide, by decide⟩

/-- C22, on the inputs `union V switch (missing tag) { case 1: void; };` and
`union V switch (uint32_t tag) { case 1: missing x; };`: for a union the resolver
does not reach `exit(1)`, since the arguments of the message are read through
the member pointer of the struct case, which is null or unassigned; for a
struct member of an unknown type and for a typedef of an unknown type it exits
with status 1. -/
theorem resolver_union_unknown_type_undefined :
    (∀ fuel, resolver fuel
        [union_identifier ⟨"V", "tag", plain_type "missing" false,
          [⟨"1", "", none, true⟩]⟩] = .undefined) ∧
    (∀ fuel, resolver fuel
        [union_identifier ⟨"V", "tag", plain_type "uint32_t" true,
          [⟨"1", "x", some (plain_type "missing" false), false⟩]⟩] = .undefined) ∧
    (∀ fuel, resolver fuel
        [struct_identifier ⟨"S", [⟨"m", plain_type "missing" false⟩]⟩]
      = .exited ⟨1, "struct S element m uses  unknown type missing\n"⟩) ∧
    resolver 1 [typedef_identifier "T" (plain_type "missing" false)]
      = .exited ⟨1, "typedef T uses unknown type missing\n"⟩ := by
  refine ⟨fun _ => rfl, fun _ => rfl, fun _ => rfl, by decide⟩

/-! ## The declaration emission loop -/

theorem hash_find_name (tbl : List xdr_identifier) (n : String) (chk : xdr_identifier)
    (h : HASH_FIND_STR tbl n = some chk) : chk.name = n := by
  have := List.find?_some h
  simpa using this

theorem hash_find_mem (tbl : List xdr_identifier) (n : String) (chk : xdr_identifier)
    (h : HASH_FIND_STR tbl n = some chk) : chk ∈ tbl :=
  List.mem_of_find?_eq_some h

theorem hash_find_set_emitted (tbl : List xdr_identifier) (a n : String) :
    HASH_FIND_STR (set_emitted tbl a) n =
      if n = a then (HASH_FIND_STR tbl a).map (fun i => { i with emitted := true })
      else HASH_FIND_STR tbl n := by
  induction tbl with
  | nil => simp [set_emitted, HASH_FIND_STR]
  | cons i rest ih =>
      unfold HASH_FIND_STR at ih ⊢
      by_cases hia : i.name = a
      · by_cases hna : n = a
        · subst hna; subst hia
          simp [set_emitted, List.find?_cons]
        · have : ¬ i.name = n := fun h => hna (h ▸ hia)
          have han : (a == n) = false := by
            rw [beq_eq_false_iff_ne]; exact fun h => hna h.symm
          simp [set_emitted, List.find?_cons, hia, hna, han]
      · by_cases hna : n = a
        · subst hna
          simp [set_emitted, List.find?_cons, hia] at ih ⊢
          exact ih
        · simp only [set_emitted, beq_iff_eq, hia, if_false, List.find?_cons, if_neg hna] at ih ⊢
          by_cases hin : i.name = n
          · simp [hin]
          · simp [hin, ih]

theorem struct_ready_true (tbl : List xdr_identifier) (chk : xdr_identifier)
    (ms : List xdr_struct_member) (h : struct_ready tbl chk ms = some true) :
    ∀ m ∈ ms, m.type.builtin = false →
      ∃ chkm, HASH_FIND_STR tbl m.type.name = some chkm ∧
        (chk.name = chkm.name ∨ chkm.emitted = true) := by
  induction ms with
  | nil => intro m hm; cases hm
  | cons m0 ms ih =>
      intro m hm hb
      unfold struct_ready at h
      by_cases hb0 : m0.type.builtin = true
      · rw [if_pos hb0] at h
        rcases List.mem_cons.1 hm with rfl | hm1
        · rw [hb0] at hb; cases hb
        · exact ih h m hm1 hb
      · rw [if_neg hb0] at h
        cases hf : HASH_FIND_STR tbl m0.type.name with
        | none => rw [hf] at h; cases h
        | some chkm =>
            rw [hf] at h
            by_cases hc : chk.name ≠ chkm.name ∧ chkm.emitted = false
            · simp only [hc, and_self, ne_eq, not_false_eq_true, if_true] at h
              simp at h
            · simp only [if_neg hc] at h
              rcases List.mem_cons.1 hm with rfl | hm1
              · refine ⟨chkm, hf, ?_⟩
                by_cases hn : chk.name = chkm.name
                · exact Or.inl hn
                · right
                  cases he : chkm.emitted with
                  | true => rfl
                  | false => exact absurd ⟨hn, he⟩ hc
              · exact ih h m hm1 hb

theorem union_ready_true (tbl : List xdr_identifier) (cs : List xdr_union_case)
    (h : union_ready tbl cs = some true) :
    ∀ c ∈ cs, ∀ type, c.type = some type → type.builtin = false →
      ∃ chk, HASH_FIND_STR tbl type.name = some chk ∧ chk.emitted = true := by
  induction cs with
  | nil => intro c hc; cases hc
  | cons c0 cs ih =>
      intro c hc type ht hb
      unfold union_ready at h
      cases ht0 : c0.type with
      | none =>
          simp only [ht0] at h
          rcases List.mem_cons.1 hc with rfl | hc1
          · rw [ht0] at ht; cases ht
          · exact ih h c hc1 type ht hb
      | some type0 =>
          simp only [ht0] at h
          by_cases hb0 : type0.builtin = true
          · rw [if_pos hb0] at h
            rcases List.mem_cons.1 hc with rfl | hc1
            · rw [ht0] at ht; cases ht; rw [hb0] at hb; cases hb
            · exact ih h c hc1 type ht hb
          · rw [if_neg hb0] at h
            cases hf : HASH_FIND_STR tbl type0.name with
            | none => rw [hf] at h; cases h
            | some chk =>
                simp only [hf] at h
                by_cases he : chk.emitted = false
                · rw [if_pos he] at h; simp at h
                · rw [if_neg he] at h
                  rcases List.mem_cons.1 hc with rfl | hc1
                  · rw [ht0] at ht; cases ht
                    refine ⟨chk, hf, ?_⟩
                    cases he1 : chk.emitted with
                    | true => rfl
                    | false => exact absurd he1 he
                  · exact ih h c hc1 type ht hb

theorem struct_body_refs (s : xdr_struct) (n : String) (h : n ∈ (xdr_body.struct_body s).refs) :
    n ≠ s.name ∧ ∃ m ∈ s.members, m.type.builtin = false ∧ m.type.name = n := by
  simp only [xdr_body.refs, List.mem_filter, List.mem_map, bne_iff_ne, ne_eq,
    Bool.not_eq_true', Bool.not_eq_eq_eq_not, Bool.not_true] at h
  obtain ⟨⟨m, ⟨hm, hb⟩, hn⟩, hne⟩ := h
  exact ⟨hne, m, hm, hb, hn⟩

theorem union_body_refs (u : xdr_union) (n : String) (h : n ∈ (xdr_body.union_body u).refs) :
    n ≠ u.name ∧ ∃ c ∈ u.cases, ∃ type, c.type = some type ∧
      type.builtin = false ∧ type.name = n := by
  simp only [xdr_body.refs, List.mem_filter, List.mem_map, List.mem_filterMap, bne_iff_ne, ne_eq,
    Bool.not_eq_true', Bool.not_eq_eq_eq_not, Bool.not_true] at h
  obtain ⟨⟨t, ⟨⟨c, hc, ht⟩, hb⟩, hn⟩, hne⟩ := h
  exact ⟨hne, c, hc, t, ht, hb, hn⟩

theorem hash_find_set_emitted_old (tbl : List xdr_identifier) (a n : String)
    (chk1 : xdr_identifier) (h : HASH_FIND_STR (set_emitted tbl a) n = some chk1) :
    ∃ chk0, HASH_FIND_STR tbl n = some chk0 ∧ chk0.aggregate = chk1.aggregate ∧
      (n ≠ a → chk0 = chk1) := by
  rw [hash_find_set_emitted] at h
  by_cases hna : n = a
  · rw [if_pos hna] at h
    subst hna
    cases hf : HASH_FIND_STR tbl n with
    | none => rw [hf] at h; cases h
    | some chk0 =>
        rw [hf] at h
        simp only [Option.map_some', Option.some.injEq] at h
        refine ⟨chk0, rfl, ?_, fun hne => absurd rfl hne⟩
        rw [← h]; rfl
  · rw [if_neg hna] at h
    exact ⟨chk1, h, rfl, fun _ => rfl⟩

theorem emit_struct_step_cases (st : emit_state) (u : Bool) (s : xdr_struct)
    (st1 : emit_state) (u1 : Bool) (h : emit_struct_step st u s = some (st1, u1)) :
    (st1 = st ∧ (u1 = u ∨ u1 = true)) ∨
    (∃ chk, HASH_FIND_STR st.xdr_identifiers s.name = some chk ∧ chk.emitted = false ∧
      struct_ready st.xdr_identifiers chk s.members = some true ∧
      st1 = { xdr_identifiers := set_emitted st.xdr_identifiers s.name,
              header := st.header ++ [.struct_body s] } ∧ u1 = u) := by
  unfold emit_struct_step at h
  cases hf : HASH_FIND_STR st.xdr_identifiers s.name with
  | none => rw [hf] at h; cases h
  | some chk =>
      simp only [hf] at h
      cases he : chk.emitted with
      | true =>
          simp only [he, if_true, Option.some.injEq, Prod.mk.injEq] at h
          exact Or.inl ⟨h.1.symm, Or.inl h.2.symm⟩
      | false =>
          simp only [he, Bool.false_eq_true, if_false] at h
          cases hr : struct_ready st.xdr_identifiers chk s.members with
          | none => rw [hr] at h; cases h
          | some b =>
              cases b with
              | false =>
                  simp only [hr, Option.some.injEq, Prod.mk.injEq] at h
                  exact Or.inl ⟨h.1.symm, Or.inr h.2.symm⟩
              | true =>
                  simp only [hr, Option.some.injEq, Prod.mk.injEq] at h
                  exact Or.inr ⟨chk, rfl, he, hr, h.1.symm, h.2.symm⟩

theorem emit_union_step_cases (st : emit_state) (u : Bool) (un : xdr_union)
    (st1 : emit_state) (u1 : Bool) (h : emit_union_step st u un = some (st1, u1)) :
    (st1 = st ∧ (u1 = u ∨ u1 = true)) ∨
    (∃ chk, HASH_FIND_STR st.xdr_identifiers un.name = some chk ∧ chk.emitted = false ∧
      union_ready st.xdr_identifiers un.cases = some true ∧
      st1 = { xdr_identifiers := set_emitted st.xdr_identifiers un.name,
              header := st.header ++ [.union_body un] } ∧ u1 = u) := by
  unfold emit_union_step at h
  cases hf : HASH_FIND_STR st.xdr_identifiers un.name with
  | none => rw [hf] at h; cases h
  | some chk =>
      simp only [hf] at h
      cases he : chk.emitted with
      | true =>
          simp only [he, if_true, Option.some.injEq, Prod.mk.injEq] at h
          exact Or.inl ⟨h.1.symm, Or.inl h.2.symm⟩
      | false =>
          simp only [he, Bool.false_eq_true, if_false] at h
          cases hr : union_ready st.xdr_identifiers un.cases with
          | none => rw [hr] at h; cases h
          | some b =>
              cases b with
              | false =>
                  simp only [hr, Option.some.injEq, Prod.mk.injEq] at h
                  exact Or.inl ⟨h.1.symm, Or.inr h.2.symm⟩
              | true =>
                  simp only [hr, Option.some.injEq, Prod.mk.injEq] at h
                  exact Or.inr ⟨chk, rfl, he, rfl, h.1.symm, h.2.symm⟩

theorem emit_inv_written (st : emit_state) (d : xdr_body) (hinv : emit_inv st)
    (hrefs : ∀ n ∈ d.refs, ∃ chk, HASH_FIND_STR st.xdr_identifiers n = some chk ∧
      chk.emitted = true) :
    emit_inv { xdr_identifiers := set_emitted st.xdr_identifiers d.name,
               header := st.header ++ [d] } := by
  obtain ⟨h1, h2⟩ := hinv
  constructor
  · intro n chk1 hf hagg hem
    by_cases hna : n = d.name
    · exact ⟨d, by simp, hna.symm⟩
    · obtain ⟨chk0, hf0, hagg0, heq⟩ := hash_find_set_emitted_old _ _ _ _ hf
      have e := heq hna
      subst e
      obtain ⟨d1, hd1, hn1⟩ := h1 n chk0 hf0 hagg hem
      exact ⟨d1, List.mem_append_left _ hd1, hn1⟩
  · intro i d0 hi n hn chk1 hf hagg
    obtain ⟨chk0, hf0, hagg0, _⟩ := hash_find_set_emitted_old _ _ _ _ hf
    rw [hagg] at hagg0
    show ∃ d1 ∈ (st.header ++ [d]).take i, d1.name = n
    have hi1 : (st.header ++ [d])[i]? = some d0 := hi
    rcases Nat.lt_trichotomy i st.header.length with hlt | heq | hgt
    · rw [List.getElem?_append_left hlt] at hi1
      rw [List.take_append_of_le_length (Nat.le_of_lt hlt)]
      exact h2 i d0 hi1 n hn chk0 hf0 hagg0
    · subst heq
      rw [List.getElem?_append_right (Nat.le_refl _)] at hi1
      simp only [Nat.sub_self, List.getElem?_cons_zero, Option.some.injEq] at hi1
      subst hi1
      rw [List.take_append_of_le_length (Nat.le_refl _), List.take_length]
      obtain ⟨chkn, hfn, hen⟩ := hrefs n hn
      rw [hf0] at hfn
      cases hfn
      exact h1 n chk0 hf0 hagg0 hen
    · rw [List.getElem?_eq_none] at hi1
      · cases hi1
      · simp only [List.length_append, List.length_singleton]; omega

theorem struct_step_refs (st : emit_state) (s : xdr_struct) (chk : xdr_identifier)
    (hf : HASH_FIND_STR st.xdr_identifiers s.name = some chk)
    (hr : struct_ready st.xdr_identifiers chk s.members = some true) :
    ∀ n ∈ (xdr_body.struct_body s).refs,
      ∃ chkm, HASH_FIND_STR st.xdr_identifiers n = some chkm ∧ chkm.emitted = true := by
  intro n hn
  obtain ⟨hne, m, hm, hb, hmn⟩ := struct_body_refs s n hn
  obtain ⟨chkm, hfm, hor⟩ := struct_ready_true _ _ _ hr m hm hb
  rw [hmn] at hfm
  refine ⟨chkm, hfm, ?_⟩
  rcases hor with he | he
  · rw [hash_find_name _ _ _ hf, hash_find_name _ _ _ hfm] at he
    exact absurd he.symm hne
  · exact he

theorem union_step_refs (st : emit_state) (un : xdr_union)
    (hr : union_ready st.xdr_identifiers un.cases = some true) :
    ∀ n ∈ (xdr_body.union_body un).refs,
      ∃ chk, HASH_FIND_STR st.xdr_identifiers n = some chk ∧ chk.emitted = true := by
  intro n hn
  obtain ⟨_, c, hc, type, ht, hb, htn⟩ := union_body_refs un n hn
  obtain ⟨chk, hf, he⟩ := union_ready_true _ _ hr c hc type ht hb
  rw [htn] at hf
  exact ⟨chk, hf, he⟩

theorem emit_struct_step_pres (P : emit_state → Prop)
    (hstep : ∀ st d, P st →
      (∀ n ∈ d.refs, ∃ chk, HASH_FIND_STR st.xdr_identifiers n = some chk ∧
        chk.emitted = true) →
      P { xdr_identifiers := set_emitted st.xdr_identifiers d.name, header := st.header ++ [d] })
    (st : emit_state) (u : Bool) (s : xdr_struct)
    (st1 : emit_state) (u1 : Bool) (h : emit_struct_step st u s = some (st1, u1))
    (hinv : P st) : P st1 := by
  rcases emit_struct_step_cases st u s st1 u1 h with ⟨e, _⟩ | ⟨chk, hf, _, hr, e, _⟩
  · rw [e]; exact hinv
  · rw [e]
    exact hstep st (.struct_body s) hinv (struct_step_refs st s chk hf hr)

theorem emit_union_step_pres (P : emit_state → Prop)
    (hstep : ∀ st d, P st →
      (∀ n ∈ d.refs, ∃ chk, HASH_FIND_STR st.xdr_identifiers n = some chk ∧
        chk.emitted = true) →
      P { xdr_identifiers := set_emitted st.xdr_identifiers d.name, header := st.header ++ [d] })
    (st : emit_state) (u : Bool) (un : xdr_union)
    (st1 : emit_state) (u1 : Bool) (h : emit_union_step st u un = some (st1, u1))
    (hinv : P st) : P st1 := by
  rcases emit_union_step_cases st u un st1 u1 h with ⟨e, _⟩ | ⟨chk, _, _, hr, e, _⟩
  · rw [e]; exact hinv
  · rw [e]
    exact hstep st (.union_body un) hinv (union_step_refs st un hr)

theorem emit_structs_pres (P : emit_state → Prop)
    (hstep : ∀ st d, P st →
      (∀ n ∈ d.refs, ∃ chk, HASH_FIND_STR st.xdr_identifiers n = some chk ∧
        chk.emitted = true) →
      P { xdr_identifiers := set_emitted st.xdr_identifiers d.name, header := st.header ++ [d] })
    (ss : List xdr_struct) (st : emit_state) (u : Bool)
    (st1 : emit_state) (u1 : Bool) (h : emit_structs ss st u = some (st1, u1))
    (hinv : P st) : P st1 := by
  induction ss generalizing st u with
  | nil =>
      simp only [emit_structs, Option.some.injEq, Prod.mk.injEq] at h
      rw [← h.1]; exact hinv
  | cons s rest ih =>
      unfold emit_structs at h
      cases hs : emit_struct_step st u s with
      | none => rw [hs] at h; cases h
      | some r =>
          obtain ⟨st2, u2⟩ := r
          simp only [hs] at h
          exact ih st2 u2 h (emit_struct_step_pres P hstep st u s st2 u2 hs hinv)

theorem emit_unions_pres (P : emit_state → Prop)
    (hstep : ∀ st d, P st →
      (∀ n ∈ d.refs, ∃ chk, HASH_FIND_STR st.xdr_identifiers n = some chk ∧
        chk.emitted = true) →
      P { xdr_identifiers := set_emitted st.xdr_identifiers d.name, header := st.header ++ [d] })
    (us : List xdr_union) (st : emit_state) (u : Bool)
    (st1 : emit_state) (u1 : Bool) (h : emit_unions us st u = some (st1, u1))
    (hinv : P st) : P st1 := by
  induction us generalizing st u with
  | nil =>
      simp only [emit_unions, Option.some.injEq, Prod.mk.injEq] at h
      rw [← h.1]; exact hinv
  | cons s rest ih =>
      unfold emit_unions at h
      cases hs : emit_union_step st u s with
      | none => rw [hs] at h; cases h
      | some r =>
          obtain ⟨st2, u2⟩ := r
          simp only [hs] at h
          exact ih st2 u2 h (emit_union_step_pres P hstep st u s st2 u2 hs hinv)

theorem emit_pass_pres (P : emit_state → Prop)
    (hstep : ∀ st d, P st →
      (∀ n ∈ d.refs, ∃ chk, HASH_FIND_STR st.xdr_identifiers n = some chk ∧
        chk.emitted = true) →
      P { xdr_identifiers := set_emitted st.xdr_identifiers d.name, header := st.header ++ [d] })
    (ss : List xdr_struct) (us : List xdr_union) (st : emit_state)
    (st1 : emit_state) (u1 : Bool) (h : emit_pass ss us st = some (st1, u1))
    (hinv : P st) : P st1 := by
  unfold emit_pass at h
  cases hs : emit_structs ss st false with
  | none => rw [hs] at h; cases h
  | some r =>
      obtain ⟨st2, u2⟩ := r
      simp only [hs] at h
      exact emit_unions_pres P hstep us st2 u2 st1 u1 h
        (emit_structs_pres P hstep ss st false st2 u2 hs hinv)

theorem emit_loop_pres (P : emit_state → Prop)
    (hstep : ∀ st d, P st →
      (∀ n ∈ d.refs, ∃ chk, HASH_FIND_STR st.xdr_identifiers n = some chk ∧
        chk.emitted = true) →
      P { xdr_identifiers := set_emitted st.xdr_identifiers d.name, header := st.header ++ [d] })
    (ss : List xdr_struct) (us : List xdr_union) (fuel : Nat)
    (st st1 : emit_state) (h : emit_loop ss us fuel st = .ok st1)
    (hinv : P st) : P st1 := by
  induction fuel generalizing st with
  | zero => simp [emit_loop] at h
  | succ fuel ih =>
      unfold emit_loop at h
      cases hp : emit_pass ss us st with
      | none => rw [hp] at h; cases h
      | some r =>
          obtain ⟨st2, u2⟩ := r
          simp only [hp] at h
          have hinv2 := emit_pass_pres P hstep ss us st st2 u2 hp hinv
          cases u2 with
          | true =>
              simp only [if_true] at h
              exact ih st2 h hinv2
          | false =>
              simp only [Bool.false_eq_true, if_false, run_result.ok.injEq] at h
              rw [← h]; exact hinv2

theorem hash_find_set_emitted_kind (tbl : List xdr_identifier) (a n : String) :
    (HASH_FIND_STR (set_emitted tbl a) n).map xdr_identifier.aggregate =
      (HASH_FIND_STR tbl n).map xdr_identifier.aggregate := by
  rw [hash_find_set_emitted]
  by_cases hna : n = a
  · rw [if_pos hna, hna]
    cases HASH_FIND_STR tbl a with
    | none => rfl
    | some chk => rfl
  · rw [if_neg hna]

theorem emit_inv_init (tbl : List xdr_identifier)
    (h0 : ∀ i ∈ tbl, i.aggregate = true → i.emitted = false) :
    emit_inv { xdr_identifiers := tbl, header := [] } := by
  constructor
  · intro n chk hf hagg hem
    have := h0 chk (hash_find_mem _ _ _ hf) hagg
    rw [hem] at this; cases this
  · intro i d hi
    simp at hi

/-- C23: a body is written only when every symbol that a non-builtin member, or
case, of the aggregate names, other than the aggregate itself, is marked
emitted in the table at that moment; and when the emission loop, started with
no aggregate marked emitted and an empty header, returns, every aggregate that
a body of the header refers to, other than itself, has its body earlier in
the header. -/
theorem emission_topological_order (xdr_structs : List xdr_struct)
    (xdr_unions : List xdr_union) :
    (∀ st unemitted s st1 unemitted1,
      emit_struct_step st unemitted s = some (st1, unemitted1) →
      st1.header = st.header ++ [.struct_body s] →
      ∀ n ∈ (xdr_body.struct_body s).refs,
        ∃ chk, HASH_FIND_STR st.xdr_identifiers n = some chk ∧ chk.emitted = true) ∧
    (∀ st unemitted u st1 unemitted1,
      emit_union_step st unemitted u = some (st1, unemitted1) →
      st1.header = st.header ++ [.union_body u] →
      ∀ n ∈ (xdr_body.union_body u).refs,
        ∃ chk, HASH_FIND_STR st.xdr_identifiers n = some chk ∧ chk.emitted = true) ∧
    (∀ fuel xdr_identifiers st,
      (∀ i ∈ xdr_identifiers, i.aggregate = true → i.emitted = false) →
      emit_loop xdr_structs xdr_unions fuel
        { xdr_identifiers := xdr_identifiers, header := [] } = .ok st →
      ∀ i d, st.header[i]? = some d → ∀ n ∈ d.refs, ∀ chk,
        HASH_FIND_STR xdr_identifiers n = some chk → chk.aggregate = true →
        ∃ d1 ∈ st.header.take i, d1.name = n) := by
  refine ⟨?_, ?_, ?_⟩
  · intro st u s st1 u1 h hh
    rcases emit_struct_step_cases st u s st1 u1 h with ⟨e, _⟩ | ⟨chk, hf, _, hr, _, _⟩
    · rw [e] at hh
      have := congrArg List.length hh
      simp at this
    · exact struct_step_refs st s chk hf hr
  · intro st u un st1 u1 h hh
    rcases emit_union_step_cases st u un st1 u1 h with ⟨e, _⟩ | ⟨chk, _, _, hr, _, _⟩
    · rw [e] at hh
      have := congrArg List.length hh
      simp at this
    · exact union_step_refs st un hr
  · intro fuel tbl st h0 hrun i d hi n hn chk hf hagg
    have hinv := emit_loop_pres emit_inv emit_inv_written xdr_structs xdr_unions fuel _ st hrun
      (emit_inv_init tbl h0)
    have hkind := emit_loop_pres
      (fun s => ∀ n, (HASH_FIND_STR s.xdr_identifiers n).map xdr_identifier.aggregate =
        (HASH_FIND_STR tbl n).map xdr_identifier.aggregate)
      (fun s d hs _ n => by
        show (HASH_FIND_STR (set_emitted s.xdr_identifiers d.name) n).map _ = _
        rw [hash_find_set_emitted_kind]; exact hs n)
      xdr_structs xdr_unions fuel _ st hrun (fun _ => rfl)
    have hk := hkind n
    rw [hf] at hk
    cases hf1 : HASH_FIND_STR st.xdr_identifiers n with
    | none => rw [hf1] at hk; cases hk
    | some chk1 =>
        rw [hf1] at hk
        simp only [Option.map_some', Option.some.injEq] at hk
        exact hinv.2 i d hi n hn chk1 hf1 (hk.trans hagg)

/-- C23, instance: for `struct C { L l; }; struct L { L *next; };` the loop ends
after two passes with the body of `L` before the body of `C`. -/
theorem emission_topological_order_witness :
    emit_loop [list_holder, list_node] [] 2
        { xdr_identifiers := [struct_identifier list_holder, struct_identifier list_node],
          header := [] }
      = .ok
        { xdr_identifiers :=
            [{ struct_identifier list_holder with emitted := true },
             { struct_identifier list_node with emitted := true }],
          header := [.struct_body list_node, .struct_body list_holder] } ∧
    ∃ d1 ∈ [xdr_body.struct_body list_node], d1.name = "L" :=
  ⟨by decide,
   (emission_topological_order [list_holder, list_node] []).2.2 2
      [struct_identifier list_holder, struct_identifier list_node]
      { xdr_identifiers :=
          [{ struct_identifier list_holder with emitted := true },
           { struct_identifier list_node with emitted := true }],
        header := [.struct_body list_node, .struct_body list_holder] }
      (by decide) (by decide) 1 (.struct_body list_holder) rfl
      "L" (by decide) (struct_identifier list_node) (by decide) (by decide)⟩

theorem emit_loop_stuck (ss : List xdr_struct) (us : List xdr_union) (st : emit_state)
    (h : emit_pass ss us st = some (st, true)) (fuel : Nat) :
    emit_loop ss us fuel st = .unfinished := by
  induction fuel with
  | zero => rfl
  | succ fuel ih =>
      unfold emit_loop
      simp only [h, if_true]
      exact ih

theorem emit_pass_no_progress (ss : List xdr_struct) (us : List xdr_union)
    (st st1 : emit_state) (u : Bool) (h : emit_pass ss us st = some (st1, u))
    (hh : st1.header = st.header) : st1 = st := by
  have := emit_pass_pres (fun s => s = st ∨ st.header.length < s.header.length)
    (fun s d hs _ => by
      right
      show st.header.length < (s.header ++ [d]).length
      rw [List.length_append, List.length_singleton]
      rcases hs with e | hlt
      · rw [e]; exact Nat.lt_succ_self _
      · exact Nat.lt_succ_of_lt hlt)
    ss us st st1 u h (Or.inl rfl)
  rcases this with e | hlt
  · exact e
  · rw [hh] at hlt; exact absurd hlt (Nat.lt_irrefl _)

theorem struct_ready_blocked (tbl : List xdr_identifier) (chk : xdr_identifier) (b : String)
    (ib : xdr_identifier) (hf : HASH_FIND_STR tbl b = some ib) (hne : chk.name ≠ ib.name)
    (he : ib.emitted = false) (ms : List xdr_struct_member)
    (hall : ∀ m ∈ ms, m.type.builtin = false → m.type.name = b)
    (hex : ∃ m ∈ ms, m.type.builtin = false) :
    struct_ready tbl chk ms = some false := by
  induction ms with
  | nil => obtain ⟨m, hm, _⟩ := hex; cases hm
  | cons m0 ms ih =>
      unfold struct_ready
      by_cases hb0 : m0.type.builtin = true
      · rw [if_pos hb0]
        apply ih (fun m hm => hall m (List.mem_cons_of_mem _ hm))
        obtain ⟨m, hm, hb⟩ := hex
        rcases List.mem_cons.1 hm with rfl | hm1
        · rw [hb0] at hb; cases hb
        · exact ⟨m, hm1, hb⟩
      · rw [if_neg hb0]
        have hb0f : m0.type.builtin = false := by
          cases h : m0.type.builtin with
          | true => exact absurd h hb0
          | false => rfl
        rw [hall m0 (List.mem_cons_self _ _) hb0f, hf]
        simp only [ne_eq, hne, not_false_eq_true, he, and_self, if_true]

theorem emit_struct_step_blocked (st : emit_state) (u : Bool) (s : xdr_struct)
    (chk : xdr_identifier) (hf : HASH_FIND_STR st.xdr_identifiers s.name = some chk)
    (he : chk.emitted = false)
    (hr : struct_ready st.xdr_identifiers chk s.members = some false) :
    emit_struct_step st u s = some (st, true) := by
  unfold emit_struct_step
  simp only [hf, he, Bool.false_eq_true, if_false, hr]

/-- C24, on the input `union U switch (uint32_t tag) { case 1: U *next; default: void; };`:
the readiness test of a union has no exemption for the union itself, so a
union with a case of its own type is never judged ready: each pass leaves the
state unchanged and asks for another pass.  The readiness test of a struct has
the exemption: `struct L { L *next; };` is emitted in the first pass. -/
theorem union_self_reference_blocks :
    emit_pass [] [list_union] { xdr_identifiers := [union_identifier list_union], header := [] }
      = some ({ xdr_identifiers := [union_identifier list_union], header := [] }, true) ∧
    (∀ fuel, emit_loop [] [list_union] fuel
        { xdr_identifiers := [union_identifier list_union], header := [] } = .unfinished) ∧
    emit_loop [list_node] [] 1
        { xdr_identifiers := [struct_identifier list_node], header := [] }
      = .ok { xdr_identifiers := [{ struct_identifier list_node with emitted := true }],
              header := [.struct_body list_node] } :=
  ⟨by decide, emit_loop_stuck _ _ _ (by decide), by decide⟩

/-- C25, as stated, fails for `struct A { uint32_t x; B *b; }; struct B { A *a; };`:
the emission loop returns for no number of passes. -/
theorem mutual_optional_structs_no_return :
    ¬ ∃ fuel st, emit_loop [optional_A, optional_B] [] fuel
        { xdr_identifiers := [struct_identifier optional_A, struct_identifier optional_B],
          header := [] } = .ok st := by
  rintro ⟨fuel, st, h⟩
  rw [emit_loop_stuck _ _ _ (by decide) fuel] at h
  cases h

/-- C25, amended: for two structs `A` and `B`, neither marked emitted, where every
non-builtin member of `A` is of type `B`, every non-builtin member of `B` is of
type `A`, and each has such a member that is optional, the readiness test,
which has no exemption for optional members, judges neither ready: a pass
leaves the state unchanged and asks for another pass, so the loop does not
terminate and writes neither body. -/
theorem mutual_optional_structs_never_ready (A B : xdr_struct) (st : emit_state)
    (ia ib : xdr_identifier)
    (hfa : HASH_FIND_STR st.xdr_identifiers A.name = some ia)
    (hfb : HASH_FIND_STR st.xdr_identifiers B.name = some ib)
    (hea : ia.emitted = false) (heb : ib.emitted = false) (hne : A.name ≠ B.name)
    (hA : ∀ m ∈ A.members, m.type.builtin = false → m.type.name = B.name)
    (hB : ∀ m ∈ B.members, m.type.builtin = false → m.type.name = A.name)
    (hAo : ∃ m ∈ A.members, m.type.builtin = false ∧ m.type.optional = true)
    (hBo : ∃ m ∈ B.members, m.type.builtin = false ∧ m.type.optional = true) :
    emit_pass [A, B] [] st = some (st, true) ∧
    ∀ fuel, emit_loop [A, B] [] fuel st = .unfinished := by
  have hna := hash_find_name _ _ _ hfa
  have hnb := hash_find_name _ _ _ hfb
  have hra : struct_ready st.xdr_identifiers ia A.members = some false := by
    apply struct_ready_blocked _ _ B.name ib hfb (by rw [hna, hnb]; exact hne) heb _ hA
    obtain ⟨m, hm, hb, _⟩ := hAo
    exact ⟨m, hm, hb⟩
  have hrb : struct_ready st.xdr_identifiers ib B.members = some false := by
    apply struct_ready_blocked _ _ A.name ia hfa (by rw [hna, hnb]; exact fun h => hne h.symm)
      hea _ hB
    obtain ⟨m, hm, hb, _⟩ := hBo
    exact ⟨m, hm, hb⟩
  have hp : emit_pass [A, B] [] st = some (st, true) := by
    unfold emit_pass
    simp only [emit_structs, emit_struct_step_blocked st _ A ia hfa hea hra,
      emit_struct_step_blocked st _ B ib hfb heb hrb, emit_unions]
  exact ⟨hp, emit_loop_stuck _ _ _ hp⟩

/-- C25, amended, instance: `struct A { uint32_t x; B *b; }; struct B { A *a; };`. -/
theorem mutual_optional_structs_never_ready_witness :
    emit_pass [optional_A, optional_B] []
        { xdr_identifiers := [struct_identifier optional_A, struct_identifier optional_B],
          header := [] }
      = some ({ xdr_identifiers := [struct_identifier optional_A, struct_identifier optional_B],
                header := [] }, true) ∧
    ∀ fuel, emit_loop [optional_A, optional_B] [] fuel
        { xdr_identifiers := [struct_identifier optional_A, struct_identifier optional_B],
          header := [] } = .unfinished :=
  mutual_optional_structs_never_ready optional_A optional_B
    { xdr_identifiers := [struct_identifier optional_A, struct_identifier optional_B],
      header := [] }
    (struct_identifier optional_A) (struct_identifier optional_B)
    (by decide) (by decide) (by decide) (by decide) (by decide) (by decide) (by decide)
    (by decide) (by decide)

/-- C26, as stated, fails for `struct P { Q q; }; struct Q { P p; };`: the first
pass writes no body and leaves an aggregate not emitted, and the loop ends by
`exit` for no number of passes. -/
theorem cyclic_definition_never_reported :
    emit_pass [value_P, value_Q] []
        { xdr_identifiers := [struct_identifier value_P, struct_identifier value_Q],
          header := [] }
      = some ({ xdr_identifiers := [struct_identifier value_P, struct_identifier value_Q],
                header := [] }, true) ∧
    ¬ ∃ fuel e, emit_loop [value_P, value_Q] [] fuel
        { xdr_identifiers := [struct_identifier value_P, struct_identifier value_Q],
          header := [] } = .exited e := by
  refine ⟨by decide, ?_⟩
  rintro ⟨fuel, e, h⟩
  rw [emit_loop_stuck _ _ _ (by decide) fuel] at h
  cases h

/-- C26, amended: when a full pass of the emission loop writes no body and leaves
`unemitted` set, the state after the pass is the state before it and the loop
starts another pass from it: the loop has no test for a pass without progress
and no failure exit, so it returns for no number of passes. -/
theorem no_progress_pass_repeats (xdr_structs : List xdr_struct) (xdr_unions : List xdr_union)
    (st st1 : emit_state)
    (hpass : emit_pass xdr_structs xdr_unions st = some (st1, true))
    (hnone : st1.header = st.header) :
    st1 = st ∧
    (∀ fuel, emit_loop xdr_structs xdr_unions (fuel + 1) st =
      emit_loop xdr_structs xdr_unions fuel st) ∧
    ∀ fuel, emit_loop xdr_structs xdr_unions fuel st = .unfinished := by
  have e := emit_pass_no_progress _ _ _ _ _ hpass hnone
  subst e
  refine ⟨rfl, fun fuel => ?_, emit_loop_stuck _ _ _ hpass⟩
  rw [emit_loop_stuck _ _ _ hpass, emit_loop_stuck _ _ _ hpass]

/-- C26, amended, instance: `struct P { Q q; }; struct Q { P p; };`. -/
theorem no_progress_pass_repeats_witness :
    ({ xdr_identifiers := [struct_identifier value_P, struct_identifier value_Q],
       header := [] } : emit_state)
      = { xdr_identifiers := [struct_identifier value_P, struct_identifier value_Q],
          header := [] } ∧
    (∀ fuel, emit_loop [value_P, value_Q] [] (fuel + 1)
        { xdr_identifiers := [struct_identifier value_P, struct_identifier value_Q],
          header := [] } =
      emit_loop [value_P, value_Q] [] fuel
        { xdr_identifiers := [struct_identifier value_P, struct_identifier value_Q],
          header := [] }) ∧
    ∀ fuel, emit_loop [value_P, value_Q] [] fuel
        { xdr_identifiers := [struct_identifier value_P, struct_identifier value_Q],
          header := [] } = .unfinished :=
  no_progress_pass_repeats [value_P, value_Q] []
    { xdr_identifiers := [struct_identifier value_P, struct_identifier value_Q], header := [] }
    { xdr_identifiers := [struct_identifier value_P, struct_identifier value_Q], header := [] }
    (by decide) rfl

/-! ## The emitted RPC dispatcher -/

theorem rpc_labels_case (f : xdr_function) (rest : List rpc_line) :
    rpc_labels (emit_dispatch_case f ++ rest) = f.id :: rpc_labels rest := by
  by_cases h : f.call_type.name = "void" <;> simp [emit_dispatch_case, h, rpc_labels]

theorem rpc_labels_cases (fs : List xdr_function) (rest : List rpc_line) :
    rpc_labels (emit_dispatch_cases fs ++ rest) = fs.map (fun f => f.id) ++ rpc_labels rest := by
  induction fs with
  | nil => rfl
  | cons f fs ih =>
      rw [emit_dispatch_cases, List.append_assoc, rpc_labels_case, ih]
      rfl

theorem rpc_has_default_case (f : xdr_function) (rest : List rpc_line) :
    rpc_has_default (emit_dispatch_case f ++ rest) = rpc_has_default rest := by
  by_cases h : f.call_type.name = "void" <;> simp [emit_dispatch_case, h, rpc_has_default]

theorem rpc_has_default_cases (fs : List xdr_function) (rest : List rpc_line) :
    rpc_has_default (emit_dispatch_cases fs ++ rest) = rpc_has_default rest := by
  induction fs with
  | nil => rfl
  | cons f fs ih => rw [emit_dispatch_cases, List.append_assoc, rpc_has_default_case, ih]

theorem rpc_exec_seek_default_case (env : rpc_env) (f : xdr_function) (rest : List rpc_line)
    (s : rpc_state) :
    rpc_exec env (emit_dispatch_case f ++ rest) .seek_default s =
      rpc_exec env rest .seek_default s := by
  by_cases h : f.call_type.name = "void" <;> simp [emit_dispatch_case, h, rpc_exec]

theorem rpc_exec_seek_default_cases (env : rpc_env) (fs : List xdr_function)
    (rest : List rpc_line) (s : rpc_state) :
    rpc_exec env (emit_dispatch_cases fs ++ rest) .seek_default s =
      rpc_exec env rest .seek_default s := by
  induction fs with
  | nil => rfl
  | cons f fs ih => rw [emit_dispatch_cases, List.append_assoc, rpc_exec_seek_default_case, ih]

theorem rpc_exec_skip_switch_case (env : rpc_env) (f : xdr_function) (rest : List rpc_line)
    (s : rpc_state) :
    rpc_exec env (emit_dispatch_case f ++ rest) .skip_switch s =
      rpc_exec env rest .skip_switch s := by
  by_cases h : f.call_type.name = "void" <;> simp [emit_dispatch_case, h, rpc_exec]

theorem rpc_exec_skip_switch_cases (env : rpc_env) (fs : List xdr_function)
    (rest : List rpc_line) (s : rpc_state) :
    rpc_exec env (emit_dispatch_cases fs ++ rest) .skip_switch s =
      rpc_exec env rest .skip_switch s := by
  induction fs with
  | nil => rfl
  | cons f fs ih => rw [emit_dispatch_cases, List.append_assoc, rpc_exec_skip_switch_case, ih]

theorem rpc_exec_seek_case_miss (env : rpc_env) (f : xdr_function) (rest : List rpc_line)
    (s : rpc_state) (hm : ¬ env.const_val f.id = some env.proc) :
    rpc_exec env (emit_dispatch_case f ++ rest) .seek s = rpc_exec env rest .seek s := by
  by_cases h : f.call_type.name = "void" <;> simp [emit_dispatch_case, h, rpc_exec, hm]

theorem rpc_exec_seek_case_hit (env : rpc_env) (f : xdr_function) (fs : List xdr_function)
    (hm : env.const_val f.id = some env.proc) :
    rpc_exec env
        (emit_dispatch_case f ++
          (emit_dispatch_cases fs ++ [.default_, .return_default, .end_switch, .return_zero]))
        .seek { error := none, events := [] } =
      some (if env.recv_call f.name = false then (1, [])
        else if f.call_type.name ≠ "void" then
          if env.unmarshall f.call_type.name < 0 then (2, [.unmarshalled f.call_type.name])
          else (0, [.unmarshalled f.call_type.name, .called f.name true])
        else (0, [.called f.name false])) := by
  have hskip : ∀ s, rpc_exec env
      (emit_dispatch_cases fs ++ [.default_, .return_default, .end_switch, .return_zero])
      .skip_switch s = some (0, s.events) := by
    intro s
    rw [rpc_exec_skip_switch_cases]
    simp [rpc_exec]
  cases hr : env.recv_call f.name with
  | false =>
      by_cases h : f.call_type.name = "void" <;> simp [emit_dispatch_case, h, rpc_exec, hm, hr]
  | true =>
      by_cases h : f.call_type.name = "void"
      · simp [emit_dispatch_case, h, rpc_exec, hm, hr, hskip]
      · by_cases he : env.unmarshall f.call_type.name < 0
        · simp [emit_dispatch_case, h, rpc_exec, hm, hr, he]
        · simp [emit_dispatch_case, h, rpc_exec, hm, hr, he, hskip]

theorem rpc_exec_seek_cases (env : rpc_env) (fs : List xdr_function) (f : xdr_function)
    (hf : fs.find? (fun f => env.const_val f.id == some env.proc) = some f) :
    rpc_exec env
        (emit_dispatch_cases fs ++ [.default_, .return_default, .end_switch, .return_zero])
        .seek { error := none, events := [] } =
      some (if env.recv_call f.name = false then (1, [])
        else if f.call_type.name ≠ "void" then
          if env.unmarshall f.call_type.name < 0 then (2, [.unmarshalled f.call_type.name])
          else (0, [.unmarshalled f.call_type.name, .called f.name true])
        else (0, [.called f.name false])) := by
  induction fs with
  | nil => cases hf
  | cons f0 fs ih =>
      rw [emit_dispatch_cases, List.append_assoc]
      by_cases hm : env.const_val f0.id = some env.proc
      · have : f0 = f := by
          simpa [List.find?_cons, hm] using hf
        subst this
        exact rpc_exec_seek_case_hit env f0 fs hm
      · rw [rpc_exec_seek_case_miss env f0 _ _ hm]
        apply ih
        simpa [List.find?_cons, hm] using hf

theorem rpc_switch_ok_cases (env : rpc_env) (fs : List xdr_function)
    (hval : ∀ f ∈ fs, (env.const_val f.id).isSome = true)
    (hnodup : (fs.map (fun f => env.const_val f.id)).Nodup) :
    rpc_switch_ok env
      (emit_dispatch_cases fs ++ [.default_, .return_default, .end_switch, .return_zero])
      = true := by
  unfold rpc_switch_ok
  rw [rpc_labels_cases]
  simp only [rpc_labels, List.append_nil, List.map_map, Bool.and_eq_true,
    List.all_eq_true, decide_eq_true_eq]
  refine ⟨?_, hnodup⟩
  intro x hx
  obtain ⟨f, hf, rfl⟩ := List.mem_map.1 hx
  exact hval f hf

theorem rpc_any_cases (env : rpc_env) (fs : List xdr_function) :
    (rpc_labels
        (emit_dispatch_cases fs ++ [.default_, .return_default, .end_switch, .return_zero])).any
      (fun id => env.const_val id == some env.proc) =
    (fs.find? (fun f => env.const_val f.id == some env.proc)).isSome := by
  rw [rpc_labels_cases]
  simp only [rpc_labels, List.append_nil]
  induction fs with
  | nil => rfl
  | cons f fs ih =>
      by_cases hm : env.const_val f.id = some env.proc
      · simp [List.find?_cons, hm]
      · have : (env.const_val f.id == some env.proc) = false := by
          rw [beq_eq_false_iff_ne]; exact hm
        simp only [List.map_cons, List.any_cons, List.find?_cons, this, Bool.false_or]
        exact ih

/-- C29: for every RPC version whose procedure ids have values, no two the same, the
emitted `call_dispatch_VERSION` returns, and does what the specification says:
it returns 1 when `msg->proc` equals no procedure id or the callback of the
matching procedure is unset, returns 2 after unmarshalling a call argument
that is not void has failed, and otherwise calls the callback of the matching
procedure and returns 0, unmarshalling the argument only when the call type is
not void. -/
theorem call_dispatch_refines_spec (env : rpc_env) (version : xdr_version)
    (hval : ∀ f ∈ version.functions, (env.const_val f.id).isSome = true)
    (hnodup : (version.functions.map (fun f => env.const_val f.id)).Nodup) :
    call_dispatch env version = some (call_dispatch_spec env version.functions) := by
  have hb : (emit_call_dispatch version).body =
      .prog_decl version.name :: .error_decl :: .switch_proc ::
        (emit_dispatch_cases version.functions ++
          [.default_, .return_default, .end_switch, .return_zero]) := by
    simp [emit_call_dispatch]
  unfold call_dispatch call_dispatch_spec
  rw [hb]
  simp only [rpc_exec]
  rw [if_pos (rpc_switch_ok_cases env version.functions hval hnodup), rpc_any_cases,
    rpc_has_default_cases]
  cases hf : version.functions.find? (fun f => env.const_val f.id == some env.proc) with
  | none =>
      simp only [Option.isSome_none, Bool.false_eq_true, if_false, rpc_has_default, if_true]
      rw [rpc_exec_seek_default_cases]
      simp [rpc_exec]
  | some f =>
      simp only [Option.isSome_some, if_true]
      exact rpc_exec_seek_cases env version.functions f hf

/-- C29, instance: a version with the procedures `NULLPROC` (id 0, no argument) and
`READ` (id 6, an argument), called with `msg->proc` 6, every callback set and
an argument that unmarshalls. -/
theorem call_dispatch_refines_spec_witness :
    call_dispatch (example_env 6 "" false) example_version =
      some (0, [.unmarshalled "args", .called "READ" true]) :=
  call_dispatch_refines_spec (example_env 6 "" false) example_version
    (by decide) (by decide)

/-! ## The three cursor functions side by side -/

theorem cursor_chunk_le (iov : xdr_iovec) (offset bytes done : Nat) :
    cursor_chunk iov offset bytes done ≤ bytes - done := by
  unfold cursor_chunk
  simp only
  split
  · exact Nat.le_refl _
  · rename_i h
    exact Nat.le_of_not_lt h

theorem append_of_extract_loop (last : Int) (src : List Byte) (bytes : Nat)
    (hsrc : bytes ≤ src.length) :
    ∀ (rest : List xdr_iovec) (cur offset done : Nat) (out : List Byte) (rc : Int)
      (o : List Byte) (c1 : xdr_cursor),
      xdr_cursor_extract_loop last bytes rest cur offset done out = some (rc, o, c1) →
      ∃ rest1, xdr_cursor_append_loop last src bytes rest cur offset done =
        some (rc, rest1, c1) := by
  intro rest
  induction rest with
  | nil =>
      intro cur offset done out rc o c1 h
      simp only [xdr_cursor_extract_loop] at h
      simp only [xdr_cursor_append_loop]
      split at h
      · exact absurd h (by simp)
      · rename_i hd
        simp only [Option.some.injEq, Prod.mk.injEq] at h
        exact ⟨[], by simp only [hd, if_false, h.1, h.2.2]⟩
  | cons iov rest ih =>
      intro cur offset done out rc o c1 h
      simp only [xdr_cursor_extract_loop] at h
      simp only [xdr_cursor_append_loop]
      split at h
      · rename_i hd
        simp only [hd, if_true]
        split at h
        · exact absurd h (by simp)
        · rename_i hmem
          have hle := cursor_chunk_le iov offset bytes done
          have hnot : ¬ (cursor_chunk iov offset bytes done ≠ 0 ∧
              (xdr_iovec_len iov < offset + cursor_chunk iov offset bytes done ∨
                src.length < done + cursor_chunk iov offset bytes done)) := by
            rintro ⟨h0, h1 | h2⟩
            · exact hmem ⟨h0, h1⟩
            · omega
          rw [if_neg hnot]
          split at h
          · rename_i hc
            simp only [Option.some.injEq, Prod.mk.injEq] at h
            exact ⟨_, by simp only [hc, and_self, if_true, h.1, h.2.2]; rfl⟩
          · rename_i hc
            simp only [hc, if_false]
            obtain ⟨rest1, hr⟩ := ih _ _ _ _ _ _ _ h
            exact ⟨_, by rw [hr]⟩
      · rename_i hd
        simp only [Option.some.injEq, Prod.mk.injEq] at h
        exact ⟨_, by simp only [hd, if_false, h.1, h.2.2]; rfl⟩

theorem extract_of_append_loop (last : Int) (src : List Byte) (bytes : Nat) :
    ∀ (rest : List xdr_iovec) (cur offset done : Nat) (out : List Byte) (rc : Int)
      (rest1 : List xdr_iovec) (c1 : xdr_cursor),
      xdr_cursor_append_loop last src bytes rest cur offset done = some (rc, rest1, c1) →
      ∃ o, xdr_cursor_extract_loop last bytes rest cur offset done out = some (rc, o, c1) := by
  intro rest
  induction rest with
  | nil =>
      intro cur offset done out rc rest1 c1 h
      simp only [xdr_cursor_append_loop] at h
      simp only [xdr_cursor_extract_loop]
      split at h
      · exact absurd h (by simp)
      · rename_i hd
        simp only [Option.some.injEq, Prod.mk.injEq] at h
        exact ⟨out, by simp only [hd, if_false, h.1, h.2.2]⟩
  | cons iov rest ih =>
      intro cur offset done out rc rest1 c1 h
      simp only [xdr_cursor_append_loop] at h
      simp only [xdr_cursor_extract_loop]
      split at h
      · rename_i hd
        simp only [hd, if_true]
        split at h
        · exact absurd h (by simp)
        · rename_i hmem
          have hnot : ¬ (cursor_chunk iov offset bytes done ≠ 0 ∧
              xdr_iovec_len iov < offset + cursor_chunk iov offset bytes done) := by
            rintro ⟨h0, h1⟩
            exact hmem ⟨h0, Or.inl h1⟩
          rw [if_neg hnot]
          split at h
          · rename_i hc
            simp only [Option.some.injEq, Prod.mk.injEq] at h
            exact ⟨_, by simp only [hc, and_self, if_true, h.1, h.2.2]; rfl⟩
          · rename_i hc
            simp only [hc, if_false]
            cases hr : xdr_cursor_append_loop last src bytes rest (cur + 1) 0
                (done + cursor_chunk iov offset bytes done) with
            | none => rw [hr] at h; cases h
            | some r =>
                obtain ⟨rc2, rest2, c2⟩ := r
                rw [hr] at h
                simp only [Option.some.injEq, Prod.mk.injEq] at h
                obtain ⟨o, ho⟩ := ih _ _ _ _ _ _ _ hr
                exact ⟨o, by rw [ho, h.1, h.2.2]⟩
      · rename_i hd
        simp only [Option.some.injEq, Prod.mk.injEq] at h
        exact ⟨out, by simp only [hd, if_false, h.1, h.2.2]⟩

theorem append_of_extract (iovs : List xdr_iovec) (c : xdr_cursor) (src : List Byte)
    (bytes : Nat) (hsrc : bytes ≤ src.length) (rc : Int) (o : List Byte) (c1 : xdr_cursor)
    (h : xdr_cursor_extract iovs c bytes = some (rc, o, c1)) :
    ∃ iovs1, xdr_cursor_append iovs c src bytes = some (rc, iovs1, c1) := by
  unfold xdr_cursor_extract at h
  unfold xdr_cursor_append
  cases hcur : iovs[c.cur]? with
  | none => simp [hcur] at h
  | some iov =>
      simp only [hcur] at h ⊢
      split at h
      · rename_i hf
        simp only [hf, if_true]
        split at h
        · exact absurd h (by simp)
        · rename_i hmem
          have hnot : ¬ (bytes ≠ 0 ∧
              (xdr_iovec_len iov < c.offset + bytes ∨ src.length < bytes)) := by
            rintro ⟨h0, h1 | h2⟩
            · exact hmem ⟨h0, h1⟩
            · omega
          rw [if_neg hnot]
          simp only [Option.some.injEq, Prod.mk.injEq] at h
          exact ⟨_, by rw [h.1, h.2.2]⟩
      · rename_i hf
        simp only [hf, if_false]
        obtain ⟨rest1, hr⟩ := append_of_extract_loop c.last src bytes hsrc _ _ _ _ _ _ _ _ h
        exact ⟨_, by rw [hr]⟩

theorem extract_of_append (iovs : List xdr_iovec) (c : xdr_cursor) (src : List Byte)
    (bytes : Nat) (rc : Int) (iovs1 : List xdr_iovec) (c1 : xdr_cursor)
    (h : xdr_cursor_append iovs c src bytes = some (rc, iovs1, c1)) :
    ∃ o, xdr_cursor_extract iovs c bytes = some (rc, o, c1) := by
  unfold xdr_cursor_append at h
  unfold xdr_cursor_extract
  cases hcur : iovs[c.cur]? with
  | none => simp [hcur] at h
  | some iov =>
      simp only [hcur] at h ⊢
      split at h
      · rename_i hf
        simp only [hf, if_true]
        split at h
        · exact absurd h (by simp)
        · rename_i hmem
          have hnot : ¬ (bytes ≠ 0 ∧ xdr_iovec_len iov < c.offset + bytes) := by
            rintro ⟨h0, h1⟩
            exact hmem ⟨h0, Or.inl h1⟩
          rw [if_neg hnot]
          simp only [Option.some.injEq, Prod.mk.injEq] at h
          exact ⟨_, by rw [h.1, h.2.2]⟩
      · rename_i hf
        simp only [hf, if_false]
        cases hr : xdr_cursor_append_loop c.last src bytes (iovs.drop c.cur) c.cur c.offset 0 with
        | none => rw [hr] at h; cases h
        | some r =>
            obtain ⟨rc2, rest2, c2⟩ := r
            rw [hr] at h
            simp only [Option.some.injEq, Prod.mk.injEq] at h
            obtain ⟨o, ho⟩ := extract_of_append_loop c.last src bytes _ _ _ _ [] _ _ _ hr
            exact ⟨o, by rw [ho, h.1, h.2.2]⟩

/-- C31: for every cursor state and every byte count `N`, with `N` bytes at `in`:
whenever `xdr_cursor_extract` has a result (its copies stay inside the
iovecs), `xdr_cursor_skip` and `xdr_cursor_append` return the same value and
leave the same cursor, and likewise from `xdr_cursor_append`, be the value `N`
or `-1`; and at every valid position with `offset + N < 2 ^ 32` the three have
a result, the same value and the same cursor. -/
theorem cursor_functions_agree (iovs : List xdr_iovec) (c : xdr_cursor) (src : List Byte)
    (bytes : Nat) (hsrc : bytes ≤ src.length) :
    (∀ rc out c1, xdr_cursor_extract iovs c bytes = some (rc, out, c1) →
      xdr_cursor_skip iovs c bytes = some (rc, c1) ∧
      ∃ iovs1, xdr_cursor_append iovs c src bytes = some (rc, iovs1, c1)) ∧
    (∀ rc iovs1 c1, xdr_cursor_append iovs c src bytes = some (rc, iovs1, c1) →
      xdr_cursor_skip iovs c bytes = some (rc, c1) ∧
      ∃ out, xdr_cursor_extract iovs c bytes = some (rc, out, c1)) ∧
    (∀ iov, iovs[c.cur]? = some iov → c.last = (iovs.length : Int) - 1 →
      c.offset ≤ xdr_iovec_len iov → (∀ i ∈ iovs, xdr_iovec_len i < U32) →
      c.offset + bytes < U32 →
      ∃ rc out iovs1 c1,
        xdr_cursor_extract iovs c bytes = some (rc, out, c1) ∧
        xdr_cursor_append iovs c src bytes = some (rc, iovs1, c1) ∧
        xdr_cursor_skip iovs c bytes = some (rc, c1) ∧
        (rc = -1 ∨ rc = int_of_uint bytes)) := by
  refine ⟨?_, ?_, ?_⟩
  · intro rc out c1 h
    exact ⟨skip_of_extract _ _ _ _ _ _ h, append_of_extract _ _ src _ hsrc _ _ _ h⟩
  · intro rc iovs1 c1 h
    obtain ⟨o, ho⟩ := extract_of_append _ _ _ _ _ _ _ h
    exact ⟨skip_of_extract _ _ _ _ _ _ ho, o, ho⟩
  · intro iov hcur hlast hoff hwf hover
    have hs := extract_spec iovs c bytes iov hcur hlast hoff hwf hover
    by_cases hlt : (stream_from iovs c).length < bytes
    · obtain ⟨o, c1, h⟩ := hs.2 hlt
      obtain ⟨iovs1, ha⟩ := append_of_extract _ _ src _ hsrc _ _ _ h
      exact ⟨-1, o, iovs1, c1, h, ha, skip_of_extract _ _ _ _ _ _ h, Or.inl rfl⟩
    · obtain ⟨c1, h⟩ := hs.1 (Nat.le_of_not_lt hlt)
      obtain ⟨iovs1, ha⟩ := append_of_extract _ _ src _ hsrc _ _ _ h
      exact ⟨_, _, iovs1, c1, h, ha, skip_of_extract _ _ _ _ _ _ h, Or.inr rfl⟩

/-- C31, instance: seven bytes are ahead of the cursor; with three bytes asked for
the three functions return 3 and with eight bytes asked for they return -1,
each time leaving the same cursor. -/
theorem cursor_functions_agree_witness :
    (xdr_cursor_extract [[1, 2], [], [3, 4, 5, 6], [7]] ⟨0, 3, 0⟩ 3
        = some (3, [1, 2, 3], ⟨3, 3, 0⟩) ∧
      xdr_cursor_skip [[1, 2], [], [3, 4, 5, 6], [7]] ⟨0, 3, 0⟩ 3 = some (3, ⟨3, 3, 0⟩) ∧
      ∃ iovs1, xdr_cursor_append [[1, 2], [], [3, 4, 5, 6], [7]] ⟨0, 3, 0⟩
        [9, 9, 9, 9, 9, 9, 9, 9] 3 = some (3, iovs1, ⟨3, 3, 0⟩)) ∧
    (xdr_cursor_extract [[1, 2], [], [3, 4, 5, 6], [7]] ⟨0, 3, 0⟩ 8
        = some (-1, [1, 2, 3, 4, 5, 6, 7], ⟨3, 3, 0⟩) ∧
      xdr_cursor_skip [[1, 2], [], [3, 4, 5, 6], [7]] ⟨0, 3, 0⟩ 8 = some (-1, ⟨3, 3, 0⟩) ∧
      ∃ iovs1, xdr_cursor_append [[1, 2], [], [3, 4, 5, 6], [7]] ⟨0, 3, 0⟩
        [9, 9, 9, 9, 9, 9, 9, 9] 8 = some (-1, iovs1, ⟨3, 3, 0⟩)) :=
  ⟨⟨by decide,
    (cursor_functions_agree [[1, 2], [], [3, 4, 5, 6], [7]] ⟨0, 3, 0⟩
      [9, 9, 9, 9, 9, 9, 9, 9] 3 (by decide)).1 3 [1, 2, 3] ⟨3, 3, 0⟩ (by decide)⟩,
   ⟨by decide,
    (cursor_functions_agree [[1, 2], [], [3, 4, 5, 6], [7]] ⟨0, 3, 0⟩
      [9, 9, 9, 9, 9, 9, 9, 9] 8 (by decide)).1 (-1) [1, 2, 3, 4, 5, 6, 7] ⟨3, 3, 0⟩
      (by decide)⟩⟩

/-! ## Termination of the declaration emission loop -/

theorem emitted_in_set_emitted (tbl : List xdr_identifier) (a n : String) :
    emitted_in (set_emitted tbl a) n = (emitted_in tbl n || (n == a && defined_in tbl a)) := by
  unfold emitted_in defined_in
  rw [hash_find_set_emitted]
  by_cases hna : n = a
  · subst hna
    cases HASH_FIND_STR tbl n with
    | none => simp
    | some chk => simp
  · have : (n == a) = false := by rw [beq_eq_false_iff_ne]; exact hna
    simp [hna, this]

theorem defined_in_set_emitted (tbl : List xdr_identifier) (a n : String) :
    defined_in (set_emitted tbl a) n = defined_in tbl n := by
  unfold defined_in
  rw [hash_find_set_emitted]
  by_cases hna : n = a
  · subst hna
    cases HASH_FIND_STR tbl n with
    | none => simp
    | some chk => simp
  · simp [hna]

theorem emitted_mono_refl (t : List xdr_identifier) : emitted_mono t t := by
  unfold emitted_mono
  induction t with
  | nil => exact List.Forall₂.nil
  | cons i t ih => exact List.Forall₂.cons (Or.inl rfl) ih

theorem emitted_mono_trans (t t1 t2 : List xdr_identifier) (h1 : emitted_mono t t1)
    (h2 : emitted_mono t1 t2) : emitted_mono t t2 := by
  unfold emitted_mono at *
  induction h1 generalizing t2 with
  | nil => cases h2; exact List.Forall₂.nil
  | cons hab _ ih =>
      cases h2 with
      | cons hbc hrest =>
          refine List.Forall₂.cons ?_ (ih _ hrest)
          rcases hab with rfl | ⟨he, rfl⟩
          · exact hbc
          · rcases hbc with rfl | ⟨he2, _⟩
            · exact Or.inr ⟨he, rfl⟩
            · simp at he2

theorem emitted_mono_set_emitted (t : List xdr_identifier) (a : String) :
    emitted_mono t (set_emitted t a) := by
  unfold emitted_mono
  induction t with
  | nil => exact List.Forall₂.nil
  | cons i t ih =>
      unfold set_emitted
      by_cases h : (i.name == a) = true
      · rw [if_pos h]
        refine List.Forall₂.cons ?_ (emitted_mono_refl t)
        cases he : i.emitted with
        | true =>
            left
            cases i
            simp only at he
            subst he
            rfl
        | false => exact Or.inr ⟨rfl, rfl⟩
      · rw [if_neg h]
        exact List.Forall₂.cons (Or.inl rfl) ih

theorem struct_ready_eq (tbl : List xdr_identifier) (chk : xdr_identifier) (sname : String)
    (hname : chk.name = sname) (ms : List xdr_struct_member)
    (hdef : ∀ m ∈ ms, m.type.builtin = false → defined_in tbl m.type.name = true) :
    struct_ready tbl chk ms =
      some (((ms.filter (fun m => !m.type.builtin)).map (fun m => m.type.name)).all
        (fun n => n == sname || emitted_in tbl n)) := by
  induction ms with
  | nil => rfl
  | cons m ms ih =>
      have ih1 := ih (fun m1 hm1 => hdef m1 (List.mem_cons_of_mem _ hm1))
      unfold struct_ready
      cases hb : m.type.builtin with
      | true =>
          simp only [if_true, List.filter_cons, hb, Bool.not_true, Bool.false_eq_true, if_false]
          exact ih1
      | false =>
          have hd := hdef m (List.mem_cons_self _ _) hb
          unfold defined_in at hd
          cases hf : HASH_FIND_STR tbl m.type.name with
          | none => rw [hf] at hd; cases hd
          | some chkm =>
              have hn := hash_find_name _ _ _ hf
              have hem : emitted_in tbl m.type.name = chkm.emitted := by
                unfold emitted_in; rw [hf]
              simp only [Bool.false_eq_true, if_false, List.filter_cons, hb, Bool.not_false,
                if_true, List.map_cons, List.all_cons, hem]
              by_cases hc : chk.name ≠ chkm.name ∧ chkm.emitted = false
              · rw [if_pos hc]
                have hne : (m.type.name == sname) = false := by
                  rw [beq_eq_false_iff_ne, ← hn, ← hname]
                  exact fun h => hc.1 h.symm
                rw [hne, hc.2]
                rfl
              · rw [if_neg hc, ih1]
                have : (m.type.name == sname || chkm.emitted) = true := by
                  by_cases hnn : chk.name = chkm.name
                  · have : (m.type.name == sname) = true := by
                      rw [beq_iff_eq, ← hn, ← hname, hnn]
                    rw [this]; rfl
                  · cases he : chkm.emitted with
                    | true => simp
                    | false => exact absurd ⟨hnn, he⟩ hc
                rw [this, Bool.true_and]

theorem union_ready_eq (tbl : List xdr_identifier) (cs : List xdr_union_case)
    (hdef : ∀ c ∈ cs, ∀ t, c.type = some t → t.builtin = false → defined_in tbl t.name = true) :
    union_ready tbl cs =
      some ((((cs.filterMap (fun c => c.type)).filter (fun t => !t.builtin)).map
        (fun t => t.name)).all (fun n => emitted_in tbl n)) := by
  induction cs with
  | nil => rfl
  | cons c cs ih =>
      have ih1 := ih (fun c1 hc1 => hdef c1 (List.mem_cons_of_mem _ hc1))
      unfold union_ready
      cases ht : c.type with
      | none =>
          simp only [List.filterMap_cons, ht]
          exact ih1
      | some t =>
          simp only [List.filterMap_cons, ht]
          cases hb : t.builtin with
          | true =>
              simp only [if_true, List.filter_cons, hb, Bool.not_true, Bool.false_eq_true,
                if_false]
              exact ih1
          | false =>
              have hd := hdef c (List.mem_cons_self _ _) t ht hb
              unfold defined_in at hd
              cases hf : HASH_FIND_STR tbl t.name with
              | none => rw [hf] at hd; cases hd
              | some chk =>
                  have hem : emitted_in tbl t.name = chk.emitted := by
                    unfold emitted_in; rw [hf]
                  simp only [Bool.false_eq_true, if_false, List.filter_cons, hb, Bool.not_false,
                    if_true, List.map_cons, List.all_cons, hem]
                  cases he : chk.emitted with
                  | true => simp only [Bool.true_eq_false, if_false, Bool.true_and]; exact ih1
                  | false => simp

theorem struct_lookups_mem (s : xdr_struct) (m : xdr_struct_member) (hm : m ∈ s.members)
    (hb : m.type.builtin = false) : m.type.name ∈ (xdr_body.struct_body s).lookups := by
  unfold xdr_body.lookups
  exact List.mem_map.2 ⟨m, List.mem_filter.2 ⟨hm, by simp [hb]⟩, rfl⟩

theorem union_lookups_mem (u : xdr_union) (c : xdr_union_case) (hc : c ∈ u.cases)
    (t : xdr_type) (ht : c.type = some t) (hb : t.builtin = false) :
    t.name ∈ (xdr_body.union_body u).lookups := by
  unfold xdr_body.lookups
  exact List.mem_map.2 ⟨t, List.mem_filter.2 ⟨List.mem_filterMap.2 ⟨c, hc, ht⟩, by simp [hb]⟩, rfl⟩

theorem emit_struct_step_eq (st : emit_state) (u : Bool) (s : xdr_struct)
    (hd : defined_in st.xdr_identifiers s.name = true)
    (hl : ∀ n ∈ (xdr_body.struct_body s).lookups, defined_in st.xdr_identifiers n = true) :
    emit_struct_step st u s = some (emit_body_step st u (.struct_body s)) := by
  unfold emit_struct_step emit_body_step
  unfold defined_in at hd
  cases hf : HASH_FIND_STR st.xdr_identifiers s.name with
  | none => rw [hf] at hd; cases hd
  | some chk =>
      have hem : emitted_in st.xdr_identifiers (xdr_body.struct_body s).name = chk.emitted := by
        unfold emitted_in xdr_body.name; rw [hf]
      rw [hem]
      simp only []
      by_cases he : chk.emitted = true
      · rw [if_pos he, if_pos he]
      · rw [if_neg he, if_neg he]
        have hr := struct_ready_eq st.xdr_identifiers chk s.name (hash_find_name _ _ _ hf)
          s.members (fun m hm hb => hl _ (struct_lookups_mem s m hm hb))
        have hbr : body_ready st.xdr_identifiers (.struct_body s) =
            ((s.members.filter (fun m => !m.type.builtin)).map (fun m => m.type.name)).all
              (fun n => n == s.name || emitted_in st.xdr_identifiers n) := rfl
        rw [hr, hbr]
        cases ((s.members.filter (fun m => !m.type.builtin)).map (fun m => m.type.name)).all
            (fun n => n == s.name || emitted_in st.xdr_identifiers n) with
        | true => rfl
        | false => rfl

theorem emit_union_step_eq (st : emit_state) (u : Bool) (un : xdr_union)
    (hd : defined_in st.xdr_identifiers un.name = true)
    (hl : ∀ n ∈ (xdr_body.union_body un).lookups, defined_in st.xdr_identifiers n = true) :
    emit_union_step st u un = some (emit_body_step st u (.union_body un)) := by
  unfold emit_union_step emit_body_step
  unfold defined_in at hd
  cases hf : HASH_FIND_STR st.xdr_identifiers un.name with
  | none => rw [hf] at hd; cases hd
  | some chk =>
      have hem : emitted_in st.xdr_identifiers (xdr_body.union_body un).name = chk.emitted := by
        unfold emitted_in xdr_body.name; rw [hf]
      rw [hem]
      simp only []
      by_cases he : chk.emitted = true
      · rw [if_pos he, if_pos he]
      · rw [if_neg he, if_neg he]
        have hr := union_ready_eq st.xdr_identifiers un.cases
          (fun c hc t ht hb => hl _ (union_lookups_mem un c hc t ht hb))
        have hbr : body_ready st.xdr_identifiers (.union_body un) =
            (((un.cases.filterMap (fun c => c.type)).filter (fun t => !t.builtin)).map
              (fun t => t.name)).all (fun n => emitted_in st.xdr_identifiers n) := rfl
        rw [hr, hbr]
        cases (((un.cases.filterMap (fun c => c.type)).filter (fun t => !t.builtin)).map
            (fun t => t.name)).all (fun n => emitted_in st.xdr_identifiers n) with
        | true => rfl
        | false => rfl

theorem emit_body_step_cases (st : emit_state) (u : Bool) (d : xdr_body) :
    (emit_body_step st u d = (st, u) ∧ emitted_in st.xdr_identifiers d.name = true) ∨
    (emit_body_step st u d = (st.written d, u) ∧ emitted_in st.xdr_identifiers d.name = false ∧
      body_ready st.xdr_identifiers d = true) ∨
    (emit_body_step st u d = (st, true) ∧ emitted_in st.xdr_identifiers d.name = false ∧
      body_ready st.xdr_identifiers d = false) := by
  unfold emit_body_step
  cases he : emitted_in st.xdr_identifiers d.name with
  | true => exact Or.inl ⟨by simp, rfl⟩
  | false =>
      cases hr : body_ready st.xdr_identifiers d with
      | true => exact Or.inr (Or.inl ⟨by simp, rfl, rfl⟩)
      | false => exact Or.inr (Or.inr ⟨by simp, rfl, rfl⟩)

theorem emit_bodies_pres (P : emit_state → Prop) (ds0 : List xdr_body)
    (hstep : ∀ st d, P st → d ∈ ds0 → emitted_in st.xdr_identifiers d.name = false →
      body_ready st.xdr_identifiers d = true → P (st.written d))
    (ds : List xdr_body) (hsub : ∀ d ∈ ds, d ∈ ds0) (st : emit_state) (u : Bool) (h : P st) :
    P (emit_bodies ds st u).1 := by
  induction ds generalizing st u with
  | nil => exact h
  | cons d ds ih =>
      unfold emit_bodies
      apply ih (fun d1 hd1 => hsub d1 (List.mem_cons_of_mem _ hd1))
      rcases emit_body_step_cases st u d with ⟨e, _⟩ | ⟨e, he, hr⟩ | ⟨e, _⟩
      · rw [e]; exact h
      · rw [e]; exact hstep st d h (hsub d (List.mem_cons_self _ _)) he hr
      · rw [e]; exact h

theorem emit_bodies_emitted_mono (ds : List xdr_body) (st : emit_state) (u : Bool) (n : String)
    (h : emitted_in st.xdr_identifiers n = true) :
    emitted_in (emit_bodies ds st u).1.xdr_identifiers n = true := by
  apply emit_bodies_pres (fun s => emitted_in s.xdr_identifiers n = true) ds _ ds
    (fun _ h => h) st u h
  intro s d hs _ _ _
  show emitted_in (set_emitted s.xdr_identifiers d.name) n = true
  rw [emitted_in_set_emitted, hs]
  rfl

theorem emit_bodies_defined (ds : List xdr_body) (st : emit_state) (u : Bool) (n : String) :
    defined_in (emit_bodies ds st u).1.xdr_identifiers n = defined_in st.xdr_identifiers n := by
  apply emit_bodies_pres
    (fun s => defined_in s.xdr_identifiers n = defined_in st.xdr_identifiers n) ds _ ds
    (fun _ h => h) st u rfl
  intro s d hs _ _ _
  show defined_in (set_emitted s.xdr_identifiers d.name) n = _
  rw [defined_in_set_emitted, hs]

theorem emit_bodies_table_mono (ds : List xdr_body) (st : emit_state) (u : Bool) :
    emitted_mono st.xdr_identifiers (emit_bodies ds st u).1.xdr_identifiers := by
  apply emit_bodies_pres
    (fun s => emitted_mono st.xdr_identifiers s.xdr_identifiers) ds _ ds
    (fun _ h => h) st u (emitted_mono_refl _)
  intro s d hs _ _ _
  exact emitted_mono_trans _ _ _ hs (emitted_mono_set_emitted _ _)

theorem emit_body_step_defined (st : emit_state) (u : Bool) (d : xdr_body) (n : String) :
    defined_in (emit_body_step st u d).1.xdr_identifiers n = defined_in st.xdr_identifiers n :=
  emit_bodies_defined [d] st u n

theorem emit_bodies_append (a b : List xdr_body) (st : emit_state) (u : Bool) :
    emit_bodies (a ++ b) st u = emit_bodies b (emit_bodies a st u).1 (emit_bodies a st u).2 := by
  induction a generalizing st u with
  | nil => rfl
  | cons d a ih =>
      have e : emit_bodies (d :: a ++ b) st u =
          emit_bodies (a ++ b) (emit_body_step st u d).1 (emit_body_step st u d).2 := rfl
      have e1 : emit_bodies (d :: a) st u =
          emit_bodies a (emit_body_step st u d).1 (emit_body_step st u d).2 := rfl
      rw [e, e1]
      exact ih _ _

theorem emit_structs_eq (ss : List xdr_struct) (st : emit_state) (u : Bool)
    (hd : ∀ s ∈ ss, defined_in st.xdr_identifiers s.name = true ∧
      ∀ n ∈ (xdr_body.struct_body s).lookups, defined_in st.xdr_identifiers n = true) :
    emit_structs ss st u = some (emit_bodies (ss.map .struct_body) st u) := by
  induction ss generalizing st u with
  | nil => rfl
  | cons s ss ih =>
      unfold emit_structs
      rw [emit_struct_step_eq st u s (hd s (List.mem_cons_self _ _)).1
        (hd s (List.mem_cons_self _ _)).2]
      simp only [List.map_cons]
      rw [emit_bodies]
      apply ih
      intro s1 hs1
      have h1 := hd s1 (List.mem_cons_of_mem _ hs1)
      refine ⟨?_, fun n hn => ?_⟩
      · rw [emit_body_step_defined]; exact h1.1
      · rw [emit_body_step_defined]; exact h1.2 n hn

theorem emit_unions_eq (us : List xdr_union) (st : emit_state) (u : Bool)
    (hd : ∀ un ∈ us, defined_in st.xdr_identifiers un.name = true ∧
      ∀ n ∈ (xdr_body.union_body un).lookups, defined_in st.xdr_identifiers n = true) :
    emit_unions us st u = some (emit_bodies (us.map .union_body) st u) := by
  induction us generalizing st u with
  | nil => rfl
  | cons s ss ih =>
      unfold emit_unions
      rw [emit_union_step_eq st u s (hd s (List.mem_cons_self _ _)).1
        (hd s (List.mem_cons_self _ _)).2]
      simp only [List.map_cons]
      rw [emit_bodies]
      apply ih
      intro s1 hs1
      have h1 := hd s1 (List.mem_cons_of_mem _ hs1)
      refine ⟨?_, fun n hn => ?_⟩
      · rw [emit_body_step_defined]; exact h1.1
      · rw [emit_body_step_defined]; exact h1.2 n hn

theorem emit_pass_eq (ss : List xdr_struct) (us : List xdr_union) (st : emit_state)
    (hd : ∀ d ∈ xdr_bodies ss us, defined_in st.xdr_identifiers d.name = true ∧
      ∀ n ∈ d.lookups, defined_in st.xdr_identifiers n = true) :
    emit_pass ss us st = some (emit_bodies (xdr_bodies ss us) st false) := by
  unfold emit_pass
  rw [emit_structs_eq ss st false (fun s hs =>
    hd (.struct_body s) (List.mem_append_left _ (List.mem_map_of_mem _ hs)))]
  simp only
  rw [emit_unions_eq us _ _ (fun un hun => by
    have h1 := hd (.union_body un) (List.mem_append_right _ (List.mem_map_of_mem _ hun))
    refine ⟨?_, fun n hn => ?_⟩
    · rw [emit_bodies_defined]; exact h1.1
    · rw [emit_bodies_defined]; exact h1.2 n hn)]
  unfold xdr_bodies
  rw [emit_bodies_append]

theorem emit_bodies_flag_sticky (ds : List xdr_body) (st : emit_state) :
    (emit_bodies ds st true).2 = true := by
  induction ds generalizing st with
  | nil => rfl
  | cons d ds ih =>
      unfold emit_bodies
      rcases emit_body_step_cases st true d with ⟨e, _⟩ | ⟨e, _⟩ | ⟨e, _⟩ <;> rw [e] <;> exact ih _

theorem emit_bodies_flag_false (ds : List xdr_body) (st : emit_state) (u : Bool)
    (h : (emit_bodies ds st u).2 = false)
    (hd : ∀ d ∈ ds, defined_in st.xdr_identifiers d.name = true) :
    u = false ∧ ∀ d ∈ ds, emitted_in (emit_bodies ds st u).1.xdr_identifiers d.name = true := by
  induction ds generalizing st u with
  | nil => exact ⟨h, fun d hd => by cases hd⟩
  | cons d ds ih =>
      unfold emit_bodies at h ⊢
      have hd1 : ∀ d1 ∈ ds,
          defined_in (emit_body_step st u d).1.xdr_identifiers d1.name = true := by
        intro d1 hd1
        rw [emit_body_step_defined]
        exact hd d1 (List.mem_cons_of_mem _ hd1)
      obtain ⟨hu, hall⟩ := ih _ _ h hd1
      rcases emit_body_step_cases st u d with ⟨e, he⟩ | ⟨e, _, _⟩ | ⟨e, _⟩
      · rw [e] at hu hall ⊢
        refine ⟨hu, fun d1 hd1 => ?_⟩
        rcases List.mem_cons.1 hd1 with rfl | hm
        · exact emit_bodies_emitted_mono _ _ _ _ he
        · exact hall d1 hm
      · rw [e] at hu hall ⊢
        refine ⟨hu, fun d1 hd1 => ?_⟩
        rcases List.mem_cons.1 hd1 with rfl | hm
        · apply emit_bodies_emitted_mono
          show emitted_in (set_emitted st.xdr_identifiers d1.name) d1.name = true
          rw [emitted_in_set_emitted, hd d1 (List.mem_cons_self _ _)]
          simp
        · exact hall d1 hm
      · rw [e] at hu
        cases hu

theorem emit_bodies_flag_true (ds : List xdr_body) (st : emit_state) (u : Bool)
    (h : (emit_bodies ds st u).2 = true) :
    u = true ∨ ∃ d ∈ ds, emitted_in st.xdr_identifiers d.name = false := by
  induction ds generalizing st u with
  | nil => exact Or.inl h
  | cons d ds ih =>
      unfold emit_bodies at h
      rcases emit_body_step_cases st u d with ⟨e, _⟩ | ⟨e, _, _⟩ | ⟨e, he, _⟩
      · rw [e] at h
        rcases ih _ _ h with hu | ⟨d1, hd1, he1⟩
        · exact Or.inl hu
        · exact Or.inr ⟨d1, List.mem_cons_of_mem _ hd1, he1⟩
      · rw [e] at h
        rcases ih _ _ h with hu | ⟨d1, hd1, he1⟩
        · exact Or.inl hu
        · refine Or.inr ⟨d1, List.mem_cons_of_mem _ hd1, ?_⟩
          cases hc : emitted_in st.xdr_identifiers d1.name with
          | false => rfl
          | true =>
              have : emitted_in (st.written d).xdr_identifiers d1.name = true := by
                show emitted_in (set_emitted st.xdr_identifiers d.name) d1.name = true
                rw [emitted_in_set_emitted, hc]; rfl
              rw [this] at he1; cases he1
      · exact Or.inr ⟨d, List.mem_cons_self _ _, he⟩

theorem body_ready_mono (t t1 : List xdr_identifier) (d : xdr_body)
    (hm : ∀ n, emitted_in t n = true → emitted_in t1 n = true)
    (h : body_ready t d = true) : body_ready t1 d = true := by
  cases d with
  | struct_body s =>
      unfold body_ready at h ⊢
      rw [List.all_eq_true] at h ⊢
      intro n hn
      have := h n hn
      rw [Bool.or_eq_true] at this ⊢
      rcases this with h1 | h2
      · exact Or.inl h1
      · exact Or.inr (hm n h2)
  | union_body u =>
      unfold body_ready at h ⊢
      rw [List.all_eq_true] at h ⊢
      intro n hn
      exact hm n (h n hn)

theorem emit_bodies_ready_emitted (ds : List xdr_body) (st : emit_state) (u : Bool)
    (d : xdr_body) (hd : d ∈ ds) (hdef : defined_in st.xdr_identifiers d.name = true)
    (hr : body_ready st.xdr_identifiers d = true) :
    emitted_in (emit_bodies ds st u).1.xdr_identifiers d.name = true := by
  induction ds generalizing st u with
  | nil => cases hd
  | cons d0 ds ih =>
      unfold emit_bodies
      rcases List.mem_cons.1 hd with rfl | hm
      · apply emit_bodies_emitted_mono
        rcases emit_body_step_cases st u d with ⟨e, he⟩ | ⟨e, _, _⟩ | ⟨e, _, hnr⟩
        · rw [e]; exact he
        · rw [e]
          show emitted_in (set_emitted st.xdr_identifiers d.name) d.name = true
          rw [emitted_in_set_emitted, hdef]
          simp
        · rw [hr] at hnr; cases hnr
      · apply ih _ _ hm
        · rw [emit_body_step_defined]; exact hdef
        · apply body_ready_mono st.xdr_identifiers _ d _ hr
          intro n hn
          exact emit_bodies_emitted_mono [d0] st u n hn

theorem exists_minimal_of_acyclic {α : Type} (r : α → α → Prop)
    (hacyc : ∀ a, ¬ Relation.TransGen r a a) (l : List α) (hne : l ≠ []) :
    ∃ m ∈ l, ∀ x ∈ l, ¬ r m x := by
  have key : ∃ m ∈ l, ∀ x ∈ l, ¬ Relation.TransGen r m x := by
    induction l with
    | nil => exact absurd rfl hne
    | cons a l ih =>
        by_cases hl : l = []
        · subst hl
          refine ⟨a, List.mem_cons_self _ _, fun x hx => ?_⟩
          rcases List.mem_cons.1 hx with rfl | h
          · exact hacyc _
          · cases h
        · obtain ⟨m, hm, hmin⟩ := ih hl
          by_cases hma : Relation.TransGen r m a
          · refine ⟨a, List.mem_cons_self _ _, fun x hx => ?_⟩
            rcases List.mem_cons.1 hx with rfl | h
            · exact hacyc _
            · exact fun hax => hmin x h (Relation.TransGen.trans hma hax)
          · refine ⟨m, List.mem_cons_of_mem _ hm, fun x hx => ?_⟩
            rcases List.mem_cons.1 hx with rfl | h
            · exact hma
            · exact hmin x h
  obtain ⟨m, hm, hmin⟩ := key
  exact ⟨m, hm, fun x hx h => hmin x hx (Relation.TransGen.single h)⟩

theorem filter_length_le {α : Type} (p q : α → Bool) (l : List α)
    (hpq : ∀ x ∈ l, p x = true → q x = true) :
    (l.filter p).length ≤ (l.filter q).length := by
  induction l with
  | nil => exact Nat.le_refl _
  | cons a l ih =>
      have ih1 := ih (fun x hx => hpq x (List.mem_cons_of_mem _ hx))
      have ha := hpq a (List.mem_cons_self _ _)
      cases hp : p a with
      | false =>
          cases hq : q a with
          | false => simp only [List.filter_cons, hp, hq, Bool.false_eq_true, if_false]; exact ih1
          | true =>
              simp only [List.filter_cons, hp, hq, Bool.false_eq_true, if_false, if_true,
                List.length_cons]
              exact Nat.le_succ_of_le ih1
      | true =>
          have hq := ha hp
          simp only [List.filter_cons, hp, hq, if_true, List.length_cons]
          exact Nat.succ_le_succ ih1

theorem filter_length_lt {α : Type} (p q : α → Bool) (l : List α)
    (hpq : ∀ x ∈ l, p x = true → q x = true) (x : α) (hx : x ∈ l) (hq : q x = true)
    (hp : p x = false) : (l.filter p).length < (l.filter q).length := by
  induction l with
  | nil => cases hx
  | cons a l ih =>
      have hle := filter_length_le p q l (fun y hy => hpq y (List.mem_cons_of_mem _ hy))
      rcases List.mem_cons.1 hx with rfl | hm
      · simp only [List.filter_cons, hp, hq, Bool.false_eq_true, if_false, if_true,
          List.length_cons]
        exact Nat.lt_succ_of_le hle
      · have ih1 := ih (fun y hy => hpq y (List.mem_cons_of_mem _ hy)) hm
        have ha := hpq a (List.mem_cons_self _ _)
        cases hpa : p a with
        | false =>
            cases hqa : q a with
            | false =>
                simp only [List.filter_cons, hpa, hqa, Bool.false_eq_true, if_false]; exact ih1
            | true =>
                simp only [List.filter_cons, hpa, hqa, Bool.false_eq_true, if_false, if_true,
                  List.length_cons]
                exact Nat.lt_succ_of_lt ih1
        | true =>
            have hqa := ha hpa
            simp only [List.filter_cons, hpa, hqa, if_true, List.length_cons]
            exact Nat.succ_lt_succ ih1

theorem xdr_body_refs_eq (d : xdr_body) :
    d.refs = d.lookups.filter (fun n => n != d.name) := by
  cases d <;> rfl

theorem body_name_inj (B : List xdr_body) (hnd : (B.map xdr_body.name).Nodup)
    (d d1 : xdr_body) (hd : d ∈ B) (hd1 : d1 ∈ B) (h : d.name = d1.name) : d = d1 :=
  List.inj_on_of_nodup_map hnd hd hd1 h

theorem emit_wf_written (B : List xdr_body) (hnd : (B.map xdr_body.name).Nodup)
    (st : emit_state) (d : xdr_body) (hwf : emit_wf B st) (hd : d ∈ B)
    (he : emitted_in st.xdr_identifiers d.name = false) : emit_wf B (st.written d) := by
  obtain ⟨h1, h2, h3, h4⟩ := hwf
  have hem : ∀ n, emitted_in (st.written d).xdr_identifiers n =
      (emitted_in st.xdr_identifiers n || (n == d.name && defined_in st.xdr_identifiers d.name)) :=
    fun n => emitted_in_set_emitted _ _ _
  have hdf : ∀ n, defined_in (st.written d).xdr_identifiers n = defined_in st.xdr_identifiers n :=
    fun n => defined_in_set_emitted _ _ _
  have hdd := (h1 d hd).1
  refine ⟨?_, ?_, ?_, ?_⟩
  · intro d1 hd1
    refine ⟨by rw [hdf]; exact (h1 d1 hd1).1, fun n hn => ?_⟩
    obtain ⟨ha, hb⟩ := (h1 d1 hd1).2 n hn
    refine ⟨by rw [hdf]; exact ha, ?_⟩
    rcases hb with hb | hb
    · left; rw [hem, hb]; rfl
    · exact Or.inr hb
  · intro d1 hd1
    have hd1' : d1 ∈ st.header ++ [d] := hd1
    rcases List.mem_append.1 hd1' with hm | hm
    · refine ⟨(h2 d1 hm).1, ?_⟩
      rw [hem, (h2 d1 hm).2]; rfl
    · rw [List.mem_singleton] at hm
      subst hm
      refine ⟨hd, ?_⟩
      rw [hem, hdd]; simp
  · intro d1 hd1 he1
    show d1 ∈ st.header ++ [d]
    rw [hem] at he1
    cases hc : emitted_in st.xdr_identifiers d1.name with
    | true => exact List.mem_append_left _ (h3 d1 hd1 hc)
    | false =>
        rw [hc, Bool.false_or, Bool.and_eq_true, beq_iff_eq] at he1
        have := body_name_inj B hnd d1 d hd1 hd he1.1
        rw [this]
        exact List.mem_append_right _ (List.mem_singleton_self _)
  · show (st.header ++ [d]).Nodup
    rw [List.nodup_append]
    refine ⟨h4, List.nodup_singleton _, ?_⟩
    intro x hx hx1
    rw [List.mem_singleton] at hx1
    subst hx1
    have := (h2 x hx).2
    rw [he] at this
    cases this

theorem emit_wf_bodies (B : List xdr_body) (hnd : (B.map xdr_body.name).Nodup)
    (st : emit_state) (u : Bool) (hwf : emit_wf B st) : emit_wf B (emit_bodies B st u).1 :=
  emit_bodies_pres (emit_wf B) B
    (fun s d hs hd he _ => emit_wf_written B hnd s d hs hd he) B (fun _ h => h) st u hwf

theorem body_ready_of_minimal (ss : List xdr_struct) (us : List xdr_union)
    (hself : ∀ u ∈ us, u.name ∉ (xdr_body.union_body u).lookups)
    (st : emit_state) (hwf : emit_wf (xdr_bodies ss us) st) (X : xdr_body)
    (hX : X ∈ xdr_bodies ss us)
    (hmin : ∀ d ∈ xdr_bodies ss us, emitted_in st.xdr_identifiers d.name = false →
      ¬ refers ss us X.name d.name) :
    body_ready st.xdr_identifiers X = true := by
  have hrefs : ∀ n ∈ X.refs, emitted_in st.xdr_identifiers n = true := by
    intro n hn
    have hl : n ∈ X.lookups := by
      rw [xdr_body_refs_eq] at hn
      exact (List.mem_filter.1 hn).1
    rcases ((hwf.1 X hX).2 n hl).2 with he | hB
    · exact he
    · obtain ⟨d, hd, hdn⟩ := List.mem_map.1 hB
      cases hc : emitted_in st.xdr_identifiers n with
      | true => rfl
      | false =>
          exfalso
          apply hmin d hd (by rw [hdn]; exact hc)
          rw [hdn]
          exact ⟨X, hX, rfl, hn⟩
  cases X with
  | struct_body s =>
      unfold body_ready
      rw [List.all_eq_true]
      intro n hn
      by_cases hns : n = s.name
      · rw [hns]; simp
      · have : n ∈ (xdr_body.struct_body s).refs := by
          rw [xdr_body_refs_eq]
          exact List.mem_filter.2 ⟨hn, by simpa [xdr_body.name] using hns⟩
        rw [hrefs n this]; simp
  | union_body u =>
      unfold body_ready
      rw [List.all_eq_true]
      intro n hn
      have hu : u ∈ us := by
        unfold xdr_bodies at hX
        rcases List.mem_append.1 hX with h | h
        · obtain ⟨s, _, hs⟩ := List.mem_map.1 h
          cases hs
        · obtain ⟨u1, hu1, hs⟩ := List.mem_map.1 h
          cases hs
          exact hu1
      have hns : n ≠ u.name := fun h => hself u hu (h ▸ hn)
      have : n ∈ (xdr_body.union_body u).refs := by
        rw [xdr_body_refs_eq]
        exact List.mem_filter.2 ⟨hn, by simpa [xdr_body.name] using hns⟩
      exact hrefs n this

theorem emit_loop_terminates_from (ss : List xdr_struct) (us : List xdr_union)
    (hnd : ((xdr_bodies ss us).map xdr_body.name).Nodup)
    (hacyc : ∀ a, ¬ Relation.TransGen (refers ss us) a a)
    (hself : ∀ u ∈ us, u.name ∉ (xdr_body.union_body u).lookups) :
    ∀ (k : Nat) (st : emit_state),
      ((xdr_bodies ss us).filter (fun d => !emitted_in st.xdr_identifiers d.name)).length ≤ k →
      emit_wf (xdr_bodies ss us) st →
      ∃ fuel st1, emit_loop ss us fuel st = .ok st1 ∧ emit_wf (xdr_bodies ss us) st1 ∧
        (∀ d ∈ xdr_bodies ss us, emitted_in st1.xdr_identifiers d.name = true) ∧
        emitted_mono st.xdr_identifiers st1.xdr_identifiers := by
  intro k
  induction k with
  | zero =>
      intro st hk hwf
      have hpass := emit_pass_eq ss us st (fun d hd =>
        ⟨(hwf.1 d hd).1, fun n hn => ((hwf.1 d hd).2 n hn).1⟩)
      have hwf1 := emit_wf_bodies _ hnd st false hwf
      cases hu : (emit_bodies (xdr_bodies ss us) st false).2 with
      | false =>
          refine ⟨1, (emit_bodies (xdr_bodies ss us) st false).1, ?_, hwf1, ?_,
            emit_bodies_table_mono _ _ _⟩
          · unfold emit_loop
            rw [hpass]
            simp only [hu, Bool.false_eq_true, if_false]
          · exact (emit_bodies_flag_false _ _ _ hu (fun d hd => (hwf.1 d hd).1)).2
      | true =>
          exfalso
          rcases emit_bodies_flag_true _ _ _ hu with h | ⟨d, hd, he⟩
          · cases h
          · have hm : d ∈ (xdr_bodies ss us).filter
                (fun d => !emitted_in st.xdr_identifiers d.name) :=
              List.mem_filter.2 ⟨hd, by rw [he]; rfl⟩
            have hlen := List.length_pos_of_mem hm
            omega
  | succ k ih =>
      intro st hk hwf
      have hpass := emit_pass_eq ss us st (fun d hd =>
        ⟨(hwf.1 d hd).1, fun n hn => ((hwf.1 d hd).2 n hn).1⟩)
      have hwf1 := emit_wf_bodies _ hnd st false hwf
      cases hu : (emit_bodies (xdr_bodies ss us) st false).2 with
      | false =>
          refine ⟨1, (emit_bodies (xdr_bodies ss us) st false).1, ?_, hwf1, ?_,
            emit_bodies_table_mono _ _ _⟩
          · unfold emit_loop
            rw [hpass]
            simp only [hu, Bool.false_eq_true, if_false]
          · exact (emit_bodies_flag_false _ _ _ hu (fun d hd => (hwf.1 d hd).1)).2
      | true =>
          rcases emit_bodies_flag_true _ _ _ hu with h | ⟨d, hd, he⟩
          · cases h
          · have hm : d.name ∈ ((xdr_bodies ss us).filter
                (fun d => !emitted_in st.xdr_identifiers d.name)).map xdr_body.name :=
              List.mem_map_of_mem _ (List.mem_filter.2 ⟨hd, by rw [he]; rfl⟩)
            obtain ⟨m, hmU, hmin⟩ := exists_minimal_of_acyclic (refers ss us) hacyc _
              (List.ne_nil_of_mem hm)
            obtain ⟨X, hXU, hXm⟩ := List.mem_map.1 hmU
            obtain ⟨hXB, hXe⟩ := List.mem_filter.1 hXU
            have hXe1 : emitted_in st.xdr_identifiers X.name = false := by
              simpa using hXe
            have hready := body_ready_of_minimal ss us hself st hwf X hXB (fun d1 hd1 he1 => by
              rw [hXm]
              exact hmin d1.name (List.mem_map_of_mem _
                (List.mem_filter.2 ⟨hd1, by rw [he1]; rfl⟩)))
            have hXem := emit_bodies_ready_emitted (xdr_bodies ss us) st false X hXB
              (hwf.1 X hXB).1 hready
            have hlt := filter_length_lt
              (fun d => !emitted_in (emit_bodies (xdr_bodies ss us) st false).1.xdr_identifiers
                d.name)
              (fun d => !emitted_in st.xdr_identifiers d.name) (xdr_bodies ss us)
              (fun d1 _ h1 => by
                have h2 : (!emitted_in
                    (emit_bodies (xdr_bodies ss us) st false).1.xdr_identifiers d1.name) = true :=
                  h1
                show (!emitted_in st.xdr_identifiers d1.name) = true
                cases hc : emitted_in st.xdr_identifiers d1.name with
                | false => rfl
                | true =>
                    rw [emit_bodies_emitted_mono _ _ _ _ hc] at h2
                    cases h2)
              X hXB
              (by show (!emitted_in st.xdr_identifiers X.name) = true
                  rw [hXe1]; rfl)
              (by show (!emitted_in
                    (emit_bodies (xdr_bodies ss us) st false).1.xdr_identifiers X.name) = false
                  rw [hXem]; rfl)
            obtain ⟨fuel, st1, hrun, hwf2, hall, hmono⟩ :=
              ih (emit_bodies (xdr_bodies ss us) st false).1 (by omega) hwf1
            refine ⟨fuel + 1, st1, ?_, hwf2, hall,
              emitted_mono_trans _ _ _ (emit_bodies_table_mono _ _ _) hmono⟩
            unfold emit_loop
            rw [hpass]
            simp only [hu, if_true]
            exact hrun

theorem acyclic_of_rank (ss : List xdr_struct) (us : List xdr_union) (rank : String → Nat)
    (h : ∀ d ∈ xdr_bodies ss us, ∀ n ∈ d.refs, rank n < rank d.name) :
    ∀ a, ¬ Relation.TransGen (refers ss us) a a := by
  have hr : ∀ a b, refers ss us a b → rank b < rank a := by
    rintro a b ⟨d, hd, rfl, hb⟩
    exact h d hd b hb
  have ht : ∀ a b, Relation.TransGen (refers ss us) a b → rank b < rank a := by
    intro a b hab
    induction hab with
    | single h1 => exact hr _ _ h1
    | tail _ h1 ih => exact Nat.lt_trans (hr _ _ h1) ih
  intro a haa
  exact Nat.lt_irrefl _ (ht a a haa)

theorem emit_wf_init (B : List xdr_body) (tbl : List xdr_identifier)
    (hagg : ∀ d ∈ B, defined_in tbl d.name = true ∧ emitted_in tbl d.name = false)
    (hlook : ∀ d ∈ B, ∀ n ∈ d.lookups,
      defined_in tbl n = true ∧ (emitted_in tbl n = true ∨ n ∈ B.map xdr_body.name)) :
    emit_wf B { xdr_identifiers := tbl, header := [] } := by
  refine ⟨fun d hd => ⟨(hagg d hd).1, hlook d hd⟩, ?_, ?_, List.nodup_nil⟩
  · intro d hd
    cases hd
  · intro d hd he
    rw [(hagg d hd).2] at he
    cases he

theorem emit_struct_step_mono (st : emit_state) (u : Bool) (s : xdr_struct)
    (st1 : emit_state) (u1 : Bool) (h : emit_struct_step st u s = some (st1, u1)) :
    emitted_mono st.xdr_identifiers st1.xdr_identifiers := by
  rcases emit_struct_step_cases st u s st1 u1 h with ⟨e, _⟩ | ⟨_, _, _, _, e, _⟩
  · rw [e]; exact emitted_mono_refl _
  · rw [e]; exact emitted_mono_set_emitted _ _

theorem emit_union_step_mono (st : emit_state) (u : Bool) (un : xdr_union)
    (st1 : emit_state) (u1 : Bool) (h : emit_union_step st u un = some (st1, u1)) :
    emitted_mono st.xdr_identifiers st1.xdr_identifiers := by
  rcases emit_union_step_cases st u un st1 u1 h with ⟨e, _⟩ | ⟨_, _, _, _, e, _⟩
  · rw [e]; exact emitted_mono_refl _
  · rw [e]; exact emitted_mono_set_emitted _ _

/-- C32: let the symbol table be as the parser and the resolver leave it (the names
of the aggregates distinct, each aggregate in the table and not marked emitted,
each name that a non-builtin member or case refers to in the table and either
marked emitted or the name of an aggregate).  If the reference graph among
structs and unions, a struct's references to itself left out, has no cycle and
no union names itself in a case, then the emission loop returns after some
number of passes, the header then holds the body of every struct and of every
union exactly once and nothing else, and the table differs from the initial one
only by flags `emitted` changed from false to true; so does the table after
every single step of the loop from the table before it. -/
theorem relaxation_loop_terminates (xdr_structs : List xdr_struct)
    (xdr_unions : List xdr_union) (xdr_identifiers : List xdr_identifier)
    (hnames : ((xdr_bodies xdr_structs xdr_unions).map xdr_body.name).Nodup)
    (hagg : ∀ d ∈ xdr_bodies xdr_structs xdr_unions,
      defined_in xdr_identifiers d.name = true ∧ emitted_in xdr_identifiers d.name = false)
    (hlook : ∀ d ∈ xdr_bodies xdr_structs xdr_unions, ∀ n ∈ d.lookups,
      defined_in xdr_identifiers n = true ∧
        (emitted_in xdr_identifiers n = true ∨
          n ∈ (xdr_bodies xdr_structs xdr_unions).map xdr_body.name))
    (hacyc : ∀ a, ¬ Relation.TransGen (refers xdr_structs xdr_unions) a a)
    (hself : ∀ u ∈ xdr_unions, u.name ∉ (xdr_body.union_body u).lookups) :
    (∃ fuel st,
      emit_loop xdr_structs xdr_unions fuel
        { xdr_identifiers := xdr_identifiers, header := [] } = .ok st ∧
      st.header.Perm (xdr_bodies xdr_structs xdr_unions) ∧
      (∀ s ∈ xdr_structs, st.header.count (.struct_body s) = 1) ∧
      (∀ u ∈ xdr_unions, st.header.count (.union_body u) = 1) ∧
      emitted_mono xdr_identifiers st.xdr_identifiers) ∧
    (∀ st unemitted s st1 unemitted1,
      emit_struct_step st unemitted s = some (st1, unemitted1) →
      emitted_mono st.xdr_identifiers st1.xdr_identifiers) ∧
    (∀ st unemitted u st1 unemitted1,
      emit_union_step st unemitted u = some (st1, unemitted1) →
      emitted_mono st.xdr_identifiers st1.xdr_identifiers) := by
  refine ⟨?_, emit_struct_step_mono, emit_union_step_mono⟩
  obtain ⟨fuel, st, hrun, hwf, hall, hmono⟩ :=
    emit_loop_terminates_from xdr_structs xdr_unions hnames hacyc hself _
      { xdr_identifiers := xdr_identifiers, header := [] } (Nat.le_refl _)
      (emit_wf_init _ _ hagg hlook)
  have hB : (xdr_bodies xdr_structs xdr_unions).Nodup := List.Nodup.of_map _ hnames
  have hperm : st.header.Perm (xdr_bodies xdr_structs xdr_unions) :=
    (List.perm_ext_iff_of_nodup hwf.2.2.2 hB).2
      (fun d => ⟨fun h => (hwf.2.1 d h).1, fun h => hwf.2.2.1 d h (hall d h)⟩)
  refine ⟨fuel, st, hrun, hperm, ?_, ?_, hmono⟩
  · intro s hs
    rw [hperm.count_eq]
    exact List.count_eq_one_of_mem hB
      (List.mem_append_left _ (List.mem_map_of_mem _ hs))
  · intro u hu
    rw [hperm.count_eq]
    exact List.count_eq_one_of_mem hB
      (List.mem_append_right _ (List.mem_map_of_mem _ hu))

/-- C32, instance: `struct C { L l; }; struct L { L *next; };` and
`union W switch (uint32_t tag) { case 1: C c; default: void; };`, where `W` refers
to `C` and `C` to `L`. -/
theorem relaxation_loop_terminates_witness :
    emit_loop [list_holder, list_node] [holder_union] 2
        { xdr_identifiers := [struct_identifier list_holder, struct_identifier list_node,
            union_identifier holder_union],
          header := [] }
      = .ok
        { xdr_identifiers :=
            [{ struct_identifier list_holder with emitted := true },
             { struct_identifier list_node with emitted := true },
             { union_identifier holder_union with emitted := true }],
          header := [.struct_body list_node, .struct_body list_holder,
            .union_body holder_union] } ∧
    ∃ fuel st,
      emit_loop [list_holder, list_node] [holder_union] fuel
        { xdr_identifiers := [struct_identifier list_holder, struct_identifier list_node,
            union_identifier holder_union],
          header := [] } = .ok st ∧
      st.header.Perm (xdr_bodies [list_holder, list_node] [holder_union]) ∧
      (∀ s ∈ [list_holder, list_node], st.header.count (.struct_body s) = 1) ∧
      (∀ u ∈ [holder_union], st.header.count (.union_body u) = 1) ∧
      emitted_mono
        [struct_identifier list_holder, struct_identifier list_node,
          union_identifier holder_union] st.xdr_identifiers :=
  ⟨by decide,
   (relaxation_loop_terminates [list_holder, list_node] [holder_union]
    [struct_identifier list_holder, struct_identifier list_node, union_identifier holder_union]
    (by decide) (by decide) (by decide)
    (acyclic_of_rank _ _ (fun n => if n = "W" then 2 else if n = "C" then 1 else 0)
      (by decide))
    (by decide)).1⟩

/-! ## One step per member -/

theorem num_name_ne (name : String) : ("num_" ++ name == name) = false := by
  rw [beq_eq_false_iff_ne]
  intro h
  have := congrArg String.length h
  rw [String.length_append] at this
  have h4 : "num_".length = 4 := by decide
  omega

theorem emit_marshall_one_step (name : String) (type : xdr_type) :
    ((emit_marshall [] name type).filter (c_line.encodes name)).length = 1 ∧
    ∀ l ∈ emit_marshall [] name type, l.is_codec = true →
      l.encodes name = true ∨ l.member_word name = true := by
  unfold emit_marshall
  split_ifs <;>
    simp [c_line.encodes, c_line.is_codec, c_line.member_word, num_name_ne]

theorem emit_unmarshall_one_step (name : String) (type : xdr_type) :
    ((emit_unmarshall [] name type).filter (c_line.decodes name)).length = 1 ∧
    ∀ l ∈ emit_unmarshall [] name type, l.is_codec = true →
      l.decodes name = true ∨ l.member_word name = true := by
  unfold emit_unmarshall
  split_ifs <;>
    simp [c_line.decodes, c_line.is_codec, c_line.member_word, num_name_ne]

theorem emit_struct_marshall_body (xdr_structp : xdr_struct) :
    (emit_struct_marshall xdr_structp).body =
      (xdr_structp.members.map (fun m => emit_marshall [] m.name m.type)).flatten := by
  unfold emit_struct_marshall
  simp only []
  rw [foldl_emit (fun source (m : xdr_struct_member) => emit_marshall source m.name m.type)
    (fun out a => emit_marshall_append out a.name a.type), List.nil_append]

theorem emit_struct_unmarshall_body (xdr_structp : xdr_struct) :
    (emit_struct_unmarshall xdr_structp).body =
      (xdr_structp.members.map (fun m => emit_unmarshall [] m.name m.type)).flatten := by
  unfold emit_struct_unmarshall
  simp only []
  rw [foldl_emit (fun source (m : xdr_struct_member) => emit_unmarshall source m.name m.type)
    (fun out a => emit_unmarshall_append out a.name a.type), List.nil_append]

/-! ## The wire image of a struct -/

theorem add_len_exact (len r : Nat) (h : len + r < 2147483648) :
    uint32_of_int (int_of_uint len + (r : Int)) = len + r := by
  rw [int_of_uint_small len (by omega)]
  unfold uint32_of_int
  omega

theorem marshall_uint32_acc (le : Bool) (xs : List Nat) (iovs : List xdr_iovec) (cur : Nat)
    (last : Int) (o : Nat) (iov : xdr_iovec) (w : List Byte) (hcur : cur < iovs.length)
    (hroom : o + w.length + 4 * xs.length ≤ xdr_iovec_len iov) (hlen : xdr_iovec_len iov < U32) :
    __marshall_uint32_t le xs xs.length (iovs.set cur (iov_store iov o w))
        { cur := cur, last := last, offset := o + w.length } =
      some (int_shl xs.length 2, iovs.set cur (iov_store iov o (w ++ be32s xs)),
            { cur := cur, last := last, offset := o + (w ++ be32s xs).length }) := by
  unfold xdr_iovec_len at hroom hlen
  have hsl : (iov_store iov o w).length = iov.length := length_iov_store iov o w (by omega)
  have h := marshall_uint32_t_loop_single le (int_shl xs.length 2) xs
    (iovs.set cur (iov_store iov o w)) { cur := cur, last := last, offset := o + w.length }
    (iov_store iov o w) (List.getElem?_set_self hcur)
    (by unfold xdr_iovec_len; rw [hsl]; exact hroom) (by unfold xdr_iovec_len; rw [hsl]; exact hlen)
  unfold __marshall_uint32_t
  rw [h]
  simp only [List.set_set]
  rw [iov_store_append iov o w (be32s xs) (by rw [length_be32s]; omega), List.length_append,
    length_be32s, Nat.add_assoc]

theorem marshall_string_acc (le : Bool) (mem : List Byte) (x : xdr_string)
    (iovs : List xdr_iovec) (cur : Nat) (last : Int) (o : Nat) (iov : xdr_iovec) (w : List Byte)
    (hcur : cur < iovs.length) (hx : x.str + x.len ≤ mem.length ∧ x.len < 2147483648)
    (hroom : o + w.length + (xdr_string_wire mem x).length ≤ xdr_iovec_len iov)
    (hlen : xdr_iovec_len iov < U32) :
    __marshall_xdr_string le mem [x] 1 (iovs.set cur (iov_store iov o w))
        { cur := cur, last := last, offset := o + w.length } =
      some (int_of_uint (xdr_string_wire mem x).length,
            iovs.set cur (iov_store iov o (w ++ xdr_string_wire mem x)),
            { cur := cur, last := last, offset := o + (w ++ xdr_string_wire mem x).length }) := by
  have h := marshall_xdr_string_loop_single le mem iovs cur last o iov hcur hlen [x] w 0
    (fun s hs => by rw [List.mem_singleton.1 hs]; exact hx) rfl
    (by rw [xdr_strings_wire_one]; exact hroom)
  rw [xdr_strings_wire_one, Nat.zero_add] at h
  exact h

theorem emit_marshall_string (name : String) (type : xdr_type) (h1 : type.opaque_ = false)
    (hn : type.name = "xdr_string") :
    emit_marshall [] name type =
      [c_line.call "__marshall_xdr_string" (.addr_field name) .one, .check_rc, .add_len] := by
  unfold emit_marshall
  simp [h1, hn]

theorem emit_marshall_vector (name : String) (type : xdr_type) (h1 : type.opaque_ = false)
    (h2 : type.name ≠ "xdr_string") (h3 : type.optional = false) (h4 : type.vector = true) :
    emit_marshall [] name type =
      [c_line.call "__marshall_uint32_t" (.addr_field ("num_" ++ name)) .one,
       .check_rc,
       .add_len,
       .call ("__marshall_" ++ type.name) (.field name) (.field ("num_" ++ name)),
       .check_rc,
       .add_len] := by
  unfold emit_marshall
  simp [h1, h2, h3, h4]

theorem emit_marshall_array (name : String) (type : xdr_type) (h1 : type.opaque_ = false)
    (h2 : type.name ≠ "xdr_string") (h3 : type.optional = false) (h4 : type.vector = false)
    (h5 : type.array = true) :
    emit_marshall [] name type =
      [c_line.call ("__marshall_" ++ type.name) (.field name) (.text type.array_size),
       .check_rc,
       .add_len] := by
  unfold emit_marshall
  simp [h1, h2, h3, h4, h5]

theorem m_call_uint32_words (env : c_env) (v : c_struct) (s : m_state) (f : String)
    (p : Option (List Nat)) (n : Nat) (hf : c_field v f = some (.words p)) :
    m_call env v s "__marshall_uint32_t" (.field f) n =
      __marshall_uint32_t env.le (p.getD []) n s.iovs s.cursor := by
  simp [m_call, hf]

theorem m_call_uint32_word (env : c_env) (v : c_struct) (s : m_state) (f : String)
    (x : Nat) (n : Nat) (hf : c_field v f = some (.word x)) :
    m_call env v s "__marshall_uint32_t" (.addr_field f) n =
      __marshall_uint32_t env.le [x] n s.iovs s.cursor := by
  simp [m_call, hf]

theorem m_call_uint32_more (env : c_env) (v : c_struct) (s : m_state) (n : Nat) :
    m_call env v s "__marshall_uint32_t" .addr_more n =
      __marshall_uint32_t env.le [s.more] n s.iovs s.cursor := by
  simp [m_call]

theorem m_call_string (env : c_env) (v : c_struct) (s : m_state) (f : String)
    (x : xdr_string) (n : Nat) (hf : c_field v f = some (.string x)) :
    m_call env v s "__marshall_xdr_string" (.addr_field f) n =
      __marshall_xdr_string env.le env.mem [x] n s.iovs s.cursor := by
  simp [m_call, hf]

theorem int_shl_two_nat (n : Nat) (h : 4 * n < 2147483648) :
    int_shl n 2 = ((4 * n : Nat) : Int) := by
  rw [int_shl_two n (by omega)]
  push_cast
  rfl

theorem m_exec_call (env : c_env) (v : c_struct) (fn : String) (arg : c_arg) (count : c_count)
    (rest : List c_line) (s : m_state) (n : Nat) (rc : Int) (iovs1 : List xdr_iovec)
    (c1 : xdr_cursor) (hn : c_count_val env v s count = some n) (hlt : n < 2147483648)
    (hc : m_call env v s fn arg n = some (rc, iovs1, c1)) (hrc : 0 ≤ rc) :
    m_exec env v (.call fn arg count :: .check_rc :: .add_len :: rest) .run s =
      m_exec env v rest .run
        { iovs := iovs1, cursor := c1, rc := rc, len := uint32_of_int (int_of_uint s.len + rc),
          more := s.more } := by
  have h1 : ¬ (2147483648 ≤ n) := by omega
  have h2 : ¬ (rc < 0) := by omega
  simp only [m_exec, m_step, hn, h1, if_false, hc, h2]

theorem m_exec_call_close (env : c_env) (v : c_struct) (fn : String) (arg : c_arg)
    (count : c_count) (rest : List c_line) (s : m_state) (n : Nat) (rc : Int)
    (iovs1 : List xdr_iovec) (c1 : xdr_cursor) (hn : c_count_val env v s count = some n)
    (hlt : n < 2147483648) (hc : m_call env v s fn arg n = some (rc, iovs1, c1)) (hrc : 0 ≤ rc) :
    m_exec env v
        (.call fn arg count :: .check_rc :: .close_block :: .check_rc :: .add_len :: rest)
        .run s =
      m_exec env v rest .run
        { iovs := iovs1, cursor := c1, rc := rc, len := uint32_of_int (int_of_uint s.len + rc),
          more := s.more } := by
  have h1 : ¬ (2147483648 ≤ n) := by omega
  have h2 : ¬ (rc < 0) := by omega
  simp only [m_exec, m_step, hn, h1, if_false, hc, h2]

theorem be32s_one (x : Nat) : be32s [x] = be32 x := by simp [be32s]

theorem marshall_uint32_name : "__marshall_" ++ "uint32_t" = "__marshall_uint32_t" := by decide

theorem member_block_scalar (env : c_env) (v : c_struct) (name : String) (type : xdr_type)
    (x : Nat) (iovs : List xdr_iovec) (cur : Nat) (last : Int) (o : Nat) (iov : xdr_iovec)
    (w : List Byte) (rc0 : Int) (len0 more0 : Nat)
    (h1 : type.opaque_ = false) (h2 : type.optional = false) (h3 : type.vector = false)
    (h4 : type.array = false) (hn : type.name = "uint32_t")
    (hf : c_field v name = some (.word x)) (hcur : cur < iovs.length)
    (hroom : o + w.length + 4 ≤ xdr_iovec_len iov) (hlen : xdr_iovec_len iov < U32)
    (hl : len0 + 4 < 2147483648) :
    m_exec env v (emit_marshall [] name type) .run
        { iovs := iovs.set cur (iov_store iov o w),
          cursor := { cur := cur, last := last, offset := o + w.length },
          rc := rc0, len := len0, more := more0 } =
      some (.next
        { iovs := iovs.set cur (iov_store iov o (w ++ be32 x)),
          cursor := { cur := cur, last := last, offset := o + (w ++ be32 x).length },
          rc := 4, len := len0 + 4, more := more0 }) := by
  have hw := marshall_uint32_acc env.le [x] iovs cur last o iov w hcur (by simpa using hroom) hlen
  rw [be32s_one] at hw
  have h4i : int_shl [x].length 2 = 4 := by show int_shl 1 2 = 4; decide
  rw [h4i] at hw
  have hal : uint32_of_int (int_of_uint len0 + 4) = len0 + 4 := by
    have := add_len_exact len0 4 hl
    simpa using this
  rw [emit_marshall_uint32 name type h1 h2 h3 h4 hn,
    m_exec_call env v "__marshall_uint32_t" (.addr_field name) .one [] _ 1 4 _ _ rfl (by omega)
      (by rw [m_call_uint32_word env v _ name x 1 hf]; exact hw) (by decide)]
  simp only [m_exec, hal]

theorem member_block_string (env : c_env) (v : c_struct) (name : String) (type : xdr_type)
    (x : xdr_string) (iovs : List xdr_iovec) (cur : Nat) (last : Int) (o : Nat) (iov : xdr_iovec)
    (w : List Byte) (rc0 : Int) (len0 more0 : Nat)
    (h1 : type.opaque_ = false) (hn : type.name = "xdr_string")
    (hf : c_field v name = some (.string x))
    (hx : x.str + x.len ≤ env.mem.length ∧ x.len < 2147483648)
    (hcur : cur < iovs.length)
    (hroom : o + w.length + (xdr_string_wire env.mem x).length ≤ xdr_iovec_len iov)
    (hlen : xdr_iovec_len iov < U32)
    (hl : len0 + (xdr_string_wire env.mem x).length < 2147483648) :
    m_exec env v (emit_marshall [] name type) .run
        { iovs := iovs.set cur (iov_store iov o w),
          cursor := { cur := cur, last := last, offset := o + w.length },
          rc := rc0, len := len0, more := more0 } =
      some (.next
        { iovs := iovs.set cur (iov_store iov o (w ++ xdr_string_wire env.mem x)),
          cursor := { cur := cur, last := last,
                      offset := o + (w ++ xdr_string_wire env.mem x).length },
          rc := ((xdr_string_wire env.mem x).length : Int),
          len := len0 + (xdr_string_wire env.mem x).length, more := more0 }) := by
  have hw := marshall_string_acc env.le env.mem x iovs cur last o iov w hcur hx hroom hlen
  rw [int_of_uint_small _ (by omega)] at hw
  have hal := add_len_exact len0 (xdr_string_wire env.mem x).length hl
  rw [emit_marshall_string name type h1 hn,
    m_exec_call env v "__marshall_xdr_string" (.addr_field name) .one [] _ 1 _ _ _ rfl (by omega)
      (by rw [m_call_string env v _ name x 1 hf]; exact hw) (Int.natCast_nonneg _)]
  simp only [m_exec, hal]

theorem member_block_array (env : c_env) (v : c_struct) (name : String) (type : xdr_type)
    (xs : List Nat) (iovs : List xdr_iovec) (cur : Nat) (last : Int) (o : Nat) (iov : xdr_iovec)
    (w : List Byte) (rc0 : Int) (len0 more0 : Nat)
    (h1 : type.opaque_ = false) (h2 : type.optional = false) (h3 : type.vector = false)
    (h4 : type.array = true) (hn : type.name = "uint32_t")
    (hs : env.const_val type.array_size = some xs.length)
    (hf : c_field v name = some (.words (some xs))) (hcur : cur < iovs.length)
    (hroom : o + w.length + (be32s xs).length ≤ xdr_iovec_len iov)
    (hlen : xdr_iovec_len iov < U32)
    (hl : len0 + (be32s xs).length < 2147483648) :
    m_exec env v (emit_marshall [] name type) .run
        { iovs := iovs.set cur (iov_store iov o w),
          cursor := { cur := cur, last := last, offset := o + w.length },
          rc := rc0, len := len0, more := more0 } =
      some (.next
        { iovs := iovs.set cur (iov_store iov o (w ++ be32s xs)),
          cursor := { cur := cur, last := last, offset := o + (w ++ be32s xs).length },
          rc := ((be32s xs).length : Int), len := len0 + (be32s xs).length, more := more0 }) := by
  rw [length_be32s] at hroom hl
  have hw := marshall_uint32_acc env.le xs iovs cur last o iov w hcur hroom hlen
  rw [int_shl_two_nat _ (by omega)] at hw
  have hal := add_len_exact len0 (4 * xs.length) hl
  have hne : type.name ≠ "xdr_string" := by rw [hn]; decide
  rw [emit_marshall_array name type h1 hne h2 h3 h4, hn, marshall_uint32_name,
    m_exec_call env v "__marshall_uint32_t" (.field name) (.text type.array_size) [] _ xs.length
      _ _ _ hs (by omega)
      (by rw [m_call_uint32_words env v _ name (some xs) _ hf]; exact hw) (Int.natCast_nonneg _)]
  simp only [m_exec, hal, length_be32s]

theorem member_block_vector (env : c_env) (v : c_struct) (name : String) (type : xdr_type)
    (xs : List Nat) (iovs : List xdr_iovec) (cur : Nat) (last : Int) (o : Nat) (iov : xdr_iovec)
    (w : List Byte) (rc0 : Int) (len0 more0 : Nat)
    (h1 : type.opaque_ = false) (h2 : type.optional = false) (h3 : type.vector = true)
    (hn : type.name = "uint32_t")
    (hc : c_field v ("num_" ++ name) = some (.word xs.length))
    (hf : c_field v name = some (.words (some xs))) (hcur : cur < iovs.length)
    (hroom : o + w.length + (be32 xs.length ++ be32s xs).length ≤ xdr_iovec_len iov)
    (hlen : xdr_iovec_len iov < U32)
    (hl : len0 + (be32 xs.length ++ be32s xs).length < 2147483648) :
    m_exec env v (emit_marshall [] name type) .run
        { iovs := iovs.set cur (iov_store iov o w),
          cursor := { cur := cur, last := last, offset := o + w.length },
          rc := rc0, len := len0, more := more0 } =
      some (.next
        { iovs := iovs.set cur (iov_store iov o (w ++ (be32 xs.length ++ be32s xs))),
          cursor := { cur := cur, last := last,
                      offset := o + (w ++ (be32 xs.length ++ be32s xs)).length },
          rc := ((be32s xs).length : Int),
          len := len0 + (be32 xs.length ++ be32s xs).length, more := more0 }) := by
  rw [List.length_append, length_be32, length_be32s] at hroom hl
  have hw1 := marshall_uint32_acc env.le [xs.length] iovs cur last o iov w hcur
    (by simp only [List.length_singleton]; omega) hlen
  rw [be32s_one] at hw1
  have h4i : int_shl [xs.length].length 2 = 4 := by show int_shl 1 2 = 4; decide
  rw [h4i] at hw1
  have hw2 := marshall_uint32_acc env.le xs iovs cur last o iov (w ++ be32 xs.length) hcur
    (by rw [List.length_append, length_be32]; omega) hlen
  rw [int_shl_two_nat _ (by omega)] at hw2
  have hal1 : uint32_of_int (int_of_uint len0 + 4) = len0 + 4 := by
    have := add_len_exact len0 4 (by omega)
    simpa using this
  have hal2 := add_len_exact (len0 + 4) (4 * xs.length) (by omega)
  have hne : type.name ≠ "xdr_string" := by rw [hn]; decide
  have hcnt : ∀ s : m_state, c_count_val env v s (.field ("num_" ++ name)) = some xs.length :=
    fun s => by simp [c_count_val, hc]
  rw [emit_marshall_vector name type h1 hne h2 h3, hn, marshall_uint32_name,
    m_exec_call env v "__marshall_uint32_t" (.addr_field ("num_" ++ name)) .one _ _ 1 4 _ _ rfl
      (by omega)
      (by rw [m_call_uint32_word env v _ ("num_" ++ name) xs.length 1 hc]; exact hw1)
      (by decide)]
  simp only [hal1]
  rw [m_exec_call env v "__marshall_uint32_t" (.field name) (.field ("num_" ++ name)) [] _
      xs.length _ _ _ (hcnt _) (by omega)
      (by rw [m_call_uint32_words env v _ name (some xs) _ hf]; exact hw2)
      (Int.natCast_nonneg _)]
  simp only [m_exec, hal2, List.append_assoc, List.length_append, length_be32, length_be32s,
    Nat.add_assoc]

theorem member_block_optional (env : c_env) (v : c_struct) (name : String) (type : xdr_type)
    (xs : List Nat) (p : Option (List Nat)) (iovs : List xdr_iovec) (cur : Nat) (last : Int)
    (o : Nat) (iov : xdr_iovec) (w : List Byte) (rc0 : Int) (len0 more0 : Nat)
    (h1 : type.opaque_ = false) (h2 : type.optional = true) (hn : type.name = "uint32_t")
    (hf : c_field v name = some (.words p)) (hp : p.getD [] = xs)
    (hm : (if p.isSome then 1 else 0) = xs.length) (hcur : cur < iovs.length)
    (hroom : o + w.length + (be32 xs.length ++ be32s xs).length ≤ xdr_iovec_len iov)
    (hlen : xdr_iovec_len iov < U32)
    (hl : len0 + (be32 xs.length ++ be32s xs).length < 2147483648) :
    m_exec env v (emit_marshall [] name type) .run
        { iovs := iovs.set cur (iov_store iov o w),
          cursor := { cur := cur, last := last, offset := o + w.length },
          rc := rc0, len := len0, more := more0 } =
      some (.next
        { iovs := iovs.set cur (iov_store iov o (w ++ (be32 xs.length ++ be32s xs))),
          cursor := { cur := cur, last := last,
                      offset := o + (w ++ (be32 xs.length ++ be32s xs)).length },
          rc := ((be32s xs).length : Int),
          len := len0 + (be32 xs.length ++ be32s xs).length, more := xs.length }) := by
  rw [List.length_append, length_be32, length_be32s] at hroom hl
  have hx1 : xs.length ≤ 1 := by rw [← hm]; split <;> omega
  have hw1 := marshall_uint32_acc env.le [xs.length] iovs cur last o iov w hcur
    (by simp only [List.length_singleton]; omega) hlen
  rw [be32s_one] at hw1
  have h4i : int_shl [xs.length].length 2 = 4 := by show int_shl 1 2 = 4; decide
  rw [h4i] at hw1
  have hw2 := marshall_uint32_acc env.le xs iovs cur last o iov (w ++ be32 xs.length) hcur
    (by rw [List.length_append, length_be32]; omega) hlen
  rw [int_shl_two_nat _ (by omega)] at hw2
  have hal1 : uint32_of_int (int_of_uint len0 + 4) = len0 + 4 := by
    have := add_len_exact len0 4 (by omega)
    simpa using this
  have hal2 := add_len_exact (len0 + 4) (4 * xs.length) (by omega)
  have hne : type.name ≠ "xdr_string" := by rw [hn]; decide
  have hhead : ∀ rest : List c_line,
      m_exec env v (.open_block :: .decl_more_present name :: rest) .run
        { iovs := iovs.set cur (iov_store iov o w),
          cursor := { cur := cur, last := last, offset := o + w.length },
          rc := rc0, len := len0, more := more0 } =
      m_exec env v rest .run
        { iovs := iovs.set cur (iov_store iov o w),
          cursor := { cur := cur, last := last, offset := o + w.length },
          rc := rc0, len := len0, more := xs.length } := by
    intro rest
    simp only [m_exec, m_step, hf, hm]
  rw [emit_marshall_optional name type h1 hne h2, hn, marshall_uint32_name, hhead,
    m_exec_call env v "__marshall_uint32_t" .addr_more .one _ _ 1 4 _ _ rfl (by omega)
      (by rw [m_call_uint32_more]; exact hw1) (by decide)]
  simp only [hal1]
  rw [m_exec_call_close env v "__marshall_uint32_t" (.field name) .more []
      { iovs := iovs.set cur (iov_store iov o (w ++ be32 xs.length)),
        cursor := { cur := cur, last := last, offset := o + (w ++ be32 xs.length).length },
        rc := 4, len := len0 + 4, more := xs.length } xs.length _ _ _ rfl
      (by omega)
      (by rw [m_call_uint32_words env v _ name p _ hf, hp]; exact hw2)
      (Int.natCast_nonneg _)]
  simp only [m_exec, hal2, List.append_assoc, List.length_append, length_be32, length_be32s,
    Nat.add_assoc]

theorem member_block_exec (env : c_env) (v : c_struct) (m : xdr_struct_member)
    (wi : List Byte) (hwire : member_wire env v m = some wi)
    (iovs : List xdr_iovec) (cur : Nat) (last : Int) (o : Nat) (iov : xdr_iovec)
    (w : List Byte) (rc0 : Int) (len0 more0 : Nat) (hcur : cur < iovs.length)
    (hroom : o + w.length + wi.length ≤ xdr_iovec_len iov) (hlen : xdr_iovec_len iov < U32)
    (hl : len0 + wi.length < 2147483648) :
    ∃ rc1 more1,
      m_exec env v (emit_marshall [] m.name m.type) .run
          { iovs := iovs.set cur (iov_store iov o w),
            cursor := { cur := cur, last := last, offset := o + w.length },
            rc := rc0, len := len0, more := more0 } =
        some (.next
          { iovs := iovs.set cur (iov_store iov o (w ++ wi)),
            cursor := { cur := cur, last := last, offset := o + (w ++ wi).length },
            rc := rc1, len := len0 + wi.length, more := more1 }) := by
  unfold member_wire at hwire
  by_cases h1 : m.type.opaque_ = true
  · rw [if_pos h1] at hwire; cases hwire
  · rw [if_neg h1] at hwire
    have h1f : m.type.opaque_ = false := by
      cases h : m.type.opaque_ with
      | true => exact absurd h h1
      | false => rfl
    by_cases hs : m.type.name = "xdr_string"
    · rw [if_pos hs] at hwire
      by_cases hsh : m.type.optional = true ∨ m.type.vector = true ∨ m.type.array = true
      · rw [if_pos hsh] at hwire; cases hwire
      · rw [if_neg hsh] at hwire
        cases hf : c_field v m.name with
        | none => simp [hf] at hwire
        | some val =>
            cases val with
            | string x =>
                simp only [hf] at hwire
                by_cases hx : x.str + x.len ≤ env.mem.length ∧ x.len < 2147483648
                · rw [if_pos hx] at hwire
                  cases hwire
                  exact ⟨_, _, member_block_string env v m.name m.type x iovs cur last o iov w rc0
                    len0 more0 h1f hs hf hx hcur hroom hlen hl⟩
                · rw [if_neg hx] at hwire; cases hwire
            | word x => simp [hf] at hwire
            | words p => simp [hf] at hwire
            | strings p => simp [hf] at hwire
    · rw [if_neg hs] at hwire
      by_cases hu : m.type.name = "uint32_t"
      · rw [if_pos hu] at hwire
        by_cases ho : m.type.optional = true
        · rw [if_pos ho] at hwire
          cases hf : c_field v m.name with
          | none => simp [hf] at hwire
          | some val =>
              cases val with
              | words p =>
                  cases p with
                  | none =>
                      simp only [hf, Option.some.injEq] at hwire
                      subst hwire
                      have := member_block_optional env v m.name m.type [] none iovs cur last o
                        iov w rc0 len0 more0 h1f ho hu hf rfl rfl hcur
                        (by simpa [be32s] using hroom) hlen (by simpa [be32s] using hl)
                      simp only [be32s, List.map_nil, List.flatten_nil, List.append_nil,
                        List.length_nil] at this
                      exact ⟨_, _, this⟩
                  | some xs =>
                      cases xs with
                      | nil => simp [hf] at hwire
                      | cons x rest =>
                          cases rest with
                          | nil =>
                              simp only [hf, Option.some.injEq] at hwire
                              subst hwire
                              have := member_block_optional env v m.name m.type [x] (some [x])
                                iovs cur last o iov w rc0 len0 more0 h1f ho hu hf rfl rfl hcur
                                (by simpa [be32s_one] using hroom) hlen
                                (by simpa [be32s_one] using hl)
                              simp only [be32s_one, List.length_singleton] at this
                              exact ⟨_, _, this⟩
                          | cons y rest2 => simp [hf] at hwire
              | word x => simp [hf] at hwire
              | string x => simp [hf] at hwire
              | strings p => simp [hf] at hwire
        · rw [if_neg ho] at hwire
          have hof : m.type.optional = false := by
            cases h : m.type.optional with
            | true => exact absurd h ho
            | false => rfl
          by_cases hv : m.type.vector = true
          · rw [if_pos hv] at hwire
            cases hc : c_field v ("num_" ++ m.name) with
            | none => simp [hc] at hwire
            | some cval =>
                cases hf : c_field v m.name with
                | none => cases cval <;> simp [hc, hf] at hwire
                | some val =>
                    cases cval with
                    | word n =>
                        cases val with
                        | words p =>
                            cases p with
                            | none => simp [hc, hf] at hwire
                            | some xs =>
                                simp only [hc, hf] at hwire
                                by_cases hlen2 : xs.length = n
                                · rw [if_pos hlen2] at hwire
                                  cases hwire
                                  subst hlen2
                                  exact ⟨_, _, member_block_vector env v m.name m.type xs iovs
                                    cur last o iov w rc0 len0 more0 h1f hof hv hu hc hf hcur
                                    hroom hlen hl⟩
                                · rw [if_neg hlen2] at hwire; cases hwire
                        | word x => simp [hc, hf] at hwire
                        | string x => simp [hc, hf] at hwire
                        | strings p => simp [hc, hf] at hwire
                    | string x => cases val <;> simp [hc, hf] at hwire
                    | words p => cases val <;> simp [hc, hf] at hwire
                    | strings p => cases val <;> simp [hc, hf] at hwire
          · rw [if_neg hv] at hwire
            have hvf : m.type.vector = false := by
              cases h : m.type.vector with
              | true => exact absurd h hv
              | false => rfl
            by_cases ha : m.type.array = true
            · rw [if_pos ha] at hwire
              cases hsz : env.const_val m.type.array_size with
              | none => simp [hsz] at hwire
              | some n =>
                  cases hf : c_field v m.name with
                  | none => simp [hsz, hf] at hwire
                  | some val =>
                      cases val with
                      | words p =>
                          cases p with
                          | none => simp [hsz, hf] at hwire
                          | some xs =>
                              simp only [hsz, hf] at hwire
                              by_cases hlen2 : xs.length = n
                              · rw [if_pos hlen2] at hwire
                                cases hwire
                                subst hlen2
                                exact ⟨_, _, member_block_array env v m.name m.type xs iovs cur
                                  last o iov w rc0 len0 more0 h1f hof hvf ha hu hsz hf hcur hroom
                                  hlen hl⟩
                              · rw [if_neg hlen2] at hwire; cases hwire
                      | word x => simp [hsz, hf] at hwire
                      | string x => simp [hsz, hf] at hwire
                      | strings p => simp [hsz, hf] at hwire
            · rw [if_neg ha] at hwire
              have haf : m.type.array = false := by
                cases h : m.type.array with
                | true => exact absurd h ha
                | false => rfl
              cases hf : c_field v m.name with
              | none => simp [hf] at hwire
              | some val =>
                  cases val with
                  | word x =>
                      simp only [hf, Option.some.injEq] at hwire
                      subst hwire
                      have := member_block_scalar env v m.name m.type x iovs cur last o iov w rc0
                        len0 more0 h1f hof hvf haf hu hf hcur (by simpa using hroom) hlen
                        (by simpa using hl)
                      exact ⟨_, _, this⟩
                  | string x => simp [hf] at hwire
                  | words p => simp [hf] at hwire
                  | strings p => simp [hf] at hwire
      · rw [if_neg hu] at hwire; cases hwire

theorem members_exec (env : c_env) (v : c_struct) :
    ∀ (ms : List xdr_struct_member) (ws : List Byte), struct_wire env v ms = some ws →
    ∀ (iovs : List xdr_iovec) (cur : Nat) (last : Int) (o : Nat) (iov : xdr_iovec)
      (w : List Byte) (rc0 : Int) (len0 more0 : Nat), cur < iovs.length →
      o + w.length + ws.length ≤ xdr_iovec_len iov → xdr_iovec_len iov < U32 →
      len0 + ws.length < 2147483648 →
      ∃ rc1 more1,
        m_exec env v ((ms.map (fun m => emit_marshall [] m.name m.type)).flatten) .run
            { iovs := iovs.set cur (iov_store iov o w),
              cursor := { cur := cur, last := last, offset := o + w.length },
              rc := rc0, len := len0, more := more0 } =
          some (.next
            { iovs := iovs.set cur (iov_store iov o (w ++ ws)),
              cursor := { cur := cur, last := last, offset := o + (w ++ ws).length },
              rc := rc1, len := len0 + ws.length, more := more1 })
  | [], ws, hw, iovs, cur, last, o, iov, w, rc0, len0, more0, _, _, _, _ => by
      simp only [struct_wire, Option.some.injEq] at hw
      subst hw
      exact ⟨rc0, more0, by simp [m_exec]⟩
  | m :: ms, ws, hw, iovs, cur, last, o, iov, w, rc0, len0, more0, hcur, hroom, hlen, hl => by
      unfold struct_wire at hw
      cases hm : member_wire env v m with
      | none => simp [hm] at hw
      | some wi =>
          cases hr : struct_wire env v ms with
          | none => simp [hm, hr] at hw
          | some wr =>
              simp only [hm, hr, Option.some.injEq] at hw
              subst hw
              rw [List.length_append] at hroom hl
              obtain ⟨rc1, more1, h1⟩ := member_block_exec env v m wi hm iovs cur last o iov w rc0
                len0 more0 hcur (by omega) hlen (by omega)
              obtain ⟨rc2, more2, h2⟩ := members_exec env v ms wr hr iovs cur last o iov (w ++ wi)
                rc1 (len0 + wi.length) more1 hcur (by rw [List.length_append]; omega) hlen
                (by omega)
              refine ⟨rc2, more2, ?_⟩
              rw [List.map_cons, List.flatten_cons,
                m_exec_append env v _ _ _ (straight_emit_marshall m.name m.type), h1]
              simp only []
              rw [h2]
              simp only [List.append_assoc, List.length_append, Nat.add_assoc]

theorem marshall_struct_wire (env : c_env) (xdr_structp : xdr_struct) (v : c_struct)
    (w : List Byte) (iovs : List xdr_iovec) (c : xdr_cursor) (iov : xdr_iovec)
    (hw : struct_wire env v xdr_structp.members = some w) (hcur : iovs[c.cur]? = some iov)
    (hroom : c.offset + w.length ≤ xdr_iovec_len iov) (hlen : xdr_iovec_len iov < U32)
    (hl : w.length < 2147483648) :
    m_run env (emit_struct_marshall xdr_structp) [v] 1 iovs c =
      some ((w.length : Int), iovs.set c.cur (iov_store iov c.offset w),
            { cur := c.cur, last := c.last, offset := c.offset + w.length }) := by
  obtain ⟨hlt, -⟩ := List.getElem?_eq_some.mp hcur
  obtain ⟨rc1, more1, h⟩ := members_exec env v xdr_structp.members w hw iovs c.cur c.last
    c.offset iov [] 0 0 0 hlt (by simpa using hroom) hlen (by simpa using hl)
  rw [set_iov_store_nil iovs c.cur c.offset iov hcur] at h
  simp only [List.length_nil, Nat.add_zero, List.nil_append, Nat.zero_add] at h
  unfold m_run
  rw [emit_struct_marshall_body]
  simp only [m_loop]
  have hc : ({ cur := c.cur, last := c.last, offset := c.offset } : xdr_cursor) = c := rfl
  rw [hc] at h
  rw [h]
  simp only [m_loop]
  rw [int_of_uint_small _ hl]

theorem u_exec_append (env : c_env) (iovs : List xdr_iovec) :
    ∀ (ls rest : List c_line) (s : u_state),
      u_exec env iovs (ls ++ rest) s =
        match u_exec env iovs ls s with
        | some (.next s1) => u_exec env iovs rest s1
        | r => r
  | [], rest, s => by simp [u_exec]
  | l :: ls, rest, s => by
      have e1 : u_exec env iovs (l :: (ls ++ rest)) s =
          match u_step env iovs l s with
          | some (.next s1) => u_exec env iovs (ls ++ rest) s1
          | r => r := rfl
      have e2 : u_exec env iovs (l :: ls) s =
          match u_step env iovs l s with
          | some (.next s1) => u_exec env iovs ls s1
          | r => r := rfl
      rw [List.cons_append, e1, e2]
      cases hm : u_step env iovs l s with
      | none => rfl
      | some o =>
          cases o with
          | next s1 => exact u_exec_append env iovs ls rest s1
          | ret rc s1 => rfl

theorem u_exec_call (env : c_env) (iovs : List xdr_iovec) (l : c_line) (s s1 : u_state)
    (hs : u_step env iovs l s = some (.next s1)) (hrc : 0 ≤ s1.rc) :
    u_exec env iovs [l, .check_rc, .add_len] s =
      some (.next { s1 with len := uint32_of_int (int_of_uint s1.len + s1.rc) }) := by
  have h2 : ¬ s1.rc < 0 := by omega
  show (match u_step env iovs l s with
    | some (.next s1) => u_exec env iovs [.check_rc, .add_len] s1
    | r => r) = _
  rw [hs]
  simp only [u_exec, u_step, h2, if_false]

theorem unmarshall_uint32_name : "__unmarshall_" ++ "uint32_t" = "__unmarshall_uint32_t" := by
  decide

theorem unmarshall_string_name : "__unmarshall_" ++ "xdr_string" = "__unmarshall_xdr_string" := by
  decide

theorem emit_unmarshall_string (name : String) (type : xdr_type) (h1 : type.opaque_ = false)
    (hn : type.name = "xdr_string") :
    emit_unmarshall [] name type =
      [.call_dbuf "__unmarshall_xdr_string" (.addr_field name) .one, .check_rc, .add_len] := by
  unfold emit_unmarshall
  rw [if_neg (by simp [h1]), if_pos hn, hn, unmarshall_string_name]
  rfl

theorem emit_unmarshall_uint32 (name : String) (type : xdr_type) (h1 : type.opaque_ = false)
    (h2 : type.optional = false) (h3 : type.vector = false) (h4 : type.array = false)
    (hn : type.name = "uint32_t") :
    emit_unmarshall [] name type =
      [.call_dbuf "__unmarshall_uint32_t" (.addr_field name) .one, .check_rc, .add_len] := by
  have hne : type.name ≠ "xdr_string" := by rw [hn]; decide
  unfold emit_unmarshall
  rw [if_neg (by simp [h1]), if_neg hne, if_neg (by simp [h2]), if_neg (by simp [h3]),
    if_neg (by simp [h4]), hn, unmarshall_uint32_name]
  rfl

theorem emit_unmarshall_array (name : String) (type : xdr_type) (h1 : type.opaque_ = false)
    (h2 : type.optional = false) (h3 : type.vector = false) (h4 : type.array = true)
    (hn : type.name = "uint32_t") :
    emit_unmarshall [] name type =
      [.call_dbuf "__unmarshall_uint32_t" (.field name) (.text type.array_size), .check_rc,
       .add_len] := by
  have hne : type.name ≠ "xdr_string" := by rw [hn]; decide
  unfold emit_unmarshall
  rw [if_neg (by simp [h1]), if_neg hne, if_neg (by simp [h2]), if_neg (by simp [h3]),
    if_pos h4, hn, unmarshall_uint32_name]
  rfl

theorem decode_block_scalar (env : c_env) (name : String) (type : xdr_type) (x : Nat)
    (iovs : List xdr_iovec) (cur : Nat) (last : Int) (iov : xdr_iovec) (pre post : List Byte)
    (dbuf : xdr_dbuf) (out : c_struct) (rc0 : Int) (len0 : Nat)
    (h1 : type.opaque_ = false) (h2 : type.optional = false) (h3 : type.vector = false)
    (h4 : type.array = false) (hn : type.name = "uint32_t") (hx : x < U32)
    (hcur : iovs[cur]? = some iov) (hiov : iov = pre ++ be32 x ++ post)
    (hlen : xdr_iovec_len iov < U32) (hl : len0 + 4 < 2147483648) :
    u_exec env iovs (emit_unmarshall [] name type)
        { cursor := { cur := cur, last := last, offset := pre.length }, dbuf := dbuf,
          out := out, rc := rc0, len := len0 } =
      some (.next
        { cursor := { cur := cur, last := last, offset := (pre ++ be32 x).length },
          dbuf := dbuf, out := out ++ [(name, c_val.word x)], rc := 4, len := len0 + 4 }) := by
  have h := unmarshall_uint32_t_single_one env.le iovs cur last pre.length x iov pre post hcur
    hiov rfl hx hlen
  have hal : uint32_of_int (int_of_uint len0 + 4) = len0 + 4 := by
    have := add_len_exact len0 4 hl
    simpa using this
  rw [emit_unmarshall_uint32 name type h1 h2 h3 h4 hn,
    u_exec_call env iovs _ _
      { cursor := { cur := cur, last := last, offset := pre.length + 4 }, dbuf := dbuf,
        out := out ++ [(name, c_val.word x)], rc := 4, len := len0 }
      (by simp only [u_step, if_true, h, List.map_cons, List.map_nil])
      (by show (0 : Int) ≤ 4; decide)]
  simp only [hal, List.length_append, length_be32]

theorem decode_block_array (env : c_env) (name : String) (type : xdr_type) (xs : List Nat)
    (iovs : List xdr_iovec) (cur : Nat) (last : Int) (iov : xdr_iovec) (pre post : List Byte)
    (dbuf : xdr_dbuf) (out : c_struct) (rc0 : Int) (len0 : Nat)
    (h1 : type.opaque_ = false) (h2 : type.optional = false) (h3 : type.vector = false)
    (h4 : type.array = true) (hn : type.name = "uint32_t")
    (hs : env.const_val type.array_size = some xs.length) (hx : ∀ x ∈ xs, x < U32)
    (hcur : iovs[cur]? = some iov) (hiov : iov = pre ++ be32s xs ++ post)
    (hlen : xdr_iovec_len iov < U32) (hl : len0 + (be32s xs).length < 2147483648) :
    u_exec env iovs (emit_unmarshall [] name type)
        { cursor := { cur := cur, last := last, offset := pre.length }, dbuf := dbuf,
          out := out, rc := rc0, len := len0 } =
      some (.next
        { cursor := { cur := cur, last := last, offset := (pre ++ be32s xs).length },
          dbuf := dbuf, out := out ++ [(name, c_val.words (some xs))],
          rc := ((be32s xs).length : Int), len := len0 + (be32s xs).length }) := by
  rw [length_be32s] at hl
  have hdata : (iov.drop pre.length).take (4 * xs.length) = be32s xs := by
    rw [hiov, List.append_assoc, List.drop_left, ← length_be32s, List.take_left]
  have hroom : pre.length + 4 * xs.length ≤ xdr_iovec_len iov := by
    unfold xdr_iovec_len
    rw [hiov, List.length_append, List.length_append, length_be32s]
    omega
  have h := unmarshall_uint32_t_loop_single env.le (int_shl xs.length 2) iovs xs
    { cur := cur, last := last, offset := pre.length } iov [] hcur hroom hlen hdata hx
  rw [int_shl_two_nat _ (by omega)] at h
  simp only [List.nil_append] at h
  have hal := add_len_exact len0 (4 * xs.length) hl
  have hnl : ¬ (2147483648 ≤ xs.length) := by omega
  rw [emit_unmarshall_array name type h1 h2 h3 h4 hn,
    u_exec_call env iovs _ _
      { cursor := { cur := cur, last := last, offset := pre.length + 4 * xs.length },
        dbuf := dbuf, out := out ++ [(name, c_val.words (some xs))],
        rc := ((4 * xs.length : Nat) : Int), len := len0 }
      (by
        simp only [u_step, if_true, hs, hnl, if_false, __unmarshall_uint32_t,
          int_shl_two_nat _ (show 4 * xs.length < 2147483648 by omega), h])
      (Int.natCast_nonneg _)]
  simp only [hal, List.length_append, length_be32s]

theorem decode_block_string (env : c_env) (name : String) (type : xdr_type) (x : xdr_string)
    (iovs : List xdr_iovec) (cur : Nat) (last : Int) (iov : xdr_iovec) (pre post : List Byte)
    (B : List Byte) (u0 size : Nat) (wd : List Byte) (out : c_struct) (rc0 : Int) (len0 : Nat)
    (h1 : type.opaque_ = false) (hn : type.name = "xdr_string")
    (hx : x.str + x.len ≤ env.mem.length ∧ x.len < 2147483648)
    (hcur : iovs[cur]? = some iov) (hiov : iov = pre ++ xdr_string_wire env.mem x ++ post)
    (hlen : xdr_iovec_len iov < U32)
    (hbuf : u0 + wd.length + (str_bytes env.mem x ++ [0]).length ≤ B.length)
    (hl : len0 + (xdr_string_wire env.mem x).length < 2147483648) :
    u_exec env iovs (emit_unmarshall [] name type)
        { cursor := { cur := cur, last := last, offset := pre.length },
          dbuf := { buffer := iov_store B u0 wd, used := u0 + wd.length, size := size },
          out := out, rc := rc0, len := len0 } =
      some (.next
        { cursor := { cur := cur, last := last,
                      offset := (pre ++ xdr_string_wire env.mem x).length },
          dbuf := { buffer := iov_store B u0 (wd ++ (str_bytes env.mem x ++ [0])),
                    used := u0 + (wd ++ (str_bytes env.mem x ++ [0])).length, size := size },
          out := out ++ [(name, c_val.string { len := x.len, str := u0 + wd.length })],
          rc := ((xdr_string_wire env.mem x).length : Int),
          len := len0 + (xdr_string_wire env.mem x).length }) := by
  have hc1 : xdr_strings_cstr env.mem [x] = str_bytes env.mem x ++ [0] := by
    simp [xdr_strings_cstr]
  have h := unmarshall_xdr_string_loop_single env.le env.mem iovs cur last iov hcur hlen B u0
    size [x] pre post wd 0 []
    (by rw [xdr_strings_wire_one]; exact hiov)
    (by intro s hs; rw [List.mem_singleton] at hs; subst hs; exact hx)
    (by rw [hc1]; exact hbuf)
  rw [xdr_strings_wire_one, hc1, Nat.zero_add, int_of_uint_small _ (by omega)] at h
  simp only [List.nil_append, xdr_strings_decoded, List.length_singleton] at h
  have hal := add_len_exact len0 (xdr_string_wire env.mem x).length hl
  have hne : ¬ ("__unmarshall_xdr_string" = "__unmarshall_uint32_t") := by decide
  rw [emit_unmarshall_string name type h1 hn,
    u_exec_call env iovs _ _
      { cursor := { cur := cur, last := last,
                    offset := (pre ++ xdr_string_wire env.mem x).length },
        dbuf := { buffer := iov_store B u0 (wd ++ (str_bytes env.mem x ++ [0])),
                  used := u0 + (wd ++ (str_bytes env.mem x ++ [0])).length, size := size },
        out := out ++ [(name, c_val.string { len := x.len, str := u0 + wd.length })],
        rc := ((xdr_string_wire env.mem x).length : Int), len := len0 }
      (by
        simp only [u_step, hne, if_false, if_true, __unmarshall_xdr_string, h, List.map_cons,
          List.map_nil])
      (Int.natCast_nonneg _)]
  simp only [hal]

theorem member_block_decode (env : c_env) (v : c_struct) (m : xdr_struct_member)
    (wi : List Byte) (hwire : member_wire env v m = some wi) (hin : m.inline = true)
    (hrange : ∀ val, c_field v m.name = some val → val.in_range = true)
    (iovs : List xdr_iovec) (cur : Nat) (last : Int) (iov : xdr_iovec) (pre post : List Byte)
    (hcur : iovs[cur]? = some iov) (hiov : iov = pre ++ wi ++ post)
    (hlen : xdr_iovec_len iov < U32) (B : List Byte) (u0 size : Nat) (wd : List Byte)
    (out : c_struct) (rc0 : Int) (len0 : Nat) (hl : len0 + wi.length < 2147483648) :
    ∃ val, c_field v m.name = some val ∧
      (u0 + wd.length + (val.cstr env.mem).length ≤ B.length →
        ∃ rc1,
          u_exec env iovs (emit_unmarshall [] m.name m.type)
              { cursor := { cur := cur, last := last, offset := pre.length },
                dbuf := { buffer := iov_store B u0 wd, used := u0 + wd.length, size := size },
                out := out, rc := rc0, len := len0 } =
            some (.next
              { cursor := { cur := cur, last := last, offset := (pre ++ wi).length },
                dbuf := { buffer := iov_store B u0 (wd ++ val.cstr env.mem),
                          used := u0 + (wd ++ val.cstr env.mem).length, size := size },
                out := out ++ [(m.name, val.decoded (u0 + wd.length))],
                rc := rc1, len := len0 + wi.length })) := by
  unfold xdr_struct_member.inline at hin
  have h2 : m.type.optional = false := by
    cases h : m.type.optional <;> simp [h] at hin ⊢
  have h3 : m.type.vector = false := by
    cases h : m.type.vector <;> simp [h] at hin ⊢
  unfold member_wire at hwire
  by_cases h1 : m.type.opaque_ = true
  · simp [h1] at hwire
  · have h1f : m.type.opaque_ = false := by simpa using h1
    rw [if_neg h1] at hwire
    by_cases hs : m.type.name = "xdr_string"
    · rw [if_pos hs] at hwire
      by_cases h4 : m.type.array = true
      · simp [h4] at hwire
      · rw [if_neg (by simp [h2, h3, h4])] at hwire
        cases hf : c_field v m.name with
        | none => simp [hf] at hwire
        | some val =>
            cases val with
            | string x =>
                simp only [hf] at hwire
                by_cases hx : x.str + x.len ≤ env.mem.length ∧ x.len < 2147483648
                · rw [if_pos hx, Option.some.injEq] at hwire
                  subst hwire
                  refine ⟨_, rfl, fun hbuf => ⟨((xdr_string_wire env.mem x).length : Int), ?_⟩⟩
                  exact decode_block_string env m.name m.type x iovs cur last _ pre post B u0
                    size wd out rc0 len0 h1f hs hx hcur hiov hlen hbuf hl
                · simp [hx] at hwire
            | word x => simp [hf] at hwire
            | words p => simp [hf] at hwire
            | strings p => simp [hf] at hwire
    · rw [if_neg hs] at hwire
      by_cases hn : m.type.name = "uint32_t"
      · rw [if_pos hn, if_neg (by simp [h2]), if_neg (by simp [h3])] at hwire
        by_cases h4 : m.type.array = true
        · rw [if_pos h4] at hwire
          cases hc : env.const_val m.type.array_size with
          | none => simp [hc] at hwire
          | some n =>
              cases hf : c_field v m.name with
              | none => simp [hc, hf] at hwire
              | some val =>
                  cases val with
                  | words p =>
                      cases p with
                      | none => simp [hc, hf] at hwire
                      | some xs =>
                          simp only [hc, hf] at hwire
                          by_cases hxl : xs.length = n
                          · rw [if_pos hxl, Option.some.injEq] at hwire
                            subst hwire
                            subst hxl
                            have hr := hrange _ hf
                            simp only [c_val.in_range, List.all_eq_true, decide_eq_true_eq] at hr
                            refine ⟨_, rfl, fun _ => ⟨((be32s xs).length : Int), ?_⟩⟩
                            have := decode_block_array env m.name m.type xs iovs cur last _ pre
                              post { buffer := iov_store B u0 wd, used := u0 + wd.length,
                                     size := size } out rc0 len0 h1f h2 h3 h4 hn hc hr hcur
                              hiov hlen hl
                            simpa [c_val.cstr, c_val.decoded] using this
                          · simp [hxl] at hwire
                  | word x => simp [hc, hf] at hwire
                  | string x => simp [hc, hf] at hwire
                  | strings p => simp [hc, hf] at hwire
        · rw [if_neg h4] at hwire
          have h4f : m.type.array = false := by simpa using h4
          cases hf : c_field v m.name with
          | none => simp [hf] at hwire
          | some val =>
              cases val with
              | word x =>
                  simp only [hf, Option.some.injEq] at hwire
                  subst hwire
                  have hr := hrange _ hf
                  simp only [c_val.in_range, decide_eq_true_eq] at hr
                  refine ⟨_, rfl, fun _ => ⟨4, ?_⟩⟩
                  have := decode_block_scalar env m.name m.type x iovs cur last _ pre post
                    { buffer := iov_store B u0 wd, used := u0 + wd.length, size := size } out
                    rc0 len0 h1f h2 h3 h4f hn hr hcur hiov hlen
                    (by rw [length_be32] at hl; exact hl)
                  simpa [c_val.cstr, c_val.decoded, length_be32] using this
              | string x => simp [hf] at hwire
              | words p => simp [hf] at hwire
              | strings p => simp [hf] at hwire
      · simp [hn] at hwire

theorem members_decode (env : c_env) (v : c_struct) (iovs : List xdr_iovec) (cur : Nat)
    (last : Int) (iov : xdr_iovec) (hcur : iovs[cur]? = some iov)
    (hlen : xdr_iovec_len iov < U32) (B : List Byte) (u0 size : Nat) :
    ∀ (ms : List xdr_struct_member) (ws : List Byte), struct_wire env v ms = some ws →
      (∀ m ∈ ms, m.inline = true) →
      (∀ m ∈ ms, ∀ val, c_field v m.name = some val → val.in_range = true) →
      ∀ (pre post wd : List Byte) (out : c_struct) (rc0 : Int) (len0 : Nat),
        iov = pre ++ ws ++ post →
        u0 + wd.length + (struct_cstr env.mem v ms).length ≤ B.length →
        len0 + ws.length < 2147483648 →
        ∃ rc1,
          u_exec env iovs ((ms.map (fun m => emit_unmarshall [] m.name m.type)).flatten)
              { cursor := { cur := cur, last := last, offset := pre.length },
                dbuf := { buffer := iov_store B u0 wd, used := u0 + wd.length, size := size },
                out := out, rc := rc0, len := len0 } =
            some (.next
              { cursor := { cur := cur, last := last, offset := (pre ++ ws).length },
                dbuf := { buffer := iov_store B u0 (wd ++ struct_cstr env.mem v ms),
                          used := u0 + (wd ++ struct_cstr env.mem v ms).length, size := size },
                out := out ++ struct_decoded env.mem v ms (u0 + wd.length),
                rc := rc1, len := len0 + ws.length })
  | [], ws, hw, _, _, pre, post, wd, out, rc0, len0, _, _, _ => by
      simp only [struct_wire, Option.some.injEq] at hw
      subst hw
      exact ⟨rc0, by simp [u_exec, struct_cstr, struct_decoded]⟩
  | m :: ms, ws, hw, hin, hrange, pre, post, wd, out, rc0, len0, hiov, hbuf, hl => by
      unfold struct_wire at hw
      cases hm : member_wire env v m with
      | none => simp [hm] at hw
      | some wi =>
          cases hr : struct_wire env v ms with
          | none => simp [hm, hr] at hw
          | some wr =>
              simp only [hm, hr, Option.some.injEq] at hw
              subst hw
              rw [List.length_append] at hl
              obtain ⟨val, hval, h1⟩ := member_block_decode env v m wi hm
                (hin m (List.mem_cons_self m ms)) (hrange m (List.mem_cons_self m ms)) iovs cur
                last iov pre (wr ++ post) hcur (by rw [hiov]; simp only [List.append_assoc]) hlen
                B u0 size wd out rc0 len0 (by omega)
              have hcs : struct_cstr env.mem v (m :: ms) =
                  val.cstr env.mem ++ struct_cstr env.mem v ms := by
                simp only [struct_cstr, hval]
              have hds : ∀ used, struct_decoded env.mem v (m :: ms) used =
                  (m.name, val.decoded used) ::
                    struct_decoded env.mem v ms (used + (val.cstr env.mem).length) := by
                intro used
                simp only [struct_decoded, hval]
              rw [hcs, List.length_append] at hbuf
              obtain ⟨rc1, h1⟩ := h1 (by omega)
              obtain ⟨rc2, h2⟩ := members_decode env v iovs cur last iov hcur hlen B u0 size ms wr
                hr (fun a ha => hin a (List.mem_cons_of_mem m ha))
                (fun a ha => hrange a (List.mem_cons_of_mem m ha)) (pre ++ wi) post
                (wd ++ val.cstr env.mem) (out ++ [(m.name, val.decoded (u0 + wd.length))]) rc1
                (len0 + wi.length) (by rw [hiov]; simp only [List.append_assoc])
                (by rw [List.length_append]; omega) (by omega)
              refine ⟨rc2, ?_⟩
              rw [List.map_cons, List.flatten_cons, u_exec_append, h1]
              simp only []
              rw [h2, hcs, hds]
              simp only [List.append_assoc, List.length_append, Nat.add_assoc,
                List.singleton_append]

theorem unmarshall_struct_wire (env : c_env) (xdr_structp : xdr_struct) (v : c_struct)
    (w : List Byte) (iovs : List xdr_iovec) (c : xdr_cursor) (iov : xdr_iovec) (dbuf : xdr_dbuf)
    (hw : struct_wire env v xdr_structp.members = some w)
    (hin : ∀ m ∈ xdr_structp.members, m.inline = true)
    (hrange : ∀ m ∈ xdr_structp.members, ∀ val, c_field v m.name = some val →
      val.in_range = true)
    (hcur : iovs[c.cur]? = some iov)
    (hroom : c.offset + w.length ≤ xdr_iovec_len iov) (hlen : xdr_iovec_len iov < U32)
    (hl : w.length < 2147483648)
    (hbuf : dbuf.used + (struct_cstr env.mem v xdr_structp.members).length ≤
      dbuf.buffer.length) :
    u_run env (emit_struct_unmarshall xdr_structp) 1
        (iovs.set c.cur (iov_store iov c.offset w)) c dbuf =
      some ((w.length : Int), [struct_decoded env.mem v xdr_structp.members dbuf.used],
            { buffer := iov_store dbuf.buffer dbuf.used
                (struct_cstr env.mem v xdr_structp.members),
              used := dbuf.used + (struct_cstr env.mem v xdr_structp.members).length,
              size := dbuf.size },
            { cur := c.cur, last := c.last, offset := c.offset + w.length }) := by
  obtain ⟨hlt, -⟩ := List.getElem?_eq_some.mp hcur
  unfold xdr_iovec_len at hroom hlen
  have hsl : (iov_store iov c.offset w).length = iov.length := length_iov_store iov c.offset _ hroom
  have hpre : (iov.take c.offset).length = c.offset := by
    rw [List.length_take]; omega
  obtain ⟨rc1, h⟩ := members_decode env v (iovs.set c.cur (iov_store iov c.offset w)) c.cur
    c.last (iov_store iov c.offset w) (List.getElem?_set_self hlt)
    (by unfold xdr_iovec_len; rw [hsl]; exact hlen) dbuf.buffer dbuf.used dbuf.size
    xdr_structp.members w hw hin hrange (iov.take c.offset) (iov.drop (c.offset + w.length)) []
    [] 0 0 (iov_store_split iov c.offset _) (by simpa using hbuf) (by simpa using hl)
  rw [iov_store_nil] at h
  simp only [List.length_nil, Nat.add_zero, Nat.zero_add, List.nil_append, hpre,
    List.length_append] at h
  unfold u_run
  rw [emit_struct_unmarshall_body]
  simp only [u_loop]
  have hd : ({ buffer := dbuf.buffer, used := dbuf.used, size := dbuf.size } : xdr_dbuf) = dbuf :=
    rfl
  have hc : ({ cur := c.cur, last := c.last, offset := c.offset } : xdr_cursor) = c := rfl
  rw [hd, hc] at h
  rw [h]
  simp only [u_loop, List.nil_append]
  rw [int_of_uint_small _ hl]

/-! ## The members of a struct in declared order -/

theorem struct_in_range_mem (v : c_struct) (ms : List xdr_struct_member)
    (h : struct_in_range v ms = true) :
    ∀ m ∈ ms, ∀ val, c_field v m.name = some val → val.in_range = true := by
  intro m hm val hval
  unfold struct_in_range at h
  rw [List.all_eq_true] at h
  have := h m hm
  simpa [hval] using this

/-- C13: for every struct, as `main` holds it when it prints the codec routines,
(1) the body of `__marshall_NAME` is the concatenation, in the order of the member
list, of the lines `emit_marshall` prints for each member, and the body of
`__unmarshall_NAME` the concatenation in the same order of the lines of
`emit_unmarshall`; (2) the lines of a member hold exactly one step that encodes
(decodes) the member itself, and their only other codec step is the count word or
the presence word of that member; (3) for the members of type `uint32_t` of every
shape and the plain `xdr_string` members, in either byte order, the marshalling
routine writes at the cursor the concatenation of the encodings of the members in
declared order and returns its length; (4) for the members decoded into storage
of the struct, the unmarshalling routine run on that wire image yields the
members with their values in declared order, the strings copied to the decode
buffer one after the other, and returns the same length; (5) for
`struct { uint32_t a; xdr_string s; }` with `a = 1` and `s = "ab"` the marshalling
routine returns 12 and writes `00 00 00 01 00 00 00 02 61 62 00 00`, from which
the unmarshalling routine yields `a = 1` and `s = "ab"`. -/
theorem struct_members_in_order (xdr_structp : xdr_struct) :
    ((emit_struct_marshall xdr_structp).body =
        (xdr_structp.members.map (fun m => emit_marshall [] m.name m.type)).flatten ∧
      (emit_struct_unmarshall xdr_structp).body =
        (xdr_structp.members.map (fun m => emit_unmarshall [] m.name m.type)).flatten) ∧
    (∀ m ∈ xdr_structp.members,
      (((emit_marshall [] m.name m.type).filter (c_line.encodes m.name)).length = 1 ∧
        ∀ l ∈ emit_marshall [] m.name m.type, l.is_codec = true →
          l.encodes m.name = true ∨ l.member_word m.name = true) ∧
      (((emit_unmarshall [] m.name m.type).filter (c_line.decodes m.name)).length = 1 ∧
        ∀ l ∈ emit_unmarshall [] m.name m.type, l.is_codec = true →
          l.decodes m.name = true ∨ l.member_word m.name = true)) ∧
    (∀ (env : c_env) (v : c_struct) (w : List Byte) (iovs : List xdr_iovec) (c : xdr_cursor)
        (iov : xdr_iovec),
      struct_wire env v xdr_structp.members = some w → iovs[c.cur]? = some iov →
      c.offset + w.length ≤ xdr_iovec_len iov → xdr_iovec_len iov < U32 →
      w.length < 2147483648 →
      m_run env (emit_struct_marshall xdr_structp) [v] 1 iovs c =
        some ((w.length : Int), iovs.set c.cur (iov_store iov c.offset w),
              { cur := c.cur, last := c.last, offset := c.offset + w.length })) ∧
    (∀ (env : c_env) (v : c_struct) (w : List Byte) (iovs : List xdr_iovec) (c : xdr_cursor)
        (iov : xdr_iovec) (dbuf : xdr_dbuf),
      struct_wire env v xdr_structp.members = some w →
      xdr_structp.members.all xdr_struct_member.inline = true →
      struct_in_range v xdr_structp.members = true →
      iovs[c.cur]? = some iov →
      c.offset + w.length ≤ xdr_iovec_len iov → xdr_iovec_len iov < U32 →
      w.length < 2147483648 →
      dbuf.used + (struct_cstr env.mem v xdr_structp.members).length ≤ dbuf.buffer.length →
      u_run env (emit_struct_unmarshall xdr_structp) 1
          (iovs.set c.cur (iov_store iov c.offset w)) c dbuf =
        some ((w.length : Int), [struct_decoded env.mem v xdr_structp.members dbuf.used],
              { buffer := iov_store dbuf.buffer dbuf.used
                  (struct_cstr env.mem v xdr_structp.members),
                used := dbuf.used + (struct_cstr env.mem v xdr_structp.members).length,
                size := dbuf.size },
              { cur := c.cur, last := c.last, offset := c.offset + w.length })) ∧
    (m_run (plain_env true [97, 98])
        (emit_struct_marshall
          ⟨"S", [⟨"a", plain_type "uint32_t" true⟩, ⟨"s", plain_type "xdr_string" true⟩]⟩)
        [[("a", .word 1), ("s", .string ⟨2, 0⟩)]] 1
        [[9, 9, 9, 9, 9, 9, 9, 9, 9, 9, 9, 9]] (xdr_cursor_init 1) =
      some (12, [[0, 0, 0, 1, 0, 0, 0, 2, 97, 98, 0, 0]], ⟨0, 0, 12⟩) ∧
     u_run (plain_env true [])
        (emit_struct_unmarshall
          ⟨"S", [⟨"a", plain_type "uint32_t" true⟩, ⟨"s", plain_type "xdr_string" true⟩]⟩)
        1 [[0, 0, 0, 1, 0, 0, 0, 2, 97, 98, 0, 0]] (xdr_cursor_init 1) ⟨[7, 7, 7, 7], 0, 4⟩ =
      some (12, [[("a", .word 1), ("s", .string ⟨2, 0⟩)]], ⟨[97, 98, 0, 7], 3, 4⟩,
            ⟨0, 0, 12⟩)) := by
  refine ⟨⟨emit_struct_marshall_body xdr_structp, emit_struct_unmarshall_body xdr_structp⟩,
    fun m _ => ⟨emit_marshall_one_step m.name m.type, emit_unmarshall_one_step m.name m.type⟩,
    ?_, ?_, by decide, by decide⟩
  · intro env v w iovs c iov hw hcur hroom hlen hl
    exact marshall_struct_wire env xdr_structp v w iovs c iov hw hcur hroom hlen hl
  · intro env v w iovs c iov dbuf hw hin hrange hcur hroom hlen hl hbuf
    exact unmarshall_struct_wire env xdr_structp v w iovs c iov dbuf hw
      (fun m hm => (List.all_eq_true.mp hin) m hm)
      (struct_in_range_mem v xdr_structp.members hrange) hcur hroom hlen hl hbuf

/-- C13, instance: a struct with a scalar, an optional, a vector, a fixed array and
a string member is written as the 40 bytes of the five encodings in declared
order; the 20 bytes of a struct with a scalar, a fixed array and a string are
decoded, on a host of the other byte order, into the three members in declared
order. -/
theorem struct_members_in_order_witness :
    (struct_wire (plain_env true [97, 98]) shapes_value shapes_struct.members =
        some [0, 0, 0, 1, 0, 0, 0, 1, 0, 0, 0, 5, 0, 0, 0, 2, 0, 0, 0, 6, 0, 0, 0, 7,
              0, 0, 0, 8, 0, 0, 0, 9, 0, 0, 0, 2, 97, 98, 0, 0] ∧
      m_run (plain_env true [97, 98]) (emit_struct_marshall shapes_struct) [shapes_value] 1
          [List.replicate 40 9] (xdr_cursor_init 1) =
        some (40,
          [[0, 0, 0, 1, 0, 0, 0, 1, 0, 0, 0, 5, 0, 0, 0, 2, 0, 0, 0, 6, 0, 0, 0, 7,
            0, 0, 0, 8, 0, 0, 0, 9, 0, 0, 0, 2, 97, 98, 0, 0]], ⟨0, 0, 40⟩)) ∧
    (struct_wire (plain_env false [97, 98]) inline_value inline_struct.members =
        some [0, 0, 0, 1, 0, 0, 0, 8, 0, 0, 0, 9, 0, 0, 0, 2, 97, 98, 0, 0] ∧
      u_run (plain_env false [97, 98]) (emit_struct_unmarshall inline_struct) 1
          [[0, 0, 0, 1, 0, 0, 0, 8, 0, 0, 0, 9, 0, 0, 0, 2, 97, 98, 0, 0]]
          (xdr_cursor_init 1) ⟨[7, 7, 7, 7], 0, 4⟩ =
        some (20, [[("a", .word 1), ("f", .words (some [8, 9])), ("s", .string ⟨2, 0⟩)]],
              ⟨[97, 98, 0, 7], 3, 4⟩, ⟨0, 0, 20⟩)) :=
  ⟨⟨by decide,
    (struct_members_in_order shapes_struct).2.2.1 (plain_env true [97, 98]) shapes_value
      [0, 0, 0, 1, 0, 0, 0, 1, 0, 0, 0, 5, 0, 0, 0, 2, 0, 0, 0, 6, 0, 0, 0, 7,
       0, 0, 0, 8, 0, 0, 0, 9, 0, 0, 0, 2, 97, 98, 0, 0]
      [List.replicate 40 9] (xdr_cursor_init 1) (List.replicate 40 9)
      (by decide) (by decide) (by decide) (by decide) (by decide)⟩,
   ⟨by decide,
    (struct_members_in_order inline_struct).2.2.2.1 (plain_env false [97, 98]) inline_value
      [0, 0, 0, 1, 0, 0, 0, 8, 0, 0, 0, 9, 0, 0, 0, 2, 97, 98, 0, 0]
      [List.replicate 20 9] (xdr_cursor_init 1) (List.replicate 20 9) ⟨[7, 7, 7, 7], 0, 4⟩
      (by decide) (by decide) (by decide) (by decide) (by decide) (by decide) (by decide)
      (by decide)⟩⟩

end Xdr
